import Mathlib

/-!
# learn_english: message formatting and streaming (static/js/app.js)

A shallow embedding of the message-formatting functions of `static/js/app.js`
(`extractActions`, `removeActionsTag`, `formatMarkdown`, `formatTable`,
`isEnglishText`, `formatList`, `formatMessageContent`, `splitByLanguage`) and of
the stream loop of `sendMessage` / `retryMessage`.

Strings are lists of Unicode characters (`Str`).  JavaScript's `length` counts
UTF-16 code units, so it is modelled by `jsLength`.  Each regular expression of
the source is embedded as a matcher that follows the backtracking order of the
expression (greedy quantifiers try the longest run first, lazy ones the
shortest).
-/

namespace LearnEnglish

/-- A JavaScript string, as the list of its characters. -/
abbrev Str := List Char

/-! ## Character classes -/

/-- The regular-expression class `\s`, which is also the set removed by
`String.prototype.trim` (WhiteSpace and LineTerminator of ECMAScript). -/
def isJsSpace (c : Char) : Bool :=
  let n := c.toNat
  n == 0x09 || n == 0x0A || n == 0x0B || n == 0x0C || n == 0x0D || n == 0x20 ||
  n == 0xA0 || n == 0x1680 || (0x2000 ≤ n && n ≤ 0x200A) || n == 0x2028 ||
  n == 0x2029 || n == 0x202F || n == 0x205F || n == 0x3000 || n == 0xFEFF

/-- The characters that `.` does not match: LF, CR, U+2028, U+2029. -/
def isLineTerminator (c : Char) : Bool :=
  let n := c.toNat
  n == 0x0A || n == 0x0D || n == 0x2028 || n == 0x2029

/-- The class `\d`. -/
def isDigit (c : Char) : Bool := 0x30 ≤ c.toNat && c.toNat ≤ 0x39

/-- The class `[A-Z]`. -/
def isAsciiUpper (c : Char) : Bool := 0x41 ≤ c.toNat && c.toNat ≤ 0x5A

/-- The class `[a-zA-Z]`. -/
def isAsciiLetter (c : Char) : Bool :=
  (0x41 ≤ c.toNat && c.toNat ≤ 0x5A) || (0x61 ≤ c.toNat && c.toNat ≤ 0x7A)

/-- Number of UTF-16 code units of a character. -/
def utf16Units (c : Char) : Nat := if c.toNat < 0x10000 then 1 else 2

/-- The `length` property of a JavaScript string (UTF-16 code units). -/
def jsLength (s : Str) : Nat := (s.map utf16Units).sum

/-! ## String primitives -/

/-- `String.prototype.trim`. -/
def jsTrim (s : Str) : Str :=
  ((s.dropWhile isJsSpace).reverse.dropWhile isJsSpace).reverse

/-- Puts a character in front of the first piece of a split. -/
def consHead (c : Char) : List Str → List Str
  | [] => [[c]]
  | p :: ps => (c :: p) :: ps

/-- `s.split(d)` for a one-character separator `d`. -/
def splitChar (d : Char) : Str → List Str
  | [] => [[]]
  | c :: cs => if c = d then [] :: splitChar d cs else consHead c (splitChar d cs)

/-- `s.split('||')`: the separator is consumed left to right, without overlap. -/
def splitPipes : Str → List Str
  | [] => [[]]
  | [c] => [[c]]
  | c :: d :: cs =>
    if c = '|' ∧ d = '|' then [] :: splitPipes cs
    else consHead c (splitPipes (d :: cs))

/-- `s.startsWith(p)`, returning the rest of `s` after `p`. -/
def stripPrefix : Str → Str → Option Str
  | [], s => some s
  | _ :: _, [] => none
  | x :: xs, c :: cs => if c = x then stripPrefix xs cs else none

/-- `s.includes(p)`. -/
def includes (p : Str) : Str → Bool
  | [] => (stripPrefix p []).isSome
  | c :: cs => (stripPrefix p (c :: cs)).isSome || includes p cs

/-- Match of an ASCII literal under the `i` flag at the start of `s`, returning
the rest.  Without the `u` flag a character matches a pattern character when
their upper-case forms agree, and no non-ASCII character canonicalises to an
ASCII one, so ASCII upper-casing decides it. -/
def matchLitCI : Str → Str → Option Str
  | [], s => some s
  | _ :: _, [] => none
  | x :: xs, c :: cs => if c.toUpper = x.toUpper then matchLitCI xs cs else none

/-! ## extractActions / removeActionsTag -/

/-- The part `(.+?)$` (or `(.+)$`) of an expression without the `m` flag: the
group has to reach the end of the input, so it succeeds exactly when the rest of
the input is non-empty and free of line terminators, and captures all of it. -/
def dotPlusToEnd (s : Str) : Option Str :=
  if s ≠ [] ∧ s.all (fun c => !isLineTerminator c) then some s else none

/-- The part `\s*(.+?)$`: the greedy `\s*` first takes every white-space
character and gives them back one at a time.  Returns group 1. -/
def spacesThenRest : Str → Option Str
  | [] => none
  | c :: cs =>
    if isJsSpace c then
      match spacesThenRest cs with
      | some g => some g
      | none => dotPlusToEnd (c :: cs)
    else dotPlusToEnd (c :: cs)

/-- One attempt of `/\[Actions\]\s*(.+?)$/i` at the start of `s`. -/
def actionsAt (s : Str) : Option Str :=
  (matchLitCI "[Actions]".toList s).bind spacesThenRest

/-- Leftmost match of `/\[Actions\]\s*(.+?)$/i` in `s`: the text before the match
and group 1 (the match always extends to the end of the input). -/
def actionsSearch : Str → Option (Str × Str)
  | [] => none
  | c :: cs =>
    match actionsAt (c :: cs) with
    | some g => some ([], g)
    | none => (actionsSearch cs).map (fun r => (c :: r.1, r.2))

/-- `extractActions(content)` (app.js 1220-1227). -/
def extractActions (content : Str) : List Str :=
  match actionsSearch content with
  | some (_, g) => ((splitChar '|' (jsTrim g)).map jsTrim).filter (fun a => a ≠ [])
  | none => []

/-- `removeActionsTag(content)` (app.js 1229-1231): the first match is replaced by
the empty string, then the result is trimmed. -/
def removeActionsTag (content : Str) : Str :=
  match actionsSearch content with
  | some (p, _) => jsTrim p
  | none => jsTrim content

/-- Global replacement driver for an expression whose matches are never empty:
`m` is one match attempt at the start of its argument and returns the
replacement text and the length of the match.  The first argument counts the
characters of the current match still to be skipped. -/
def replaceAll (m : Str → Option (Str × Nat)) : Nat → Str → Str
  | _, [] => []
  | skip + 1, _ :: cs => replaceAll m skip cs
  | 0, c :: cs =>
    match m (c :: cs) with
    | some (rep, len) => rep ++ replaceAll m (len - 1) cs
    | none => c :: replaceAll m 0 cs

/-- One attempt of a literal pattern `lit`, replaced by `rep`. -/
def litMatch (lit rep : Str) (s : Str) : Option (Str × Nat) :=
  (stripPrefix lit s).map (fun _ => (rep, lit.length))

/-- The replacement `.replace(/\.\.\./g, '')`. -/
def removeEllipsis (s : Str) : Str := replaceAll (litMatch "...".toList []) 0 s

/-- The replacement `.replace(/\*\*/g, '')`. -/
def removeDoubleStars (s : Str) : Str := replaceAll (litMatch "**".toList []) 0 s

/-! ## encodeURIComponent -/

/-- Upper-case hexadecimal digit. -/
def hexDigit (n : Nat) : Char := if n < 10 then Char.ofNat (48 + n) else Char.ofNat (55 + n)

/-- UTF-8 encoding of a character, as byte values. -/
def utf8Bytes (c : Char) : List Nat :=
  let n := c.toNat
  if n < 0x80 then [n]
  else if n < 0x800 then [0xC0 + n / 64, 0x80 + n % 64]
  else if n < 0x10000 then [0xE0 + n / 4096, 0x80 + (n / 64) % 64, 0x80 + n % 64]
  else [0xF0 + n / 262144, 0x80 + (n / 4096) % 64, 0x80 + (n / 64) % 64, 0x80 + n % 64]

/-- Characters that `encodeURIComponent` leaves alone: letters, digits and
`- _ . ! ~ * ' ( )`. -/
def isUriUnreserved (c : Char) : Bool :=
  isAsciiLetter c || isDigit c || "-_.!~*'()".toList.contains c

/-- `encodeURIComponent(s)` on a well-formed string. -/
def encodeURIComponent (s : Str) : Str :=
  s.flatMap (fun c =>
    if isUriUnreserved c then [c]
    else (utf8Bytes c).flatMap (fun b => ['%', hexDigit (b / 16), hexDigit (b % 16)]))

/-! ## isEnglishText -/

/-- The character class of the second expression of `isEnglishText`. -/
def vietnameseClass : Str :=
  "àáạảãâầấậẩẫăằắặẳẵèéẹẻẽêềếệểễìíịỉĩòóọỏõôồốộổỗơờớợởỡùúụủũưừứựửữỳýỵỷỹđ".toList

/-- Canonicalisation of the `i` flag (upper-casing of one code unit) on the
blocks that hold the Vietnamese letters: Latin-1, the four letters of Latin
Extended-A, o-horn and u-horn, and Latin Extended Additional.  A character of
another block is left as it is: no such character has an upper-case form among
the upper-case forms of `vietnameseClass`. -/
def canonVi (n : Nat) : Nat :=
  if 0xE0 ≤ n ∧ n ≤ 0xFE ∧ n ≠ 0xF7 then n - 32
  else if n = 0x103 ∨ n = 0x111 ∨ n = 0x129 ∨ n = 0x169 then n - 1
  else if n = 0x1A1 ∨ n = 0x1B0 then n - 1
  else if 0x1EA0 ≤ n ∧ n ≤ 0x1EF9 ∧ n % 2 = 1 then n - 1
  else n

/-- One character against the class `[àáạ...đ]` under the `i` flag. -/
def matchesVietnameseClass (c : Char) : Bool :=
  vietnameseClass.any (fun x => canonVi c.toNat == canonVi x.toNat)

/-- `isEnglishText(text)` (app.js 1333-1337). -/
def isEnglishText (text : Str) : Bool :=
  let hasLatinLetters := text.any isAsciiLetter
  let hasVietnamese := text.any matchesVietnameseClass
  hasLatinLetters && !hasVietnamese

/-! ## formatTable -/

/-- The loading placeholder of `formatTable` (template literal, app.js 1280-1289). -/
def tableLoading : Str :=
  "<div class=\"table-loading\">\n            <div class=\"table-loading-icon\">\n                <svg width=\"20\" height=\"20\" viewBox=\"0 0 24 24\" fill=\"none\" stroke=\"currentColor\" stroke-width=\"2\">\n                    <rect x=\"3\" y=\"3\" width=\"18\" height=\"18\" rx=\"2\" ry=\"2\"/>\n                    <line x1=\"3\" y1=\"9\" x2=\"21\" y2=\"9\"/>\n                    <line x1=\"9\" y1=\"21\" x2=\"9\" y2=\"9\"/>\n                </svg>\n            </div>\n            <span>Đang tạo bảng...</span>\n        </div>".toList

/-- Rows of a table or list body: `content.split('||').map(r => r.trim()).filter(r => r)`. -/
def splitRows (content : Str) : List Str :=
  ((splitPipes content).map jsTrim).filter (fun r => r ≠ [])

/-- Cells of a table row: `row.split('|').map(c => c.trim())`. -/
def splitCells (row : Str) : List Str := (splitChar '|' row).map jsTrim

/-- One step of `headerCells.forEach`: appends a `<th>` element. -/
def appendHeaderCell (html : Str) (cell : Str) : Str :=
  html ++ "<th>".toList ++ cell ++ "</th>".toList

/-- One step of `cells.forEach` in a body row: appends a `<td>` element. -/
def appendBodyCell (html : Str) (cell : Str) : Str :=
  if isEnglishText cell then
    let speakText := jsTrim (removeEllipsis cell)
    html ++ "<td class=\"english-cell\" data-speak=\"".toList ++ encodeURIComponent speakText
      ++ "\">".toList ++ cell ++ "</td>".toList
  else html ++ "<td>".toList ++ cell ++ "</td>".toList

/-- One iteration of the loop over body rows. -/
def appendBodyRow (html : Str) (row : Str) : Str :=
  (splitCells row).foldl appendBodyCell (html ++ "<tr>".toList) ++ "</tr>".toList

/-- `formatTable(tableContent, isStreaming)` (app.js 1274-1331). -/
def formatTable (tableContent : Str) (isStreaming : Bool) : Str :=
  let hasDataRow := includes "||".toList tableContent
  if isStreaming && !hasDataRow then tableLoading
  else
    match splitRows tableContent with
    | [] => []
    | header :: body =>
      let html := "<div class=\"vocab-table-wrapper\"><table class=\"vocab-table\">".toList
      let html := (splitCells header).foldl appendHeaderCell (html ++ "<thead><tr>".toList)
        ++ "</tr></thead>".toList
      let html :=
        if body.length > 0 then
          body.foldl appendBodyRow (html ++ "<tbody>".toList) ++ "</tbody>".toList
        else html
      html ++ "</table></div>".toList

/-! ## formatMarkdown -/

/-- The divider element. -/
def hrDivider : Str := "<hr class=\"divider\">".toList

/-- The replacement `.replace(/^\*\*\*$/gm, '<hr class="divider">')`: with the `m`
flag `^` holds at the start and after a line terminator, `$` at the end and
before a line terminator.  The flag tells whether `^` holds here. -/
def replaceStarLines : Bool → Str → Str
  | atStart, c :: d :: e :: rest =>
    if atStart = true ∧ c = '*' ∧ d = '*' ∧ e = '*' ∧ rest.head?.all isLineTerminator = true then
      hrDivider ++ replaceStarLines false rest
    else c :: replaceStarLines (isLineTerminator c) (d :: e :: rest)
  | _, s => s

/-- One attempt of `/\*\*([^*]+)\*\*/`: the greedy group takes the whole run of
characters other than `*`, which has to be non-empty and followed by `**`.
`wrap` builds the replacement from group 1. -/
def starGroupMatch (wrap : Str → Str) (s : Str) : Option (Str × Nat) :=
  match stripPrefix "**".toList s with
  | none => none
  | some r =>
    let body := r.takeWhile (fun c => c != '*')
    if body = [] then none
    else
      match stripPrefix "**".toList (r.dropWhile (fun c => c != '*')) with
      | some _ => some (wrap body, body.length + 4)
      | none => none

/-- Wraps a text in a `<strong>` element. -/
def strongWrap (body : Str) : Str := "<strong>".toList ++ body ++ "</strong>".toList

/-- One match of `/^(\d+)\.\s+(.+)$/` on a line: groups 1 and 2. -/
def listLineMatch (line : Str) : Option (Str × Str) :=
  let digits := line.takeWhile isDigit
  if digits = [] then none
  else
    match line.dropWhile isDigit with
    | '.' :: c :: cs =>
      if isJsSpace c then (spacesThenRest cs).map (fun g => (digits, g)) else none
    | _ => none

/-- One iteration of the loop over lines of `formatMarkdown`; the state is
`(inList, result)`. -/
def markdownLine (st : Bool × List Str) (line : Str) : Bool × List Str :=
  match listLineMatch line with
  | some (num, body) =>
    (true, st.2 ++ ["<div class=\"list-item\"><span class=\"list-num\">".toList ++ num
      ++ ".</span> ".toList ++ body ++ "</div>".toList])
  | none =>
    let result := if st.1 then st.2 ++ ["</ul>".toList] else st.2
    (false, result ++ [if jsTrim line = [] then hrDivider else line])

/-- One attempt of `/\n(?!<)/`. -/
def newlineNotTagMatch (s : Str) : Option (Str × Nat) :=
  match s with
  | '\n' :: rest => if rest.head? = some '<' then none else some ("<br>".toList, 1)
  | _ => none

/-- `formatMarkdown(text)` (app.js 1233-1270). -/
def formatMarkdown (text : Str) : Str :=
  let text := replaceStarLines true text
  let text := replaceAll (starGroupMatch strongWrap) 0 text
  let lines := splitChar '\n' text
  let result := (lines.foldl markdownLine (false, [])).2
  let text := List.intercalate ['\n'] result
  let text := replaceAll newlineNotTagMatch 0 text
  replaceAll (litMatch "\n<".toList "<".toList) 0 text

/-! ## formatList -/

/-- The part `.+?\*\*` after the first character of the lazy group of
`/\*\*(.+?)\*\*/`: the group grows until `**` follows. -/
def lazyDotsThenStars : Str → Option Str
  | [] => none
  | c :: cs =>
    if (stripPrefix "**".toList (c :: cs)).isSome then some []
    else if isLineTerminator c then none
    else (lazyDotsThenStars cs).map (fun b => c :: b)

/-- One attempt of `/\*\*(.+?)\*\*/`, replaced by `<strong>$1</strong>`. -/
def strongLazyMatch (s : Str) : Option (Str × Nat) :=
  match stripPrefix "**".toList s with
  | some (c :: cs) =>
    if isLineTerminator c then none
    else (lazyDotsThenStars cs).map (fun b => (strongWrap (c :: b), b.length + 5))
  | _ => none

/-- One step of `listItems.forEach`. -/
def appendListItem (html : Str) (item : Str) : Str :=
  let displayItem := replaceAll strongLazyMatch 0 item
  let speakText := removeEllipsis (removeDoubleStars item)
  let html := html ++ "<li>".toList
  let html :=
    if isEnglishText speakText then
      html ++ "<span class=\"list-content english-sentence\" data-speak=\"".toList
        ++ encodeURIComponent speakText ++ "\">".toList ++ displayItem ++ "</span>".toList
    else html ++ "<span class=\"list-content\">".toList ++ displayItem ++ "</span>".toList
  html ++ "</li>".toList

/-- One step of `rows.forEach`. -/
def appendListRow (html : Str) (row : Str) : Str :=
  match ((splitChar '|' row).map jsTrim).filter (fun i => i ≠ []) with
  | [] => html
  | header :: listItems =>
    let html := html ++ "<div class=\"list-group\">".toList
    let html := html ++ "<div class=\"list-header\">".toList ++ header ++ "</div>".toList
    let html :=
      if listItems.length > 0 then
        listItems.foldl appendListItem (html ++ "<ul class=\"generated-list\">".toList)
          ++ "</ul>".toList
      else html
    html ++ "</div>".toList

/-- `formatList(content)` (app.js 1339-1378). -/
def formatList (content : Str) : Str :=
  match splitRows content with
  | [] => []
  | row :: rows =>
    (row :: rows).foldl appendListRow "<div class=\"generated-list-container\">".toList
      ++ "</div>".toList

/-! ## formatMessageContent -/

/-- The tag names of the display pattern, in the order of the alternation. -/
def displayTags : List Str :=
  ["Vietsub".toList, "Engsub".toList, "Table".toList, "Tip".toList, "List".toList]

/-- The tag names of the speech pattern of `splitByLanguage`. -/
def speechTags : List Str := ["Vietsub".toList, "Engsub".toList]

/-- One attempt of `\[(name1|name2|...)\]` under the `i` flag: the matched name
(group 1, as written in the input) and the rest of the input. -/
def matchTag (names : List Str) (s : Str) : Option (Str × Str) :=
  match s with
  | '[' :: r =>
    names.findSome? (fun name =>
      match matchLitCI name r with
      | some (']' :: rest) => some (r.take name.length, rest)
      | _ => none)
  | _ => none

/-- The lookahead `(?=\[(name1|...)\]|$)`. -/
def tagOrEnd (names : List Str) (s : Str) : Bool :=
  (matchTag names s).isSome || s.isEmpty

/-- The lazy group `([^[\]]*?)` followed by the lookahead `look`: the group grows
one character (other than a bracket) at a time until the lookahead holds. -/
def lazyBody (look : Str → Bool) : Str → Option Str
  | [] => if look [] then some [] else none
  | c :: cs =>
    if look (c :: cs) then some []
    else if c = '[' ∨ c = ']' then none
    else (lazyBody look cs).map (fun b => c :: b)

/-- The part `\s*([^[\]]*?)(?=...)`: the greedy `\s*` takes every white-space
character first and gives them back one at a time.  Returns the number of
characters taken by `\s*` and group 2. -/
def spacesThenBody (look : Str → Bool) : Str → Option (Nat × Str)
  | [] => (lazyBody look []).map (fun b => (0, b))
  | c :: cs =>
    if isJsSpace c then
      match spacesThenBody look cs with
      | some (k, b) => some (k + 1, b)
      | none => (lazyBody look (c :: cs)).map (fun b => (0, b))
    else (lazyBody look (c :: cs)).map (fun b => (0, b))

/-- One attempt of `/\[(names)\]\s*([^[\]]*?)(?=\[(names)\]|$)/i` at the start of
`s`: group 1, group 2 and the length of the match. -/
def segmentAt (names : List Str) (s : Str) : Option (Str × Str × Nat) :=
  match matchTag names s with
  | none => none
  | some (name, rest) =>
    (spacesThenBody (tagOrEnd names) rest).map
      (fun r => (name, r.2, name.length + 2 + r.1 + r.2.length))

/-- A parsed segment `{ tag, text }`. -/
structure Segment where
  tag : Str
  text : Str
deriving DecidableEq

/-- The loop `while ((match = pattern.exec(text)) !== null)` of a pattern with the
`g` flag: each search starts where the previous match ended.  The first argument
counts the characters of the current match still to be skipped.  Yields
`{ tag: match[1].toLowerCase(), text: match[2].trim() }`. -/
def scanSegments (names : List Str) : Nat → Str → List Segment
  | _, [] => []
  | skip + 1, _ :: cs => scanSegments names skip cs
  | 0, c :: cs =>
    match segmentAt names (c :: cs) with
    | some (name, body, len) =>
      ⟨name.map Char.toLower, jsTrim body⟩ :: scanSegments names (len - 1) cs
    | none => scanSegments names 0 cs

/-- The segments `matches` of `formatMessageContent` (app.js 1384-1394). -/
def displaySegments (content : Str) : List Segment :=
  scanSegments displayTags 0 (removeActionsTag content)

/-- The state of the rendering loop of `formatMessageContent`. -/
structure RenderState where
  result : Str
  lastVietnamese : Str
  inList : Bool
deriving DecidableEq

/-- A Vietnamese block: `<span class="vietnamese-text">${formatMarkdown(s)}</span>`. -/
def vietSpan (s : Str) : Str :=
  "<span class=\"vietnamese-text\">".toList ++ formatMarkdown s ++ "</span>".toList

/-- The recurring step `if (lastVietnamese) { result += ...; lastVietnamese = ''; }`. -/
def flushVietnamese (st : RenderState) : RenderState :=
  if st.lastVietnamese ≠ [] then
    { st with result := st.result ++ vietSpan st.lastVietnamese, lastVietnamese := [] }
  else st

/-- The tip box (template literal, app.js 1409-1416). -/
def tipBox (text : Str) : Str :=
  "<div class=\"tip-box\">\n                <div class=\"tip-icon\">\n                    <svg width=\"18\" height=\"18\" viewBox=\"0 0 24 24\" fill=\"currentColor\">\n                        <path d=\"M9 21c0 .5.4 1 1 1h4c.6 0 1-.5 1-1v-1H9v1zm3-19C8.1 2 5 5.1 5 9c0 2.4 1.2 4.5 3 5.7V17c0 .5.4 1 1 1h6c.6 0 1-.5 1-1v-2.3c1.8-1.3 3-3.4 3-5.7 0-3.9-3.1-7-7-7z\"/>\n                    </svg>\n                </div>\n                <span class=\"tip-text\">".toList
    ++ text ++ "</span>\n            </div>".toList

/-- The test `/[.!?](?:\s|$)/.test(s)`. -/
def hasSentencePunct : Str → Bool
  | [] => false
  | c :: cs =>
    ((c = '.' ∨ c = '!' ∨ c = '?') && (cs.head?.all isJsSpace)) || hasSentencePunct cs

/-- The extensions of the file-name expression, in the order of the alternation. -/
def fileExtensions : List Str :=
  ["js", "ts", "py", "go", "rs", "rb", "php", "css", "html", "json", "xml", "yaml", "yml",
   "md", "txt", "sh", "bash", "c", "cpp", "h", "java", "kt", "swift", "vue", "jsx",
   "tsx"].map String.toList

/-- The test `/\.(js|ts|...|tsx)$/i.test(s)`. -/
def endsWithFileExt : Str → Bool
  | [] => false
  | c :: cs =>
    (c = '.' && fileExtensions.any (fun e => matchLitCI e cs = some [])) || endsWithFileExt cs

/-- The test `s.endsWith(':')`. -/
def endsWithColon (s : Str) : Bool := s.getLast? = some ':'

/-- The rendering of an `engsub` segment (app.js 1433-1469); `next` is
`matches[i + 1]`. -/
def renderEngsub (st : RenderState) (text : Str) (next : Option Segment) : RenderState :=
  let isGrammarPattern := text.contains '+'
  let cleanText := removeDoubleStars text
  if isGrammarPattern then
    let st := flushVietnamese st
    let formattedText := replaceAll strongLazyMatch 0 text
    { st with result := st.result ++ "<span class=\"english-grammar\">".toList ++ formattedText
        ++ "</span> ".toList }
  else
    let nextStartsWithColon :=
      match next with
      | some n => n.tag = "vietsub".toList && n.text.head? = some ':'
      | none => false
    let endsColon := endsWithColon (jsTrim cleanText)
    let hasSentenceEnding := hasSentencePunct cleanText && !endsWithFileExt cleanText
    let isShort := endsColon || nextStartsWithColon ||
      (decide ((splitChar ' ' cleanText).length ≤ 6) && !hasSentenceEnding)
    let speakText := jsTrim (removeEllipsis cleanText)
    if isShort then
      let st := flushVietnamese st
      { st with result := st.result ++ "<span class=\"english-word\" data-speak=\"".toList
          ++ encodeURIComponent speakText ++ "\">".toList ++ cleanText ++ "</span> ".toList }
    else
      let st := flushVietnamese st
      let displayText := replaceAll strongLazyMatch 0 text
      { st with result := st.result ++ "<span class=\"english-sentence\" data-speak=\"".toList
          ++ encodeURIComponent speakText ++ "\">".toList ++ displayText ++ "</span>".toList }

/-- `s.split('***')`. -/
def splitStars : Str → List Str
  | c :: d :: e :: rest =>
    if c = '*' ∧ d = '*' ∧ e = '*' then [] :: splitStars rest
    else consHead c (splitStars (d :: e :: rest))
  | s => [s]

/-- The match `text.match(/^(\d+)\.\s*/)`: group 1 and the text after the match. -/
def numberPrefixMatch (text : Str) : Option (Str × Str) :=
  let digits := text.takeWhile isDigit
  if digits = [] then none
  else
    match text.dropWhile isDigit with
    | '.' :: rest => some (digits, rest.dropWhile isJsSpace)
    | _ => none

/-- One attempt of `/\*\*([^*]+):\*\*/`, replaced by `<br><strong>$1:</strong>`:
the greedy class takes the whole run of characters other than `*` and gives back
its last character, which has to be `:`; `**` has to follow the run. -/
def dialogueMatch (s : Str) : Option (Str × Nat) :=
  match stripPrefix "**".toList s with
  | none => none
  | some r =>
    let run := r.takeWhile (fun c => c != '*')
    if 2 ≤ run.length ∧ run.getLast? = some ':' then
      match stripPrefix "**".toList (r.dropWhile (fun c => c != '*')) with
      | some _ => some ("<br><strong>".toList ++ run.dropLast ++ ":</strong>".toList, run.length + 4)
      | none => none
    else none

/-- The test `/\*\*[^*]+:\*\*/.test(s)`. -/
def hasDialogue : Str → Bool
  | [] => false
  | c :: cs => (dialogueMatch (c :: cs)).isSome || hasDialogue cs

/-- The step `if (lastVietnamese) result += <span>...</span></li>` of the branches
that close a list. -/
def closeItem (st : RenderState) : RenderState :=
  if st.lastVietnamese ≠ [] then
    { st with result := st.result ++ vietSpan st.lastVietnamese ++ "</li>".toList }
  else st

/-- The rendering of a `vietsub` segment (app.js 1470-1534). -/
def renderVietsub (st : RenderState) (text : Str) : RenderState :=
  let listMatch := numberPrefixMatch text
  let isNewSection := (stripPrefix "**".toList text).isSome
  if includes "***".toList text then
    let st :=
      if st.inList then
        let st := closeItem st
        { st with result := st.result ++ "</ul>".toList, inList := false, lastVietnamese := [] }
      else st
    let parts := splitStars text
    let part0 := jsTrim (parts.headD [])
    let st :=
      if st.lastVietnamese ≠ [] then
        let lv := st.lastVietnamese ++ " ".toList ++ part0
        { st with lastVietnamese := lv, result := st.result ++ vietSpan lv }
      else if part0 ≠ [] then { st with result := st.result ++ vietSpan part0 }
      else st
    let st := { st with result := st.result ++ "<br><hr class=\"divider\">".toList }
    let part1 := (parts.drop 1).headD []
    { st with lastVietnamese := if part1 ≠ [] then jsTrim part1 else [] }
  else if hasDialogue text then
    let st :=
      if st.inList then
        let st := closeItem st
        { st with result := st.result ++ "</ul>".toList, inList := false }
      else st
    let st :=
      if st.lastVietnamese ≠ [] then
        { st with result := st.result ++ vietSpan st.lastVietnamese ++ "<br><br>".toList,
                  lastVietnamese := [] }
      else st
    let dialogueFormatted := replaceAll dialogueMatch 0 text
    let cleanDialogue := (stripPrefix "<br>".toList dialogueFormatted).getD dialogueFormatted
    { st with result := st.result ++ "<span class=\"vietnamese-text\">".toList ++ cleanDialogue
        ++ "</span><br>".toList }
  else
    match listMatch with
    | some (num, rest) =>
      let st :=
        if !st.inList then
          let st := flushVietnamese st
          { st with result := st.result ++ "<ul class=\"vocab-list\">".toList, inList := true }
        else if st.lastVietnamese ≠ [] then
          { st with result := st.result ++ vietSpan st.lastVietnamese ++ "</li>".toList,
                    lastVietnamese := [] }
        else st
      { st with result := st.result ++ "<li><span class=\"list-num\">".toList ++ num
          ++ ".</span> ".toList, lastVietnamese := rest }
    | none =>
      if isNewSection then
        let st :=
          if st.inList then
            let st := closeItem st
            { st with result := st.result ++ "</ul><br>".toList, inList := false,
                      lastVietnamese := [] }
          else if st.lastVietnamese ≠ [] then
            { st with result := st.result ++ vietSpan st.lastVietnamese ++ "<br><br>".toList,
                      lastVietnamese := [] }
          else st
        { st with lastVietnamese := text }
      else
        { st with lastVietnamese :=
            st.lastVietnamese ++ (if st.lastVietnamese ≠ [] then " ".toList else []) ++ text }

/-- One iteration of the rendering loop (app.js 1396-1535); `next` is
`matches[i + 1]`. -/
def renderSegment (isStreaming : Bool) (st : RenderState) (seg : Segment)
    (next : Option Segment) : RenderState :=
  if seg.text = [] then st
  else if seg.tag = "tip".toList then
    let st := flushVietnamese st
    { st with result := st.result ++ tipBox seg.text }
  else if seg.tag = "table".toList then
    let st := flushVietnamese st
    { st with result := st.result ++ formatTable seg.text isStreaming }
  else if seg.tag = "list".toList then
    let st := flushVietnamese st
    { st with result := st.result ++ formatList seg.text }
  else if seg.tag = "engsub".toList then renderEngsub st seg.text next
  else renderVietsub st seg.text

/-- The rendering loop over `matches`. -/
def renderLoop (isStreaming : Bool) : RenderState → List Segment → RenderState
  | st, [] => st
  | st, seg :: rest =>
    renderLoop isStreaming (renderSegment isStreaming st seg rest.head?) rest

/-- The statements after the loop (app.js 1537-1541). -/
def renderEnd (st : RenderState) : Str :=
  let result :=
    if st.lastVietnamese ≠ [] then
      st.result ++ vietSpan st.lastVietnamese ++ (if st.inList then "</li>".toList else [])
    else st.result
  if st.inList then result ++ "</ul>".toList else result

/-- `formatMessageContent(content, isStreaming)` (app.js 1380-1548). -/
def formatMessageContent (content : Str) (isStreaming : Bool) : Str :=
  let cleanContent := removeActionsTag content
  let segs := scanSegments displayTags 0 cleanContent
  let result := renderEnd (renderLoop isStreaming ⟨[], [], false⟩ segs)
  if segs = [] then vietSpan cleanContent else result

/-! ## splitByLanguage -/

/-- One attempt of `/\[Actions\].*$/i`, replaced by the empty string: the greedy
`.*` stops at a line terminator and `$` (no `m` flag) needs the end of the input,
so the rest of the input has to be free of line terminators. -/
def actionsToEndMatch (s : Str) : Option (Str × Nat) :=
  match matchLitCI "[Actions]".toList s with
  | some rest => if rest.all (fun c => !isLineTerminator c) then some ([], s.length) else none
  | none => none

/-- One attempt of `/\[Table\][^[]*(?=\[|$)/i` (or of the same with `Tip`),
replaced by the empty string: the greedy class runs up to the next `[` or the end
of the input, where the lookahead holds. -/
def tagBodyMatch (tag : Str) (s : Str) : Option (Str × Nat) :=
  match matchLitCI tag s with
  | some rest => some ([], tag.length + (rest.takeWhile (fun c => c != '[')).length)
  | none => none

/-- The class `[*#_~]` together with the backquote (code 96). -/
def isMarkdownChar (c : Char) : Bool :=
  c = '*' || c = '#' || c = '_' || c.toNat = 96 || c = '~'

/-- One attempt of `/\[[^\]]*\]/`, replaced by the empty string. -/
def bracketGroupMatch (s : Str) : Option (Str × Nat) :=
  match s with
  | '[' :: rest =>
    match rest.dropWhile (fun c => c != ']') with
    | ']' :: _ => some ([], (rest.takeWhile (fun c => c != ']')).length + 2)
    | _ => none
  | _ => none

/-- The replacement `.replace(/^[A-Z]\s*-\s*/, '')`. -/
def stripLetterDash (s : Str) : Str :=
  match s with
  | c :: cs =>
    if isAsciiUpper c then
      match cs.dropWhile isJsSpace with
      | '-' :: rest => rest.dropWhile isJsSpace
      | _ => s
    else s
  | [] => s

/-- A segment to speak, `{ text, lang }`. -/
structure SpeechSegment where
  text : Str
  lang : Str
deriving DecidableEq

/-- The body of the loop over the matches of `splitByLanguage` (app.js 855-871):
`none` stands for `continue`. -/
def speechOfSegment (seg : Segment) : Option SpeechSegment :=
  let content := seg.text
  if content = [] ∨ jsLength content < 2 then none
  else
    let content := stripLetterDash content
    let content := content.filter (fun c => c != '"')
    let content := content.map (fun c => if c = '/' then ' ' else c)
    let content := jsTrim content
    if content = [] ∨ jsLength content < 2 then none
    else some ⟨content, if seg.tag = "vietsub".toList then "vi".toList else "en".toList⟩

/-- The text of `splitByLanguage` after the five replacements (app.js 839-847). -/
def speechText (text : Str) : Str :=
  let text := jsTrim (replaceAll actionsToEndMatch 0 text)
  let text := replaceAll (tagBodyMatch "[Table]".toList) 0 text
  let text := replaceAll (tagBodyMatch "[Tip]".toList) 0 text
  let text := replaceAll (starGroupMatch id) 0 text
  text.filter (fun c => !isMarkdownChar c)

/-- `splitByLanguage(text)` (app.js 838-884). -/
def splitByLanguage (text : Str) : List SpeechSegment :=
  let text := speechText text
  let segs := scanSegments speechTags 0 text
  let segments := segs.filterMap speechOfSegment
  if segs = [] ∧ jsTrim text ≠ [] then
    let cleanText := jsTrim (replaceAll bracketGroupMatch 0 text)
    let cleanText := cleanText.map (fun c => if c = '/' then ' ' else c)
    if cleanText ≠ [] ∧ 2 ≤ jsLength cleanText then segments ++ [⟨cleanText, "vi".toList⟩]
    else segments
  else segments

/-! ## The speech prefetcher -/

/-- The matches of `text.match(/\[(Vietsub|Engsub)\]/gi)`, in order.  The first
argument counts the characters of the current match still to be skipped. -/
def matchAllTags : Nat → Str → List Str
  | _, [] => []
  | skip + 1, _ :: cs => matchAllTags skip cs
  | 0, c :: cs =>
    match matchTag speechTags (c :: cs) with
    | some (name, _) => ('[' :: (name ++ [']'])) :: matchAllTags (name.length + 1) cs
    | none => matchAllTags 0 cs

/-- A value of the map `ttsCache`: the reservation `'fetching'` or the object URL
of a fetched audio. -/
inductive CacheValue
  | fetching
  | url (u : Str)
deriving DecidableEq

/-- The globals of the prefetcher: the map `ttsCache` as the list of its entries
in insertion order, the counter `lastPrefetchedSegments`, the requests sent to
`/api/tts/single` so far and the URLs given to `URL.revokeObjectURL` so far. -/
structure TtsState where
  ttsCache : List (Str × CacheValue)
  lastPrefetchedSegments : Nat
  fetches : List SpeechSegment
  revoked : List Str
deriving DecidableEq

/-- `MAX_PREFETCH_DURING_STREAM` (app.js 887). -/
def MAX_PREFETCH_DURING_STREAM : Nat := 2

/-- `ttsCache.get(key)`; `none` stands for `undefined`. -/
def cacheGet (cache : List (Str × CacheValue)) (key : Str) : Option CacheValue :=
  match cache with
  | [] => none
  | (k, v) :: rest => if k = key then some v else cacheGet rest key

/-- `ttsCache.has(key)`. -/
def cacheHas (cache : List (Str × CacheValue)) (key : Str) : Bool :=
  (cacheGet cache key).isSome

/-- `ttsCache.set(key, value)`: an entry that is present keeps its place. -/
def cacheSet (cache : List (Str × CacheValue)) (key : Str) (value : CacheValue) :
    List (Str × CacheValue) :=
  match cache with
  | [] => [(key, value)]
  | (k, v) :: rest =>
    if k = key then (k, value) :: rest else (k, v) :: cacheSet rest key value

/-- `ttsCache.delete(key)`. -/
def cacheDelete (cache : List (Str × CacheValue)) (key : Str) : List (Str × CacheValue) :=
  cache.filter (fun e => e.1 ≠ key)

/-- The template literal of the cache key: the language, a colon and the text. -/
def cacheKey (seg : SpeechSegment) : Str := seg.lang ++ ":".toList ++ seg.text

/-- The statements that `prefetchTTS`, `prefetchLastSegment` and
`fetchSegmentIfNeeded` run on one segment, up to the call to `fetch` (app.js
900-911, 936-947, 1040-1049): a segment that is too short or whose key is in the
cache is passed over; else the key is reserved and the request is sent. -/
def fetchIfAbsent (st : TtsState) (seg : SpeechSegment) : TtsState :=
  if seg.text = [] ∨ jsLength (jsTrim seg.text) < 2 then st
  else if cacheHas st.ttsCache (cacheKey seg) then st
  else
    { st with
      ttsCache := cacheSet st.ttsCache (cacheKey seg) .fetching
      fetches := st.fetches ++ [seg] }

/-- The loop `for (let i = start; i < bound; i++)` over the segments. -/
def prefetchLoop (segments : List SpeechSegment) (start bound : Nat) (st : TtsState) :
    TtsState :=
  (List.range' start (bound - start)).foldl
    (fun st i =>
      match segments[i]? with
      | some seg => fetchIfAbsent st seg
      | none => st)
    st

/-- The part of `prefetchTTS(text)` that runs at once (app.js 889-926): the
handlers of the requests run later, see `fetchSettled`. -/
def prefetchTTS (st : TtsState) (text : Str) : TtsState :=
  let tags := matchAllTags 0 text
  let segments := splitByLanguage text
  if segments.length = 0 then st
  else
    let completedSegments := tags.length - 1
    let maxToFetch := min completedSegments MAX_PREFETCH_DURING_STREAM
    let st := prefetchLoop segments st.lastPrefetchedSegments (min maxToFetch segments.length) st
    { st with lastPrefetchedSegments := max st.lastPrefetchedSegments maxToFetch }

/-- The part of `prefetchLastSegment(text)` that runs at once (app.js 929-962). -/
def prefetchLastSegment (st : TtsState) (text : Str) : TtsState :=
  let segments := splitByLanguage text
  if segments.length = 0 then st
  else
    let maxToFetch := min segments.length MAX_PREFETCH_DURING_STREAM
    let st := prefetchLoop segments st.lastPrefetchedSegments maxToFetch st
    { st with lastPrefetchedSegments := maxToFetch }

/-- The part of `fetchSegmentIfNeeded(index)` of the player that runs up to its
`await` (app.js 1036-1046), on the segments of the spoken text. -/
def fetchSegmentIfNeeded (segments : List SpeechSegment) (st : TtsState) (index : Nat) :
    TtsState :=
  match segments[index]? with
  | none => st
  | some seg => fetchIfAbsent st seg

/-- The handlers of a request for the key `key` once it has settled: with a blob
the entry becomes the object URL `u`, without one (or on rejection) the entry is
deleted. -/
def fetchSettled (st : TtsState) (key : Str) (blobUrl : Option Str) : TtsState :=
  match blobUrl with
  | some u => { st with ttsCache := cacheSet st.ttsCache key (.url u) }
  | none => { st with ttsCache := cacheDelete st.ttsCache key }

/-- `clearTTSCache()` (app.js 964-972). -/
def clearTTSCache (st : TtsState) : TtsState :=
  { st with
    revoked := st.revoked ++ st.ttsCache.filterMap (fun e =>
      match e.2 with
      | .url u => if u ≠ [] then some u else none
      | .fetching => none)
    ttsCache := []
    lastPrefetchedSegments := 0 }

/-- What happens to the prefetcher between the start of a turn and the end of its
stream: a call to `prefetchTTS` or the settling of a request. -/
inductive TtsEvent
  | prefetch (text : Str)
  | settled (key : Str) (blobUrl : Option Str)
deriving DecidableEq

/-- The effect of one event. -/
def TtsEvent.apply (st : TtsState) : TtsEvent → TtsState
  | .prefetch text => prefetchTTS st text
  | .settled key blobUrl => fetchSettled st key blobUrl

/-! ## The stream loop of sendMessage and retryMessage -/

/-- The object carried by a `data: ` line once `JSON.parse` has succeeded, for the
frames of the wire protocol (identifiers are numbers, `0` being falsy); `other`
is any value with another `type`. -/
inductive StreamData
  | init (assistantMessageId : Option Nat) (conversationId : Option Nat)
  | chunk (content : Str)
  | done (tokens : Option Nat) (assistantMessageId : Option Nat) (conversationId : Option Nat)
  | error (error : Str)
  | other
deriving DecidableEq

/-- A call to the speech prefetcher made by the loop. -/
inductive TtsCall
  | prefetchTTS (text : Str)
  | prefetchLastSegment (text : Str)
deriving DecidableEq

/-- The variables of a running stream (app.js 1898-1900 and 1744-1746), the
global `currentConversationId`, the content of the streaming node, the calls to
`console.error` and the calls to the speech prefetcher. -/
structure StreamState where
  fullResponse : Str
  tokenInfo : Option Nat
  assistantMsgId : Option Nat
  currentConversationId : Option Nat
  innerHTML : Str
  logged : List Str
  ttsCalls : List TtsCall
deriving DecidableEq

/-- The streaming cursor appended to every render. -/
def streamingCursor : Str := "<span class=\"streaming-cursor\"></span>".toList

/-- The state at the start of a stream. -/
def StreamState.start (conversationId : Option Nat) : StreamState :=
  ⟨[], none, none, conversationId, streamingCursor, [], []⟩

/-- The step `if (data.conversation_id && data.conversation_id !== currentConversationId)
currentConversationId = data.conversation_id`. -/
def adoptConversation (current received : Option Nat) : Option Nat :=
  match received with
  | some c => if c ≠ 0 ∧ some c ≠ current then some c else current
  | none => current

/-- The `catch (e)` of the loop body: the exception is logged unless its message
is `Unexpected end of JSON input`; the loop goes on with the next line. -/
def catchInLoop (st : StreamState) (message : Str) : StreamState :=
  if message ≠ "Unexpected end of JSON input".toList then
    { st with logged := st.logged ++ [message] }
  else st

/-- The body of `for (const line of lines)` (app.js 1926-1963 for `sendMessage`,
1776-1806 for `retryMessage`).  `parse` stands for `JSON.parse`, which returns the
message of the exception it throws or the parsed frame.  `isRetry` tells which
of the two functions runs: `sendMessage` calls `formatMessageContent(fullResponse)`
(so `isStreaming` takes its default `false`) and adopts the conversation of a
`done` frame, `retryMessage` calls `formatMessageContent(fullResponse, true)`.
An exception thrown inside the `try` block, `throw new Error(data.error)`
included, is caught by the `catch` of the same block. -/
def processLine (parse : Str → Except Str StreamData) (isRetry : Bool)
    (st : StreamState) (line : Str) : StreamState :=
  match stripPrefix "data: ".toList line with
  | none => st
  | some jsonStr =>
    match parse jsonStr with
    | .error message => catchInLoop st message
    | .ok (.init msgId convId) =>
      { st with
        assistantMsgId := msgId
        currentConversationId := adoptConversation st.currentConversationId convId }
    | .ok (.chunk content) =>
      let fullResponse := st.fullResponse ++ content
      { st with
        fullResponse := fullResponse
        innerHTML := formatMessageContent fullResponse isRetry ++ streamingCursor
        ttsCalls := st.ttsCalls ++ [.prefetchTTS fullResponse] }
    | .ok (.done tokens msgId convId) =>
      { st with
        tokenInfo := tokens
        assistantMsgId := msgId
        ttsCalls := st.ttsCalls ++ [.prefetchLastSegment st.fullResponse]
        currentConversationId :=
          if isRetry then st.currentConversationId
          else adoptConversation st.currentConversationId convId }
    | .ok (.error message) => catchInLoop st message
    | .ok .other => st

/-- One turn of `while (true)` after a successful `reader.read()`:
`decoder.decode(value).split('\n')` and the loop over the lines. -/
def processRead (parse : Str → Except Str StreamData) (isRetry : Bool)
    (st : StreamState) (text : Str) : StreamState :=
  (splitChar '\n' text).foldl (processLine parse isRetry) st

/-- How the sequence of reads ends: `done` is `true`, or `reader.read()` rejects
with an `AbortError`, or it rejects with another error. -/
inductive StreamEnd
  | finished
  | aborted
  | failed (message : Str)
deriving DecidableEq

/-- The message that the turn leaves in the chat: the completed assistant message,
the cancelled one (with or without a finalize request), none, or the error
text. -/
inductive Outcome
  | completed (content : Str) (tokenInfo : Option Nat)
  | cancelled (content : Str) (finalizeCalled : Bool)
  | nothing
  | errorShown (text : Str)
deriving DecidableEq

/-- The `catch (e)` of the function when the stream was aborted (app.js 1996-2016). -/
def cancelledPath (st : StreamState) : Outcome :=
  if st.fullResponse ≠ [] ∧ (st.assistantMsgId.any (fun i => i != 0)) = true then
    .cancelled st.fullResponse true
  else if st.fullResponse ≠ [] then .cancelled st.fullResponse false
  else .nothing

/-- The requests to `/api/messages/<id>/finalize` that the cancelled path sends
(app.js 1997-2002): one, with the status `cancelled`, when the accumulated text
and the message id are both truthy, none otherwise. -/
def finalizeRequests (st : StreamState) : List (Nat × Str) :=
  match st.assistantMsgId with
  | some i => if st.fullResponse ≠ [] ∧ i ≠ 0 then [(i, "cancelled".toList)] else []
  | none => []

/-- The stream part of `sendMessage` / `retryMessage`: the reads are processed in
order; at the end of the stream the accumulated text becomes the assistant
message (app.js 1966-1967, 1809-1810); when a read is rejected the outer `catch`
runs: the cancelled path for an `AbortError` or a message that includes
`body stream`, else `'Lỗi: ' + e.message` is shown (app.js 1992-2020). -/
def runStream (parse : Str → Except Str StreamData) (isRetry : Bool)
    (conversationId : Option Nat) (reads : List Str) (ending : StreamEnd) :
    StreamState × Outcome :=
  let st := reads.foldl (processRead parse isRetry) (StreamState.start conversationId)
  match ending with
  | .finished => (st, .completed st.fullResponse st.tokenInfo)
  | .aborted => (st, cancelledPath st)
  | .failed message =>
    if includes "body stream".toList message then (st, cancelledPath st)
    else (st, .errorShown ("Lỗi: ".toList ++ message))

/-- The stream part of `sendMessage` (app.js 1919-2020). -/
def sendMessage (parse : Str → Except Str StreamData) (conversationId : Option Nat)
    (reads : List Str) (ending : StreamEnd) : StreamState × Outcome :=
  runStream parse false conversationId reads ending

/-- The stream part of `retryMessage` (app.js 1769-1853). -/
def retryMessage (parse : Str → Except Str StreamData) (conversationId : Option Nat)
    (reads : List Str) (ending : StreamEnd) : StreamState × Outcome :=
  runStream parse true conversationId reads ending

/-- A reading of `JSON.parse` on the frames used in the examples: an `error`
frame, a `chunk` frame with content "hi" and a `chunk` frame with content
"[Table] H1|H2"; any other text is rejected as a syntax error. -/
def parseFrames (s : Str) : Except Str StreamData :=
  if s = "\x7b\"type\":\"error\",\"error\":\"boom\"\x7d".toList then .ok (.error "boom".toList)
  else if s = "\x7b\"type\":\"chunk\",\"content\":\"hi\"\x7d".toList then .ok (.chunk "hi".toList)
  else if s = "\x7b\"type\":\"chunk\",\"content\":\"[Table] H1|H2\"\x7d".toList then
    .ok (.chunk "[Table] H1|H2".toList)
  else .error "Unexpected token".toList

/-! ## Reference notions used by the statements -/

/-- The Vietnamese letters that carry a diacritic (đ included), in lower case
followed by the same letters in upper case. -/
def vietnameseLetters : Str :=
  "àáạảãâầấậẩẫăằắặẳẵèéẹẻẽêềếệểễìíịỉĩòóọỏõôồốộổỗơờớợởỡùúụủũưừứựửữỳýỵỷỹđÀÁẠẢÃÂẦẤẬẨẪĂẰẮẶẲẴÈÉẸẺẼÊỀẾỆỂỄÌÍỊỈĨÒÓỌỎÕÔỒỐỘỔỖƠỜỚỢỞỠÙÚỤỦŨƯỪỨỰỬỮỲÝỴỶỸĐ".toList

/-- Code points of `vietnameseClass`. -/
def viLowerCodes : List Nat :=
  [224, 225, 7841, 7843, 227, 226, 7847, 7845, 7853, 7849, 7851, 259, 7857, 7855, 7863, 7859,
   7861, 232, 233, 7865, 7867, 7869, 234, 7873, 7871, 7879, 7875, 7877, 236, 237, 7883, 7881,
   297, 242, 243, 7885, 7887, 245, 244, 7891, 7889, 7897, 7893, 7895, 417, 7901, 7899, 7907,
   7903, 7905, 249, 250, 7909, 7911, 361, 432, 7915, 7913, 7921, 7917, 7919, 7923, 253, 7925,
   7927, 7929, 273]

/-- Code points of the upper-case forms of `vietnameseClass`. -/
def viUpperCodes : List Nat :=
  [192, 193, 7840, 7842, 195, 194, 7846, 7844, 7852, 7848, 7850, 258, 7856, 7854, 7862, 7858,
   7860, 200, 201, 7864, 7866, 7868, 202, 7872, 7870, 7878, 7874, 7876, 204, 205, 7882, 7880,
   296, 210, 211, 7884, 7886, 213, 212, 7890, 7888, 7896, 7892, 7894, 416, 7900, 7898, 7906,
   7902, 7904, 217, 218, 7908, 7910, 360, 431, 7914, 7912, 7920, 7916, 7918, 7922, 221, 7924,
   7926, 7928, 272]

/-- The element that `appendHeaderCell` appends. -/
def headerCellHtml (cell : Str) : Str := "<th>".toList ++ cell ++ "</th>".toList

/-- The element that `appendBodyCell` appends. -/
def bodyCellHtml (cell : Str) : Str :=
  if isEnglishText cell then
    "<td class=\"english-cell\" data-speak=\"".toList
      ++ encodeURIComponent (jsTrim (removeEllipsis cell)) ++ "\">".toList ++ cell ++ "</td>".toList
  else "<td>".toList ++ cell ++ "</td>".toList

/-- A body row of a table: one `<tr>` holding one `<td>` per cell. -/
def bodyRowHtml (row : Str) : Str :=
  "<tr>".toList ++ (splitCells row).flatMap bodyCellHtml ++ "</tr>".toList

/-- The header row of a table: one `<tr>` holding one `<th>` per cell. -/
def headerRowHtml (row : Str) : Str :=
  "<tr>".toList ++ (splitCells row).flatMap headerCellHtml ++ "</tr>".toList

/-- The opening of a rendered table. -/
def tableOpen : Str := "<div class=\"vocab-table-wrapper\"><table class=\"vocab-table\">".toList

/-- The closing of a rendered table. -/
def tableClose : Str := "</table></div>".toList

/-- Puts a text in front of the first piece of a split. -/
def prependFirst (w : Str) : List Str → List Str
  | [] => [w]
  | p :: ps => (w ++ p) :: ps

/-- Puts a text behind the last piece of a split. -/
def appendLast : List Str → Str → List Str
  | [], w => [w]
  | [p], w => [p ++ w]
  | p :: q :: ps, w => p :: appendLast (q :: ps) w

/-- Two texts that differ only in the case of their ASCII letters. -/
def SameIgnoringCase (a b : Str) : Prop := a.map Char.toLower = b.map Char.toLower

/-- The text holds an `[Actions]` tag, in some letter case. -/
def ContainsActionsTag (content : Str) : Prop :=
  ∃ p t s, content = p ++ t ++ s ∧ SameIgnoringCase t "[Actions]".toList

/-- A text without brackets. -/
def NoBracket (x : Str) : Prop := ∀ c ∈ x, c ≠ '[' ∧ c ≠ ']'

/-- A tag of `names` in some letter case, as the regular expression reads it. -/
def TagMatches (names : List Str) (nm : Str) : Prop :=
  ∀ rest, matchTag names ('[' :: (nm ++ ']' :: rest)) = some (nm, rest)

/-- A name of `names` written in some letter case. -/
def IsTagName (names : List Str) (nm : Str) : Prop := ∃ name ∈ names, SameIgnoringCase nm name

/-- No bracket, no markdown character, no double quote and no slash. -/
def isPlainSpeech (x : Str) : Bool :=
  x.all (fun c => c != '[' && c != ']' && !isMarkdownChar c && c != '"' && c != '/')

/-- The text starts with an upper-case ASCII letter immediately followed by `-`. -/
def startsWithLetterHyphen (x : Str) : Bool :=
  match x with
  | c :: d :: _ => isAsciiUpper c && d == '-'
  | _ => false

/-- The text starts with an upper-case ASCII letter followed by optional white
space and `-`. -/
def startsWithLetterSpacesHyphen (x : Str) : Bool :=
  match x with
  | c :: r => isAsciiUpper c && (r.dropWhile isJsSpace).head? == some '-'
  | [] => false

/-- The text of a sequence of tagged segments: each one is `[name]` followed by
its text. -/
def taggedText : List (Str × Str) → Str
  | [] => []
  | s :: rest => '[' :: (s.1 ++ ']' :: (s.2 ++ taggedText rest))

/-- Complete tagged segments: every name is a name of `names` in some letter case
and no text holds a bracket. -/
def WellTagged (names : List Str) (segs : List (Str × Str)) : Prop :=
  ∀ s ∈ segs, IsTagName names s.1 ∧ NoBracket s.2

/-- The segment that the parser yields for a tagged segment of the text. -/
def toSegment (s : Str × Str) : Segment := ⟨s.1.map Char.toLower, jsTrim s.2⟩

/-- The text of one tagged segment. -/
def segmentText (s : Str × Str) : Str := '[' :: (s.1 ++ ']' :: s.2)

/-- The segments `b` of a longer text extend the segments `a` of a shorter one:
all segments of `a` but the last are kept, and the last is either not yielded
(with nothing after it) or still at its place, with the same tag and a text that
continues its text. -/
def SegmentsExtend (a b : List Segment) : Prop :=
  a.dropLast <+: b ∧
    ∀ m, a.getLast? = some m →
      b.length + 1 = a.length ∨
        ∃ m', b[a.length - 1]? = some m' ∧ m'.tag = m.tag ∧ m.text <+: m'.text

/-- The text without its trailing white space. -/
def trimEnd (x : Str) : Str := (x.reverse.dropWhile isJsSpace).reverse

/-- No match of the actions tag starts anywhere in the text. -/
def NoActionsAt (x : Str) : Prop :=
  ∀ p y, x = p ++ y → matchLitCI "[Actions]".toList y = none

/-- The state of the rendering loop of `formatMessageContent` after its first `i`
iterations over `matches`; iteration `i` reads `matches[i]` and `matches[i + 1]`. -/
def loopState (isStreaming : Bool) (segs : List Segment) : Nat → RenderState
  | 0 => ⟨[], [], false⟩
  | i + 1 =>
    match segs[i]? with
    | some seg => renderSegment isStreaming (loopState isStreaming segs i) seg segs[i + 1]?
    | none => loopState isStreaming segs i

/-- The tags whose segment ends a pending Vietnamese block. -/
def closingTags : List Str :=
  ["tip".toList, "table".toList, "list".toList, "engsub".toList]

/-- What the loop reads of `matches[i + 1]`: whether it is a Vietnamese segment
that starts with a colon. -/
def nextColon (next : Option Segment) : Bool :=
  match next with
  | some n => n.tag = "vietsub".toList && n.text.head? = some ':'
  | none => false

/-- A Vietnamese segment that starts a block of its own: a dialogue line, a
numbered item or a new section. -/
def startsNewBlock (text : Str) : Bool :=
  hasDialogue text || (numberPrefixMatch text).isSome || (stripPrefix "**".toList text).isSome

/-- Whether a Vietnamese segment with this text, met in the state `st`, emits the
pending block as it stands.  A text with the divider `***` does so only inside a
list: outside a list it first joins its own first part to the block. -/
def closesPending (st : RenderState) (text : Str) : Bool :=
  if includes "***".toList text then st.inList else startsNewBlock text

/-- The text ends with `:` once its trailing white space is set aside. -/
def EndsWithColon (s : Str) : Prop := ∃ pre, jsTrim s = pre ++ [':']

/-- The segment that follows is a Vietnamese one whose text starts with `:`. -/
def NextStartsWithColon (next : Option Segment) : Prop :=
  ∃ n r, next = some n ∧ n.tag = "vietsub".toList ∧ n.text = ':' :: r

/-- The text holds a sentence end: `.`, `!` or `?` followed by white space or by
the end of the text. -/
def HasSentenceEnd (s : Str) : Prop :=
  ∃ u c v, s = u ++ c :: v ∧ (c = '.' ∨ c = '!' ∨ c = '?') ∧
    (v = [] ∨ ∃ d r, v = d :: r ∧ isJsSpace d = true)

/-- The text ends with a dot and a file extension of the list, in some letter
case. -/
def EndsWithFileExtension (s : Str) : Prop :=
  ∃ u x, s = u ++ '.' :: x ∧ ∃ e ∈ fileExtensions, SameIgnoringCase x e

/-- The short phrase of the classification of an English segment, on the text
without `**`: it ends with `:`, or a Vietnamese segment that starts with `:`
follows, or it has at most 6 pieces between single spaces and either holds no
sentence end or ends with a file extension. -/
def IsShortPhrase (text : Str) (next : Option Segment) : Prop :=
  EndsWithColon (removeDoubleStars text) ∨ NextStartsWithColon next ∨
    ((splitChar ' ' (removeDoubleStars text)).length ≤ 6 ∧
      ¬ (HasSentenceEnd (removeDoubleStars text) ∧
        ¬ EndsWithFileExtension (removeDoubleStars text)))

/-- The text to speak of an English segment: `**` and `...` removed, trimmed. -/
def speakTextOf (text : Str) : Str := jsTrim (removeEllipsis (removeDoubleStars text))

/-- A Vietnamese text that joins the pending block: not empty, no number and dot
at its start, no `**` at its start, no `***` and no dialogue pattern. -/
def isPlainVietnamese (t : Str) : Bool :=
  t ≠ [] && (numberPrefixMatch t).isNone && (stripPrefix "**".toList t).isNone &&
    !includes "***".toList t && !hasDialogue t

/-- The texts joined with one space. -/
def joinWithSpace : List Str → Str
  | [] => []
  | [t] => t
  | t :: rest => t ++ ' ' :: joinWithSpace rest

/-- The markup that an iteration of the loop appends after the pending Vietnamese
block has been flushed. -/
def renderedElement (isStreaming : Bool) (st : RenderState) (seg : Segment)
    (next : Option Segment) : Str :=
  (renderSegment isStreaming st seg next).result.drop (flushVietnamese st).result.length

/-- The value of the `class` attribute of an element that starts with
`<span class="`. -/
def classOf (element : Str) : Str := (element.drop 13).takeWhile (fun c => c != '"')

/-- The text of `splitByLanguage` after its trim: the bodies of `[Table]` and
`[Tip]`, the `**` pairs and the markdown characters are removed (app.js 841-847). -/
def stripSpeechMarkup (text : Str) : Str :=
  (replaceAll (starGroupMatch id) 0
    (replaceAll (tagBodyMatch "[Tip]".toList) 0
      (replaceAll (tagBodyMatch "[Table]".toList) 0 text))).filter (fun c => !isMarkdownChar c)

/-- The segments that `splitByLanguage` reads from the text left by the
replacements (app.js 849-883). -/
def speechSegmentsOf (text : Str) : List SpeechSegment :=
  if scanSegments speechTags 0 text = [] ∧ jsTrim text ≠ [] then
    if (jsTrim (replaceAll bracketGroupMatch 0 text)).map
          (fun c => if c = '/' then ' ' else c) ≠ [] ∧
        2 ≤ jsLength ((jsTrim (replaceAll bracketGroupMatch 0 text)).map
          (fun c => if c = '/' then ' ' else c)) then
      (scanSegments speechTags 0 text).filterMap speechOfSegment ++
        [⟨(jsTrim (replaceAll bracketGroupMatch 0 text)).map
          (fun c => if c = '/' then ' ' else c), "vi".toList⟩]
    else (scanSegments speechTags 0 text).filterMap speechOfSegment
  else (scanSegments speechTags 0 text).filterMap speechOfSegment

/-- The text is empty or starts with an opening bracket. -/
def OpenOrEmpty (y : Str) : Prop := y = [] ∨ ∃ r, y = '[' :: r

/-- All characters are white space. -/
def AllSpace (w : Str) : Prop := ∀ c ∈ w, isJsSpace c = true

/-- A pattern whose attempts are not changed by white space added at the end of
the input, except that a match that reaches the end of the input may grow over
it; it has no match in white space. -/
def SpaceStable (m : Str → Option (Str × Nat)) : Prop :=
  (∀ w, AllSpace w → m w = none) ∧
    ∀ s w, AllSpace w → s ≠ [] →
      (m s = none ∧ m (s ++ w) = none) ∨
        ∃ rep len len', m s = some (rep, len) ∧ m (s ++ w) = some (rep, len') ∧
          (len' = len ∨ (s.length ≤ len ∧ s.length ≤ len'))

/-- A pattern whose attempts before the text `y` do not read `y` and do not run
into it. -/
def LocalBefore (m : Str → Option (Str × Nat)) (y : Str) : Prop :=
  ∀ s, s ≠ [] → m (s ++ y) = m s ∧ ∀ rep len, m s = some (rep, len) → len ≤ s.length

/-- What a step of the prefetcher does to a key that is in the cache: the entry
stays as it is and no request with that key is sent. -/
def KeepsEntry (key : Str) (st st' : TtsState) : Prop :=
  cacheGet st'.ttsCache key = cacheGet st.ttsCache key ∧
    ∃ sent, st'.fetches = st.fetches ++ sent ∧ ∀ s ∈ sent, cacheKey s ≠ key

/-! ## Reference notions for the cache and the stream loop -/

/-- The URLs that `clearTTSCache` has to release: the values of the entries that
hold an object URL (a non-empty string), in the order of the map. -/
def readyUrls : List (Str × CacheValue) → List Str
  | [] => []
  | (_, .fetching) :: rest => readyUrls rest
  | (_, .url u) :: rest => if u = [] then readyUrls rest else u :: readyUrls rest

/-- The text that one line of a read adds to the accumulated response: the
content of a well-formed `data: ` event of type `chunk`, nothing for any other
line. -/
def chunkContent (parse : Str → Except Str StreamData) (line : Str) : Str :=
  match stripPrefix "data: ".toList line with
  | none => []
  | some jsonStr =>
    match parse jsonStr with
    | .ok (.chunk content) => content
    | _ => []

/-- The contents of the chunk events of a list of lines, in line order. -/
def concatChunks (parse : Str → Except Str StreamData) : List Str → Str
  | [] => []
  | line :: rest => chunkContent parse line ++ concatChunks parse rest

/-! ## Reference notions for the untagged text, the table cells and the lists -/

/-- The text holds a tag of `names`, in some letter case. -/
def ContainsTag (names : List Str) (content : Str) : Prop :=
  ∃ p nm s, content = p ++ '[' :: (nm ++ ']' :: s) ∧ IsTagName names nm

/-- The element opens as a speakable table cell: a `<td>` of class `english-cell`
with a `data-speak` attribute. -/
def opensSpeakableCell (el : Str) : Bool :=
  (stripPrefix "<td class=\"english-cell\" data-speak=\"".toList el).isSome

/-- The non-empty items of a list row: `row.split('|').map(i => i.trim()).filter(i => i)`. -/
def listItemsOf (row : Str) : List Str :=
  ((splitChar '|' row).map jsTrim).filter (fun i => i ≠ [])

/-- The text of a list entry with `**` and `...` removed. -/
def listSpeakText (item : Str) : Str := removeEllipsis (removeDoubleStars item)

/-- The element that `appendListItem` appends for an entry. -/
def listEntryHtml (item : Str) : Str :=
  "<li>".toList
    ++ (if isEnglishText (listSpeakText item) then
          "<span class=\"list-content english-sentence\" data-speak=\"".toList
            ++ encodeURIComponent (listSpeakText item) ++ "\">".toList
            ++ replaceAll strongLazyMatch 0 item ++ "</span>".toList
        else "<span class=\"list-content\">".toList ++ replaceAll strongLazyMatch 0 item
            ++ "</span>".toList)
    ++ "</li>".toList

/-- The list group of a row: nothing for a row without a non-empty item, else the
header (the first non-empty item) followed by one entry per remaining item. -/
def listGroupHtml (row : Str) : Str :=
  match listItemsOf row with
  | [] => []
  | header :: items =>
    "<div class=\"list-group\">".toList ++ "<div class=\"list-header\">".toList ++ header
      ++ "</div>".toList
      ++ (if items = [] then []
          else "<ul class=\"generated-list\">".toList ++ items.flatMap listEntryHtml
            ++ "</ul>".toList)
      ++ "</div>".toList

/-- The element opens as a speakable list entry: a `<li>` whose content carries a
`data-speak` attribute. -/
def opensSpeakableEntry (el : Str) : Bool :=
  (stripPrefix "<li><span class=\"list-content english-sentence\" data-speak=\"".toList el).isSome

/-! ## Reference notions for the balance of the list markup -/

/-- The number of places of `s` where `pat` starts. -/
def countOcc (pat : Str) : Str → Nat
  | [] => 0
  | c :: cs => (if (stripPrefix pat (c :: cs)).isSome then 1 else 0) + countOcc pat cs

/-- The opening of a list container, whatever its class. -/
def ulOpen : Str := "<ul".toList

/-- The closing of a list container. -/
def ulClose : Str := "</ul>".toList

/-- The first letter of the name of a tag other than `ul`. -/
def tagLetter (c : Char) : Bool := c.isLower && c != 'u'

/-- What follows a `<` that starts a tag other than `<ul` and `</ul`: a lower-case
letter other than `u`, or `/` and such a letter. -/
def okAfterAngle : Str → Bool
  | [] => false
  | c :: rest =>
    if c = '/' then
      match rest with
      | d :: _ => tagLetter d
      | [] => false
    else tagLetter c

/-- Every `<` of the text starts a tag other than `<ul` and `</ul`. -/
def inert : Str → Bool
  | [] => true
  | c :: cs => (c != '<' || okAfterAngle cs) && inert cs

/-- The text is empty or ends with `>` or with a space: no tag is left open at
its end. -/
def Sealed (s : Str) : Prop := ∀ c, s.getLast? = some c → c = '>' ∨ c = ' '

/-- The list containers of `s` are balanced up to `k` containers that are still
open at its end: `s` has `k` more openings than closings and no prefix of `s`
has more closings than openings. -/
def Good (k : Nat) (s : Str) : Prop :=
  Sealed s ∧ (∀ p, p <+: s → countOcc ulClose p ≤ countOcc ulOpen p) ∧
    countOcc ulOpen s = countOcc ulClose s + k

/-- A text without a line feed and without `<`. -/
def PlainText (s : Str) : Prop := '\n' ∉ s ∧ '<' ∉ s

/-- The invariant of the rendering loop for the list containers: the result is
balanced up to the `vocab-list` that `inList` reports open, and the pending
Vietnamese text is plain. -/
def ListInv (st : RenderState) : Prop :=
  Good (if st.inList then 1 else 0) st.result ∧ PlainText st.lastVietnamese

/-! ## Reference notions for the letter case of the tags -/

/-- The names of the six tags of the answer format. -/
def allTags : List Str := displayTags ++ ["Actions".toList]

/-- Two texts read side by side that differ only in the letter case of words held
between brackets.  The first flag tells whether the reading starts inside such a
word (after its `[`), the second whether it ends inside one: outside a word the
characters are the same, inside a word both characters are ASCII letters with the
same upper-case form, and `]` ends the word. -/
inductive CaseSeg : Bool → Bool → Str → Str → Prop
  | nil (b : Bool) : CaseSeg b b [] []
  | same (c : Char) {e : Bool} {x y : Str} :
      CaseSeg false e x y → CaseSeg false e (c :: x) (c :: y)
  | enter {e : Bool} {x y : Str} : CaseSeg true e x y → CaseSeg false e ('[' :: x) ('[' :: y)
  | letter (c d : Char) {e : Bool} {x y : Str} :
      isAsciiLetter c = true → isAsciiLetter d = true → c.toUpper = d.toUpper →
      CaseSeg true e x y → CaseSeg true e (c :: x) (d :: y)
  | leave {e : Bool} {x y : Str} : CaseSeg false e x y → CaseSeg true e (']' :: x) (']' :: y)

/-- The text `y` is the text `x` with the letters of some bracketed words (tags
among them) written in another letter case. -/
def TagVariant (x y : Str) : Prop := CaseSeg false false x y

/-- Two characters at the same place of two such texts: the same character, or
two ASCII letters with the same upper-case form. -/
def CaseRel (c d : Char) : Prop :=
  c = d ∨ (isAsciiLetter c = true ∧ isAsciiLetter d = true ∧ c.toUpper = d.toUpper)

/-- A test on characters that does not tell ASCII letters apart. -/
def CaseBlind (p : Char → Bool) : Prop :=
  ∀ c d, isAsciiLetter c = true → isAsciiLetter d = true → p c = p d

/-- One name of the alternation of `matchTag`, tried after the `[`: the name as
written and the rest of the input after the `]`. -/
def tagAttempt (r : Str) (name : Str) : Option (Str × Str) :=
  match matchLitCI name r with
  | some (']' :: rest) => some (r.take name.length, rest)
  | _ => none

/-! # Theorems -/

/-! ## Characters -/

theorem toNat_ofNat_small (n : Nat) (h : n < 0xD800) : (Char.ofNat n).toNat = n := by
  have hv : n.isValidChar := Or.inl h
  simp only [Char.ofNat, hv, dite_true, Char.ofNatAux, Char.toNat]
  rfl

theorem toNat_toLower (c : Char) :
    c.toLower.toNat = if 65 ≤ c.toNat ∧ c.toNat ≤ 90 then c.toNat + 32 else c.toNat := by
  unfold Char.toLower
  by_cases h : c.toNat ≥ 65 ∧ c.toNat ≤ 90
  · simp only [h, and_self, if_true]
    exact toNat_ofNat_small _ (by omega)
  · simp only [h, if_false]

theorem toNat_toUpper (c : Char) :
    c.toUpper.toNat = if 97 ≤ c.toNat ∧ c.toNat ≤ 122 then c.toNat - 32 else c.toNat := by
  unfold Char.toUpper
  by_cases h : c.toNat ≥ 97 ∧ c.toNat ≤ 122
  · simp only [h, and_self, if_true]
    exact toNat_ofNat_small _ (by omega)
  · simp only [h, if_false]

theorem char_eq_of_toNat_eq {c d : Char} (h : c.toNat = d.toNat) : c = d :=
  Char.ext (UInt32.ext (by simpa [Char.toNat] using h))

theorem toLower_eq_of_toUpper_eq {c d : Char} (h : c.toUpper = d.toUpper) :
    c.toLower = d.toLower := by
  apply char_eq_of_toNat_eq
  have h' := congrArg Char.toNat h
  rw [toNat_toUpper, toNat_toUpper] at h'
  rw [toNat_toLower, toNat_toLower]
  split_ifs at h' ⊢ <;> omega

theorem toUpper_eq_of_toLower_eq {c d : Char} (h : c.toLower = d.toLower) :
    c.toUpper = d.toUpper := by
  apply char_eq_of_toNat_eq
  have h' := congrArg Char.toNat h
  rw [toNat_toLower, toNat_toLower] at h'
  rw [toNat_toUpper, toNat_toUpper]
  split_ifs at h' ⊢ <;> omega

theorem map_toUpper_eq_iff (a b : Str) :
    a.map Char.toUpper = b.map Char.toUpper ↔ a.map Char.toLower = b.map Char.toLower := by
  induction a generalizing b with
  | nil => cases b <;> simp
  | cons x xs ih =>
    cases b with
    | nil => simp
    | cons y ys =>
      simp only [List.map_cons, List.cons.injEq, ih]
      exact ⟨fun h => ⟨toLower_eq_of_toUpper_eq h.1, h.2⟩,
        fun h => ⟨toUpper_eq_of_toLower_eq h.1, h.2⟩⟩

theorem not_space_of_eq {c d : Char} (hd : isJsSpace d = false) (h : c = d) :
    isJsSpace c = false := by
  rw [h]; exact hd

/-! ## dropWhile, jsTrim -/

theorem dropWhile_append_of_all {p : Char → Bool} {w : Str} (hw : ∀ c ∈ w, p c = true)
    (x : Str) : (w ++ x).dropWhile p = x.dropWhile p := by
  induction w with
  | nil => rfl
  | cons c cs ih =>
    have hc : p c = true := hw c (List.mem_cons_self _ _)
    simp only [List.cons_append, List.dropWhile_cons, hc, if_true]
    exact ih (fun d hd => hw d (List.mem_cons_of_mem _ hd))

theorem dropWhile_eq_nil_of_all {p : Char → Bool} {w : Str} (hw : ∀ c ∈ w, p c = true) :
    w.dropWhile p = [] := by
  have := dropWhile_append_of_all hw []
  simpa using this

theorem dropWhile_append_of_exists {p : Char → Bool} {x : Str}
    (hx : ∃ c ∈ x, p c = false) (y : Str) : (x ++ y).dropWhile p = x.dropWhile p ++ y := by
  induction x with
  | nil => simp at hx
  | cons c cs ih =>
    by_cases hc : p c = true
    · simp only [List.cons_append, List.dropWhile_cons, hc, if_true]
      apply ih
      obtain ⟨d, hd, hpd⟩ := hx
      rcases List.mem_cons.1 hd with rfl | hd
      · rw [hc] at hpd; exact absurd hpd (by simp)
      · exact ⟨d, hd, hpd⟩
    · simp [List.dropWhile_cons, hc]

theorem dropWhile_eq_self_of_head {p : Char → Bool} {c : Char} {cs : Str} (hc : p c = false) :
    (c :: cs).dropWhile p = c :: cs := by
  simp [List.dropWhile_cons, hc]

theorem jsTrim_nil : jsTrim [] = [] := rfl

theorem jsTrim_of_all_space {w : Str} (hw : ∀ c ∈ w, isJsSpace c = true) : jsTrim w = [] := by
  unfold jsTrim
  rw [dropWhile_eq_nil_of_all hw]
  rfl

theorem jsTrim_space_append {w : Str} (hw : ∀ c ∈ w, isJsSpace c = true) (x : Str) :
    jsTrim (w ++ x) = jsTrim x := by
  unfold jsTrim
  rw [dropWhile_append_of_all hw]

theorem exists_not_space_of_dropWhile_ne_nil {x : Str} (h : x.dropWhile isJsSpace ≠ []) :
    ∃ c ∈ x, isJsSpace c = false := by
  by_contra hn
  apply h
  apply dropWhile_eq_nil_of_all
  intro c hc
  by_contra hcs
  exact hn ⟨c, hc, by simpa using hcs⟩

theorem jsTrim_append_space {w : Str} (hw : ∀ c ∈ w, isJsSpace c = true) (x : Str) :
    jsTrim (x ++ w) = jsTrim x := by
  unfold jsTrim
  by_cases hx : x.dropWhile isJsSpace = []
  · have hall : ∀ c ∈ x ++ w, isJsSpace c = true := by
      intro c hc
      rcases List.mem_append.1 hc with h | h
      · by_contra hcs
        have hmem : ∃ c ∈ x, isJsSpace c = false := ⟨c, h, by simpa using hcs⟩
        have := dropWhile_append_of_exists hmem []
        rw [List.append_nil, hx] at this
        obtain ⟨d, hd, hpd⟩ := hmem
        have hne : x ≠ [] := List.ne_nil_of_mem hd
        have h2 : x.dropWhile isJsSpace ≠ [] := by
          intro h0
          have hall2 : ∀ e ∈ x, isJsSpace e = true := by
            intro e he
            by_contra hes
            have hs : isJsSpace e = false := by simpa using hes
            have := List.dropWhile_eq_nil_iff.1 h0 e he
            rw [hs] at this
            exact absurd this (by simp)
          rw [hall2 d hd] at hpd
          exact absurd hpd (by simp)
        exact h2 hx
      · exact hw c h
    rw [dropWhile_eq_nil_of_all hall, hx]
  · rw [dropWhile_append_of_exists (exists_not_space_of_dropWhile_ne_nil hx), List.reverse_append]
    rw [dropWhile_append_of_all (fun c hc => hw c (List.mem_reverse.1 hc))]

theorem jsTrim_decompose (x : Str) :
    ∃ w1 w2 : Str, x = w1 ++ jsTrim x ++ w2 ∧ (∀ c ∈ w1, isJsSpace c = true) ∧
      ∀ c ∈ w2, isJsSpace c = true := by
  refine ⟨x.takeWhile isJsSpace, ((x.dropWhile isJsSpace).reverse.takeWhile isJsSpace).reverse,
    ?_, ?_, ?_⟩
  · unfold jsTrim
    rw [List.append_assoc, ← List.reverse_append, List.takeWhile_append_dropWhile,
      List.reverse_reverse, List.takeWhile_append_dropWhile]
  · intro c hc
    exact List.mem_takeWhile_imp hc
  · intro c hc
    exact List.mem_takeWhile_imp (List.mem_reverse.1 hc)

theorem jsTrim_idem (x : Str) : jsTrim (jsTrim x) = jsTrim x := by
  obtain ⟨w1, w2, hx, h1, h2⟩ := jsTrim_decompose x
  have h := congrArg jsTrim hx
  rw [List.append_assoc, jsTrim_space_append h1, jsTrim_append_space h2] at h
  exact h.symm

/-! ## splitChar -/

theorem splitChar_cons (d c : Char) (cs : Str) :
    splitChar d (c :: cs) =
      if c = d then [] :: splitChar d cs else consHead c (splitChar d cs) := rfl

theorem splitChar_ne_nil (d : Char) (x : Str) : splitChar d x ≠ [] := by
  cases x with
  | nil => simp [splitChar]
  | cons c cs =>
    unfold splitChar
    split
    · simp
    · cases splitChar d cs <;> simp [consHead]

theorem splitChar_of_not_mem {d : Char} {w : Str} (hw : d ∉ w) : splitChar d w = [w] := by
  induction w with
  | nil => rfl
  | cons c cs ih =>
    have hc : c ≠ d := fun h => hw (h ▸ List.mem_cons_self _ _)
    have hcs : d ∉ cs := fun h => hw (List.mem_cons_of_mem _ h)
    simp [splitChar, hc, ih hcs, consHead]

theorem splitChar_pfx {d : Char} {w : Str} (hw : d ∉ w) (x : Str) :
    splitChar d (w ++ x) = prependFirst w (splitChar d x) := by
  induction w with
  | nil =>
    cases h : splitChar d x with
    | nil => exact absurd h (splitChar_ne_nil d x)
    | cons p ps => simp [prependFirst, h]
  | cons c cs ih =>
    have hc : c ≠ d := fun h => hw (h ▸ List.mem_cons_self _ _)
    have hcs : d ∉ cs := fun h => hw (List.mem_cons_of_mem _ h)
    rw [List.cons_append, splitChar_cons, if_neg hc, ih hcs]
    cases h : splitChar d x with
    | nil => exact absurd h (splitChar_ne_nil d x)
    | cons p ps => simp [prependFirst, consHead]

theorem appendLast_consHead (c : Char) {ps : List Str} (hps : ps ≠ []) (w : Str) :
    appendLast (consHead c ps) w = consHead c (appendLast ps w) := by
  cases ps with
  | nil => exact absurd rfl hps
  | cons p qs =>
    cases qs with
    | nil => simp [consHead, appendLast]
    | cons q rs => simp [consHead, appendLast]

theorem appendLast_ne_nil (ps : List Str) (w : Str) : appendLast ps w ≠ [] := by
  cases ps with
  | nil => simp [appendLast]
  | cons p qs => cases qs <;> simp [appendLast]

theorem splitChar_suffix {d : Char} {w : Str} (hw : d ∉ w) (x : Str) :
    splitChar d (x ++ w) = appendLast (splitChar d x) w := by
  induction x with
  | nil => simp [splitChar, appendLast, splitChar_of_not_mem hw]
  | cons c cs ih =>
    rw [List.cons_append, splitChar_cons, splitChar_cons, ih]
    split
    · cases h : splitChar d cs with
      | nil => exact absurd h (splitChar_ne_nil d cs)
      | cons p ps => simp [appendLast]
    · rw [appendLast_consHead c (splitChar_ne_nil d cs)]

theorem map_jsTrim_prependFirst {w : Str} (hw : ∀ c ∈ w, isJsSpace c = true) {ps : List Str}
    (hps : ps ≠ []) : (prependFirst w ps).map jsTrim = ps.map jsTrim := by
  cases ps with
  | nil => exact absurd rfl hps
  | cons p qs => simp [prependFirst, jsTrim_space_append hw]

theorem map_jsTrim_appendLast {w : Str} (hw : ∀ c ∈ w, isJsSpace c = true) {ps : List Str}
    (hps : ps ≠ []) : (appendLast ps w).map jsTrim = ps.map jsTrim := by
  induction ps with
  | nil => exact absurd rfl hps
  | cons p qs ih =>
    cases qs with
    | nil => simp [appendLast, jsTrim_append_space hw]
    | cons q rs =>
      simp only [appendLast, List.map_cons, List.cons.injEq, true_and]
      exact ih (by simp)

theorem not_mem_of_all_space {d : Char} (hd : isJsSpace d = false) {w : Str}
    (hw : ∀ c ∈ w, isJsSpace c = true) : d ∉ w := by
  intro h
  rw [hw d h] at hd
  exact absurd hd (by simp)

/-- Pieces of a split, each trimmed: white space around the whole text is
irrelevant. -/
theorem map_jsTrim_splitChar_space {d : Char} (hd : isJsSpace d = false) {w1 w2 : Str}
    (h1 : ∀ c ∈ w1, isJsSpace c = true) (h2 : ∀ c ∈ w2, isJsSpace c = true) (x : Str) :
    (splitChar d (w1 ++ x ++ w2)).map jsTrim = (splitChar d x).map jsTrim := by
  rw [List.append_assoc, splitChar_pfx (not_mem_of_all_space hd h1),
    map_jsTrim_prependFirst h1 (splitChar_ne_nil _ _),
    splitChar_suffix (not_mem_of_all_space hd h2),
    map_jsTrim_appendLast h2 (splitChar_ne_nil _ _)]

theorem map_jsTrim_splitChar_jsTrim {d : Char} (hd : isJsSpace d = false) (x : Str) :
    (splitChar d (jsTrim x)).map jsTrim = (splitChar d x).map jsTrim := by
  obtain ⟨w1, w2, hx, h1, h2⟩ := jsTrim_decompose x
  conv_rhs => rw [hx]
  rw [map_jsTrim_splitChar_space hd h1 h2]

/-! ## Case-insensitive literals -/

theorem matchLitCI_append {lit u : Str} (h : SameIgnoringCase u lit) (r : Str) :
    matchLitCI lit (u ++ r) = some r := by
  unfold SameIgnoringCase at h
  induction lit generalizing u with
  | nil =>
    cases u with
    | nil => rfl
    | cons c cs => simp at h
  | cons x xs ih =>
    cases u with
    | nil => simp at h
    | cons c cs =>
      simp only [List.map_cons, List.cons.injEq] at h
      simp only [List.cons_append, matchLitCI, toUpper_eq_of_toLower_eq h.1, if_true]
      exact ih h.2

theorem matchLitCI_some {lit s r : Str} (h : matchLitCI lit s = some r) :
    ∃ u, s = u ++ r ∧ SameIgnoringCase u lit := by
  induction lit generalizing s with
  | nil =>
    simp only [matchLitCI, Option.some.injEq] at h
    exact ⟨[], by simp [h], rfl⟩
  | cons x xs ih =>
    cases s with
    | nil => simp [matchLitCI] at h
    | cons c cs =>
      simp only [matchLitCI] at h
      split at h
      · rename_i hc
        obtain ⟨u, hu, hsame⟩ := ih h
        refine ⟨c :: u, by simp [hu], ?_⟩
        unfold SameIgnoringCase at hsame ⊢
        simp [hsame, toLower_eq_of_toUpper_eq hc]
      · simp at h

/-! ## extractActions -/

theorem matchLitCI_length {lit s r : Str} (h : matchLitCI lit s = some r) :
    s.length = lit.length + r.length := by
  obtain ⟨u, hu, hsame⟩ := matchLitCI_some h
  have hl : u.length = lit.length := by
    have := congrArg List.length hsame
    simpa using this
  rw [hu, List.length_append, hl]

theorem matchLitCI_pfx {lit a : Str} (b : Str) (h : lit.length ≤ a.length) :
    matchLitCI lit (a ++ b) = (matchLitCI lit a).map (fun r => r ++ b) := by
  induction lit generalizing a with
  | nil => simp [matchLitCI]
  | cons x xs ih =>
    cases a with
    | nil => simp at h
    | cons c cs =>
      simp only [List.cons_append, matchLitCI]
      split
      · exact ih (by simpa using h)
      · rfl

/-- A literal without `[` cannot match across the start of a tag. -/
theorem matchLitCI_none_of_bracket {lit : Str} (hlit : ∀ x ∈ lit, x.toUpper ≠ '['.toUpper)
    (y rest : Str) (hy : y.length < lit.length) : matchLitCI lit (y ++ '[' :: rest) = none := by
  induction lit generalizing y with
  | nil => simp at hy
  | cons x xs ih =>
    cases y with
    | nil =>
      have hx : ¬ '['.toUpper = x.toUpper := fun h => hlit x (List.mem_cons_self _ _) h.symm
      rw [List.nil_append, matchLitCI, if_neg hx]
    | cons c cs =>
      simp only [List.cons_append, matchLitCI]
      split
      · exact ih (fun z hz => hlit z (List.mem_cons_of_mem _ hz)) cs (by simpa using hy)
      · rfl

theorem containsActionsTag_cons {c : Char} {x : Str} (h : ContainsActionsTag x) :
    ContainsActionsTag (c :: x) := by
  obtain ⟨p, t, s, hx, ht⟩ := h
  exact ⟨c :: p, t, s, by simp [hx], ht⟩

theorem containsActionsTag_append_left {q x : Str} (h : ContainsActionsTag x) :
    ContainsActionsTag (q ++ x) := by
  induction q with
  | nil => exact h
  | cons c cs ih => exact containsActionsTag_cons ih

theorem actionsTag_head {t : Str} (ht : SameIgnoringCase t "[Actions]".toList) :
    ∃ t', t = '[' :: t' ∧ t'.length = 8 := by
  have hl : t.length = 9 := by
    have := congrArg List.length ht
    simpa using this
  cases t with
  | nil => simp at hl
  | cons c cs =>
    refine ⟨cs, ?_, by simpa using hl⟩
    unfold SameIgnoringCase at ht
    have hc : c.toLower = '[' := by
      have := congrArg List.head? ht
      simpa using this
    have hn := congrArg Char.toNat hc
    rw [toNat_toLower] at hn
    have : c.toNat = '['.toNat := by
      have h91 : '['.toNat = 91 := by decide
      rw [h91] at hn ⊢
      split_ifs at hn <;> omega
    rw [char_eq_of_toNat_eq this]

theorem matchActions_ne_some_of_no_tag {x : Str} (hx : ¬ ContainsActionsTag x) :
    matchLitCI "[Actions]".toList x = none := by
  cases h : matchLitCI "[Actions]".toList x with
  | none => rfl
  | some r =>
    obtain ⟨u, hu, hsame⟩ := matchLitCI_some h
    exact absurd ⟨[], u, r, by simp [hu], hsame⟩ hx

theorem actionsSearch_none {x : Str} (hx : ¬ ContainsActionsTag x) : actionsSearch x = none := by
  induction x with
  | nil => rfl
  | cons c cs ih =>
    have h1 : actionsAt (c :: cs) = none := by
      unfold actionsAt
      rw [matchActions_ne_some_of_no_tag hx]
      rfl
    have h2 : actionsSearch cs = none := ih (fun h => hx (containsActionsTag_cons h))
    simp [actionsSearch, h1, h2]

/-- No match attempt succeeds inside a text without the tag, even when a tag
follows it. -/
theorem actionsAt_none_before_tag {y : Str} (hy : ¬ ContainsActionsTag y) (hne : y ≠ [])
    (rest : Str) : actionsAt (y ++ '[' :: rest) = none := by
  unfold actionsAt
  have hm : matchLitCI "[Actions]".toList (y ++ '[' :: rest) = none := by
    by_cases hlen : 9 ≤ y.length
    · rw [matchLitCI_pfx _ (by simpa using hlen), matchActions_ne_some_of_no_tag hy]
      rfl
    · cases y with
      | nil => exact absurd rfl hne
      | cons c cs =>
        have hlit : "[Actions]".toList = '[' :: "Actions]".toList := by decide
        rw [hlit, List.cons_append, matchLitCI]
        split
        · exact matchLitCI_none_of_bracket (by decide) cs rest (by
            simp only [List.length_cons] at hlen
            have : "Actions]".toList.length = 8 := by decide
            omega)
        · rfl
  rw [hm]
  rfl

theorem actionsSearch_skip {p : Str} (hp : ¬ ContainsActionsTag p) (rest : Str) :
    actionsSearch (p ++ '[' :: rest) =
      (actionsSearch ('[' :: rest)).map (fun r => (p ++ r.1, r.2)) := by
  induction p with
  | nil => cases h : actionsSearch ('[' :: rest) <;> simp [h]
  | cons c cs ih =>
    have h1 : actionsAt (c :: cs ++ '[' :: rest) = none :=
      actionsAt_none_before_tag hp (by simp) rest
    have hcs : ¬ ContainsActionsTag cs := fun h => hp (containsActionsTag_cons h)
    rw [List.cons_append] at h1 ⊢
    rw [actionsSearch, h1, ih hcs]
    cases actionsSearch ('[' :: rest) <;> simp

theorem spacesThenRest_some {s : Str} (hne : s ≠ [])
    (hs : ∀ c ∈ s, isLineTerminator c = false) :
    ∃ w g, s = w ++ g ∧ (∀ c ∈ w, isJsSpace c = true) ∧ spacesThenRest s = some g := by
  induction s with
  | nil => exact absurd rfl hne
  | cons c cs ih =>
    have hdot : dotPlusToEnd (c :: cs) = some (c :: cs) := by
      unfold dotPlusToEnd
      rw [if_pos]
      refine ⟨by simp, ?_⟩
      rw [List.all_eq_true]
      intro d hd
      simp [hs d hd]
    by_cases hc : isJsSpace c = true
    · by_cases hcs : cs = []
      · subst hcs
        exact ⟨[], [c], rfl, by simp, by simp [spacesThenRest, hc, hdot]⟩
      · obtain ⟨w, g, hwg, hw, hg⟩ := ih hcs (fun d hd => hs d (List.mem_cons_of_mem _ hd))
        refine ⟨c :: w, g, by simp [hwg], ?_, by simp [spacesThenRest, hc, hg]⟩
        intro d hd
        rcases List.mem_cons.1 hd with rfl | hd
        · exact hc
        · exact hw d hd
    · exact ⟨[], c :: cs, rfl, by simp, by simp [spacesThenRest, hc, hdot]⟩

theorem actionsSearch_short {x : Str} (h : x.length < 9) : actionsSearch x = none := by
  apply actionsSearch_none
  rintro ⟨p, t, s, hx, ht⟩
  have hl : t.length = 9 := by
    have := congrArg List.length ht
    simpa using this
  rw [hx] at h
  simp only [List.length_append] at h
  omega

/-- The search on a text whose first tag is followed by `s`. -/
theorem actionsSearch_at_tag {p t s : Str} (ht : SameIgnoringCase t "[Actions]".toList)
    (hp : ¬ ContainsActionsTag p) (hs : ∀ c ∈ s, isLineTerminator c = false) :
    actionsSearch (p ++ t ++ s) = (spacesThenRest s).map (fun g => (p, g)) := by
  obtain ⟨t', rfl, hlen⟩ := actionsTag_head ht
  have hat : actionsAt ('[' :: t' ++ s) = spacesThenRest s := by
    unfold actionsAt
    rw [matchLitCI_append ht]
    rfl
  rw [List.append_assoc, List.cons_append, actionsSearch_skip hp, actionsSearch,
    ← List.cons_append, hat]
  cases hsr : spacesThenRest s with
  | some g => simp
  | none =>
    have hs0 : s = [] := by
      by_contra hne
      obtain ⟨_, _, _, _, hg⟩ := spacesThenRest_some hne hs
      rw [hsr] at hg
      exact absurd hg (by simp)
    subst hs0
    simp [actionsSearch_short (x := t') (by omega)]

theorem extractActions_at_tag {p t s : Str} (ht : SameIgnoringCase t "[Actions]".toList)
    (hp : ¬ ContainsActionsTag p) (hs : ∀ c ∈ s, isLineTerminator c = false) :
    extractActions (p ++ t ++ s) =
      ((splitChar '|' s).map jsTrim).filter (fun a => a ≠ []) := by
  unfold extractActions
  rw [actionsSearch_at_tag ht hp hs]
  by_cases hne : s = []
  · subst hne
    have h1 : spacesThenRest [] = none := rfl
    have h2 : ((splitChar '|' []).map jsTrim).filter (fun a => a ≠ []) = [] := by decide
    rw [h1, h2]
    rfl
  · obtain ⟨w, g, hwg, hw, hg⟩ := spacesThenRest_some hne hs
    rw [hg]
    simp only [Option.map_some']
    rw [map_jsTrim_splitChar_jsTrim (by decide)]
    conv_rhs => rw [hwg]
    have := @map_jsTrim_splitChar_space '|' (by decide) w [] hw (by simp) g
    rw [List.append_nil] at this
    rw [this]

/-- C1: `extractActions` gives the empty list when the content has no `[Actions]`
tag (in any letter case); when the content is `p ++ tag ++ s` with no tag in `p`
and no line terminator in `s`, it gives the pieces of `s` split at `|`, each
trimmed, the empty ones removed, in order. -/
theorem extractActions_eq_reference :
    (∀ content : Str, ¬ ContainsActionsTag content → extractActions content = []) ∧
      (∀ p t s : Str, SameIgnoringCase t "[Actions]".toList → ¬ ContainsActionsTag p →
        (∀ c ∈ s, isLineTerminator c = false) →
          extractActions (p ++ t ++ s) =
            ((splitChar '|' s).map jsTrim).filter (fun a => a ≠ [])) ∧
      extractActions "... [Actions] A | B | C".toList = ["A".toList, "B".toList, "C".toList] ∧
      extractActions "no actions tag".toList = [] := by
  refine ⟨fun content h => ?_, fun p t s ht hp hs => extractActions_at_tag ht hp hs,
    by decide, by decide⟩
  unfold extractActions
  rw [actionsSearch_none h]

/-! ## The tag scanner -/

theorem jsTrim_dropWhile (x : Str) : jsTrim (x.dropWhile isJsSpace) = jsTrim x := by
  unfold jsTrim
  have : (x.dropWhile isJsSpace).dropWhile isJsSpace = x.dropWhile isJsSpace := by
    cases h : x.dropWhile isJsSpace with
    | nil => rfl
    | cons c cs =>
      have hc := List.head?_dropWhile_not isJsSpace x
      rw [h] at hc
      simp only [List.head?_cons] at hc
      simp [List.dropWhile_cons, hc]
  rw [this]

theorem matchTag_nil (names : List Str) : matchTag names [] = none := rfl

theorem matchTag_not_bracket (names : List Str) {c : Char} (hc : c ≠ '[') (r : Str) :
    matchTag names (c :: r) = none := by
  unfold matchTag
  split
  · rename_i r' heq
    simp only [List.cons.injEq] at heq
    exact absurd heq.1 hc
  · rfl

theorem matchTag_some_bracket {names : List Str} {s : Str} {res : Str × Str}
    (h : matchTag names s = some res) : ∃ r, s = '[' :: r := by
  cases s with
  | nil => simp [matchTag] at h
  | cons c r =>
    by_cases hc : c = '['
    · exact ⟨r, by rw [hc]⟩
    · rw [matchTag_not_bracket names hc] at h
      exact absurd h (by simp)

theorem tagOrEnd_not_bracket (names : List Str) {c : Char} (hc : c ≠ '[') (r : Str) :
    tagOrEnd names (c :: r) = false := by
  simp [tagOrEnd, matchTag_not_bracket names hc]

theorem tagOrEnd_nil (names : List Str) : tagOrEnd names [] = true := by
  simp [tagOrEnd]

theorem NoBracket.tail {c : Char} {x : Str} (h : NoBracket (c :: x)) : NoBracket x :=
  fun d hd => h d (List.mem_cons_of_mem _ hd)

theorem NoBracket.head {c : Char} {x : Str} (h : NoBracket (c :: x)) : c ≠ '[' ∧ c ≠ ']' :=
  h c (List.mem_cons_self _ _)

theorem lazyBody_cons (look : Str → Bool) (c : Char) (cs : Str) :
    lazyBody look (c :: cs) =
      if look (c :: cs) then some []
      else if c = '[' ∨ c = ']' then none
      else (lazyBody look cs).map (fun b => c :: b) := rfl

theorem scanSegments_zero_cons (names : List Str) (c : Char) (cs : Str) :
    scanSegments names 0 (c :: cs) =
      match segmentAt names (c :: cs) with
      | some (name, body, len) =>
        ⟨name.map Char.toLower, jsTrim body⟩ :: scanSegments names (len - 1) cs
      | none => scanSegments names 0 cs := rfl

theorem lazyBody_stop (names : List Str) {x : Str} (hx : NoBracket x) {y : Str}
    (hy : tagOrEnd names y = true) : lazyBody (tagOrEnd names) (x ++ y) = some x := by
  induction x with
  | nil =>
    cases y with
    | nil => simp [lazyBody, hy]
    | cons c r => simp [lazyBody, hy]
  | cons c cs ih =>
    have hc := hx.head
    rw [List.cons_append, lazyBody_cons, tagOrEnd_not_bracket names hc.1, ih hx.tail]
    simp [hc.1, hc.2]

theorem lazyBody_fail (names : List Str) {x : Str} (hx : NoBracket x) {c : Char} {r : Str}
    (hc : c = '[' ∨ c = ']') (hy : tagOrEnd names (c :: r) = false) :
    lazyBody (tagOrEnd names) (x ++ c :: r) = none := by
  induction x with
  | nil => simp [lazyBody, hy, hc]
  | cons d ds ih =>
    have hd := hx.head
    rw [List.cons_append, lazyBody_cons, tagOrEnd_not_bracket names hd.1, ih hx.tail]
    simp [hd.1, hd.2]

theorem not_space_bracket : isJsSpace '[' = false := by decide

theorem spacesThenBody_stop (names : List Str) {x : Str} (hx : NoBracket x) {y : Str}
    (hy : tagOrEnd names y = true) :
    spacesThenBody (tagOrEnd names) (x ++ y) =
      some ((x.takeWhile isJsSpace).length, x.dropWhile isJsSpace) := by
  induction x with
  | nil =>
    cases y with
    | nil => simp [spacesThenBody, lazyBody, hy]
    | cons c r =>
      have hb : c = '[' := by
        by_contra hne
        rw [tagOrEnd_not_bracket names hne] at hy
        exact absurd hy (by simp)
      subst hb
      simp [spacesThenBody, lazyBody, hy, not_space_bracket]
  | cons c cs ih =>
    by_cases hc : isJsSpace c = true
    · simp [spacesThenBody, hc, ih hx.tail, List.takeWhile_cons, List.dropWhile_cons]
    · have hl := lazyBody_stop names hx hy
      rw [List.cons_append] at hl
      simp [spacesThenBody, hc, hl, List.takeWhile_cons, List.dropWhile_cons]

theorem spacesThenBody_fail (names : List Str) {x : Str} (hx : NoBracket x) {c : Char} {r : Str}
    (hc : c = '[' ∨ c = ']') (hy : tagOrEnd names (c :: r) = false) :
    spacesThenBody (tagOrEnd names) (x ++ c :: r) = none := by
  induction x with
  | nil =>
    have hs : isJsSpace c = false := by
      rcases hc with rfl | rfl <;> decide
    have hl := lazyBody_fail names (x := []) (fun _ h => absurd h (List.not_mem_nil _)) hc hy
    rw [List.nil_append] at hl ⊢
    simp [spacesThenBody, hs, hl]
  | cons d ds ih =>
    have hl := lazyBody_fail names hx hc hy
    rw [List.cons_append] at hl ⊢
    by_cases hd : isJsSpace d = true
    · simp [spacesThenBody, hd, ih hx.tail, hl]
    · simp [spacesThenBody, hd, hl]

theorem scanSegments_skip (names : List Str) (x y : Str) :
    scanSegments names x.length (x ++ y) = scanSegments names 0 y := by
  induction x with
  | nil => rfl
  | cons c cs ih => simpa [scanSegments] using ih

theorem scanSegments_cons_none (names : List Str) {c : Char} {cs : Str}
    (h : segmentAt names (c :: cs) = none) :
    scanSegments names 0 (c :: cs) = scanSegments names 0 cs := by
  rw [scanSegments_zero_cons, h]

theorem segmentAt_not_bracket (names : List Str) {c : Char} (hc : c ≠ '[') (r : Str) :
    segmentAt names (c :: r) = none := by
  simp [segmentAt, matchTag_not_bracket names hc]

/-- Characters other than `[` start no segment. -/
theorem scanSegments_plain (names : List Str) {x : Str} (hx : ∀ c ∈ x, c ≠ '[') (y : Str) :
    scanSegments names 0 (x ++ y) = scanSegments names 0 y := by
  induction x with
  | nil => rfl
  | cons c cs ih =>
    rw [List.cons_append, scanSegments_cons_none names
      (segmentAt_not_bracket names (hx c (List.mem_cons_self _ _)) _)]
    exact ih (fun d hd => hx d (List.mem_cons_of_mem _ hd))

theorem segmentAt_tag {names : List Str} {nm : Str} (hnm : TagMatches names nm) {x : Str}
    (hx : NoBracket x) {y : Str} (hy : tagOrEnd names y = true) :
    segmentAt names ('[' :: (nm ++ ']' :: (x ++ y))) =
      some (nm, x.dropWhile isJsSpace, nm.length + 2 + x.length) := by
  unfold segmentAt
  rw [hnm]
  simp only [spacesThenBody_stop names hx hy, Option.map_some']
  have hlen : (x.takeWhile isJsSpace).length + (x.dropWhile isJsSpace).length = x.length := by
    rw [← List.length_append, List.takeWhile_append_dropWhile]
  simp only [Option.some.injEq, Prod.mk.injEq, true_and]
  omega

theorem segmentAt_tag_fail {names : List Str} {nm : Str} (hnm : TagMatches names nm) {x : Str}
    (hx : NoBracket x) {c : Char} {r : Str} (hc : c = '[' ∨ c = ']')
    (hy : tagOrEnd names (c :: r) = false) :
    segmentAt names ('[' :: (nm ++ ']' :: (x ++ c :: r))) = none := by
  unfold segmentAt
  rw [hnm]
  simp only [spacesThenBody_fail names hx hc hy, Option.map_none']

/-- One complete segment at the start of the text. -/
theorem scanSegments_tag {names : List Str} {nm : Str} (hnm : TagMatches names nm) {x : Str}
    (hx : NoBracket x) {y : Str} (hy : tagOrEnd names y = true) :
    scanSegments names 0 ('[' :: (nm ++ ']' :: (x ++ y))) =
      ⟨nm.map Char.toLower, jsTrim x⟩ :: scanSegments names 0 y := by
  rw [scanSegments_zero_cons, segmentAt_tag hnm hx hy]
  simp only
  rw [jsTrim_dropWhile]
  have hl : nm.length + 2 + x.length - 1 = (nm ++ ']' :: x).length := by
    simp only [List.length_append, List.length_cons]
    omega
  have ha : nm ++ ']' :: (x ++ y) = (nm ++ ']' :: x) ++ y := by simp
  rw [hl, ha, scanSegments_skip]

/-- A segment whose text runs into a bracket that starts no tag is not matched,
and the scan goes on after that text. -/
theorem scanSegments_tag_fail {names : List Str} {nm : Str} (hnm : TagMatches names nm)
    (hnb : ∀ c ∈ nm, c ≠ '[') {x : Str}
    (hx : NoBracket x) {c : Char} {r : Str} (hc : c = '[' ∨ c = ']')
    (hy : tagOrEnd names (c :: r) = false) :
    scanSegments names 0 ('[' :: (nm ++ ']' :: (x ++ c :: r))) = scanSegments names 0 (c :: r) := by
  rw [scanSegments_cons_none names (segmentAt_tag_fail hnm hx hc hy)]
  have ha : nm ++ ']' :: (x ++ c :: r) = (nm ++ ']' :: x) ++ c :: r := by simp
  rw [ha]
  apply scanSegments_plain
  intro d hd
  rcases List.mem_append.1 hd with h | h
  · exact hnb d h
  · rcases List.mem_cons.1 h with rfl | h
    · decide
    · exact (hx d h).1

/-! ## Tags in any letter case -/

theorem tagMatches_displayTags_vietsub {nm : Str} (h : SameIgnoringCase nm "Vietsub".toList) :
    TagMatches displayTags nm := by
  unfold SameIgnoringCase at h
  simp only [String.toList, List.map_cons, List.map_nil, List.map_eq_cons_iff,
    List.map_eq_nil_iff] at h
  obtain ⟨c1, _, rfl, h1, c2, _, rfl, h2, c3, _, rfl, h3, c4, _, rfl, h4, c5, _, rfl, h5, c6, _, rfl, h6, c7, _, rfl, h7, rfl⟩ := h
  intro rest
  have u1 := toUpper_eq_of_toLower_eq h1
  have u2 := toUpper_eq_of_toLower_eq h2
  have u3 := toUpper_eq_of_toLower_eq h3
  have u4 := toUpper_eq_of_toLower_eq h4
  have u5 := toUpper_eq_of_toLower_eq h5
  have u6 := toUpper_eq_of_toLower_eq h6
  have u7 := toUpper_eq_of_toLower_eq h7
  simp +decide [matchTag, displayTags, List.findSome?, matchLitCI, u1, u2, u3, u4, u5, u6, u7]

theorem tagMatches_displayTags_engsub {nm : Str} (h : SameIgnoringCase nm "Engsub".toList) :
    TagMatches displayTags nm := by
  unfold SameIgnoringCase at h
  simp only [String.toList, List.map_cons, List.map_nil, List.map_eq_cons_iff,
    List.map_eq_nil_iff] at h
  obtain ⟨c1, _, rfl, h1, c2, _, rfl, h2, c3, _, rfl, h3, c4, _, rfl, h4, c5, _, rfl, h5, c6, _, rfl, h6, rfl⟩ := h
  intro rest
  have u1 := toUpper_eq_of_toLower_eq h1
  have u2 := toUpper_eq_of_toLower_eq h2
  have u3 := toUpper_eq_of_toLower_eq h3
  have u4 := toUpper_eq_of_toLower_eq h4
  have u5 := toUpper_eq_of_toLower_eq h5
  have u6 := toUpper_eq_of_toLower_eq h6
  simp +decide [matchTag, displayTags, List.findSome?, matchLitCI, u1, u2, u3, u4, u5, u6]

theorem tagMatches_displayTags_table {nm : Str} (h : SameIgnoringCase nm "Table".toList) :
    TagMatches displayTags nm := by
  unfold SameIgnoringCase at h
  simp only [String.toList, List.map_cons, List.map_nil, List.map_eq_cons_iff,
    List.map_eq_nil_iff] at h
  obtain ⟨c1, _, rfl, h1, c2, _, rfl, h2, c3, _, rfl, h3, c4, _, rfl, h4, c5, _, rfl, h5, rfl⟩ := h
  intro rest
  have u1 := toUpper_eq_of_toLower_eq h1
  have u2 := toUpper_eq_of_toLower_eq h2
  have u3 := toUpper_eq_of_toLower_eq h3
  have u4 := toUpper_eq_of_toLower_eq h4
  have u5 := toUpper_eq_of_toLower_eq h5
  simp +decide [matchTag, displayTags, List.findSome?, matchLitCI, u1, u2, u3, u4, u5]

theorem tagMatches_displayTags_tip {nm : Str} (h : SameIgnoringCase nm "Tip".toList) :
    TagMatches displayTags nm := by
  unfold SameIgnoringCase at h
  simp only [String.toList, List.map_cons, List.map_nil, List.map_eq_cons_iff,
    List.map_eq_nil_iff] at h
  obtain ⟨c1, _, rfl, h1, c2, _, rfl, h2, c3, _, rfl, h3, rfl⟩ := h
  intro rest
  have u1 := toUpper_eq_of_toLower_eq h1
  have u2 := toUpper_eq_of_toLower_eq h2
  have u3 := toUpper_eq_of_toLower_eq h3
  simp +decide [matchTag, displayTags, List.findSome?, matchLitCI, u1, u2, u3]

theorem tagMatches_displayTags_list {nm : Str} (h : SameIgnoringCase nm "List".toList) :
    TagMatches displayTags nm := by
  unfold SameIgnoringCase at h
  simp only [String.toList, List.map_cons, List.map_nil, List.map_eq_cons_iff,
    List.map_eq_nil_iff] at h
  obtain ⟨c1, _, rfl, h1, c2, _, rfl, h2, c3, _, rfl, h3, c4, _, rfl, h4, rfl⟩ := h
  intro rest
  have u1 := toUpper_eq_of_toLower_eq h1
  have u2 := toUpper_eq_of_toLower_eq h2
  have u3 := toUpper_eq_of_toLower_eq h3
  have u4 := toUpper_eq_of_toLower_eq h4
  simp +decide [matchTag, displayTags, List.findSome?, matchLitCI, u1, u2, u3, u4]

theorem tagMatches_speechTags_vietsub {nm : Str} (h : SameIgnoringCase nm "Vietsub".toList) :
    TagMatches speechTags nm := by
  unfold SameIgnoringCase at h
  simp only [String.toList, List.map_cons, List.map_nil, List.map_eq_cons_iff,
    List.map_eq_nil_iff] at h
  obtain ⟨c1, _, rfl, h1, c2, _, rfl, h2, c3, _, rfl, h3, c4, _, rfl, h4, c5, _, rfl, h5, c6, _, rfl, h6, c7, _, rfl, h7, rfl⟩ := h
  intro rest
  have u1 := toUpper_eq_of_toLower_eq h1
  have u2 := toUpper_eq_of_toLower_eq h2
  have u3 := toUpper_eq_of_toLower_eq h3
  have u4 := toUpper_eq_of_toLower_eq h4
  have u5 := toUpper_eq_of_toLower_eq h5
  have u6 := toUpper_eq_of_toLower_eq h6
  have u7 := toUpper_eq_of_toLower_eq h7
  simp +decide [matchTag, speechTags, List.findSome?, matchLitCI, u1, u2, u3, u4, u5, u6, u7]

theorem tagMatches_speechTags_engsub {nm : Str} (h : SameIgnoringCase nm "Engsub".toList) :
    TagMatches speechTags nm := by
  unfold SameIgnoringCase at h
  simp only [String.toList, List.map_cons, List.map_nil, List.map_eq_cons_iff,
    List.map_eq_nil_iff] at h
  obtain ⟨c1, _, rfl, h1, c2, _, rfl, h2, c3, _, rfl, h3, c4, _, rfl, h4, c5, _, rfl, h5, c6, _, rfl, h6, rfl⟩ := h
  intro rest
  have u1 := toUpper_eq_of_toLower_eq h1
  have u2 := toUpper_eq_of_toLower_eq h2
  have u3 := toUpper_eq_of_toLower_eq h3
  have u4 := toUpper_eq_of_toLower_eq h4
  have u5 := toUpper_eq_of_toLower_eq h5
  have u6 := toUpper_eq_of_toLower_eq h6
  simp +decide [matchTag, speechTags, List.findSome?, matchLitCI, u1, u2, u3, u4, u5, u6]

theorem tagMatches_display {nm : Str} (h : IsTagName displayTags nm) :
    TagMatches displayTags nm := by
  obtain ⟨name, hname, hsame⟩ := h
  simp only [displayTags, List.mem_cons, List.mem_singleton, List.not_mem_nil, or_false] at hname
  rcases hname with rfl | rfl | rfl | rfl | rfl
  · exact tagMatches_displayTags_vietsub hsame
  · exact tagMatches_displayTags_engsub hsame
  · exact tagMatches_displayTags_table hsame
  · exact tagMatches_displayTags_tip hsame
  · exact tagMatches_displayTags_list hsame

theorem tagMatches_speech {nm : Str} (h : IsTagName speechTags nm) :
    TagMatches speechTags nm := by
  obtain ⟨name, hname, hsame⟩ := h
  simp only [speechTags, List.mem_cons, List.mem_singleton, List.not_mem_nil, or_false] at hname
  rcases hname with rfl | rfl
  · exact tagMatches_speechTags_vietsub hsame
  · exact tagMatches_speechTags_engsub hsame

theorem isTagName_noBracket {names : List Str} (hnames : ∀ name ∈ names, NoBracket name)
    {nm : Str} (h : IsTagName names nm) : NoBracket nm := by
  obtain ⟨name, hname, hsame⟩ := h
  intro c hc
  unfold SameIgnoringCase at hsame
  have hmem : c.toLower ∈ name.map Char.toLower := by
    rw [← hsame]
    exact List.mem_map_of_mem _ hc
  obtain ⟨d, hd, hdc⟩ := List.mem_map.1 hmem
  have hnb := hnames name hname d hd
  have hu := congrArg Char.toNat (toUpper_eq_of_toLower_eq hdc)
  rw [toNat_toUpper, toNat_toUpper] at hu
  have h91 : '['.toNat = 91 := by decide
  have h93 : ']'.toNat = 93 := by decide
  constructor
  · intro hcb
    apply hnb.1
    apply char_eq_of_toNat_eq
    rw [hcb, h91] at hu
    rw [h91]
    split_ifs at hu <;> omega
  · intro hcb
    apply hnb.2
    apply char_eq_of_toNat_eq
    rw [hcb, h93] at hu
    rw [h93]
    split_ifs at hu <;> omega

theorem displayTags_noBracket : ∀ name ∈ displayTags, NoBracket name := by
  unfold NoBracket
  decide

theorem speechTags_noBracket : ∀ name ∈ speechTags, NoBracket name := by
  unfold NoBracket
  decide

/-! ## splitByLanguage on a Vietsub/Engsub pair -/

theorem replaceAll_zero_cons (m : Str → Option (Str × Nat)) (c : Char) (cs : Str) :
    replaceAll m 0 (c :: cs) =
      match m (c :: cs) with
      | some (rep, len) => rep ++ replaceAll m (len - 1) cs
      | none => c :: replaceAll m 0 cs := rfl

theorem replaceAll_plain {m : Str → Option (Str × Nat)} {x : Str}
    (hm : ∀ c ∈ x, ∀ r, m (c :: r) = none) (y : Str) :
    replaceAll m 0 (x ++ y) = x ++ replaceAll m 0 y := by
  induction x with
  | nil => rfl
  | cons c cs ih =>
    rw [List.cons_append, replaceAll_zero_cons, hm c (List.mem_cons_self _ _)]
    simp only [List.cons_append, List.cons.injEq, true_and]
    exact ih (fun d hd => hm d (List.mem_cons_of_mem _ hd))

theorem replaceAll_nil (m : Str → Option (Str × Nat)) (k : Nat) : replaceAll m k [] = [] := by
  cases k <;> rfl

/-- The shape of the text of the claim once trimmed: two tags, each followed by
a text without brackets. -/
theorem replaceAll_two_tags {m : Str → Option (Str × Nat)}
    (hplain : ∀ c r, c ≠ '[' → c ≠ '*' → m (c :: r) = none)
    (hV : ∀ r, m ('[' :: 'V' :: r) = none) (hE : ∀ r, m ('[' :: 'E' :: r) = none)
    {x1 x2 : Str} (h1 : ∀ c ∈ x1, c ≠ '[' ∧ c ≠ '*') (h2 : ∀ c ∈ x2, c ≠ '[' ∧ c ≠ '*') :
    replaceAll m 0 ('[' :: 'V' :: (x1 ++ '[' :: 'E' :: x2)) =
      '[' :: 'V' :: (x1 ++ '[' :: 'E' :: x2) := by
  have hp : ∀ {x : Str}, (∀ c ∈ x, c ≠ '[' ∧ c ≠ '*') → ∀ c ∈ x, ∀ r, m (c :: r) = none :=
    fun hx c hc r => hplain c r (hx c hc).1 (hx c hc).2
  rw [replaceAll_zero_cons, hV]
  simp only
  rw [show 'V' :: (x1 ++ '[' :: 'E' :: x2) = ('V' :: x1) ++ '[' :: 'E' :: x2 from rfl,
    replaceAll_plain (hp (x := 'V' :: x1) (by
      intro c hc
      rcases List.mem_cons.1 hc with rfl | hc
      · decide
      · exact h1 c hc)),
    replaceAll_zero_cons, hE]
  simp only
  rw [show 'E' :: x2 = ('E' :: x2) ++ [] by simp,
    replaceAll_plain (hp (x := 'E' :: x2) (by
      intro c hc
      rcases List.mem_cons.1 hc with rfl | hc
      · decide
      · exact h2 c hc)), replaceAll_nil]

theorem matchLitCI_head_ne {x c : Char} (h : ¬ c.toUpper = x.toUpper) (xs cs : Str) :
    matchLitCI (x :: xs) (c :: cs) = none := by
  simp [matchLitCI, h]

theorem upper_bracket_of {c : Char} (h : c.toUpper = '['.toUpper) : c = '[' := by
  apply char_eq_of_toNat_eq
  have hn := congrArg Char.toNat h
  rw [toNat_toUpper, toNat_toUpper] at hn
  have h91 : '['.toNat = 91 := by decide
  rw [h91] at hn ⊢
  split_ifs at hn <;> omega

theorem actionsToEndMatch_plain (c : Char) (r : Str) (hc : c ≠ '[') (_h : c ≠ '*') :
    actionsToEndMatch (c :: r) = none := by
  unfold actionsToEndMatch
  have : matchLitCI "[Actions]".toList (c :: r) = none := by
    rw [show "[Actions]".toList = '[' :: "Actions]".toList by decide]
    exact matchLitCI_head_ne (fun h => hc (upper_bracket_of h)) _ _
  rw [this]

theorem tagBodyMatch_plain {tag : Str} (htag : ∃ t, tag = '[' :: t) (c : Char) (r : Str)
    (hc : c ≠ '[') (_h : c ≠ '*') : tagBodyMatch tag (c :: r) = none := by
  obtain ⟨t, rfl⟩ := htag
  unfold tagBodyMatch
  rw [matchLitCI_head_ne (fun h => hc (upper_bracket_of h))]

theorem starGroupMatch_plain (wrap : Str → Str) (c : Char) (r : Str) (_h : c ≠ '[')
    (hc : c ≠ '*') : starGroupMatch wrap (c :: r) = none := by
  simp [starGroupMatch, stripPrefix, hc]

theorem dropWhile_eq_self_of_head? {p : Char → Bool} {l : Str}
    (h : ∀ c, l.head? = some c → p c = false) : l.dropWhile p = l := by
  cases l with
  | nil => rfl
  | cons c cs => simp [List.dropWhile_cons, h c rfl]

theorem jsTrim_eq_self {x : Str} (h1 : ∀ c, x.head? = some c → isJsSpace c = false)
    (h2 : ∀ c, x.getLast? = some c → isJsSpace c = false) : jsTrim x = x := by
  unfold jsTrim
  rw [dropWhile_eq_self_of_head? h1, dropWhile_eq_self_of_head? (l := x.reverse) (by
    intro c hc
    rw [List.head?_reverse] at hc
    exact h2 c hc), List.reverse_reverse]

theorem jsTrim_getLast_not_space (x : Str) :
    ∀ c, (jsTrim x).getLast? = some c → isJsSpace c = false := by
  intro c hc
  unfold jsTrim at hc
  rw [List.getLast?_reverse] at hc
  have := List.head?_dropWhile_not isJsSpace (x.dropWhile isJsSpace).reverse
  rw [hc] at this
  exact this

theorem jsTrim_head_not_space (x : Str) :
    ∀ c, (jsTrim x).head? = some c → isJsSpace c = false := by
  intro c hc
  have hd : x.dropWhile isJsSpace =
      jsTrim x ++ ((x.dropWhile isJsSpace).reverse.takeWhile isJsSpace).reverse := by
    unfold jsTrim
    rw [← List.reverse_append, List.takeWhile_append_dropWhile, List.reverse_reverse]
  have hnot := List.head?_dropWhile_not isJsSpace x
  rw [hd] at hnot
  cases hj : jsTrim x with
  | nil => rw [hj] at hc; simp at hc
  | cons d ds =>
    rw [hj] at hc hnot
    simp only [List.head?_cons, Option.some.injEq] at hc
    simp only [List.cons_append, List.head?_cons] at hnot
    rw [← hc]
    exact hnot

theorem speechText_two_tags (x1 x2 x2' : Str)
    (h1 : ∀ c ∈ x1, c ≠ '[' ∧ c ≠ '*') (h2 : ∀ c ∈ x2, c ≠ '[' ∧ c ≠ '*')
    (h2' : ∀ c ∈ x2', c ≠ '[' ∧ c ≠ '*')
    (hm1 : ∀ c ∈ x1, isMarkdownChar c = false) (hm2 : ∀ c ∈ x2', isMarkdownChar c = false)
    (htrim : jsTrim ('[' :: 'V' :: (x1 ++ '[' :: 'E' :: x2)) =
      '[' :: 'V' :: (x1 ++ '[' :: 'E' :: x2')) :
    speechText ('[' :: 'V' :: (x1 ++ '[' :: 'E' :: x2)) =
      '[' :: 'V' :: (x1 ++ '[' :: 'E' :: x2') := by
  unfold speechText
  simp only
  rw [replaceAll_two_tags actionsToEndMatch_plain
      (fun r => by simp +decide [actionsToEndMatch, matchLitCI])
      (fun r => by simp +decide [actionsToEndMatch, matchLitCI]) h1 h2, htrim,
    replaceAll_two_tags (tagBodyMatch_plain ⟨"Table]".toList, by decide⟩)
      (fun r => by simp +decide [tagBodyMatch, matchLitCI])
      (fun r => by simp +decide [tagBodyMatch, matchLitCI]) h1 h2',
    replaceAll_two_tags (tagBodyMatch_plain ⟨"Tip]".toList, by decide⟩)
      (fun r => by simp +decide [tagBodyMatch, matchLitCI])
      (fun r => by simp +decide [tagBodyMatch, matchLitCI]) h1 h2',
    replaceAll_two_tags (starGroupMatch_plain id)
      (fun r => by simp +decide [starGroupMatch, stripPrefix])
      (fun r => by simp +decide [starGroupMatch, stripPrefix]) h1 h2']
  rw [List.filter_eq_self]
  intro c hc
  rcases List.mem_cons.1 hc with rfl | hc
  · decide
  rcases List.mem_cons.1 hc with rfl | hc
  · decide
  rcases List.mem_append.1 hc with hc | hc
  · simp [hm1 c hc]
  rcases List.mem_cons.1 hc with rfl | hc
  · decide
  rcases List.mem_cons.1 hc with rfl | hc
  · decide
  · simp [hm2 c hc]

theorem isPlainSpeech_iff {x : Str} (h : isPlainSpeech x = true) :
    ∀ c ∈ x, c ≠ '[' ∧ c ≠ ']' ∧ isMarkdownChar c = false ∧ c ≠ '"' ∧ c ≠ '/' := by
  intro c hc
  unfold isPlainSpeech at h
  have := List.all_eq_true.1 h c hc
  simpa [and_assoc] using this

theorem not_star_of_not_markdown {c : Char} (h : isMarkdownChar c = false) : c ≠ '*' := by
  intro hc
  rw [hc] at h
  exact absurd h (by decide)

theorem stripLetterDash_eq_self {x : Str} (h : startsWithLetterSpacesHyphen x = false) :
    stripLetterDash x = x := by
  cases x with
  | nil => rfl
  | cons c r =>
    unfold stripLetterDash
    unfold startsWithLetterSpacesHyphen at h
    by_cases hu : isAsciiUpper c = true
    · simp only [hu, Bool.true_and, if_true] at h ⊢
      cases hd : r.dropWhile isJsSpace with
      | nil => rfl
      | cons d ds =>
        rw [hd] at h
        have hne : d ≠ '-' := by
          intro hdd
          rw [hdd] at h
          simp at h
        split
        · rename_i rest heq
          simp only [List.cons.injEq] at heq
          exact absurd heq.1 hne
        · rfl
    · simp [hu]

/-- One speech segment whose text needs no cleaning. -/
theorem speechOfSegment_plain (tag : Str) {t : Str} (hp : isPlainSpeech t = true)
    (hd : startsWithLetterSpacesHyphen t = false) (ht : jsTrim t = t) (hl : 2 ≤ jsLength t) :
    speechOfSegment ⟨tag, t⟩ =
      some ⟨t, if tag = "vietsub".toList then "vi".toList else "en".toList⟩ := by
  have hplain := isPlainSpeech_iff hp
  have hfilter : t.filter (fun c => c != '"') = t := by
    rw [List.filter_eq_self]
    intro c hc
    simpa using (hplain c hc).2.2.2.1
  have hmap : t.map (fun c => if c = '/' then ' ' else c) = t := by
    conv_rhs => rw [← List.map_id t]
    apply List.map_congr_left
    intro c hc
    simp [(hplain c hc).2.2.2.2]
  have hne : t ≠ [] := by
    intro h0
    rw [h0] at hl
    simp [jsLength] at hl
  unfold speechOfSegment
  simp only [stripLetterDash_eq_self hd, hfilter, hmap, ht]
  rw [if_neg (by
    intro h
    rcases h with h | h
    · exact hne h
    · omega)]
  rw [if_neg (by
    intro h
    rcases h with h | h
    · exact hne h
    · omega)]

theorem jsLength_pos_ne_nil {t : Str} (h : 2 ≤ jsLength t) : t ≠ [] := by
  intro h0
  rw [h0] at h
  simp [jsLength] at h

/-- The segments of a Vietsub/Engsub pair with bracket-free texts. -/
theorem scanSegments_pair {a b : Str} (ha : NoBracket a) (hb : NoBracket b) :
    scanSegments speechTags 0
        ('[' :: ("Vietsub".toList ++ ']' :: ((' ' :: (a ++ [' '])) ++
          ('[' :: ("Engsub".toList ++ ']' :: ((' ' :: b) ++ []))))))
      = [⟨"vietsub".toList, jsTrim a⟩, ⟨"engsub".toList, jsTrim b⟩] := by
  have hV : TagMatches speechTags "Vietsub".toList := tagMatches_speechTags_vietsub rfl
  have hE : TagMatches speechTags "Engsub".toList := tagMatches_speechTags_engsub rfl
  have hsp : ∀ c ∈ [' '], isJsSpace c = true := by decide
  have hxa : NoBracket (' ' :: (a ++ [' '])) := by
    intro c hc
    rcases List.mem_cons.1 hc with rfl | hc
    · decide
    rcases List.mem_append.1 hc with hc | hc
    · exact ha c hc
    · rw [List.mem_singleton.1 hc]; decide
  have hxb : NoBracket (' ' :: b) := by
    intro c hc
    rcases List.mem_cons.1 hc with rfl | hc
    · decide
    · exact hb c hc
  rw [scanSegments_tag hV hxa (by
      unfold tagOrEnd
      rw [hE]
      rfl),
    scanSegments_tag hE hxb (tagOrEnd_nil _)]
  have e1 : jsTrim (' ' :: (a ++ [' '])) = jsTrim a := by
    rw [show ' ' :: (a ++ [' ']) = [' '] ++ (a ++ [' ']) from rfl, jsTrim_space_append hsp,
      jsTrim_append_space hsp]
  have e2 : jsTrim (' ' :: b) = jsTrim b := by
    rw [show ' ' :: b = [' '] ++ b from rfl, jsTrim_space_append hsp]
  rw [e1, e2]
  rfl

theorem getLast?_append_ne_nil (x : Str) {y : Str} (hy : y ≠ []) :
    (x ++ y).getLast? = y.getLast? := by
  rw [List.getLast?_eq_getLast _ (by simp [hy]), List.getLast?_eq_getLast _ hy,
    List.getLast_append_of_ne_nil]

/-- C10, as amended: for texts `a` and `b` without brackets, markdown characters,
double quotes and slashes, whose trimmed forms have at least 2 code units and do
not start with an upper-case letter followed by optional white space and `-`,
`splitByLanguage` of the tagged pair is the two segments of the trimmed texts,
Vietnamese first. -/
theorem splitByLanguage_vietsub_engsub (a b : Str)
    (ha : isPlainSpeech a = true) (hb : isPlainSpeech b = true)
    (hda : startsWithLetterSpacesHyphen (jsTrim a) = false)
    (hdb : startsWithLetterSpacesHyphen (jsTrim b) = false)
    (hla : 2 ≤ jsLength (jsTrim a)) (hlb : 2 ≤ jsLength (jsTrim b)) :
    splitByLanguage ("[Vietsub] ".toList ++ a ++ " [Engsub] ".toList ++ b) =
      [⟨jsTrim a, "vi".toList⟩, ⟨jsTrim b, "en".toList⟩] := by
  obtain ⟨w1, w2, hbd, hw1, hw2⟩ := jsTrim_decompose b
  have hpa := isPlainSpeech_iff ha
  have hpb := isPlainSpeech_iff hb
  have hmem : ∀ c ∈ w1 ++ jsTrim b, c ∈ b := by
    intro c hc
    rw [hbd]
    exact List.mem_append_left _ hc
  have hta : ∀ c ∈ jsTrim a, c ∈ a := by
    obtain ⟨v1, v2, had, _, _⟩ := jsTrim_decompose a
    intro c hc
    rw [had]
    exact List.mem_append_left _ (List.mem_append_right _ hc)
  have htb : ∀ c ∈ jsTrim b, c ∈ b := fun c hc => hmem c (List.mem_append_right _ hc)
  have hne : jsTrim b ≠ [] := jsLength_pos_ne_nil hlb
  -- the text, with its two tags made visible
  have htext : "[Vietsub] ".toList ++ a ++ " [Engsub] ".toList ++ b =
      '[' :: 'V' :: (("ietsub] ".toList ++ a ++ [' ']) ++
        '[' :: 'E' :: ("ngsub] ".toList ++ b)) := by simp
  have htrim : jsTrim ('[' :: 'V' :: (("ietsub] ".toList ++ a ++ [' ']) ++
        '[' :: 'E' :: ("ngsub] ".toList ++ b))) =
      '[' :: 'V' :: (("ietsub] ".toList ++ a ++ [' ']) ++
        '[' :: 'E' :: ("ngsub] ".toList ++ (w1 ++ jsTrim b))) := by
    have e : '[' :: 'V' :: (("ietsub] ".toList ++ a ++ [' ']) ++
          '[' :: 'E' :: ("ngsub] ".toList ++ b)) =
        ('[' :: 'V' :: (("ietsub] ".toList ++ a ++ [' ']) ++
          '[' :: 'E' :: ("ngsub] ".toList ++ w1)) ++ jsTrim b) ++ w2 := by
      conv_lhs => rw [hbd]
      simp
    have e2 : '[' :: 'V' :: (("ietsub] ".toList ++ a ++ [' ']) ++
          '[' :: 'E' :: ("ngsub] ".toList ++ (w1 ++ jsTrim b))) =
        ('[' :: 'V' :: (("ietsub] ".toList ++ a ++ [' ']) ++
          '[' :: 'E' :: ("ngsub] ".toList ++ w1)) ++ jsTrim b) := by simp
    rw [e, jsTrim_append_space hw2, e2]
    apply jsTrim_eq_self
    · intro c hc
      simp only [List.cons_append, List.head?_cons, Option.some.injEq] at hc
      rw [← hc]
      decide
    · intro c hc
      rw [getLast?_append_ne_nil _ hne] at hc
      exact jsTrim_getLast_not_space b c hc
  have hlit1 : ∀ c ∈ "ietsub] ".toList, c ≠ '[' ∧ c ≠ '*' ∧ isMarkdownChar c = false := by
    decide
  have hlit2 : ∀ c ∈ "ngsub] ".toList, c ≠ '[' ∧ c ≠ '*' ∧ isMarkdownChar c = false := by
    decide
  have hx1 : ∀ c ∈ "ietsub] ".toList ++ a ++ [' '],
      c ≠ '[' ∧ c ≠ '*' ∧ isMarkdownChar c = false := by
    intro c hc
    rcases List.mem_append.1 hc with hc | hc
    · rcases List.mem_append.1 hc with hc | hc
      · exact hlit1 c hc
      · exact ⟨(hpa c hc).1, not_star_of_not_markdown (hpa c hc).2.2.1, (hpa c hc).2.2.1⟩
    · rw [List.mem_singleton.1 hc]; decide
  have hx2 : ∀ (z : Str), (∀ c ∈ z, c ∈ b) →
      ∀ c ∈ "ngsub] ".toList ++ z, c ≠ '[' ∧ c ≠ '*' ∧ isMarkdownChar c = false := by
    intro z hz c hc
    rcases List.mem_append.1 hc with hc | hc
    · exact hlit2 c hc
    · have := hpb c (hz c hc)
      exact ⟨this.1, not_star_of_not_markdown this.2.2.1, this.2.2.1⟩
  have hspeech := speechText_two_tags
    ("ietsub] ".toList ++ a ++ [' ']) ("ngsub] ".toList ++ b)
    ("ngsub] ".toList ++ (w1 ++ jsTrim b))
    (fun c hc => ⟨(hx1 c hc).1, (hx1 c hc).2.1⟩)
    (fun c hc => ⟨(hx2 b (fun _ h => h) c hc).1, (hx2 b (fun _ h => h) c hc).2.1⟩)
    (fun c hc => ⟨(hx2 _ hmem c hc).1, (hx2 _ hmem c hc).2.1⟩)
    (fun c hc => (hx1 c hc).2.2) (fun c hc => (hx2 _ hmem c hc).2.2) htrim
  have hshape : '[' :: 'V' :: (("ietsub] ".toList ++ a ++ [' ']) ++
        '[' :: 'E' :: ("ngsub] ".toList ++ (w1 ++ jsTrim b))) =
      '[' :: ("Vietsub".toList ++ ']' :: ((' ' :: (a ++ [' '])) ++
          ('[' :: ("Engsub".toList ++ ']' :: ((' ' :: (w1 ++ jsTrim b)) ++ []))))) := by simp
  have hsegs := scanSegments_pair (a := a) (b := w1 ++ jsTrim b)
    (fun c hc => ⟨(hpa c hc).1, (hpa c hc).2.1⟩)
    (fun c hc => ⟨(hpb c (hmem c hc)).1, (hpb c (hmem c hc)).2.1⟩)
  have hjb : jsTrim (w1 ++ jsTrim b) = jsTrim b := by
    rw [jsTrim_space_append hw1, jsTrim_idem]
  have hplain : ∀ {t u : Str}, (∀ c ∈ t, c ∈ u) → isPlainSpeech u = true →
      isPlainSpeech t = true := by
    intro t u htu hu
    unfold isPlainSpeech at hu ⊢
    rw [List.all_eq_true] at hu ⊢
    exact fun c hc => hu c (htu c hc)
  unfold splitByLanguage
  simp only
  rw [htext, hspeech, hshape, hsegs, hjb]
  simp only [List.filterMap_cons, List.filterMap_nil,
    speechOfSegment_plain "vietsub".toList (hplain hta ha) hda (jsTrim_idem a) hla,
    speechOfSegment_plain "engsub".toList (hplain htb hb) hdb (jsTrim_idem b) hlb]
  simp +decide

/-- Witness of C10 as amended: the example of the specification. -/
theorem splitByLanguage_vietsub_engsub_witness :
    splitByLanguage "[Vietsub] Xin chào [Engsub] Hello world".toList =
      [⟨"Xin chào".toList, "vi".toList⟩, ⟨"Hello world".toList, "en".toList⟩] := by
  have h := splitByLanguage_vietsub_engsub "Xin chào".toList "Hello world".toList
    (by decide) (by decide) (by decide) (by decide) (by decide) (by decide)
  have e1 : "[Vietsub] ".toList ++ "Xin chào".toList ++ " [Engsub] ".toList
      ++ "Hello world".toList = "[Vietsub] Xin chào [Engsub] Hello world".toList := by decide
  have e2 : jsTrim "Xin chào".toList = "Xin chào".toList := by decide
  have e3 : jsTrim "Hello world".toList = "Hello world".toList := by decide
  rw [e1, e2, e3] at h
  exact h

/-- Counterexample to C10 as stated: "A - xin chào" has no bracket, markdown
character, double quote or slash, does not start with an upper-case letter
followed by `-` (a space follows the letter) and has trimmed length 12, yet its
segment is "xin chào": the leading "A - " is removed. -/
theorem splitByLanguage_letter_dash_counterexample :
    isPlainSpeech "A - xin chào".toList = true ∧
      isPlainSpeech "Hello world".toList = true ∧
      startsWithLetterHyphen "A - xin chào".toList = false ∧
      startsWithLetterHyphen "Hello world".toList = false ∧
      2 ≤ jsLength (jsTrim "A - xin chào".toList) ∧
      2 ≤ jsLength (jsTrim "Hello world".toList) ∧
      splitByLanguage ("[Vietsub] ".toList ++ "A - xin chào".toList ++ " [Engsub] ".toList
          ++ "Hello world".toList) =
        [⟨"xin chào".toList, "vi".toList⟩, ⟨"Hello world".toList, "en".toList⟩] ∧
      splitByLanguage ("[Vietsub] ".toList ++ "A - xin chào".toList ++ " [Engsub] ".toList
          ++ "Hello world".toList) ≠
        [⟨jsTrim "A - xin chào".toList, "vi".toList⟩,
         ⟨jsTrim "Hello world".toList, "en".toList⟩] := by
  decide

/-! ## removeActionsTag and formatMessageContent -/

theorem removeActionsTag_no_tag {x : Str} (hx : ¬ ContainsActionsTag x) :
    removeActionsTag x = jsTrim x := by
  unfold removeActionsTag
  rw [actionsSearch_none hx]

theorem removeActionsTag_at_tag {p t s : Str} (ht : SameIgnoringCase t "[Actions]".toList)
    (hp : ¬ ContainsActionsTag p) (hne : s ≠ []) (hs : ∀ c ∈ s, isLineTerminator c = false) :
    removeActionsTag (p ++ t ++ s) = jsTrim p := by
  unfold removeActionsTag
  rw [actionsSearch_at_tag ht hp hs]
  obtain ⟨w, g, _, _, hg⟩ := spacesThenRest_some hne hs
  rw [hg]
  rfl

set_option maxRecDepth 100000 in
/-- C2, on the code: when the first `[Actions]` tag is followed by a non-empty
tail without line terminator, the render is the render of the text before the
tag; with nothing after the tag (or a line terminator in the tail) the tag is
not removed, the segment before it is not matched and the raw text is shown. -/
theorem formatMessageContent_actions_tail :
    (∀ (p t s : Str) (isStreaming : Bool), SameIgnoringCase t "[Actions]".toList →
        ¬ ContainsActionsTag p → s ≠ [] → (∀ c ∈ s, isLineTerminator c = false) →
        formatMessageContent (p ++ t ++ s) isStreaming = formatMessageContent p isStreaming) ∧
      formatMessageContent "[Vietsub] hello [Actions]".toList false =
        "<span class=\"vietnamese-text\">[Vietsub] hello [Actions]</span>".toList ∧
      formatMessageContent "[Vietsub] hello ".toList false =
        "<span class=\"vietnamese-text\">hello</span>".toList ∧
      formatMessageContent "[Vietsub] hello [Actions] A | B\nC".toList false =
        "<span class=\"vietnamese-text\">[Vietsub] hello [Actions] A | B<br>C</span>".toList := by
  refine ⟨fun p t s isStreaming ht hp hne hs => ?_, by decide, by decide, by decide⟩
  unfold formatMessageContent
  rw [removeActionsTag_at_tag ht hp hne hs, removeActionsTag_no_tag hp]

/-! ## Texts made of complete tagged segments -/

theorem taggedText_append (a b : List (Str × Str)) :
    taggedText (a ++ b) = taggedText a ++ taggedText b := by
  induction a with
  | nil => rfl
  | cons s rest ih => simp [taggedText, ih]

theorem taggedText_concat_space (segs : List (Str × Str)) (nm bt w : Str) :
    taggedText (segs ++ [(nm, bt ++ w)]) = taggedText (segs ++ [(nm, bt)]) ++ w := by
  simp [taggedText_append, taggedText]

theorem trimEnd_decompose (body : Str) :
    ∃ bt w : Str, body = bt ++ w ∧ (∀ c ∈ w, isJsSpace c = true) ∧
      ∀ c, bt.getLast? = some c → isJsSpace c = false := by
  refine ⟨(body.reverse.dropWhile isJsSpace).reverse,
    (body.reverse.takeWhile isJsSpace).reverse, ?_, ?_, ?_⟩
  · rw [← List.reverse_append, List.takeWhile_append_dropWhile, List.reverse_reverse]
  · intro c hc
    exact List.mem_takeWhile_imp (List.mem_reverse.1 hc)
  · intro c hc
    rw [List.getLast?_reverse] at hc
    have := List.head?_dropWhile_not isJsSpace body.reverse
    rw [hc] at this
    exact this

theorem not_space_of_letter {c : Char} (h : isAsciiLetter c = true) : isJsSpace c = false := by
  unfold isAsciiLetter at h
  unfold isJsSpace
  simp only [Bool.or_eq_true, Bool.and_eq_true, decide_eq_true_eq] at h
  simp only [Bool.or_eq_false_iff, Bool.and_eq_false_iff, beq_eq_false_iff_ne, ne_eq,
    decide_eq_false_iff_not]
  omega

theorem not_bracket_of_letter {c : Char} (h : isAsciiLetter c = true) : c ≠ '[' ∧ c ≠ ']' := by
  constructor <;>
  · intro hc
    rw [hc] at h
    exact absurd h (by decide)

/-! ### The actions tag does not occur in such a text -/

theorem actionsAt_not_bracket {c : Char} (hc : c ≠ '[') (r : Str) : actionsAt (c :: r) = none := by
  unfold actionsAt
  rw [show "[Actions]".toList = '[' :: "Actions]".toList by decide,
    matchLitCI_head_ne (fun h => hc (upper_bracket_of h))]
  rfl

theorem actionsSearch_cons_none {c : Char} {cs : Str} (h1 : actionsAt (c :: cs) = none)
    (h2 : actionsSearch cs = none) : actionsSearch (c :: cs) = none := by
  simp [actionsSearch, h1, h2]

theorem actionsSearch_plain_none {x : Str} (hx : ∀ c ∈ x, c ≠ '[') {y : Str}
    (hy : actionsSearch y = none) : actionsSearch (x ++ y) = none := by
  induction x with
  | nil => exact hy
  | cons c cs ih =>
    exact actionsSearch_cons_none (actionsAt_not_bracket (hx c (List.mem_cons_self _ _)) _)
      (ih (fun d hd => hx d (List.mem_cons_of_mem _ hd)))

theorem actionsAt_display_tag {nm : Str} (h : IsTagName displayTags nm) (r : Str) :
    actionsAt ('[' :: (nm ++ r)) = none := by
  obtain ⟨name, hname, hsame⟩ := h
  have hm : ∀ (c : Char) (cs : Str), ¬ c.toUpper = 'A'.toUpper →
      actionsAt ('[' :: (c :: cs ++ r)) = none := by
    intro c cs hc
    unfold actionsAt
    rw [show "[Actions]".toList = '[' :: 'A' :: "ctions]".toList by decide, matchLitCI]
    simp only [if_true, List.cons_append]
    rw [matchLitCI_head_ne hc]
    rfl
  unfold SameIgnoringCase at hsame
  simp only [displayTags, List.mem_cons, List.mem_singleton, List.not_mem_nil, or_false] at hname
  rcases hname with rfl | rfl | rfl | rfl | rfl <;>
  · simp only [String.toList, List.map_cons, List.map_eq_cons_iff] at hsame
    obtain ⟨c1, cs, rfl, h1, _⟩ := hsame
    apply hm
    rw [toUpper_eq_of_toLower_eq h1]
    decide

theorem actionsSearch_tagged {segs : List (Str × Str)} (hsegs : WellTagged displayTags segs)
    {z : Str} (hz : actionsSearch z = none) : actionsSearch (taggedText segs ++ z) = none := by
  induction segs with
  | nil => exact hz
  | cons s rest ih =>
    have hs := hsegs s (List.mem_cons_self _ _)
    have hrest : WellTagged displayTags rest := fun t ht => hsegs t (List.mem_cons_of_mem _ ht)
    have hnb := isTagName_noBracket displayTags_noBracket hs.1
    rw [taggedText, List.cons_append]
    apply actionsSearch_cons_none
    · rw [List.append_assoc]
      exact actionsAt_display_tag hs.1 _
    · rw [show s.1 ++ ']' :: (s.2 ++ taggedText rest) ++ z =
          (s.1 ++ ']' :: s.2) ++ (taggedText rest ++ z) by simp]
      apply actionsSearch_plain_none _ (ih hrest)
      intro c hc
      rcases List.mem_append.1 hc with h | h
      · exact (hnb c h).1
      · rcases List.mem_cons.1 h with rfl | h
        · decide
        · exact (hs.2 c h).1

theorem lower_eq_close_bracket {c : Char} (h : c.toLower = ']'.toLower) : c = ']' := by
  apply char_eq_of_toNat_eq
  have hn := congrArg Char.toNat h
  rw [toNat_toLower, toNat_toLower] at hn
  have h93 : ']'.toNat = 93 := by decide
  rw [h93] at hn ⊢
  split_ifs at hn <;> omega

theorem matchLitCI_mem_close {lit s r : Str} (hlit : ']' ∈ lit)
    (h : matchLitCI lit s = some r) : ']' ∈ s := by
  obtain ⟨u, hu, hsame⟩ := matchLitCI_some h
  unfold SameIgnoringCase at hsame
  have hmem : ']'.toLower ∈ u.map Char.toLower := by
    rw [hsame]
    exact List.mem_map_of_mem _ hlit
  obtain ⟨d, hd, hdc⟩ := List.mem_map.1 hmem
  rw [hu, ← lower_eq_close_bracket hdc]
  exact List.mem_append_left _ hd

theorem actionsSearch_open_tag {pre : Str} (hpre : ∀ c ∈ pre, isAsciiLetter c = true) :
    actionsSearch ('[' :: pre) = none := by
  apply actionsSearch_cons_none
  · unfold actionsAt
    cases hm : matchLitCI "[Actions]".toList ('[' :: pre) with
    | none => rfl
    | some r =>
      have hmem := matchLitCI_mem_close (by decide) hm
      rcases List.mem_cons.1 hmem with h | h
      · exact absurd h (by decide)
      · exact absurd rfl (not_bracket_of_letter (hpre _ h)).2
  · have := actionsSearch_plain_none (x := pre) (y := [])
      (fun c hc => (not_bracket_of_letter (hpre c hc)).1) rfl
    rwa [List.append_nil] at this

/-! ### Scanning such a text -/

theorem tagOrEnd_tag {names : List Str} {nm : Str} (h : TagMatches names nm) (r : Str) :
    tagOrEnd names ('[' :: (nm ++ ']' :: r)) = true := by
  unfold tagOrEnd
  rw [h]
  rfl

theorem tagOrEnd_tagged {names : List Str} {segs : List (Str × Str)}
    (hsegs : ∀ s ∈ segs, TagMatches names s.1 ∧ NoBracket s.2) {z : Str}
    (hz : tagOrEnd names z = true) : tagOrEnd names (taggedText segs ++ z) = true := by
  cases segs with
  | nil => exact hz
  | cons s rest =>
    rw [taggedText, List.cons_append, List.append_assoc, List.cons_append]
    exact tagOrEnd_tag (hsegs s (List.mem_cons_self _ _)).1 _

theorem scanSegments_tagged {names : List Str} {segs : List (Str × Str)}
    (hsegs : ∀ s ∈ segs, TagMatches names s.1 ∧ NoBracket s.2) {z : Str}
    (hz : tagOrEnd names z = true) :
    scanSegments names 0 (taggedText segs ++ z) =
      segs.map toSegment ++ scanSegments names 0 z := by
  induction segs with
  | nil => rfl
  | cons s rest ih =>
    have hs := hsegs s (List.mem_cons_self _ _)
    have hrest : ∀ t ∈ rest, TagMatches names t.1 ∧ NoBracket t.2 :=
      fun t ht => hsegs t (List.mem_cons_of_mem _ ht)
    rw [taggedText, List.cons_append, List.append_assoc, List.cons_append, List.append_assoc,
      scanSegments_tag hs.1 hs.2 (tagOrEnd_tagged hrest hz), ih hrest]
    rfl

theorem matchTag_no_close (names : List Str) {s : Str} (hs : ']' ∉ s) :
    matchTag names ('[' :: s) = none := by
  unfold matchTag
  simp only [List.findSome?_eq_none_iff]
  intro name _
  split
  · rename_i rest heq
    have hmem := matchLitCI_some heq
    obtain ⟨u, hu, _⟩ := hmem
    exact absurd (by rw [hu]; simp) hs
  · rfl

theorem wellTagged_scannable {segs : List (Str × Str)} (h : WellTagged displayTags segs) :
    ∀ s ∈ segs, TagMatches displayTags s.1 ∧ NoBracket s.2 :=
  fun s hs => ⟨tagMatches_display (h s hs).1, (h s hs).2⟩

/-- The parser on complete segments followed by an incomplete tag: the last
complete segment is not yielded. -/
theorem scanSegments_incomplete_tag {segs : List (Str × Str)} {last : Str × Str} {pre : Str}
    (hsegs : WellTagged displayTags (segs ++ [last]))
    (hpre : ∀ c ∈ pre, isAsciiLetter c = true) :
    scanSegments displayTags 0 (taggedText (segs ++ [last]) ++ '[' :: pre) =
      segs.map toSegment := by
  have hinit : WellTagged displayTags segs :=
    fun s hs => hsegs s (List.mem_append_left _ hs)
  have hlast := hsegs last (List.mem_append_right _ (List.mem_singleton_self _))
  have hclose : ']' ∉ pre := fun h => (not_bracket_of_letter (hpre _ h)).2 rfl
  have hopen : tagOrEnd displayTags ('[' :: pre) = false := by
    simp [tagOrEnd, matchTag_no_close displayTags hclose]
  have hsplit : taggedText (segs ++ [last]) ++ '[' :: pre =
      taggedText segs ++ ('[' :: (last.1 ++ ']' :: (last.2 ++ '[' :: pre))) := by
    simp [taggedText_append, taggedText]
  rw [hsplit, scanSegments_tagged (wellTagged_scannable hinit)
      (tagOrEnd_tag (tagMatches_display hlast.1) _),
    scanSegments_tag_fail (tagMatches_display hlast.1)
      (fun c hc => (isTagName_noBracket displayTags_noBracket hlast.1 c hc).1)
      hlast.2 (Or.inl rfl) hopen,
    scanSegments_cons_none displayTags (by
      simp [segmentAt, matchTag_no_close displayTags hclose])]
  have := scanSegments_plain displayTags (x := pre) (y := [])
    (fun c hc => (not_bracket_of_letter (hpre c hc)).1)
  rw [List.append_nil] at this
  rw [this]
  simp [scanSegments]

theorem taggedText_concat_getLast? (segs : List (Str × Str)) (nm bt : Str) :
    ∀ c, (taggedText (segs ++ [(nm, bt)])).getLast? = some c → c = ']' ∨ bt.getLast? = some c := by
  intro c hc
  have e : taggedText (segs ++ [(nm, bt)]) = (taggedText segs ++ '[' :: nm) ++ (']' :: bt) := by
    simp [taggedText_append, taggedText]
  rw [e, getLast?_append_ne_nil _ (by simp)] at hc
  cases bt with
  | nil =>
    simp only [List.getLast?_singleton, Option.some.injEq] at hc
    exact Or.inl hc.symm
  | cons b bs =>
    rw [List.getLast?_cons_cons] at hc
    exact Or.inr hc

theorem taggedText_concat_head? (segs : List (Str × Str)) (s : Str × Str) (z : Str) :
    (taggedText (segs ++ [s]) ++ z).head? = some '[' := by
  cases segs with
  | nil => simp [taggedText]
  | cons t rest => simp [taggedText]

theorem not_space_close_bracket : isJsSpace ']' = false := by decide

theorem displaySegments_tagged {segs : List (Str × Str)} {last : Str × Str}
    (hsegs : WellTagged displayTags (segs ++ [last])) :
    displaySegments (taggedText (segs ++ [last])) = (segs ++ [last]).map toSegment := by
  obtain ⟨nm, body⟩ := last
  obtain ⟨bt, w, hbody, hw, hbt⟩ := trimEnd_decompose body
  have hinit : WellTagged displayTags segs :=
    fun s hs => hsegs s (List.mem_append_left _ hs)
  have hlast := hsegs (nm, body) (List.mem_append_right _ (List.mem_singleton_self _))
  have hsegs' : WellTagged displayTags (segs ++ [(nm, bt)]) := by
    intro s hs
    rcases List.mem_append.1 hs with h | h
    · exact hinit s h
    · rw [List.mem_singleton.1 h]
      refine ⟨hlast.1, fun c hc => hlast.2 c ?_⟩
      show c ∈ body
      rw [hbody]
      exact List.mem_append_left _ hc
  have hsearch : actionsSearch (taggedText (segs ++ [(nm, body)])) = none := by
    have := actionsSearch_tagged hsegs (z := []) rfl
    rwa [List.append_nil] at this
  have htrim : jsTrim (taggedText (segs ++ [(nm, body)])) = taggedText (segs ++ [(nm, bt)]) := by
    rw [hbody, taggedText_concat_space, jsTrim_append_space hw]
    apply jsTrim_eq_self
    · intro c hc
      have := taggedText_concat_head? segs (nm, bt) []
      rw [List.append_nil, hc] at this
      rw [Option.some.inj this]
      exact not_space_bracket
    · intro c hc
      rcases taggedText_concat_getLast? segs nm bt c hc with h | h
      · rw [h]; exact not_space_close_bracket
      · exact hbt c h
  unfold displaySegments removeActionsTag
  rw [hsearch]
  simp only
  rw [htrim]
  have := scanSegments_tagged (wellTagged_scannable hsegs') (z := []) (tagOrEnd_nil _)
  rw [List.append_nil] at this
  rw [this]
  have hj : jsTrim body = jsTrim bt := by rw [hbody, jsTrim_append_space hw]
  simp [scanSegments, toSegment, hj]

/-- C3, as amended: on a text made of complete tagged segments followed by an
incomplete tag (`[` and letters, no `]`), the display parser yields the segments
of the text without the incomplete tag except the last one: the segment just
before the incomplete tag is held back until the tag is complete. -/
theorem displaySegments_incomplete_tag (segs : List (Str × Str)) (last : Str × Str) (pre : Str)
    (hsegs : WellTagged displayTags (segs ++ [last]))
    (hpre : ∀ c ∈ pre, isAsciiLetter c = true) :
    displaySegments (taggedText (segs ++ [last]) ++ '[' :: pre) =
        (displaySegments (taggedText (segs ++ [last]))).dropLast ∧
      displaySegments (taggedText (segs ++ [last])) = (segs ++ [last]).map toSegment ∧
      displaySegments (taggedText (segs ++ [last]) ++ '[' :: pre) = segs.map toSegment := by
  have hfull := displaySegments_tagged hsegs
  have hinc : displaySegments (taggedText (segs ++ [last]) ++ '[' :: pre) =
      segs.map toSegment := by
    have hsearch : actionsSearch (taggedText (segs ++ [last]) ++ '[' :: pre) = none :=
      actionsSearch_tagged hsegs (actionsSearch_open_tag hpre)
    have htrim : jsTrim (taggedText (segs ++ [last]) ++ '[' :: pre) =
        taggedText (segs ++ [last]) ++ '[' :: pre := by
      apply jsTrim_eq_self
      · intro c hc
        rw [taggedText_concat_head?] at hc
        rw [← Option.some.inj hc]
        exact not_space_bracket
      · intro c hc
        rw [getLast?_append_ne_nil _ (by simp)] at hc
        have hmem : c ∈ '[' :: pre := List.mem_of_getLast?_eq_some hc
        rcases List.mem_cons.1 hmem with h | h
        · rw [h]; exact not_space_bracket
        · exact not_space_of_letter (hpre c h)
    unfold displaySegments removeActionsTag
    rw [hsearch]
    simp only
    rw [htrim, scanSegments_incomplete_tag hsegs hpre]
  refine ⟨?_, hfull, hinc⟩
  rw [hinc, hfull]
  simp

/-- Witness of C3 as amended: with "[Eng" arriving after two complete segments,
only the first segment is yielded. -/
theorem displaySegments_incomplete_tag_witness :
    displaySegments "[Vietsub] xin chao [Engsub] hello [Eng".toList =
        [⟨"vietsub".toList, "xin chao".toList⟩] ∧
      displaySegments "[Vietsub] xin chao [Engsub] hello ".toList =
        [⟨"vietsub".toList, "xin chao".toList⟩, ⟨"engsub".toList, "hello".toList⟩] := by
  have hw : WellTagged displayTags
      ([("Vietsub".toList, " xin chao ".toList)] ++ [("Engsub".toList, " hello ".toList)]) := by
    intro s hs
    simp only [List.cons_append, List.nil_append, List.mem_cons, List.mem_singleton,
      List.not_mem_nil, or_false] at hs
    rcases hs with rfl | rfl
    · exact ⟨⟨"Vietsub".toList, by decide, rfl⟩, by unfold NoBracket; decide⟩
    · exact ⟨⟨"Engsub".toList, by decide, rfl⟩, by unfold NoBracket; decide⟩
  have h := displaySegments_incomplete_tag [("Vietsub".toList, " xin chao ".toList)]
    ("Engsub".toList, " hello ".toList) "Eng".toList hw (by decide)
  have e1 : taggedText ([("Vietsub".toList, " xin chao ".toList)] ++
      [("Engsub".toList, " hello ".toList)]) ++ '[' :: "Eng".toList =
      "[Vietsub] xin chao [Engsub] hello [Eng".toList := by decide
  have e2 : taggedText ([("Vietsub".toList, " xin chao ".toList)] ++
      [("Engsub".toList, " hello ".toList)]) =
      "[Vietsub] xin chao [Engsub] hello ".toList := by decide
  rw [e1, e2] at h
  refine ⟨?_, ?_⟩
  · rw [h.2.2]; decide
  · rw [h.2.1]; decide

/-- Counterexample to C3 as stated: with the incomplete tag "[Eng" the parser
yields no segment at all for "[Vietsub] hello [Eng", while it yields the segment
(vietsub, "hello") for the text without the incomplete tag. -/
theorem displaySegments_incomplete_tag_counterexample :
    displaySegments "[Vietsub] hello [Eng".toList = [] ∧
      displaySegments "[Vietsub] hello ".toList = [⟨"vietsub".toList, "hello".toList⟩] ∧
      displaySegments "[Vietsub] hello [Eng".toList ≠
        displaySegments "[Vietsub] hello ".toList := by
  decide

/-! ## Prefixes of a text made of complete tagged segments -/

theorem taggedText_cons (s : Str × Str) (rest : List (Str × Str)) :
    taggedText (s :: rest) = segmentText s ++ taggedText rest := by
  simp [taggedText, segmentText]

theorem prefix_append_cases {q x y : Str} (h : q <+: x ++ y) :
    q <+: x ∨ ∃ q', q = x ++ q' ∧ q' <+: y := by
  obtain ⟨e, he⟩ := h
  rcases List.append_eq_append_iff.1 he with ⟨a', hx, _⟩ | ⟨c', hq, hy⟩
  · exact Or.inl ⟨a', hx.symm⟩
  · exact Or.inr ⟨c', hq, ⟨e, hy.symm⟩⟩

/-- The three shapes of a prefix of a segment text: empty, inside the tag, or the
whole tag followed by a prefix of the text. -/
theorem prefix_segmentText {p : Str} {s : Str × Str} (h : p <+: segmentText s) :
    p = [] ∨ (∃ pre, p = '[' :: pre ∧ pre <+: s.1) ∨
      ∃ b, p = '[' :: (s.1 ++ ']' :: b) ∧ b <+: s.2 := by
  unfold segmentText at h
  rcases List.prefix_cons_iff.1 h with h0 | ⟨t, rfl, ht⟩
  · exact Or.inl h0
  · rcases prefix_append_cases ht with h1 | ⟨q', rfl, hq'⟩
    · exact Or.inr (Or.inl ⟨t, rfl, h1⟩)
    · rcases List.prefix_cons_iff.1 hq' with h0 | ⟨b, rfl, hb⟩
      · subst h0
        exact Or.inr (Or.inl ⟨s.1, by simp, List.prefix_refl _⟩)
      · exact Or.inr (Or.inr ⟨b, rfl, hb⟩)

theorem noBracket_of_pfx {x y : Str} (h : x <+: y) (hy : NoBracket y) : NoBracket x :=
  fun c hc => hy c (h.mem hc)

theorem scanSegments_nil (names : List Str) (k : Nat) : scanSegments names k [] = [] := by
  cases k <;> rfl

/-- Inside a tag: nothing is yielded. -/
theorem scanSegments_open_tag (names : List Str) {pre : Str} (hpre : NoBracket pre) :
    scanSegments names 0 ('[' :: pre) = [] := by
  have hclose : ']' ∉ pre := fun h => (hpre _ h).2 rfl
  rw [scanSegments_cons_none names (by simp [segmentAt, matchTag_no_close names hclose])]
  have := scanSegments_plain names (x := pre) (y := []) (fun c hc => (hpre c hc).1)
  rw [List.append_nil] at this
  rw [this, scanSegments_nil]

theorem tagOrEnd_open_tag (names : List Str) {pre : Str} (hpre : NoBracket pre) :
    tagOrEnd names ('[' :: pre) = false := by
  have hclose : ']' ∉ pre := fun h => (hpre _ h).2 rfl
  simp [tagOrEnd, matchTag_no_close names hclose]

/-- After the tag: the segment with the text read so far. -/
theorem scanSegments_one {nm : Str} (hnm : IsTagName displayTags nm) {b : Str}
    (hb : NoBracket b) :
    scanSegments displayTags 0 ('[' :: (nm ++ ']' :: b)) = [toSegment (nm, b)] := by
  have := scanSegments_tag (tagMatches_display hnm) hb (y := []) (tagOrEnd_nil _)
  rw [List.append_nil] at this
  rw [this, scanSegments_nil]
  rfl

/-- The scan of a prefix that lies inside the first segment. -/
theorem scanSegments_prefix_segmentText {p : Str} {s : Str × Str}
    (hs : IsTagName displayTags s.1 ∧ NoBracket s.2) (h : p <+: segmentText s) :
    scanSegments displayTags 0 p = [] ∨
      ∃ b, p = '[' :: (s.1 ++ ']' :: b) ∧ b <+: s.2 ∧
        scanSegments displayTags 0 p = [toSegment (s.1, b)] := by
  rcases prefix_segmentText h with rfl | ⟨pre, rfl, hpre⟩ | ⟨b, rfl, hb⟩
  · exact Or.inl rfl
  · exact Or.inl (scanSegments_open_tag _
      (noBracket_of_pfx hpre (isTagName_noBracket displayTags_noBracket hs.1)))
  · exact Or.inr ⟨b, rfl, hb, scanSegments_one hs.1 (noBracket_of_pfx hb hs.2)⟩

/-- The shapes of a prefix of a tagged text, seen from its first tag. -/
theorem prefix_taggedText_shape {p : Str} {s : Str × Str} {rest : List (Str × Str)}
    (h : p <+: taggedText (s :: rest)) :
    p = [] ∨ (∃ pre, p = '[' :: pre ∧ pre <+: s.1) ∨ ∃ r, p = '[' :: (s.1 ++ ']' :: r) := by
  rw [taggedText_cons] at h
  rcases prefix_append_cases h with h1 | ⟨q', rfl, _⟩
  · rcases prefix_segmentText h1 with h0 | hpre | ⟨b, hb, _⟩
    · exact Or.inl h0
    · exact Or.inr (Or.inl hpre)
    · exact Or.inr (Or.inr ⟨b, hb⟩)
  · exact Or.inr (Or.inr ⟨s.2 ++ q', by simp [segmentText]⟩)

theorem prefix_taggedText_nil {p : Str} (h : p <+: taggedText []) : p = [] := by
  simpa [taggedText] using h

/-- A prefix of a tagged text on which the lookahead fails yields nothing. -/
theorem scanSegments_of_tagOrEnd_false {p : Str} {segs : List (Str × Str)}
    (hsegs : WellTagged displayTags segs) (h : p <+: taggedText segs)
    (ht : tagOrEnd displayTags p = false) :
    scanSegments displayTags 0 p = [] ∧ ∃ r, p = '[' :: r := by
  cases segs with
  | nil =>
    rw [prefix_taggedText_nil h] at ht
    simp [tagOrEnd_nil] at ht
  | cons s rest =>
    have hs := hsegs s (List.mem_cons_self _ _)
    rcases prefix_taggedText_shape h with rfl | ⟨pre, rfl, hpre⟩ | ⟨r, rfl⟩
    · simp [tagOrEnd_nil] at ht
    · exact ⟨scanSegments_open_tag _
        (noBracket_of_pfx hpre (isTagName_noBracket displayTags_noBracket hs.1)), _, rfl⟩
    · rw [tagOrEnd_tag (tagMatches_display hs.1)] at ht
      exact absurd ht (by simp)

/-- The lookahead stays true when a prefix that holds a tag is extended. -/
theorem tagOrEnd_mono {p q : Str} {segs : List (Str × Str)}
    (hsegs : WellTagged displayTags segs) (hpq : p <+: q) (hq : q <+: taggedText segs)
    (hne : p ≠ []) (ht : tagOrEnd displayTags p = true) : tagOrEnd displayTags q = true := by
  cases segs with
  | nil =>
    have := prefix_taggedText_nil (hpq.trans hq)
    exact absurd this hne
  | cons s rest =>
    have hs := hsegs s (List.mem_cons_self _ _)
    rcases prefix_taggedText_shape (hpq.trans hq) with rfl | ⟨pre, rfl, hpre⟩ | ⟨r, rfl⟩
    · exact absurd rfl hne
    · rw [tagOrEnd_open_tag _
        (noBracket_of_pfx hpre (isTagName_noBracket displayTags_noBracket hs.1))] at ht
      exact absurd ht (by simp)
    · obtain ⟨e, rfl⟩ := hpq
      rw [List.cons_append, List.append_assoc, List.cons_append]
      exact tagOrEnd_tag (tagMatches_display hs.1) _

/-- The scan of a complete first segment followed by a prefix of the rest. -/
theorem scanSegments_segmentText_append {s : Str × Str} {rest : List (Str × Str)} {p' : Str}
    (hs : IsTagName displayTags s.1 ∧ NoBracket s.2) (hrest : WellTagged displayTags rest)
    (hp' : p' <+: taggedText rest) :
    scanSegments displayTags 0 (segmentText s ++ p') =
      if tagOrEnd displayTags p' = true then toSegment s :: scanSegments displayTags 0 p'
      else [] := by
  have e : segmentText s ++ p' = '[' :: (s.1 ++ ']' :: (s.2 ++ p')) := by simp [segmentText]
  by_cases ht : tagOrEnd displayTags p' = true
  · rw [if_pos ht, e, scanSegments_tag (tagMatches_display hs.1) hs.2 ht]
    rfl
  · have htf : tagOrEnd displayTags p' = false := by simpa using ht
    obtain ⟨hscan, r, rfl⟩ := scanSegments_of_tagOrEnd_false hrest hp' htf
    rw [if_neg ht, e, scanSegments_tag_fail (tagMatches_display hs.1)
      (fun c hc => (isTagName_noBracket displayTags_noBracket hs.1 c hc).1) hs.2
      (Or.inl rfl) htf, hscan]

/-! ## Trailing white space -/

theorem trimEnd_append_spaces (x : Str) :
    x = trimEnd x ++ (x.reverse.takeWhile isJsSpace).reverse := by
  unfold trimEnd
  rw [← List.reverse_append, List.takeWhile_append_dropWhile, List.reverse_reverse]

theorem trimEnd_pfx (x : Str) : trimEnd x <+: x :=
  ⟨_, (trimEnd_append_spaces x).symm⟩

theorem trimEnd_getLast_not_space (x : Str) :
    ∀ c, (trimEnd x).getLast? = some c → isJsSpace c = false := by
  intro c hc
  unfold trimEnd at hc
  rw [List.getLast?_reverse] at hc
  have := List.head?_dropWhile_not isJsSpace x.reverse
  rw [hc] at this
  exact this

theorem trimEnd_mono {p q : Str} (h : p <+: q) : trimEnd p <+: trimEnd q := by
  have hp : trimEnd p <+: q := (trimEnd_pfx p).trans h
  have hq : trimEnd q <+: q := trimEnd_pfx q
  by_cases hlen : (trimEnd p).length ≤ (trimEnd q).length
  · exact List.prefix_of_prefix_length_le hp hq hlen
  · exfalso
    have hqp : trimEnd q <+: trimEnd p :=
      List.prefix_of_prefix_length_le hq hp (by omega)
    obtain ⟨e, he⟩ := hqp
    have hene : e ≠ [] := by
      intro h0
      rw [h0, List.append_nil] at he
      rw [he] at hlen
      exact hlen (Nat.le_refl _)
    have hew : e <+: (q.reverse.takeWhile isJsSpace).reverse := by
      have h1 : trimEnd q ++ e <+: trimEnd q ++ (q.reverse.takeWhile isJsSpace).reverse := by
        rw [he, ← trimEnd_append_spaces q]
        exact hp
      exact (List.prefix_append_right_inj _).1 h1
    have hlast := trimEnd_getLast_not_space p (e.getLast hene) (by
      rw [← he, getLast?_append_ne_nil _ hene]
      exact List.getLast?_eq_getLast _ _)
    have hmem : e.getLast hene ∈ (q.reverse.takeWhile isJsSpace).reverse :=
      hew.mem (List.getLast_mem _)
    have := List.mem_takeWhile_imp (List.mem_reverse.1 hmem)
    rw [hlast] at this
    exact absurd this (by simp)

theorem jsTrim_mono {x y : Str} (h : x <+: y) : jsTrim x <+: jsTrim y := by
  by_cases hall : ∀ c ∈ x, isJsSpace c = true
  · rw [jsTrim_of_all_space hall]
    exact List.nil_prefix
  · have hex : ∃ c ∈ x, isJsSpace c = false := by
      by_contra hcon
      apply hall
      intro c hc
      by_contra hcs
      exact hcon ⟨c, hc, by simpa using hcs⟩
    obtain ⟨e, rfl⟩ := h
    have hd := dropWhile_append_of_exists hex e
    show trimEnd (x.dropWhile isJsSpace) <+: trimEnd ((x ++ e).dropWhile isJsSpace)
    rw [hd]
    exact trimEnd_mono (List.prefix_append _ _)

/-! ## How the parsed segments change when the text grows -/

theorem segmentsExtend_nil (b : List Segment) : SegmentsExtend [] b :=
  ⟨by simp, fun m hm => by simp at hm⟩

theorem segmentsExtend_single_nil (m : Segment) : SegmentsExtend [m] [] :=
  ⟨by simp, fun _ _ => Or.inl rfl⟩

theorem segmentsExtend_single_cons {m m' : Segment} (b : List Segment) (htag : m'.tag = m.tag)
    (htext : m.text <+: m'.text) : SegmentsExtend [m] (m' :: b) := by
  refine ⟨by simp, fun l hl => Or.inr ⟨m', by simp, ?_, ?_⟩⟩
  · simp only [List.getLast?_singleton, Option.some.injEq] at hl
    rw [← hl]; exact htag
  · simp only [List.getLast?_singleton, Option.some.injEq] at hl
    rw [← hl]; exact htext

theorem segmentsExtend_cons (m : Segment) {a b : List Segment} (h : SegmentsExtend a b) :
    SegmentsExtend (m :: a) (m :: b) := by
  cases a with
  | nil => exact segmentsExtend_single_cons b rfl (List.prefix_refl _)
  | cons x xs =>
    refine ⟨?_, fun l hl => ?_⟩
    · rw [List.dropLast_cons₂]
      exact (List.prefix_cons_inj m).2 h.1
    · rw [List.getLast?_cons_cons] at hl
      rcases h.2 l hl with hlen | ⟨m', hm', htag, htext⟩
      · left
        simp only [List.length_cons] at hlen ⊢
        omega
      · right
        refine ⟨m', ?_, htag, htext⟩
        simp only [List.length_cons, Nat.add_sub_cancel] at hm' ⊢
        rw [List.getElem?_cons_succ]
        exact hm'

theorem toSegment_extend {nm bp bq : Str} (h : bp <+: bq) :
    (toSegment (nm, bq)).tag = (toSegment (nm, bp)).tag ∧
      (toSegment (nm, bp)).text <+: (toSegment (nm, bq)).text :=
  ⟨rfl, jsTrim_mono h⟩

/-- The relation between the raw scans of two prefixes of a tagged text. -/
theorem scanSegments_extend {segs : List (Str × Str)} (hsegs : WellTagged displayTags segs)
    {p q : Str} (hpq : p <+: q) (hq : q <+: taggedText segs) :
    SegmentsExtend (scanSegments displayTags 0 p) (scanSegments displayTags 0 q) := by
  induction segs generalizing p q with
  | nil =>
    have hq0 := prefix_taggedText_nil hq
    subst hq0
    have hp0 : p = [] := by simpa using hpq
    subst hp0
    exact segmentsExtend_nil _
  | cons s rest ih =>
    have hs := hsegs s (List.mem_cons_self _ _)
    have hrest : WellTagged displayTags rest := fun t ht => hsegs t (List.mem_cons_of_mem _ ht)
    rw [taggedText_cons] at hq
    rcases prefix_append_cases hq with hq1 | ⟨q', rfl, hq'⟩
    · -- both prefixes lie inside the first segment
      rcases scanSegments_prefix_segmentText hs (hpq.trans hq1) with hp0 | ⟨bp, rfl, hbp, hp1⟩
      · rw [hp0]; exact segmentsExtend_nil _
      · rcases scanSegments_prefix_segmentText hs hq1 with hq0 | ⟨bq, rfl, hbq, hq2⟩
        · -- q holds the whole tag, so its scan is not empty
          rcases prefix_segmentText hq1 with rfl | ⟨pre, rfl, hpre⟩ | ⟨b, rfl, hb⟩
          · simp at hpq
          · exfalso
            have h1 : s.1 ++ ']' :: bp <+: pre := by simpa using hpq
            have h2 := (h1.trans hpre).length_le
            simp at h2
          · rw [scanSegments_one hs.1 (noBracket_of_pfx hb hs.2)] at hq0
            exact absurd hq0 (by simp)
        · rw [hp1, hq2]
          have hb : bp <+: bq := by simpa using hpq
          exact segmentsExtend_single_cons [] (toSegment_extend hb).1 (toSegment_extend hb).2
    · -- q goes beyond the first segment
      rw [scanSegments_segmentText_append hs hrest hq']
      rcases prefix_append_cases (hpq) with hp1 | ⟨p', rfl, hp'⟩
      · rcases scanSegments_prefix_segmentText hs hp1 with hp0 | ⟨bp, rfl, hbp, hp2⟩
        · rw [hp0]; exact segmentsExtend_nil _
        · rw [hp2]
          split
          · exact segmentsExtend_single_cons _ (toSegment_extend hbp).1 (toSegment_extend hbp).2
          · exact segmentsExtend_single_nil _
      · rw [scanSegments_segmentText_append hs hrest (hp'.trans hq')]
        by_cases htp : tagOrEnd displayTags p' = true
        · rw [if_pos htp]
          by_cases hp0 : p' = []
          · subst hp0
            rw [scanSegments_nil]
            split
            · exact segmentsExtend_single_cons _ rfl (List.prefix_refl _)
            · exact segmentsExtend_single_nil _
          · rw [if_pos (tagOrEnd_mono hrest hp' hq' hp0 htp)]
            exact segmentsExtend_cons _ (ih hrest hp' hq')
        · rw [if_neg htp]
          exact segmentsExtend_nil _

/-! ## The display parser on prefixes of a tagged text -/

theorem jsTrim_eq_trimEnd {p : Str} (h : p.dropWhile isJsSpace = p) : jsTrim p = trimEnd p := by
  unfold jsTrim trimEnd
  rw [h]

theorem dropWhile_prefix_taggedText {p : Str} {segs : List (Str × Str)}
    (h : p <+: taggedText segs) : p.dropWhile isJsSpace = p := by
  cases segs with
  | nil => rw [prefix_taggedText_nil h]; rfl
  | cons s rest =>
    rcases prefix_taggedText_shape h with rfl | ⟨pre, rfl, _⟩ | ⟨r, rfl⟩
    · rfl
    · exact dropWhile_eq_self_of_head not_space_bracket
    · exact dropWhile_eq_self_of_head not_space_bracket

/-! ### No actions tag in a tagged text -/

theorem matchActions_nil : matchLitCI "[Actions]".toList [] = none := by decide

theorem matchActions_not_bracket {c : Char} (hc : c ≠ '[') (r : Str) :
    matchLitCI "[Actions]".toList (c :: r) = none := by
  rw [show "[Actions]".toList = '[' :: "Actions]".toList by decide,
    matchLitCI_head_ne (fun h => hc (upper_bracket_of h))]

theorem matchActions_display_tag {nm : Str} (h : IsTagName displayTags nm) (r : Str) :
    matchLitCI "[Actions]".toList ('[' :: (nm ++ r)) = none := by
  cases hm : matchLitCI "[Actions]".toList ('[' :: (nm ++ r)) with
  | none => rfl
  | some x =>
    exfalso
    obtain ⟨name, hname, hsame⟩ := h
    have hmf : ∀ (c : Char) (cs : Str), ¬ c.toUpper = 'A'.toUpper →
        matchLitCI "[Actions]".toList ('[' :: (c :: cs ++ r)) = none := by
      intro c cs hc
      rw [show "[Actions]".toList = '[' :: 'A' :: "ctions]".toList by decide, matchLitCI]
      simp only [if_true, List.cons_append]
      rw [matchLitCI_head_ne hc]
    unfold SameIgnoringCase at hsame
    simp only [displayTags, List.mem_cons, List.mem_singleton, List.not_mem_nil,
      or_false] at hname
    rcases hname with rfl | rfl | rfl | rfl | rfl <;>
    · simp only [String.toList, List.map_cons, List.map_eq_cons_iff] at hsame
      obtain ⟨c1, cs, rfl, h1, _⟩ := hsame
      rw [hmf c1 cs (by rw [toUpper_eq_of_toLower_eq h1]; decide)] at hm
      exact absurd hm (by simp)

theorem noActionsAt_nil : NoActionsAt [] := by
  intro p y h
  have hy : y = [] := by
    have := congrArg List.length h
    simp at this
    exact List.length_eq_zero.1 (by omega)
  rw [hy]
  exact matchActions_nil

theorem noActionsAt_cons {c : Char} {x : Str}
    (h1 : matchLitCI "[Actions]".toList (c :: x) = none) (h2 : NoActionsAt x) :
    NoActionsAt (c :: x) := by
  intro p y h
  cases p with
  | nil => rw [List.nil_append] at h; rw [← h]; exact h1
  | cons d ds =>
    simp only [List.cons_append, List.cons.injEq] at h
    exact h2 ds y h.2

theorem noActionsAt_plain {x : Str} (hx : ∀ c ∈ x, c ≠ '[') {y : Str} (hy : NoActionsAt y) :
    NoActionsAt (x ++ y) := by
  induction x with
  | nil => exact hy
  | cons c cs ih =>
    exact noActionsAt_cons (matchActions_not_bracket (hx c (List.mem_cons_self _ _)) _)
      (ih (fun d hd => hx d (List.mem_cons_of_mem _ hd)))

theorem noActionsAt_taggedText {segs : List (Str × Str)} (hsegs : WellTagged displayTags segs) :
    NoActionsAt (taggedText segs) := by
  induction segs with
  | nil => exact noActionsAt_nil
  | cons s rest ih =>
    have hs := hsegs s (List.mem_cons_self _ _)
    have hrest : WellTagged displayTags rest := fun t ht => hsegs t (List.mem_cons_of_mem _ ht)
    have hnb := isTagName_noBracket displayTags_noBracket hs.1
    rw [taggedText]
    apply noActionsAt_cons (matchActions_display_tag hs.1 _)
    rw [show s.1 ++ ']' :: (s.2 ++ taggedText rest) = (s.1 ++ ']' :: s.2) ++ taggedText rest by
      simp]
    apply noActionsAt_plain _ (ih hrest)
    intro c hc
    rcases List.mem_append.1 hc with h | h
    · exact (hnb c h).1
    · rcases List.mem_cons.1 h with rfl | h
      · decide
      · exact (hs.2 c h).1

theorem not_containsActionsTag_of_noActionsAt {x : Str} (h : NoActionsAt x) :
    ¬ ContainsActionsTag x := by
  rintro ⟨p, t, s, hx, ht⟩
  have := h p (t ++ s) (by rw [hx, List.append_assoc])
  rw [matchLitCI_append ht] at this
  exact absurd this (by simp)

theorem not_containsActionsTag_pfx {p x : Str} (hp : p <+: x) (hx : ¬ ContainsActionsTag x) :
    ¬ ContainsActionsTag p := by
  rintro ⟨a, t, s, hpe, ht⟩
  obtain ⟨e, rfl⟩ := hp
  exact hx ⟨a, t, s ++ e, by rw [hpe]; simp, ht⟩

/-- The display parser on a prefix of a tagged text: the raw scan of the prefix
without its trailing white space. -/
theorem displaySegments_pfx {segs : List (Str × Str)} (hsegs : WellTagged displayTags segs)
    {p : Str} (hp : p <+: taggedText segs) :
    displaySegments p = scanSegments displayTags 0 (trimEnd p) := by
  unfold displaySegments
  rw [removeActionsTag_no_tag (not_containsActionsTag_pfx hp
      (not_containsActionsTag_of_noActionsAt (noActionsAt_taggedText hsegs))),
    jsTrim_eq_trimEnd (dropWhile_prefix_taggedText hp)]

/-- Growing the text extends the parsed segments. -/
theorem displaySegments_extend {segs : List (Str × Str)} (hsegs : WellTagged displayTags segs)
    {p q : Str} (hpq : p <+: q) (hq : q <+: taggedText segs) :
    SegmentsExtend (displaySegments p) (displaySegments q) := by
  rw [displaySegments_pfx hsegs (hpq.trans hq), displaySegments_pfx hsegs hq]
  exact scanSegments_extend hsegs (trimEnd_mono hpq) ((trimEnd_pfx q).trans hq)

/-! ## The rendering loop, iteration by iteration -/

theorem renderLoop_loopState (b : Bool) (B A : List Segment) :
    renderLoop b (loopState b (A ++ B) A.length) B =
      loopState b (A ++ B) (A.length + B.length) := by
  induction B generalizing A with
  | nil => simp [renderLoop]
  | cons x B' ih =>
    have h1 : (A ++ x :: B')[A.length]? = some x := by
      rw [List.getElem?_append_right (Nat.le_refl _)]
      simp
    have h2 : (A ++ x :: B')[A.length + 1]? = B'.head? := by
      rw [List.getElem?_append_right (by omega)]
      cases B' <;> simp
    have hstep : loopState b (A ++ x :: B') (A.length + 1) =
        renderSegment b (loopState b (A ++ x :: B') A.length) x B'.head? := by
      rw [loopState, h1, h2]
    have := ih (A ++ [x])
    simp only [List.append_assoc, List.singleton_append, List.length_append,
      List.length_singleton] at this
    rw [renderLoop, ← hstep, this]
    simp only [List.length_cons]
    congr 1
    omega

theorem renderLoop_eq_loopState (b : Bool) (L : List Segment) :
    renderLoop b ⟨[], [], false⟩ L = loopState b L L.length := by
  have := renderLoop_loopState b L []
  simpa [loopState] using this

theorem flushVietnamese_result_pfx (st : RenderState) :
    st.result <+: (flushVietnamese st).result := by
  unfold flushVietnamese
  split <;> simp

theorem closeItem_result_pfx (st : RenderState) : st.result <+: (closeItem st).result := by
  unfold closeItem
  split <;> simp [List.append_assoc]

theorem flushVietnamese_flushes {st : RenderState} (h : st.lastVietnamese ≠ []) :
    (flushVietnamese st).result = st.result ++ vietSpan st.lastVietnamese := by
  simp [flushVietnamese, h]

theorem renderEngsub_result (st : RenderState) (text : Str) (next : Option Segment) :
    (flushVietnamese st).result <+: (renderEngsub st text next).result := by
  unfold renderEngsub
  simp only
  split
  · simp [List.append_assoc]
  · split <;> simp [List.append_assoc]

theorem renderVietsub_result_pfx (st : RenderState) (text : Str) :
    st.result <+: (renderVietsub st text).result := by
  have hf := flushVietnamese_result_pfx
  have hc := closeItem_result_pfx
  unfold renderVietsub
  simp only
  split
  · -- the divider branch
    split <;> split <;> (try split) <;>
      simp only [List.append_assoc] <;>
      first
        | exact List.prefix_append _ _
        | exact (hc st).trans (List.prefix_append _ _)
  · split
    · split <;> split <;>
        simp only [List.append_assoc] <;>
        first
          | exact List.prefix_append _ _
          | exact (hc st).trans (List.prefix_append _ _)
    · split
      · split
        · simp only [List.append_assoc]
          exact (hf st).trans (List.prefix_append _ _)
        · split <;> simp only [List.append_assoc] <;> exact List.prefix_append _ _
      · split
        · split
          · simp only [List.append_assoc]
            exact (hc st).trans (List.prefix_append _ _)
          · split <;> simp only [List.append_assoc] <;>
              first
                | exact List.prefix_append _ _
                | exact List.prefix_refl _
        · exact List.prefix_refl _

theorem renderSegment_result_pfx (b : Bool) (st : RenderState) (seg : Segment)
    (next : Option Segment) : st.result <+: (renderSegment b st seg next).result := by
  have hf := flushVietnamese_result_pfx st
  unfold renderSegment
  split
  · exact List.prefix_refl _
  · split
    · exact hf.trans (List.prefix_append _ _)
    · split
      · exact hf.trans (List.prefix_append _ _)
      · split
        · exact hf.trans (List.prefix_append _ _)
        · split
          · exact hf.trans (renderEngsub_result st seg.text next)
          · exact renderVietsub_result_pfx st seg.text

/-- A segment with a closing tag and a text first flushes the pending Vietnamese
block. -/
theorem renderSegment_flushes (b : Bool) {st : RenderState} {seg : Segment}
    (next : Option Segment) (htag : seg.tag ∈ closingTags) (htext : seg.text ≠ [])
    (hlv : st.lastVietnamese ≠ []) :
    st.result ++ vietSpan st.lastVietnamese <+: (renderSegment b st seg next).result := by
  rw [← flushVietnamese_flushes hlv]
  unfold renderSegment
  rw [if_neg htext]
  simp only [closingTags, List.mem_cons, List.mem_singleton, List.not_mem_nil, or_false] at htag
  split
  · exact List.prefix_append _ _
  · split
    · exact List.prefix_append _ _
    · split
      · exact List.prefix_append _ _
      · split
        · exact renderEngsub_result st seg.text next
        · rename_i h1 h2 h3 h4
          rcases htag with h | h | h | h
          · exact absurd h h1
          · exact absurd h h2
          · exact absurd h h3
          · exact absurd h h4

theorem loopState_succ_result_pfx (b : Bool) (L : List Segment) (i : Nat) :
    (loopState b L i).result <+: (loopState b L (i + 1)).result := by
  rw [loopState]
  split
  · exact renderSegment_result_pfx _ _ _ _
  · exact List.prefix_refl _

theorem loopState_result_mono (b : Bool) (L : List Segment) {i j : Nat} (h : i ≤ j) :
    (loopState b L i).result <+: (loopState b L j).result := by
  induction j with
  | zero =>
    have : i = 0 := by omega
    rw [this]
  | succ k ih =>
    by_cases hik : i ≤ k
    · exact (ih hik).trans (loopState_succ_result_pfx b L k)
    · have : i = k + 1 := by omega
      rw [this]

theorem renderEnd_result_pfx (st : RenderState) : st.result <+: renderEnd st := by
  unfold renderEnd
  simp only
  split <;> split <;> simp [List.append_assoc]

theorem renderEnd_flushes {st : RenderState} (hlv : st.lastVietnamese ≠ []) :
    st.result ++ vietSpan st.lastVietnamese <+: renderEnd st := by
  unfold renderEnd
  simp only [hlv]
  split <;> simp [List.append_assoc]

theorem renderEngsub_congr (st : RenderState) (text : Str) {n1 n2 : Option Segment}
    (h : nextColon n1 = nextColon n2) : renderEngsub st text n1 = renderEngsub st text n2 := by
  have hn : ∀ n : Option Segment,
      (match n with
        | some x => decide (x.tag = "vietsub".toList) && decide (x.text.head? = some ':')
        | none => false) = nextColon n := by
    intro n
    cases n <;> rfl
  unfold renderEngsub
  simp only [hn, h]

theorem renderSegment_congr (b : Bool) (st : RenderState) (seg : Segment)
    {n1 n2 : Option Segment} (h : nextColon n1 = nextColon n2) :
    renderSegment b st seg n1 = renderSegment b st seg n2 := by
  unfold renderSegment
  rw [renderEngsub_congr st seg.text h]

theorem loopState_congr (b : Bool) {L1 L2 : List Segment} {i : Nat}
    (htake : L1.take i = L2.take i) (hnext : nextColon L1[i]? = nextColon L2[i]?) :
    loopState b L1 i = loopState b L2 i := by
  induction i with
  | zero => rfl
  | succ k ih =>
    have hk : L1[k]? = L2[k]? := by
      have h1 : (L1.take (k + 1))[k]? = L1[k]? := by
        rw [List.getElem?_take, if_pos (by omega)]
      have h2 : (L2.take (k + 1))[k]? = L2[k]? := by
        rw [List.getElem?_take, if_pos (by omega)]
      rw [← h1, ← h2, htake]
    have htk : L1.take k = L2.take k := by
      have := congrArg (List.take k) htake
      simpa [List.take_take] using this
    rw [loopState, loopState, ih htk (by rw [hk]), hk]
    cases L2[k]? with
    | none => rfl
    | some seg => exact renderSegment_congr b _ seg hnext

theorem segmentsExtend_at {a b : List Segment} (h : SegmentsExtend a b) {i : Nat} {m : Segment}
    (hm : a[i]? = some m) :
    b.take i = a.take i ∧
      (b.length = i ∨ ∃ m', b[i]? = some m' ∧ m'.tag = m.tag ∧ m.text <+: m'.text) := by
  have hi : i < a.length := by
    rcases Nat.lt_or_ge i a.length with h1 | h1
    · exact h1
    · rw [List.getElem?_eq_none h1] at hm
      exact absurd hm (by simp)
  have hpre := h.1
  rw [List.dropLast_eq_take] at hpre
  have htk : b.take (a.length - 1) = a.take (a.length - 1) := by
    have := List.prefix_iff_eq_take.1 hpre
    rw [List.length_take, Nat.min_eq_left (by omega)] at this
    exact this.symm
  have hti : b.take i = a.take i := by
    have := congrArg (List.take i) htk
    rwa [List.take_take, List.take_take, Nat.min_eq_left (by omega)] at this
  refine ⟨hti, ?_⟩
  by_cases hlast : i + 1 = a.length
  · have hgl : a.getLast? = some m := by
      rw [List.getLast?_eq_getElem?, ← hlast]
      simpa using hm
    rcases h.2 m hgl with hlen | ⟨m', hm', ht, hx⟩
    · left; omega
    · right
      refine ⟨m', ?_, ht, hx⟩
      rw [← hlast] at hm'
      simpa using hm'
  · right
    refine ⟨m, ?_, rfl, List.prefix_refl _⟩
    have h1 : (b.take (a.length - 1))[i]? = b[i]? := by
      rw [List.getElem?_take, if_pos (by omega)]
    have h2 : (a.take (a.length - 1))[i]? = a[i]? := by
      rw [List.getElem?_take, if_pos (by omega)]
    rw [← h1, htk, h2, hm]

theorem formatMessageContent_eq_renderEnd (content : Str) (b : Bool)
    (h : displaySegments content ≠ []) :
    formatMessageContent content b =
      renderEnd (loopState b (displaySegments content) (displaySegments content).length) := by
  unfold formatMessageContent
  simp only
  rw [show scanSegments displayTags 0 (removeActionsTag content) = displaySegments content
    from rfl, if_neg h, renderLoop_eq_loopState]

/-! ## Vietnamese segments that end the pending block -/

theorem takeWhile_append_of_exists {p : Char → Bool} {x : Str}
    (hx : ∃ c ∈ x, p c = false) (y : Str) : (x ++ y).takeWhile p = x.takeWhile p := by
  induction x with
  | nil => simp at hx
  | cons c cs ih =>
    by_cases hc : p c = true
    · simp only [List.cons_append, List.takeWhile_cons, hc, if_true]
      congr 1
      apply ih
      obtain ⟨d, hd, hpd⟩ := hx
      rcases List.mem_cons.1 hd with rfl | hd
      · rw [hc] at hpd; exact absurd hpd (by simp)
      · exact ⟨d, hd, hpd⟩
    · simp [List.takeWhile_cons, hc]

theorem exists_of_dropWhile_cons {p : Char → Bool} {x : Str} {d : Char} {r : Str}
    (h : x.dropWhile p = d :: r) : ∃ c ∈ x, p c = false := by
  refine ⟨d, ?_, ?_⟩
  · have : d ∈ x.dropWhile p := by rw [h]; exact List.mem_cons_self _ _
    exact (List.dropWhile_sublist p).subset this
  · have := List.head?_dropWhile_not p x
    rw [h] at this
    simpa using this

theorem stripPrefix_append {lit s r : Str} (h : stripPrefix lit s = some r) (e : Str) :
    stripPrefix lit (s ++ e) = some (r ++ e) := by
  induction lit generalizing s with
  | nil =>
    cases s <;> simp only [stripPrefix, Option.some.injEq] at h <;> rw [← h] <;>
      cases e <;> rfl
  | cons x xs ih =>
    cases s with
    | nil => simp [stripPrefix] at h
    | cons c cs =>
      simp only [stripPrefix] at h
      by_cases hc : c = x
      · rw [if_pos hc] at h
        simp only [List.cons_append, stripPrefix, if_pos hc]
        exact ih h
      · rw [if_neg hc] at h
        exact absurd h (by simp)

theorem stripPrefix_isSome_append {lit s : Str} (h : (stripPrefix lit s).isSome = true)
    (e : Str) : (stripPrefix lit (s ++ e)).isSome = true := by
  obtain ⟨r, hr⟩ := Option.isSome_iff_exists.1 h
  rw [stripPrefix_append hr]
  rfl

theorem includes_cons (lit : Str) (c : Char) (cs : Str) :
    includes lit (c :: cs) = ((stripPrefix lit (c :: cs)).isSome || includes lit cs) := rfl

theorem includes_of_stripPrefix {lit s : Str} (h : (stripPrefix lit s).isSome = true) :
    includes lit s = true := by
  cases s with
  | nil => exact h
  | cons c cs => rw [includes_cons, h]; rfl

theorem includes_append {lit x : Str} (h : includes lit x = true) (e : Str) :
    includes lit (x ++ e) = true := by
  induction x with
  | nil =>
    exact includes_of_stripPrefix (stripPrefix_isSome_append (s := []) h e)
  | cons c cs ih =>
    rw [includes_cons, Bool.or_eq_true] at h
    rw [List.cons_append, includes_cons, Bool.or_eq_true]
    rcases h with h | h
    · exact Or.inl (stripPrefix_isSome_append h e)
    · exact Or.inr (ih h)

theorem includes_pfx {lit x y : Str} (hxy : x <+: y) (h : includes lit y = false) :
    includes lit x = false := by
  obtain ⟨e, rfl⟩ := hxy
  cases hx : includes lit x with
  | false => rfl
  | true => rw [includes_append hx e] at h; exact absurd h (by simp)

theorem dialogueMatch_append {s : Str} (h : (dialogueMatch s).isSome = true) (e : Str) :
    (dialogueMatch (s ++ e)).isSome = true := by
  unfold dialogueMatch at h ⊢
  cases hs : stripPrefix "**".toList s with
  | none => rw [hs] at h; exact absurd h (by simp)
  | some r =>
    rw [hs] at h
    rw [stripPrefix_append hs e]
    simp only at h ⊢
    by_cases hrun : 2 ≤ (r.takeWhile (fun c => c != '*')).length ∧
        (r.takeWhile (fun c => c != '*')).getLast? = some ':'
    · rw [if_pos hrun] at h
      cases hd : stripPrefix "**".toList (r.dropWhile (fun c => c != '*')) with
      | none => rw [hd] at h; exact absurd h (by simp)
      | some t =>
        have hex : ∃ c ∈ r, (fun c => c != '*') c = false := by
          cases hdw : r.dropWhile (fun c => c != '*') with
          | nil =>
            rw [hdw] at hd
            have hn : stripPrefix "**".toList [] = none := rfl
            rw [hn] at hd
            exact absurd hd (by simp)
          | cons d ds => exact exists_of_dropWhile_cons hdw
        rw [takeWhile_append_of_exists hex, dropWhile_append_of_exists hex, if_pos hrun,
          stripPrefix_append hd e]
        rfl
    · rw [if_neg hrun] at h
      exact absurd h (by simp)

theorem hasDialogue_cons (c : Char) (cs : Str) :
    hasDialogue (c :: cs) = ((dialogueMatch (c :: cs)).isSome || hasDialogue cs) := rfl

theorem hasDialogue_append {x : Str} (h : hasDialogue x = true) (e : Str) :
    hasDialogue (x ++ e) = true := by
  induction x with
  | nil => exact absurd h (by simp [hasDialogue])
  | cons c cs ih =>
    rw [hasDialogue_cons, Bool.or_eq_true] at h
    rw [List.cons_append, hasDialogue_cons, Bool.or_eq_true]
    rcases h with h | h
    · exact Or.inl (dialogueMatch_append (s := c :: cs) h e)
    · exact Or.inr (ih h)

theorem numberPrefixMatch_append {x : Str} (h : (numberPrefixMatch x).isSome = true) (e : Str) :
    (numberPrefixMatch (x ++ e)).isSome = true := by
  unfold numberPrefixMatch at h ⊢
  simp only at h ⊢
  by_cases hd : x.takeWhile isDigit = []
  · rw [if_pos hd] at h
    exact absurd h (by simp)
  · rw [if_neg hd] at h
    cases hdw : x.dropWhile isDigit with
    | nil => rw [hdw] at h; exact absurd h (by simp)
    | cons d ds =>
      have hex : ∃ c ∈ x, isDigit c = false := exists_of_dropWhile_cons hdw
      rw [takeWhile_append_of_exists hex, dropWhile_append_of_exists hex, if_neg hd, hdw]
      rw [hdw] at h
      by_cases hdot : d = '.'
      · subst hdot
        rfl
      · exfalso
        revert h
        split
        · rename_i heq
          simp only [List.cons.injEq] at heq
          exact absurd heq.1 hdot
        · simp

theorem startsNewBlock_append {x : Str} (h : startsNewBlock x = true) (e : Str) :
    startsNewBlock (x ++ e) = true := by
  unfold startsNewBlock at h ⊢
  simp only [Bool.or_eq_true] at h ⊢
  rcases h with (h | h) | h
  · exact Or.inl (Or.inl (hasDialogue_append h e))
  · exact Or.inl (Or.inr (numberPrefixMatch_append h e))
  · exact Or.inr (stripPrefix_isSome_append h e)

/-- A segment that closes the pending block still closes it when its text has
grown, unless it has come to hold the divider outside a list. -/
theorem closesPending_mono {st : RenderState} {x y : Str} (hxy : x <+: y)
    (h : closesPending st x = true)
    (hdiv : includes "***".toList y = true → st.inList = true) :
    closesPending st y = true := by
  unfold closesPending at h ⊢
  by_cases hy : includes "***".toList y = true
  · rw [if_pos hy]
    exact hdiv hy
  · have hyf : includes "***".toList y = false := by simpa using hy
    have hxf := includes_pfx hxy hyf
    rw [hxf] at h
    rw [hyf]
    simp only [Bool.false_eq_true, if_false] at h ⊢
    obtain ⟨e, rfl⟩ := hxy
    exact startsNewBlock_append h e

/-- A Vietnamese segment that closes the pending block first emits that block. -/
theorem renderVietsub_flushes {st : RenderState} {text : Str}
    (hc : closesPending st text = true) (hlv : st.lastVietnamese ≠ []) :
    st.result ++ vietSpan st.lastVietnamese <+: (renderVietsub st text).result := by
  unfold closesPending at hc
  unfold renderVietsub
  simp only
  by_cases h3 : includes "***".toList text = true
  · rw [if_pos h3] at hc
    rw [if_pos h3]
    simp only [hc, if_true, closeItem, hlv, ne_eq, not_false_eq_true, not_true_eq_false,
      if_false]
    split <;> simp only [List.append_assoc] <;>
      exact (List.prefix_append_right_inj _).2 (List.prefix_append _ _)
  · rw [if_neg h3] at hc
    rw [if_neg h3]
    unfold startsNewBlock at hc
    by_cases hd : hasDialogue text = true
    · rw [if_pos hd]
      by_cases hl : st.inList = true
      · simp only [hl, if_true, closeItem, hlv, ne_eq, not_false_eq_true, List.append_assoc]
        exact (List.prefix_append_right_inj _).2 (List.prefix_append _ _)
      · simp only [hl, if_false, hlv, ne_eq, not_false_eq_true, if_true, List.append_assoc,
          Bool.false_eq_true]
        exact (List.prefix_append_right_inj _).2 (List.prefix_append _ _)
    · rw [if_neg hd]
      cases hn : numberPrefixMatch text with
      | some nr =>
        obtain ⟨num, rest⟩ := nr
        simp only
        by_cases hl : st.inList = true
        · simp only [hl, Bool.not_true, Bool.false_eq_true, if_false, hlv, ne_eq,
            not_false_eq_true, if_true, List.append_assoc]
          exact (List.prefix_append_right_inj _).2 (List.prefix_append _ _)
        · have hlf : st.inList = false := by simpa using hl
          simp only [hlf, Bool.not_false, if_true, flushVietnamese, hlv, ne_eq,
            not_false_eq_true, List.append_assoc]
          exact (List.prefix_append_right_inj _).2 (List.prefix_append _ _)
      | none =>
        have hs : (stripPrefix "**".toList text).isSome = true := by
          rw [hn] at hc
          have hdf : hasDialogue text = false := by simpa using hd
          rw [hdf] at hc
          simpa using hc
        simp only [hs, if_true]
        by_cases hl : st.inList = true
        · simp only [hl, if_true, closeItem, hlv, ne_eq, not_false_eq_true, List.append_assoc]
          exact (List.prefix_append_right_inj _).2 (List.prefix_append _ _)
        · simp only [hl, if_false, hlv, ne_eq, not_false_eq_true, if_true, List.append_assoc,
            Bool.false_eq_true]
          exact (List.prefix_append_right_inj _).2 (List.prefix_append _ _)

theorem renderSegment_vietsub (b : Bool) (st : RenderState) {seg : Segment}
    (next : Option Segment) (htag : seg.tag ∉ closingTags) (htext : seg.text ≠ []) :
    renderSegment b st seg next = renderVietsub st seg.text := by
  simp only [closingTags, List.mem_cons, List.mem_singleton, List.not_mem_nil, or_false,
    not_or] at htag
  unfold renderSegment
  rw [if_neg htext, if_neg htag.1, if_neg htag.2.1, if_neg htag.2.2.1, if_neg htag.2.2.2]

/-- A segment that closes the pending block first emits that block, whatever its
tag. -/
theorem renderSegment_closes (b : Bool) {st : RenderState} {seg : Segment}
    (next : Option Segment) (htext : seg.text ≠ [])
    (hclose : seg.tag ∈ closingTags ∨ closesPending st seg.text = true)
    (hlv : st.lastVietnamese ≠ []) :
    st.result ++ vietSpan st.lastVietnamese <+: (renderSegment b st seg next).result := by
  by_cases htag : seg.tag ∈ closingTags
  · exact renderSegment_flushes b next htag htext hlv
  · rw [renderSegment_vietsub b st next htag htext]
    exact renderVietsub_flushes (hclose.resolve_left htag) hlv

theorem flushVietnamese_lastVietnamese (st : RenderState) :
    (flushVietnamese st).lastVietnamese = [] := by
  unfold flushVietnamese
  split
  · rfl
  · rename_i h
    simpa using h

theorem renderEngsub_lastVietnamese (st : RenderState) (text : Str) (next : Option Segment) :
    (renderEngsub st text next).lastVietnamese = [] := by
  have hf := flushVietnamese_lastVietnamese st
  unfold renderEngsub
  simp only
  split
  · exact hf
  · split <;> exact hf

/-- An iteration that leaves a Vietnamese block pending did not read the segment
after its own. -/
theorem renderSegment_pending (b : Bool) (st : RenderState) (seg : Segment)
    (n1 n2 : Option Segment) (h : (renderSegment b st seg n2).lastVietnamese ≠ []) :
    renderSegment b st seg n1 = renderSegment b st seg n2 := by
  unfold renderSegment at h ⊢
  by_cases h0 : seg.text = []
  · simp only [if_pos h0]
  · simp only [if_neg h0] at h ⊢
    by_cases h1 : seg.tag = "tip".toList
    · simp only [if_pos h1]
    · simp only [if_neg h1] at h ⊢
      by_cases h2 : seg.tag = "table".toList
      · simp only [if_pos h2]
      · simp only [if_neg h2] at h ⊢
        by_cases h3 : seg.tag = "list".toList
        · simp only [if_pos h3]
        · simp only [if_neg h3] at h ⊢
          by_cases h4 : seg.tag = "engsub".toList
          · simp only [if_pos h4] at h
            exact absurd (renderEngsub_lastVietnamese st seg.text n2) h
          · simp only [if_neg h4]

theorem loopState_congr_pending (b : Bool) {L1 L2 : List Segment} {i : Nat}
    (htake : L1.take i = L2.take i) (hlv : (loopState b L2 i).lastVietnamese ≠ []) :
    loopState b L1 i = loopState b L2 i := by
  cases i with
  | zero => rfl
  | succ k =>
    have hk : L1[k]? = L2[k]? := by
      have h1 : (L1.take (k + 1))[k]? = L1[k]? := by
        rw [List.getElem?_take, if_pos (by omega)]
      have h2 : (L2.take (k + 1))[k]? = L2[k]? := by
        rw [List.getElem?_take, if_pos (by omega)]
      rw [← h1, ← h2, htake]
    have htk : L1.take k = L2.take k := by
      have := congrArg (List.take k) htake
      simpa [List.take_take] using this
    have hprev : loopState b L1 k = loopState b L2 k := loopState_congr b htk (by rw [hk])
    rw [loopState] at hlv ⊢
    rw [loopState, hprev, hk]
    cases hseg : L2[k]? with
    | none => rfl
    | some seg =>
      rw [hseg] at hlv
      exact renderSegment_pending b _ seg _ _ hlv

/-- C4: let `p` and `q` be prefixes of a text made of complete tagged segments,
`p` a prefix of `q`.  Suppose that, in the render of `p`, the segment number `i`
has a text, meets a pending Vietnamese block and closes it: its tag is a closing
tag (tip, table, list, engsub), or it is a Vietnamese segment that emits the
pending block as it stands.  Suppose also that the segment at that place in `q`,
when it is a Vietnamese one, does not hold the divider outside a list.  Then
everything rendered up to that block and the block itself, with the same text,
start the render of `p` and the render of `q`, and the loop reaches iteration `i`
in the same state on both. -/
theorem closed_vietnamese_block_stable (segs : List (Str × Str))
    (hsegs : WellTagged displayTags segs) (p q : Str) (hpq : p <+: q)
    (hq : q <+: taggedText segs) (isStreaming : Bool) (i : Nat) (m : Segment)
    (hm : (displaySegments p)[i]? = some m) (htext : m.text ≠ [])
    (hlv : (loopState isStreaming (displaySegments p) i).lastVietnamese ≠ [])
    (hclose : m.tag ∈ closingTags ∨
      closesPending (loopState isStreaming (displaySegments p) i) m.text = true)
    (hdiv : ∀ m', (displaySegments q)[i]? = some m' → m'.tag ∉ closingTags →
      includes "***".toList m'.text = true →
      (loopState isStreaming (displaySegments p) i).inList = true) :
    (loopState isStreaming (displaySegments p) i).result ++
          vietSpan (loopState isStreaming (displaySegments p) i).lastVietnamese
        <+: formatMessageContent p isStreaming ∧
      (loopState isStreaming (displaySegments p) i).result ++
          vietSpan (loopState isStreaming (displaySegments p) i).lastVietnamese
        <+: formatMessageContent q isStreaming ∧
      loopState isStreaming (displaySegments q) i =
        loopState isStreaming (displaySegments p) i := by
  have hext := displaySegments_extend hsegs hpq hq
  obtain ⟨htake, hcase⟩ := segmentsExtend_at hext hm
  have hi : i < (displaySegments p).length := by
    rcases Nat.lt_or_ge i (displaySegments p).length with h1 | h1
    · exact h1
    · rw [List.getElem?_eq_none h1] at hm
      exact absurd hm (by simp)
  have hi0 : 0 < i := by
    rcases Nat.eq_zero_or_pos i with h0 | h0
    · rw [h0] at hlv
      exact absurd rfl hlv
    · exact h0
  have hpne : displaySegments p ≠ [] := by
    intro h0
    rw [h0] at hi
    simp at hi
  have hqne : displaySegments q ≠ [] := by
    intro h0
    rw [h0] at htake
    have := congrArg List.length htake
    simp only [List.take_nil, List.length_nil, List.length_take] at this
    omega
  have hstate : loopState isStreaming (displaySegments q) i =
      loopState isStreaming (displaySegments p) i :=
    loopState_congr_pending isStreaming htake hlv
  refine ⟨?_, ?_, hstate⟩
  · rw [formatMessageContent_eq_renderEnd p isStreaming hpne]
    have hstep : loopState isStreaming (displaySegments p) (i + 1) =
        renderSegment isStreaming (loopState isStreaming (displaySegments p) i) m
          (displaySegments p)[i + 1]? := by
      rw [loopState, hm]
    exact ((renderSegment_closes isStreaming _ htext hclose hlv).trans
      (by rw [← hstep]; exact loopState_result_mono isStreaming _ (by omega))).trans
      (renderEnd_result_pfx _)
  · rw [formatMessageContent_eq_renderEnd q isStreaming hqne]
    rcases hcase with hlen | ⟨m', hm', ht, hx⟩
    · rw [hlen, hstate]
      exact renderEnd_flushes hlv
    · have hiq : i < (displaySegments q).length := by
        rcases Nat.lt_or_ge i (displaySegments q).length with h1 | h1
        · exact h1
        · rw [List.getElem?_eq_none h1] at hm'
          exact absurd hm' (by simp)
      have hstep : loopState isStreaming (displaySegments q) (i + 1) =
          renderSegment isStreaming (loopState isStreaming (displaySegments p) i) m'
            (displaySegments q)[i + 1]? := by
        rw [loopState, hm', hstate]
      have htext' : m'.text ≠ [] := by
        intro h0
        rw [h0] at hx
        exact htext (List.prefix_nil.1 hx)
      have hclose' : m'.tag ∈ closingTags ∨
          closesPending (loopState isStreaming (displaySegments p) i) m'.text = true := by
        by_cases htag : m.tag ∈ closingTags
        · exact Or.inl (by rw [ht]; exact htag)
        · exact Or.inr (closesPending_mono hx (hclose.resolve_left htag)
            (hdiv m' hm' (by rw [ht]; exact htag)))
      exact ((renderSegment_closes isStreaming _ htext' hclose' hlv).trans
        (by rw [← hstep]; exact loopState_result_mono isStreaming _ (by omega))).trans
        (renderEnd_result_pfx _)

set_option maxRecDepth 100000 in
/-- Witness of C4: the block "intro", closed by the numbered Vietnamese item in the
prefix "[Vietsub] intro [Vietsub] 1. one", starts the render of that prefix and of
the longer text "[Vietsub] intro [Vietsub] 1. one two". -/
theorem closed_vietnamese_block_stable_witness :
    "<span class=\"vietnamese-text\">intro</span>".toList
        <+: formatMessageContent "[Vietsub] intro [Vietsub] 1. one".toList false ∧
      "<span class=\"vietnamese-text\">intro</span>".toList
        <+: formatMessageContent "[Vietsub] intro [Vietsub] 1. one two".toList false := by
  have hw : WellTagged displayTags
      [("Vietsub".toList, " intro ".toList), ("Vietsub".toList, " 1. one two".toList)] := by
    intro s hs
    simp only [List.mem_cons, List.mem_singleton, List.not_mem_nil, or_false] at hs
    rcases hs with rfl | rfl
    · exact ⟨⟨"Vietsub".toList, by decide, rfl⟩, by unfold NoBracket; decide⟩
    · exact ⟨⟨"Vietsub".toList, by decide, rfl⟩, by unfold NoBracket; decide⟩
  have hq1 : (displaySegments "[Vietsub] intro [Vietsub] 1. one two".toList)[1]? =
      some ⟨"vietsub".toList, "1. one two".toList⟩ := by decide
  have h := closed_vietnamese_block_stable
    [("Vietsub".toList, " intro ".toList), ("Vietsub".toList, " 1. one two".toList)] hw
    "[Vietsub] intro [Vietsub] 1. one".toList "[Vietsub] intro [Vietsub] 1. one two".toList
    ⟨" two".toList, by decide⟩ ⟨[], by decide⟩ false 1
    ⟨"vietsub".toList, "1. one".toList⟩ (by decide) (by decide) (by decide)
    (Or.inr (by decide))
    (fun m' hm' _ hinc => by
      rw [hq1] at hm'
      cases hm'
      exact absurd hinc (by decide))
  have e : (loopState false (displaySegments "[Vietsub] intro [Vietsub] 1. one".toList) 1).result
      ++ vietSpan (loopState false
        (displaySegments "[Vietsub] intro [Vietsub] 1. one".toList) 1).lastVietnamese =
      "<span class=\"vietnamese-text\">intro</span>".toList := by decide
  rw [e] at h
  exact ⟨h.1, h.2.1⟩

set_option maxRecDepth 100000 in
/-- Counterexample to C4 as stated: in the render of "[Vietsub] intro [Vietsub] 1. one"
the block "intro" is closed by the numbered item that follows it; in the render of
the longer text "[Vietsub] intro [Vietsub] 1. one *** two", whose tags are all
complete, the same block reads "intro 1. one". -/
theorem closed_vietnamese_block_divider_counterexample :
    formatMessageContent "[Vietsub] intro [Vietsub] 1. one".toList false =
        ("<span class=\"vietnamese-text\">intro</span><ul class=\"vocab-list\">" ++
          "<li><span class=\"list-num\">1.</span> " ++
          "<span class=\"vietnamese-text\">one</span></li></ul>").toList ∧
      formatMessageContent "[Vietsub] intro [Vietsub] 1. one *** two".toList false =
        ("<span class=\"vietnamese-text\">intro 1. one</span><br><hr class=\"divider\">" ++
          "<span class=\"vietnamese-text\">two</span>").toList ∧
      List.isPrefixOf "<span class=\"vietnamese-text\">intro</span>".toList
        (formatMessageContent "[Vietsub] intro [Vietsub] 1. one *** two".toList false) = false := by
  decide

/-! ## English segments -/

theorem renderSegment_engsub (b : Bool) (st : RenderState) {seg : Segment}
    (next : Option Segment) (htag : seg.tag = "engsub".toList) (htext : seg.text ≠ []) :
    renderSegment b st seg next = renderEngsub st seg.text next := by
  unfold renderSegment
  rw [if_neg htext, htag]
  rfl

theorem flushVietnamese_inList (st : RenderState) :
    (flushVietnamese st).inList = st.inList := by
  unfold flushVietnamese
  split <;> rfl

theorem endsWithColon_iff (s : Str) : endsWithColon (jsTrim s) = true ↔ EndsWithColon s := by
  unfold endsWithColon EndsWithColon
  rw [decide_eq_true_iff]
  constructor
  · intro h
    obtain ⟨pre, hpre⟩ := List.getLast?_eq_some_iff.1 h
    exact ⟨pre, hpre⟩
  · rintro ⟨pre, hpre⟩
    rw [hpre]
    simp

theorem nextStartsWithColon_iff (next : Option Segment) :
    (match next with
      | some n => decide (n.tag = "vietsub".toList) && decide (n.text.head? = some ':')
      | none => false) = true ↔ NextStartsWithColon next := by
  unfold NextStartsWithColon
  cases next with
  | none => simp
  | some n =>
    simp only [Bool.and_eq_true, decide_eq_true_eq, Option.some.injEq]
    constructor
    · rintro ⟨h1, h2⟩
      cases ht : n.text with
      | nil => rw [ht] at h2; simp at h2
      | cons c r =>
        rw [ht] at h2
        simp only [List.head?_cons, Option.some.injEq] at h2
        exact ⟨n, r, rfl, h1, by rw [ht, h2]⟩
    · rintro ⟨m, r, hm, h1, h2⟩
      rw [hm]
      exact ⟨h1, by rw [h2]; rfl⟩

theorem hasSentencePunct_cons (c : Char) (cs : Str) :
    hasSentencePunct (c :: cs) =
      ((decide (c = '.' ∨ c = '!' ∨ c = '?') && cs.head?.all isJsSpace) ||
        hasSentencePunct cs) := rfl

theorem hasSentencePunct_iff (s : Str) : hasSentencePunct s = true ↔ HasSentenceEnd s := by
  unfold HasSentenceEnd
  induction s with
  | nil =>
    constructor
    · intro h; simp [hasSentencePunct] at h
    · rintro ⟨u, c, v, h, _⟩
      simp at h
  | cons a as ih =>
    rw [hasSentencePunct_cons, Bool.or_eq_true, Bool.and_eq_true, decide_eq_true_iff, ih]
    constructor
    · rintro (⟨hc, hv⟩ | ⟨u, c, v, h, hc, hv⟩)
      · refine ⟨[], a, as, rfl, hc, ?_⟩
        cases as with
        | nil => exact Or.inl rfl
        | cons d r => exact Or.inr ⟨d, r, rfl, by simpa using hv⟩
      · exact ⟨a :: u, c, v, by rw [h]; rfl, hc, hv⟩
    · rintro ⟨u, c, v, h, hc, hv⟩
      cases u with
      | nil =>
        simp only [List.nil_append, List.cons.injEq] at h
        left
        rw [h.1, h.2]
        refine ⟨hc, ?_⟩
        rcases hv with rfl | ⟨d, r, rfl, hd⟩
        · rfl
        · simpa using hd
      | cons x xs =>
        simp only [List.cons_append, List.cons.injEq] at h
        exact Or.inr ⟨xs, c, v, h.2, hc, hv⟩

theorem matchLitCI_eq_nil_iff (e x : Str) : matchLitCI e x = some [] ↔ SameIgnoringCase x e := by
  constructor
  · intro h
    obtain ⟨u, hu, hsame⟩ := matchLitCI_some h
    rw [List.append_nil] at hu
    rw [hu]
    exact hsame
  · intro h
    have := matchLitCI_append h []
    rwa [List.append_nil] at this

theorem endsWithFileExt_cons (c : Char) (cs : Str) :
    endsWithFileExt (c :: cs) =
      ((decide (c = '.') && fileExtensions.any (fun e => decide (matchLitCI e cs = some []))) ||
        endsWithFileExt cs) := rfl

theorem endsWithFileExt_iff (s : Str) : endsWithFileExt s = true ↔ EndsWithFileExtension s := by
  unfold EndsWithFileExtension
  induction s with
  | nil =>
    constructor
    · intro h; simp [endsWithFileExt] at h
    · rintro ⟨u, x, h, _⟩
      simp at h
  | cons a as ih =>
    rw [endsWithFileExt_cons, Bool.or_eq_true, Bool.and_eq_true, decide_eq_true_iff, ih,
      List.any_eq_true]
    constructor
    · rintro (⟨hc, e, he, hm⟩ | ⟨u, x, h, hx⟩)
      · exact ⟨[], as, by rw [hc]; rfl, e, he, (matchLitCI_eq_nil_iff e as).1 (by simpa using hm)⟩
      · exact ⟨a :: u, x, by rw [h]; rfl, hx⟩
    · rintro ⟨u, x, h, e, he, hx⟩
      cases u with
      | nil =>
        simp only [List.nil_append, List.cons.injEq] at h
        left
        refine ⟨h.1, e, he, ?_⟩
        rw [h.2]
        simpa using (matchLitCI_eq_nil_iff e x).2 hx
      | cons y ys =>
        simp only [List.cons_append, List.cons.injEq] at h
        exact Or.inr ⟨ys, x, h.2, e, he, hx⟩

/-- The test of the short phrase in `renderEngsub`, read on the text. -/
theorem isShort_iff (text : Str) (next : Option Segment) :
    (endsWithColon (jsTrim (removeDoubleStars text)) ||
      (match next with
        | some n => decide (n.tag = "vietsub".toList) && decide (n.text.head? = some ':')
        | none => false) ||
      (decide ((splitChar ' ' (removeDoubleStars text)).length ≤ 6) &&
        !(hasSentencePunct (removeDoubleStars text) &&
          !endsWithFileExt (removeDoubleStars text)))) = true ↔ IsShortPhrase text next := by
  unfold IsShortPhrase
  rw [Bool.or_eq_true, Bool.or_eq_true, endsWithColon_iff, nextStartsWithColon_iff,
    Bool.and_eq_true, decide_eq_true_iff, Bool.not_eq_true', Bool.and_eq_false_iff,
    Bool.not_eq_false', or_assoc]
  have h1 := hasSentencePunct_iff (removeDoubleStars text)
  have h2 := endsWithFileExt_iff (removeDoubleStars text)
  constructor
  · rintro (h | h | ⟨hl, h⟩)
    · exact Or.inl h
    · exact Or.inr (Or.inl h)
    · refine Or.inr (Or.inr ⟨hl, ?_⟩)
      rintro ⟨hs, hne⟩
      rcases h with h | h
      · rw [h1.2 hs] at h
        exact absurd h (by simp)
      · exact hne (h2.1 h)
  · rintro (h | h | ⟨hl, h⟩)
    · exact Or.inl h
    · exact Or.inr (Or.inl h)
    · refine Or.inr (Or.inr ⟨hl, ?_⟩)
      by_cases hs : hasSentencePunct (removeDoubleStars text) = true
      · right
        by_contra hx
        exact h ⟨h1.1 hs, fun he => hx (h2.2 he)⟩
      · left
        simpa using hs

/-- The three renderings of an English segment. -/
theorem renderEngsub_cases (st : RenderState) (text : Str) (next : Option Segment) :
    ('+' ∈ text →
        (renderEngsub st text next).result = (flushVietnamese st).result ++
          ("<span class=\"english-grammar\">".toList ++ replaceAll strongLazyMatch 0 text ++
            "</span> ".toList)) ∧
      ('+' ∉ text → IsShortPhrase text next →
        (renderEngsub st text next).result = (flushVietnamese st).result ++
          ("<span class=\"english-word\" data-speak=\"".toList ++
            encodeURIComponent (speakTextOf text) ++ "\">".toList ++ removeDoubleStars text ++
            "</span> ".toList)) ∧
      ('+' ∉ text → ¬ IsShortPhrase text next →
        (renderEngsub st text next).result = (flushVietnamese st).result ++
          ("<span class=\"english-sentence\" data-speak=\"".toList ++
            encodeURIComponent (speakTextOf text) ++ "\">".toList ++
            replaceAll strongLazyMatch 0 text ++ "</span>".toList)) := by
  have hshort := isShort_iff text next
  refine ⟨?_, ?_, ?_⟩
  · intro hplus
    have hc : text.contains '+' = true := by simpa using hplus
    unfold renderEngsub
    simp only [hc, if_true, List.append_assoc]
  · intro hplus hs
    have hc : text.contains '+' = false := by simpa using hplus
    unfold renderEngsub
    simp only [hc, Bool.false_eq_true, if_false]
    simp only [List.append_assoc, speakTextOf]
    split
    · rfl
    · rename_i h
      exact absurd (hshort.2 hs) h
  · intro hplus hs
    have hc : text.contains '+' = false := by simpa using hplus
    unfold renderEngsub
    simp only [hc, Bool.false_eq_true, if_false]
    simp only [List.append_assoc, speakTextOf]
    split
    · rename_i h
      exact absurd (hshort.1 h) hs
    · rfl

theorem renderedElement_engsub (b : Bool) (st : RenderState) {seg : Segment}
    (next : Option Segment) (htag : seg.tag = "engsub".toList) (htext : seg.text ≠ [])
    {el : Str} (h : (renderEngsub st seg.text next).result = (flushVietnamese st).result ++ el) :
    renderedElement b st seg next = el := by
  unfold renderedElement
  rw [renderSegment_engsub b st next htag htext, h, List.drop_left]

theorem classOf_grammar (x : Str) :
    classOf ("<span class=\"english-grammar\">".toList ++ x) = "english-grammar".toList := rfl

theorem classOf_word (x : Str) :
    classOf ("<span class=\"english-word\" data-speak=\"".toList ++ x) =
      "english-word".toList := rfl

theorem classOf_sentence (x : Str) :
    classOf ("<span class=\"english-sentence\" data-speak=\"".toList ++ x) =
      "english-sentence".toList := rfl

/-- C18: the class of the element rendered for an English segment with a text.
It is `english-grammar` exactly when the text holds `+`; else `english-word`
exactly when the text without `**` ends with `:` (trailing white space aside), or
a Vietnamese segment that starts with `:` follows, or it has at most 6 pieces
between single spaces and is not the case that it holds a sentence end (`.`, `!`
or `?` followed by white space or by the end of the text, anywhere in the text)
without ending with a file extension of the list; else `english-sentence`. -/
theorem engsub_classification (isStreaming : Bool) (st : RenderState) (seg : Segment)
    (next : Option Segment) (htag : seg.tag = "engsub".toList) (htext : seg.text ≠ []) :
    (classOf (renderedElement isStreaming st seg next) = "english-grammar".toList ↔
        '+' ∈ seg.text) ∧
      (classOf (renderedElement isStreaming st seg next) = "english-word".toList ↔
        '+' ∉ seg.text ∧ IsShortPhrase seg.text next) ∧
      (classOf (renderedElement isStreaming st seg next) = "english-sentence".toList ↔
        '+' ∉ seg.text ∧ ¬ IsShortPhrase seg.text next) := by
  obtain ⟨hg, hw, hs⟩ := renderEngsub_cases st seg.text next
  by_cases hplus : '+' ∈ seg.text
  · have hc : classOf (renderedElement isStreaming st seg next) = "english-grammar".toList := by
      rw [renderedElement_engsub isStreaming st next htag htext (hg hplus), List.append_assoc]
      exact classOf_grammar _
    rw [hc]
    refine ⟨⟨fun _ => hplus, fun _ => rfl⟩, ⟨fun h => absurd h (by decide), fun h => absurd hplus h.1⟩,
      ⟨fun h => absurd h (by decide), fun h => absurd hplus h.1⟩⟩
  · by_cases hshort : IsShortPhrase seg.text next
    · have hc : classOf (renderedElement isStreaming st seg next) = "english-word".toList := by
        rw [renderedElement_engsub isStreaming st next htag htext (hw hplus hshort)]
        simp only [List.append_assoc]
        exact classOf_word _
      rw [hc]
      refine ⟨⟨fun h => absurd h (by decide), fun h => absurd h hplus⟩,
        ⟨fun _ => ⟨hplus, hshort⟩, fun _ => rfl⟩,
        ⟨fun h => absurd h (by decide), fun h => absurd hshort h.2⟩⟩
    · have hc : classOf (renderedElement isStreaming st seg next) = "english-sentence".toList := by
        rw [renderedElement_engsub isStreaming st next htag htext (hs hplus hshort)]
        simp only [List.append_assoc]
        exact classOf_sentence _
      rw [hc]
      refine ⟨⟨fun h => absurd h (by decide), fun h => absurd h hplus⟩,
        ⟨fun h => absurd h (by decide), fun h => absurd h.2 hshort⟩,
        ⟨fun _ => ⟨hplus, hshort⟩, fun _ => rfl⟩⟩

set_option maxRecDepth 100000 in
/-- Witness of C18: the segment "Done. See app.js" holds a sentence end and ends
with a file extension; it has 3 pieces, so it is rendered as `english-word`. -/
theorem engsub_classification_witness :
    classOf (renderedElement false ⟨[], [], false⟩
      ⟨"engsub".toList, "Done. See app.js".toList⟩ none) = "english-word".toList :=
  (engsub_classification false ⟨[], [], false⟩ ⟨"engsub".toList, "Done. See app.js".toList⟩ none
    (by decide) (by decide)).2.1.2 ⟨by decide, (isShort_iff _ _).1 (by decide)⟩

set_option maxRecDepth 100000 in
/-- Counterexample to C18 as stated.  The segment "Yes. I do" holds no `+`, has 3
pieces between spaces and ends with the letter "o", not with `.`, `!` or `?`: a
text that does not end in punctuation, yet the code renders it as
`english-sentence`, because a `.` followed by a space stands inside the text.
The segment "Done. See app.js" holds the sentence end "Done." and 3 pieces, yet
the code renders it as `english-word`, because the text ends with a file
extension.  So the test is neither "the text ends in punctuation" nor "the text
holds a sentence end, the dot of a trailing extension apart". -/
theorem engsub_inner_sentence_end_counterexample :
    formatMessageContent "[Engsub] Yes. I do".toList false =
        ("<span class=\"english-sentence\" data-speak=\"Yes.%20I%20do\">Yes. I do" ++
          "</span>").toList ∧
      '+' ∉ "Yes. I do".toList ∧
      (splitChar ' ' (removeDoubleStars "Yes. I do".toList)).length = 3 ∧
      (removeDoubleStars "Yes. I do".toList).getLast? = some 'o' ∧
      formatMessageContent "[Engsub] Done. See app.js".toList false =
        ("<span class=\"english-word\" data-speak=\"Done.%20See%20app.js\">" ++
          "Done. See app.js</span> ").toList ∧
      hasSentencePunct (removeDoubleStars "Done. See app.js".toList) = true := by
  decide

/-- C19: for an English segment with a text and without `+` (a short phrase or a
long sentence), the rendered element is a `span` of class `english-word` or
`english-sentence` whose `data-speak` attribute holds the URI-encoded text of the
segment with `**` and `...` removed and trimmed; for a segment with `+` (a grammar
pattern) the opening tag of the element is `<span class="english-grammar">`, with
no other attribute. -/
theorem engsub_data_speak (isStreaming : Bool) (st : RenderState) (seg : Segment)
    (next : Option Segment) (htag : seg.tag = "engsub".toList) (htext : seg.text ≠ []) :
    ('+' ∉ seg.text →
        ∃ cls inner close,
          (cls = "english-word".toList ∨ cls = "english-sentence".toList) ∧
          renderedElement isStreaming st seg next =
            "<span class=\"".toList ++ cls ++ "\" data-speak=\"".toList ++
              encodeURIComponent (speakTextOf seg.text) ++ "\">".toList ++ inner ++ close) ∧
      ('+' ∈ seg.text →
        renderedElement isStreaming st seg next =
          "<span class=\"english-grammar\">".toList ++ replaceAll strongLazyMatch 0 seg.text ++
            "</span> ".toList) := by
  obtain ⟨hg, hw, hs⟩ := renderEngsub_cases st seg.text next
  refine ⟨fun hplus => ?_, fun hplus => ?_⟩
  · by_cases hshort : IsShortPhrase seg.text next
    · refine ⟨"english-word".toList, removeDoubleStars seg.text, "</span> ".toList, Or.inl rfl, ?_⟩
      rw [renderedElement_engsub isStreaming st next htag htext (hw hplus hshort)]
      simp [List.append_assoc]
    · refine ⟨"english-sentence".toList, replaceAll strongLazyMatch 0 seg.text,
        "</span>".toList, Or.inr rfl, ?_⟩
      rw [renderedElement_engsub isStreaming st next htag htext (hs hplus hshort)]
      simp [List.append_assoc]
  · exact renderedElement_engsub isStreaming st next htag htext (hg hplus)

set_option maxRecDepth 100000 in
/-- Witness of C19: the segment "**Hello**..." is rendered with the attribute
`data-speak="Hello"`. -/
theorem engsub_data_speak_witness :
    ∃ cls inner close,
      (cls = "english-word".toList ∨ cls = "english-sentence".toList) ∧
      renderedElement false ⟨[], [], false⟩ ⟨"engsub".toList, "**Hello**...".toList⟩ none =
        "<span class=\"".toList ++ cls ++ "\" data-speak=\"".toList ++
          "Hello".toList ++ "\">".toList ++ inner ++ close :=
  (engsub_data_speak false ⟨[], [], false⟩ ⟨"engsub".toList, "**Hello**...".toList⟩ none
    (by decide) (by decide)).1 (by decide)

set_option maxRecDepth 100000 in
/-- Counterexample to C19 as stated: the grammar pattern "S + V" is rendered as a
`span` of class `english-grammar` that carries no `data-speak` attribute. -/
theorem engsub_grammar_no_data_speak_counterexample :
    formatMessageContent "[Engsub] S + V".toList false =
        "<span class=\"english-grammar\">S + V</span> ".toList ∧
      includes "data-speak".toList
        (formatMessageContent "[Engsub] S + V".toList false) = false := by
  decide

/-! ## Segments without a text -/

theorem formatMessageContent_tagged {segs : List (Str × Str)} (hne : segs ≠ [])
    (hsegs : WellTagged displayTags segs) (b : Bool) :
    formatMessageContent (taggedText segs) b =
      renderEnd (renderLoop b ⟨[], [], false⟩ (segs.map toSegment)) := by
  have hd : displaySegments (taggedText segs) = segs.map toSegment := by
    have e := List.dropLast_append_getLast hne
    rw [← e] at hsegs ⊢
    exact displaySegments_tagged hsegs
  have hdne : displaySegments (taggedText segs) ≠ [] := by
    rw [hd]
    simpa using hne
  rw [formatMessageContent_eq_renderEnd _ b hdne, ← renderLoop_eq_loopState, hd]

theorem renderSegment_empty (b : Bool) (st : RenderState) {seg : Segment}
    (next : Option Segment) (h : seg.text = []) : renderSegment b st seg next = st := by
  unfold renderSegment
  rw [if_pos h]

/-- Only an English segment with a text reads the segment that follows it. -/
theorem renderSegment_next_irrelevant (b : Bool) (st : RenderState) {seg : Segment}
    (n1 n2 : Option Segment) (h : seg.tag ≠ "engsub".toList ∨ seg.text = []) :
    renderSegment b st seg n1 = renderSegment b st seg n2 := by
  unfold renderSegment
  by_cases h0 : seg.text = []
  · simp only [if_pos h0]
  · have h4 : seg.tag ≠ "engsub".toList := h.resolve_right h0
    simp only [if_neg h4]

theorem nextColon_empty {e : Segment} (h : e.text = []) : nextColon (some e) = false := by
  simp [nextColon, h]

theorem renderLoop_cons (b : Bool) (st : RenderState) (seg : Segment) (rest : List Segment) :
    renderLoop b st (seg :: rest) = renderLoop b (renderSegment b st seg rest.head?) rest := rfl

/-- A segment without a text leaves the loop as it is, unless it hides from an
English segment a Vietnamese segment that starts with a colon. -/
theorem renderLoop_skip_empty (b : Bool) (A : List Segment) {e : Segment} (B : List Segment)
    (he : e.text = [])
    (hbetween : nextColon B.head? = false ∨
      ∀ a, A.getLast? = some a → a.tag ≠ "engsub".toList) (st : RenderState) :
    renderLoop b st (A ++ e :: B) = renderLoop b st (A ++ B) := by
  induction A generalizing st with
  | nil =>
    rw [List.nil_append, List.nil_append, renderLoop_cons, renderSegment_empty b st _ he]
  | cons a A' ih =>
    cases A' with
    | nil =>
      rw [List.singleton_append, List.singleton_append, renderLoop_cons b st a,
        renderLoop_cons b st a]
      have hseg : renderSegment b st a (e :: B).head? = renderSegment b st a B.head? := by
        rcases hbetween with h | h
        · apply renderSegment_congr
          rw [h]
          exact nextColon_empty he
        · exact renderSegment_next_irrelevant b st _ _ (Or.inl (h a rfl))
      rw [hseg, renderLoop_cons, renderSegment_empty b _ _ he]
    | cons a' A'' =>
      simp only [List.cons_append]
      rw [renderLoop_cons b st a, renderLoop_cons b st a]
      simp only [List.head?_cons]
      refine ih ?_ _
      rcases hbetween with h | h
      · exact Or.inl h
      · exact Or.inr (fun x hx => h x (by rw [List.getLast?_cons_cons]; exact hx))

/-- C13: in a text made of complete tagged segments, a segment whose trimmed text
is empty is skipped by the display parser: deleting it (its tag and its text)
leaves the output of `formatMessageContent` unchanged, provided that other
segments remain and that the deleted segment does not stand between an English
segment and a Vietnamese segment whose text starts with a colon. -/
theorem empty_segment_is_dropped (segs1 : List (Str × Str)) (s : Str × Str)
    (segs2 : List (Str × Str)) (hsegs : WellTagged displayTags (segs1 ++ s :: segs2))
    (hempty : jsTrim s.2 = []) (hothers : segs1 ++ segs2 ≠ [])
    (hbetween : nextColon (segs2.head?.map toSegment) = false ∨
      ∀ t, segs1.getLast? = some t → (toSegment t).tag ≠ "engsub".toList)
    (isStreaming : Bool) :
    formatMessageContent (taggedText (segs1 ++ s :: segs2)) isStreaming =
      formatMessageContent (taggedText (segs1 ++ segs2)) isStreaming := by
  have hsegs' : WellTagged displayTags (segs1 ++ segs2) := by
    intro t ht
    rcases List.mem_append.1 ht with h | h
    · exact hsegs t (List.mem_append_left _ h)
    · exact hsegs t (List.mem_append_right _ (List.mem_cons_of_mem _ h))
  rw [formatMessageContent_tagged (by simp) hsegs, formatMessageContent_tagged hothers hsegs',
    List.map_append, List.map_append, List.map_cons]
  congr 1
  apply renderLoop_skip_empty
  · exact hempty
  · rcases hbetween with h | h
    · left
      rw [List.head?_map]
      exact h
    · right
      intro a ha
      rw [List.getLast?_map] at ha
      cases hl : segs1.getLast? with
      | none => rw [hl] at ha; simp at ha
      | some t =>
        rw [hl] at ha
        simp only [Option.map_some', Option.some.injEq] at ha
        rw [← ha]
        exact h t hl

set_option maxRecDepth 100000 in
/-- Witness of C13: the English segment without a text of
"[Vietsub] xin chao [Engsub]  [Vietsub] the gioi" can be deleted. -/
theorem empty_segment_is_dropped_witness :
    formatMessageContent "[Vietsub] xin chao [Engsub]  [Vietsub] the gioi".toList false =
      formatMessageContent "[Vietsub] xin chao [Vietsub] the gioi".toList false := by
  have hw : WellTagged displayTags
      ([("Vietsub".toList, " xin chao ".toList)] ++
        ("Engsub".toList, "  ".toList) :: [("Vietsub".toList, " the gioi".toList)]) := by
    intro s hs
    simp only [List.singleton_append, List.mem_cons, List.mem_singleton, List.not_mem_nil,
      or_false] at hs
    rcases hs with rfl | rfl | rfl
    · exact ⟨⟨"Vietsub".toList, by decide, rfl⟩, by unfold NoBracket; decide⟩
    · exact ⟨⟨"Engsub".toList, by decide, rfl⟩, by unfold NoBracket; decide⟩
    · exact ⟨⟨"Vietsub".toList, by decide, rfl⟩, by unfold NoBracket; decide⟩
  exact empty_segment_is_dropped [("Vietsub".toList, " xin chao ".toList)]
    ("Engsub".toList, "  ".toList) [("Vietsub".toList, " the gioi".toList)] hw (by decide)
    (by decide) (Or.inl (by decide)) false

set_option maxRecDepth 100000 in
/-- Counterexample to C13 as stated: the Vietnamese segment of
"[Vietsub] a[Engsub] Hello" has a trimmed text of one character and is rendered
as a block; with that segment deleted the block is gone.  Alone, "[Vietsub] a"
renders the block for "a". -/
theorem one_letter_segment_is_rendered_counterexample :
    formatMessageContent "[Vietsub] a[Engsub] Hello".toList false =
        ("<span class=\"vietnamese-text\">a</span>" ++
          "<span class=\"english-word\" data-speak=\"Hello\">Hello</span> ").toList ∧
      formatMessageContent "[Engsub] Hello".toList false =
        "<span class=\"english-word\" data-speak=\"Hello\">Hello</span> ".toList ∧
      formatMessageContent "[Vietsub] a".toList false =
        "<span class=\"vietnamese-text\">a</span>".toList := by
  decide

/-! ## The pending Vietnamese block -/

theorem joinWithSpace_cons_cons (t u : Str) (rest : List Str) :
    joinWithSpace (t :: u :: rest) = t ++ ' ' :: joinWithSpace (u :: rest) := rfl

theorem joinWithSpace_ne_nil {ts : List Str} (hne : ts ≠ []) (h : ∀ t ∈ ts, t ≠ []) :
    joinWithSpace ts ≠ [] := by
  cases ts with
  | nil => exact absurd rfl hne
  | cons t rest =>
    cases rest with
    | nil => exact h t (List.mem_singleton_self _)
    | cons u rest' =>
      rw [joinWithSpace_cons_cons]
      intro h0
      have := congrArg List.length h0
      simp at this

theorem joinWithSpace_concat (ts : List Str) (t : Str) :
    joinWithSpace (ts ++ [t]) =
      if ts = [] then t else joinWithSpace ts ++ ' ' :: t := by
  induction ts with
  | nil => rfl
  | cons a rest ih =>
    rw [if_neg (by simp)]
    cases rest with
    | nil => rfl
    | cons u rest' =>
      rw [List.cons_append, List.cons_append, joinWithSpace_cons_cons, ← List.cons_append, ih,
        if_neg (by simp), joinWithSpace_cons_cons]
      simp

/-- A plain Vietnamese text joins the pending block. -/
theorem renderVietsub_plain (st : RenderState) {t : Str} (h : isPlainVietnamese t = true) :
    renderVietsub st t =
      { st with lastVietnamese :=
          st.lastVietnamese ++ (if st.lastVietnamese ≠ [] then " ".toList else []) ++ t } := by
  unfold isPlainVietnamese at h
  simp only [Bool.and_eq_true, Bool.not_eq_true', decide_eq_true_eq, Option.isNone_iff_eq_none]
    at h
  obtain ⟨⟨⟨⟨_, hnum⟩, hsec⟩, hdiv⟩, hdia⟩ := h
  unfold renderVietsub
  simp only [hdiv, hdia, hnum, hsec, Bool.false_eq_true, if_false, Option.isSome_none]

theorem renderSegment_plain (b : Bool) (st : RenderState) {seg : Segment}
    (next : Option Segment) (htag : seg.tag = "vietsub".toList)
    (h : isPlainVietnamese seg.text = true) :
    renderSegment b st seg next =
      { st with lastVietnamese :=
          st.lastVietnamese ++ (if st.lastVietnamese ≠ [] then " ".toList else []) ++
            seg.text } := by
  have htext : seg.text ≠ [] := by
    intro h0
    rw [h0] at h
    exact absurd h (by decide)
  rw [renderSegment_vietsub b st next (by rw [htag]; decide) htext, renderVietsub_plain st h]

theorem isPlainVietnamese_ne_nil {t : Str} (h : isPlainVietnamese t = true) : t ≠ [] := by
  intro h0
  rw [h0] at h
  exact absurd h (by decide)

/-- The loop over a run of plain Vietnamese segments that starts with an empty
pending block: nothing is rendered and the texts are joined in the block. -/
theorem loopState_plain_run (b : Bool) (P R Q : List Segment)
    (hplain : ∀ s ∈ R, s.tag = "vietsub".toList ∧ isPlainVietnamese s.text = true)
    (hpre : (loopState b (P ++ R ++ Q) P.length).lastVietnamese = []) (j : Nat)
    (hj : j ≤ R.length) :
    loopState b (P ++ R ++ Q) (P.length + j) =
      { loopState b (P ++ R ++ Q) P.length with
        lastVietnamese := joinWithSpace ((R.take j).map Segment.text) } := by
  induction j with
  | zero =>
    simp only [Nat.add_zero, List.take_zero, List.map_nil, joinWithSpace]
    rw [← hpre]
  | succ k ih =>
    have hk : k < R.length := by omega
    have hget : (P ++ R ++ Q)[P.length + k]? = some (R.get ⟨k, hk⟩) := by
      rw [List.append_assoc, List.getElem?_append_right (by omega)]
      simp only [Nat.add_sub_cancel_left]
      rw [List.getElem?_append_left hk, List.getElem?_eq_getElem hk]
      rfl
    have hmem : R.get ⟨k, hk⟩ ∈ R := List.get_mem R k hk
    obtain ⟨htag, hp⟩ := hplain _ hmem
    rw [show P.length + (k + 1) = (P.length + k) + 1 by omega, loopState, hget]
    simp only
    rw [renderSegment_plain b _ _ htag hp, ih (by omega)]
    simp only
    have htake : R.take (k + 1) = R.take k ++ [R.get ⟨k, hk⟩] := by
      rw [List.take_succ, List.getElem?_eq_getElem hk]
      rfl
    rw [htake, List.map_append, List.map_singleton, joinWithSpace_concat]
    by_cases h0 : k = 0
    · subst h0
      simp [joinWithSpace]
    · have hne : (R.take k).map Segment.text ≠ [] := by
        intro hnil
        have := congrArg List.length hnil
        simp only [List.length_map, List.length_take, List.length_nil] at this
        omega
      have hjoin : joinWithSpace ((R.take k).map Segment.text) ≠ [] := by
        apply joinWithSpace_ne_nil hne
        intro t ht
        obtain ⟨s, hs, rfl⟩ := List.mem_map.1 ht
        exact isPlainVietnamese_ne_nil (hplain s (List.mem_of_mem_take hs)).2
      rw [if_neg hne, if_pos hjoin]
      simp

theorem renderSegment_flush_element (b : Bool) {st : RenderState} {seg : Segment}
    (next : Option Segment) (htag : seg.tag ∈ closingTags) (htext : seg.text ≠ [])
    (hlv : st.lastVietnamese ≠ []) :
    (renderSegment b st seg next).result =
      st.result ++ vietSpan st.lastVietnamese ++ renderedElement b st seg next := by
  have hp := renderSegment_flushes b next htag htext hlv
  rw [← flushVietnamese_flushes hlv] at hp ⊢
  unfold renderedElement
  obtain ⟨e, he⟩ := hp
  rw [← he, List.drop_left]

/-- C20: a run of plain Vietnamese segments (texts not empty, with no number and
dot at the start, no `**` at the start, no `***` and no dialogue pattern) that the
loop meets with an empty pending block, and that is followed by a segment with a
closing tag (tip, table, list, engsub) and a text, or by the end of the input.
The run renders nothing by itself; its trimmed texts, joined with one space, form
the pending block, which is emitted as one Vietnamese block right before the
markup of the segment that follows, or at the end of the input (inside a list,
followed by the closing of the item and of the list). -/
theorem pending_vietnamese_run (pre run post : List (Str × Str))
    (hsegs : WellTagged displayTags (pre ++ run ++ post)) (hrun : run ≠ [])
    (hplain : ∀ s ∈ run,
      (toSegment s).tag = "vietsub".toList ∧ isPlainVietnamese (toSegment s).text = true)
    (isStreaming : Bool)
    (hpre : (loopState isStreaming ((pre ++ run ++ post).map toSegment)
      pre.length).lastVietnamese = [])
    (hpost : ∀ q, post.head? = some q →
      (toSegment q).tag ∈ closingTags ∧ (toSegment q).text ≠ []) :
    loopState isStreaming ((pre ++ run ++ post).map toSegment) (pre.length + run.length) =
        { loopState isStreaming ((pre ++ run ++ post).map toSegment) pre.length with
          lastVietnamese := joinWithSpace (run.map (fun s => jsTrim s.2)) } ∧
      (loopState isStreaming ((pre ++ run ++ post).map toSegment) pre.length).result ++
          vietSpan (joinWithSpace (run.map (fun s => jsTrim s.2)))
        <+: formatMessageContent (taggedText (pre ++ run ++ post)) isStreaming ∧
      (∀ q, post.head? = some q →
        (loopState isStreaming ((pre ++ run ++ post).map toSegment)
            (pre.length + run.length + 1)).result =
          (loopState isStreaming ((pre ++ run ++ post).map toSegment) pre.length).result ++
            vietSpan (joinWithSpace (run.map (fun s => jsTrim s.2))) ++
            renderedElement isStreaming
              (loopState isStreaming ((pre ++ run ++ post).map toSegment)
                (pre.length + run.length))
              (toSegment q) ((post.map toSegment)[1]?)) ∧
      (post = [] →
        formatMessageContent (taggedText (pre ++ run ++ post)) isStreaming =
          (loopState isStreaming ((pre ++ run ++ post).map toSegment) pre.length).result ++
            vietSpan (joinWithSpace (run.map (fun s => jsTrim s.2))) ++
            (if (loopState isStreaming ((pre ++ run ++ post).map toSegment)
                pre.length).inList = true then "</li></ul>".toList else [])) := by
  -- the parsed segments
  have hne : pre ++ run ++ post ≠ [] := by
    intro h
    have := congrArg List.length h
    simp only [List.length_append, List.length_nil] at this
    have : run.length = 0 := by omega
    exact hrun (List.length_eq_zero.1 this)
  have hmap : (pre ++ run ++ post).map toSegment =
      pre.map toSegment ++ run.map toSegment ++ post.map toSegment := by
    simp
  have hplain' : ∀ s ∈ run.map toSegment,
      s.tag = "vietsub".toList ∧ isPlainVietnamese s.text = true := by
    intro s hs
    obtain ⟨t, ht, rfl⟩ := List.mem_map.1 hs
    exact hplain t ht
  have htexts : (run.map toSegment).map Segment.text = run.map (fun s => jsTrim s.2) := by
    rw [List.map_map]
    rfl
  have hJ : joinWithSpace (run.map (fun s => jsTrim s.2)) ≠ [] := by
    rw [← htexts]
    apply joinWithSpace_ne_nil (by simpa using hrun)
    intro t ht
    obtain ⟨s, hs, rfl⟩ := List.mem_map.1 ht
    exact isPlainVietnamese_ne_nil (hplain' s hs).2
  have hlen : (pre.map toSegment).length = pre.length := List.length_map _ _
  have hrunlen : (run.map toSegment).length = run.length := List.length_map _ _
  have hstate := loopState_plain_run isStreaming (pre.map toSegment) (run.map toSegment)
    (post.map toSegment) hplain' (by rw [← hmap, hlen]; exact hpre) run.length
    (by rw [hrunlen])
  rw [← hmap, hlen, ← hrunlen, List.take_length, htexts, hrunlen] at hstate
  have hfmt := formatMessageContent_tagged hne hsegs isStreaming
  rw [renderLoop_eq_loopState] at hfmt
  have htotal : ((pre ++ run ++ post).map toSegment).length =
      pre.length + run.length + post.length := by
    simp only [List.length_map, List.length_append]
  refine ⟨hstate, ?_, ?_, ?_⟩
  · rw [hfmt]
    cases hpostc : post with
    | nil =>
      have hend : ((pre ++ run ++ post).map toSegment).length = pre.length + run.length := by
        rw [htotal, hpostc]; rfl
      rw [← hpostc, hend, hstate]
      exact @renderEnd_flushes
        ⟨(loopState isStreaming ((pre ++ run ++ post).map toSegment) pre.length).result,
          joinWithSpace (run.map (fun s => jsTrim s.2)),
          (loopState isStreaming ((pre ++ run ++ post).map toSegment) pre.length).inList⟩ hJ
    | cons q rest =>
      obtain ⟨hqtag, hqtext⟩ := hpost q (by rw [hpostc]; rfl)
      have hget : ((pre ++ run ++ post).map toSegment)[pre.length + run.length]? =
          some (toSegment q) := by
        rw [hmap, List.getElem?_append_right (by simp), hpostc]
        simp
      have hstep : loopState isStreaming ((pre ++ run ++ post).map toSegment)
          (pre.length + run.length + 1) =
          renderSegment isStreaming
            (loopState isStreaming ((pre ++ run ++ post).map toSegment)
              (pre.length + run.length)) (toSegment q)
            ((pre ++ run ++ post).map toSegment)[pre.length + run.length + 1]? := by
        rw [loopState, hget]
      have hflush := @renderSegment_flushes isStreaming
        (loopState isStreaming ((pre ++ run ++ post).map toSegment)
          (pre.length + run.length)) (toSegment q)
        ((pre ++ run ++ post).map toSegment)[pre.length + run.length + 1]? hqtag hqtext
        (by rw [hstate]; exact hJ)
      rw [← hstep] at hflush
      rw [← hpostc]
      have hres : (loopState isStreaming ((pre ++ run ++ post).map toSegment)
          (pre.length + run.length)).result =
          (loopState isStreaming ((pre ++ run ++ post).map toSegment) pre.length).result := by
        rw [hstate]
      have hlv : (loopState isStreaming ((pre ++ run ++ post).map toSegment)
          (pre.length + run.length)).lastVietnamese =
          joinWithSpace (run.map (fun s => jsTrim s.2)) := by
        rw [hstate]
      rw [hres, hlv] at hflush
      exact (hflush.trans (loopState_result_mono isStreaming _
        (by rw [htotal, hpostc]; simp only [List.length_cons]; omega))).trans
        (renderEnd_result_pfx _)
  · intro q hq
    obtain ⟨hqtag, hqtext⟩ := hpost q hq
    have hpostc : ∃ rest, post = q :: rest := by
      cases post with
      | nil => simp at hq
      | cons x rest =>
        simp only [List.head?_cons, Option.some.injEq] at hq
        exact ⟨rest, by rw [hq]⟩
    obtain ⟨rest, hpostc⟩ := hpostc
    have hget : ((pre ++ run ++ post).map toSegment)[pre.length + run.length]? =
        some (toSegment q) := by
      rw [hmap, List.getElem?_append_right (by simp), hpostc]
      simp
    have hget1 : ((pre ++ run ++ post).map toSegment)[pre.length + run.length + 1]? =
        (post.map toSegment)[1]? := by
      rw [hmap, List.getElem?_append_right (by simp)]
      congr 1
      simp
    rw [loopState, hget]
    simp only
    rw [hget1, renderSegment_flush_element isStreaming _ hqtag hqtext (by rw [hstate]; exact hJ)]
    congr 2
    · rw [hstate]
    · rw [hstate]
  · intro hpostc
    have hend : ((pre ++ run ++ post).map toSegment).length = pre.length + run.length := by
      rw [htotal, hpostc]; rfl
    rw [hfmt, hend, hstate]
    unfold renderEnd
    simp only [hJ, ne_eq, not_false_eq_true, if_true]
    split <;> simp [List.append_assoc]

set_option maxRecDepth 100000 in
/-- Witness of C20: in "[Engsub] Hello [Vietsub] xin [Vietsub] chao [Engsub] world"
the two Vietnamese segments are rendered as the one block "xin chao", after the
element of "Hello". -/
theorem pending_vietnamese_run_witness :
    ("<span class=\"english-word\" data-speak=\"Hello\">Hello</span> " ++
        "<span class=\"vietnamese-text\">xin chao</span>").toList
      <+: formatMessageContent
        "[Engsub] Hello [Vietsub] xin [Vietsub] chao [Engsub] world".toList false := by
  have hw : WellTagged displayTags
      ([("Engsub".toList, " Hello ".toList)] ++
        [("Vietsub".toList, " xin ".toList), ("Vietsub".toList, " chao ".toList)] ++
        [("Engsub".toList, " world".toList)]) := by
    intro s hs
    simp only [List.singleton_append, List.cons_append, List.nil_append, List.mem_cons,
      List.mem_singleton, List.not_mem_nil, or_false] at hs
    rcases hs with rfl | rfl | rfl | rfl
    · exact ⟨⟨"Engsub".toList, by decide, rfl⟩, by unfold NoBracket; decide⟩
    · exact ⟨⟨"Vietsub".toList, by decide, rfl⟩, by unfold NoBracket; decide⟩
    · exact ⟨⟨"Vietsub".toList, by decide, rfl⟩, by unfold NoBracket; decide⟩
    · exact ⟨⟨"Engsub".toList, by decide, rfl⟩, by unfold NoBracket; decide⟩
  have h := (pending_vietnamese_run [("Engsub".toList, " Hello ".toList)]
    [("Vietsub".toList, " xin ".toList), ("Vietsub".toList, " chao ".toList)]
    [("Engsub".toList, " world".toList)] hw (by decide)
    (by
      intro s hs
      simp only [List.mem_cons, List.mem_singleton, List.not_mem_nil, or_false] at hs
      rcases hs with rfl | rfl <;> decide)
    false (by decide)
    (by
      intro q hq
      simp only [List.head?_cons, Option.some.injEq] at hq
      rw [← hq]
      decide)).2.1
  have e : (loopState false
      (([("Engsub".toList, " Hello ".toList)] ++
        [("Vietsub".toList, " xin ".toList), ("Vietsub".toList, " chao ".toList)] ++
        [("Engsub".toList, " world".toList)]).map toSegment)
      [("Engsub".toList, " Hello ".toList)].length).result ++
      vietSpan (joinWithSpace
        ([("Vietsub".toList, " xin ".toList), ("Vietsub".toList, " chao ".toList)].map
          (fun s => jsTrim s.2))) =
      ("<span class=\"english-word\" data-speak=\"Hello\">Hello</span> " ++
        "<span class=\"vietnamese-text\">xin chao</span>").toList := by decide
  rw [e] at h
  exact h

set_option maxRecDepth 100000 in
/-- Counterexample to C20 as stated: in "[Vietsub] 1. one [Vietsub] two" the
segment "two" is a run of one plain Vietnamese segment, but it is not rendered as
a block of its own: it joins the text of the numbered item before it, and the
block reads "one two". -/
theorem plain_run_joins_list_item_counterexample :
    isPlainVietnamese "two".toList = true ∧
      formatMessageContent "[Vietsub] 1. one [Vietsub] two".toList false =
        ("<ul class=\"vocab-list\"><li><span class=\"list-num\">1.</span> " ++
          "<span class=\"vietnamese-text\">one two</span></li></ul>").toList ∧
      includes (vietSpan "two".toList)
        (formatMessageContent "[Vietsub] 1. one [Vietsub] two".toList false) = false := by
  decide

/-! ## The lengths of the spoken segments -/

theorem speechOfSegment_some {seg : Segment} {s : SpeechSegment}
    (h : speechOfSegment seg = some s) : 2 ≤ jsLength s.text ∧ jsTrim s.text = s.text := by
  unfold speechOfSegment at h
  simp only at h
  split at h
  · exact absurd h (by simp)
  · split at h
    · exact absurd h (by simp)
    · rename_i hc
      simp only [Option.some.injEq] at h
      rw [← h]
      simp only [not_or, Nat.not_lt] at hc
      exact ⟨hc.2, jsTrim_idem _⟩

/-- C12 (the code departs from the claim on the fallback path): every returned
segment has a text of at least 2 code units, and on the tagged path that text is
trimmed, so its trimmed length is at least 2; but the fallback path trims before
it replaces `/` by a space, so the text "/a" yields the segment " a", whose
trimmed text "a" has length 1. -/
theorem splitByLanguage_fallback_untrimmed :
    (∀ text, ∀ seg ∈ splitByLanguage text, 2 ≤ jsLength seg.text) ∧
      (∀ text, scanSegments speechTags 0 (speechText text) ≠ [] →
        ∀ seg ∈ splitByLanguage text, 2 ≤ jsLength (jsTrim seg.text)) ∧
      splitByLanguage "/a".toList = [⟨" a".toList, "vi".toList⟩] ∧
      jsLength (jsTrim " a".toList) = 1 := by
  have hmem : ∀ text, ∀ seg ∈ (scanSegments speechTags 0 (speechText text)).filterMap
      speechOfSegment, 2 ≤ jsLength seg.text ∧ jsTrim seg.text = seg.text := by
    intro text seg hseg
    obtain ⟨m, _, hm⟩ := List.mem_filterMap.1 hseg
    exact speechOfSegment_some hm
  refine ⟨?_, ?_, by decide, by decide⟩
  · intro text seg hseg
    unfold splitByLanguage at hseg
    simp only at hseg
    split at hseg
    · split at hseg
      · rename_i hc
        rcases List.mem_append.1 hseg with h | h
        · exact (hmem text seg h).1
        · rw [List.mem_singleton.1 h]
          exact hc.2
      · exact (hmem text seg hseg).1
    · exact (hmem text seg hseg).1
  · intro text htag seg hseg
    unfold splitByLanguage at hseg
    simp only at hseg
    rw [if_neg (fun h => htag h.1)] at hseg
    obtain ⟨h1, h2⟩ := hmem text seg hseg
    rw [h2]
    exact h1

/-! ## The cancelled path -/

theorem cancelledPath_cases (st : StreamState) :
    (∀ i, st.fullResponse ≠ [] → st.assistantMsgId = some i → i ≠ 0 →
        finalizeRequests st = [(i, "cancelled".toList)] ∧
          cancelledPath st = .cancelled st.fullResponse true) ∧
      (st.fullResponse ≠ [] → (st.assistantMsgId = none ∨ st.assistantMsgId = some 0) →
        finalizeRequests st = [] ∧ cancelledPath st = .cancelled st.fullResponse false) ∧
      (st.fullResponse = [] → finalizeRequests st = [] ∧ cancelledPath st = .nothing) := by
  refine ⟨?_, ?_, ?_⟩
  · intro i hf hi h0
    simp [finalizeRequests, cancelledPath, hf, hi, h0]
  · intro hf hi
    rcases hi with hi | hi <;> simp [finalizeRequests, cancelledPath, hf, hi]
  · intro hf
    unfold finalizeRequests cancelledPath
    cases st.assistantMsgId <;> simp [hf]

theorem runStream_aborted (parse : Str → Except Str StreamData) (isRetry : Bool)
    (conversationId : Option Nat) (reads : List Str) :
    (runStream parse isRetry conversationId reads .aborted).2 =
      cancelledPath (runStream parse isRetry conversationId reads .aborted).1 := rfl

/-- C14: when the stream of `sendMessage` or `retryMessage` is aborted, the
cancelled path sends exactly one finalize request, with the status `cancelled`,
if the accumulated text is not empty and a message id was received; with a text
and no message id (none, or a falsy one) it shows the text as cancelled and
sends no finalize request; with no text it sends none and shows nothing. -/
theorem cancelled_stream_finalize (parse : Str → Except Str StreamData)
    (conversationId : Option Nat) (reads : List Str) (isRetry : Bool) :
    (∀ i, (runStream parse isRetry conversationId reads .aborted).1.fullResponse ≠ [] →
        (runStream parse isRetry conversationId reads .aborted).1.assistantMsgId = some i →
        i ≠ 0 →
        finalizeRequests (runStream parse isRetry conversationId reads .aborted).1 =
            [(i, "cancelled".toList)] ∧
          (runStream parse isRetry conversationId reads .aborted).2 =
            .cancelled (runStream parse isRetry conversationId reads .aborted).1.fullResponse
              true) ∧
      ((runStream parse isRetry conversationId reads .aborted).1.fullResponse ≠ [] →
        ((runStream parse isRetry conversationId reads .aborted).1.assistantMsgId = none ∨
          (runStream parse isRetry conversationId reads .aborted).1.assistantMsgId = some 0) →
        finalizeRequests (runStream parse isRetry conversationId reads .aborted).1 = [] ∧
          (runStream parse isRetry conversationId reads .aborted).2 =
            .cancelled (runStream parse isRetry conversationId reads .aborted).1.fullResponse
              false) ∧
      ((runStream parse isRetry conversationId reads .aborted).1.fullResponse = [] →
        finalizeRequests (runStream parse isRetry conversationId reads .aborted).1 = [] ∧
          (runStream parse isRetry conversationId reads .aborted).2 = .nothing) ∧
      sendMessage parse conversationId reads .aborted =
        runStream parse false conversationId reads .aborted ∧
      retryMessage parse conversationId reads .aborted =
        runStream parse true conversationId reads .aborted := by
  have h := cancelledPath_cases (runStream parse isRetry conversationId reads .aborted).1
  rw [runStream_aborted]
  exact ⟨h.1, h.2.1, h.2.2, rfl, rfl⟩

set_option maxRecDepth 100000 in
/-- Counterexample to C14 as stated: a stream that delivers the chunk "hi" and no
`init` frame, then is aborted.  The accumulated text is not empty, yet no
finalize request is sent: the text is shown as cancelled without one, in
`sendMessage` and in `retryMessage` alike. -/
theorem cancelled_without_message_id_counterexample :
    (sendMessage parseFrames none
        ["data: \x7b\"type\":\"chunk\",\"content\":\"hi\"\x7d\n".toList] .aborted).2 =
        .cancelled "hi".toList false ∧
      finalizeRequests (sendMessage parseFrames none
        ["data: \x7b\"type\":\"chunk\",\"content\":\"hi\"\x7d\n".toList] .aborted).1 = [] ∧
      (retryMessage parseFrames none
        ["data: \x7b\"type\":\"chunk\",\"content\":\"hi\"\x7d\n".toList] .aborted).2 =
        .cancelled "hi".toList false ∧
      finalizeRequests (retryMessage parseFrames none
        ["data: \x7b\"type\":\"chunk\",\"content\":\"hi\"\x7d\n".toList] .aborted).1 = [] := by
  decide

/-! ## The speech prefetcher -/

theorem cacheGet_cacheSet_ne (cache : List (Str × CacheValue)) {key k : Str} (v : CacheValue)
    (h : k ≠ key) : cacheGet (cacheSet cache k v) key = cacheGet cache key := by
  induction cache with
  | nil => simp [cacheSet, cacheGet, h]
  | cons e rest ih =>
    obtain ⟨k', v'⟩ := e
    by_cases hk : k' = k
    · subst hk
      simp [cacheSet, cacheGet, h]
    · by_cases hk2 : k' = key
      · have hkk : ¬ key = k := fun e => h e.symm
        simp [cacheSet, cacheGet, hk2, hkk]
      · simp [cacheSet, cacheGet, hk, hk2, ih]

theorem keepsEntry_refl (key : Str) (st : TtsState) : KeepsEntry key st st :=
  ⟨rfl, [], by simp, by simp⟩

theorem keepsEntry_trans {key : Str} {a b c : TtsState} (h1 : KeepsEntry key a b)
    (h2 : KeepsEntry key b c) : KeepsEntry key a c := by
  obtain ⟨g1, s1, f1, n1⟩ := h1
  obtain ⟨g2, s2, f2, n2⟩ := h2
  refine ⟨g2.trans g1, s1 ++ s2, by rw [f2, f1, List.append_assoc], ?_⟩
  intro s hs
  rcases List.mem_append.1 hs with h | h
  · exact n1 s h
  · exact n2 s h

theorem fetchIfAbsent_keepsEntry {key : Str} (st : TtsState) (seg : SpeechSegment)
    (h : cacheHas st.ttsCache key = true) : KeepsEntry key st (fetchIfAbsent st seg) := by
  unfold fetchIfAbsent
  split
  · exact keepsEntry_refl key st
  · split
    · exact keepsEntry_refl key st
    · rename_i hhas
      have hne : cacheKey seg ≠ key := by
        intro he
        rw [he] at hhas
        exact hhas h
      refine ⟨cacheGet_cacheSet_ne _ _ hne, [seg], rfl, ?_⟩
      intro s hs
      rw [List.mem_singleton.1 hs]
      exact hne

theorem cacheHas_of_keepsEntry {key : Str} {st st' : TtsState} (h : KeepsEntry key st st')
    (hk : cacheHas st.ttsCache key = true) : cacheHas st'.ttsCache key = true := by
  unfold cacheHas at hk ⊢
  rw [h.1]
  exact hk

theorem foldl_keepsEntry {key : Str} (segments : List SpeechSegment) (is : List Nat)
    (st : TtsState) (h : cacheHas st.ttsCache key = true) :
    KeepsEntry key st (is.foldl
      (fun st i =>
        match segments[i]? with
        | some seg => fetchIfAbsent st seg
        | none => st)
      st) := by
  induction is generalizing st with
  | nil => exact keepsEntry_refl key st
  | cons i rest ih =>
    rw [List.foldl_cons]
    have hstep : KeepsEntry key st
        (match segments[i]? with
          | some seg => fetchIfAbsent st seg
          | none => st) := by
      cases segments[i]? with
      | none => exact keepsEntry_refl key st
      | some seg => exact fetchIfAbsent_keepsEntry st seg h
    exact keepsEntry_trans hstep (ih _ (cacheHas_of_keepsEntry hstep h))

theorem prefetchLoop_keepsEntry {key : Str} (segments : List SpeechSegment) (start bound : Nat)
    (st : TtsState) (h : cacheHas st.ttsCache key = true) :
    KeepsEntry key st (prefetchLoop segments start bound st) :=
  foldl_keepsEntry segments _ st h

theorem prefetchTTS_keepsEntry {key : Str} (st : TtsState) (text : Str)
    (h : cacheHas st.ttsCache key = true) : KeepsEntry key st (prefetchTTS st text) := by
  unfold prefetchTTS
  simp only
  split
  · exact keepsEntry_refl key st
  · exact prefetchLoop_keepsEntry _ _ _ st h

theorem prefetchLastSegment_keepsEntry {key : Str} (st : TtsState) (text : Str)
    (h : cacheHas st.ttsCache key = true) : KeepsEntry key st (prefetchLastSegment st text) := by
  unfold prefetchLastSegment
  simp only
  split
  · exact keepsEntry_refl key st
  · exact prefetchLoop_keepsEntry _ _ _ st h

theorem fetchSegmentIfNeeded_keepsEntry {key : Str} (segments : List SpeechSegment)
    (st : TtsState) (index : Nat) (h : cacheHas st.ttsCache key = true) :
    KeepsEntry key st (fetchSegmentIfNeeded segments st index) := by
  unfold fetchSegmentIfNeeded
  split
  · exact keepsEntry_refl key st
  · exact fetchIfAbsent_keepsEntry st _ h

theorem foldl_lastPrefetchedSegments (segments : List SpeechSegment) (is : List Nat)
    (st : TtsState) :
    (is.foldl
      (fun st i =>
        match segments[i]? with
        | some seg => fetchIfAbsent st seg
        | none => st)
      st).lastPrefetchedSegments = st.lastPrefetchedSegments ∧
    (is.foldl
      (fun st i =>
        match segments[i]? with
        | some seg => fetchIfAbsent st seg
        | none => st)
      st).fetches.length ≤ st.fetches.length + is.length := by
  induction is generalizing st with
  | nil => simp
  | cons i rest ih =>
    rw [List.foldl_cons]
    have hstep : (match segments[i]? with
          | some seg => fetchIfAbsent st seg
          | none => st).lastPrefetchedSegments = st.lastPrefetchedSegments ∧
        (match segments[i]? with
          | some seg => fetchIfAbsent st seg
          | none => st).fetches.length ≤ st.fetches.length + 1 := by
      cases segments[i]? with
      | none => simp
      | some seg =>
        simp only
        unfold fetchIfAbsent
        split
        · simp
        · split <;> simp
    obtain ⟨h1, h2⟩ := ih (match segments[i]? with
          | some seg => fetchIfAbsent st seg
          | none => st)
    refine ⟨h1.trans hstep.1, ?_⟩
    simp only [List.length_cons]
    omega

theorem prefetchLoop_counts (segments : List SpeechSegment) (start bound : Nat)
    (st : TtsState) :
    (prefetchLoop segments start bound st).lastPrefetchedSegments = st.lastPrefetchedSegments ∧
      (prefetchLoop segments start bound st).fetches.length ≤
        st.fetches.length + (bound - start) := by
  have := foldl_lastPrefetchedSegments segments (List.range' start (bound - start)) st
  rw [List.length_range'] at this
  exact this

/-- After a call to `prefetchTTS` the counter is the larger of its old value and
the number of segments allowed, and at most the difference of requests were
sent. -/
theorem prefetchTTS_counts (st : TtsState) (text : Str) :
    st.lastPrefetchedSegments ≤ (prefetchTTS st text).lastPrefetchedSegments ∧
      (prefetchTTS st text).lastPrefetchedSegments ≤
        max st.lastPrefetchedSegments MAX_PREFETCH_DURING_STREAM ∧
      (prefetchTTS st text).fetches.length + st.lastPrefetchedSegments ≤
        st.fetches.length + (prefetchTTS st text).lastPrefetchedSegments := by
  unfold prefetchTTS
  simp only
  split
  · simp
  · obtain ⟨h1, h2⟩ := prefetchLoop_counts (splitByLanguage text) st.lastPrefetchedSegments
      (min (min ((matchAllTags 0 text).length - 1) MAX_PREFETCH_DURING_STREAM)
        (splitByLanguage text).length) st
    simp only [h1]
    refine ⟨Nat.le_max_left _ _, ?_, ?_⟩
    · omega
    · omega

theorem prefetchLastSegment_counts (st : TtsState) (text : Str) :
    (prefetchLastSegment st text).lastPrefetchedSegments ≤
        max st.lastPrefetchedSegments MAX_PREFETCH_DURING_STREAM ∧
      (prefetchLastSegment st text).fetches.length ≤
        st.fetches.length + (MAX_PREFETCH_DURING_STREAM - st.lastPrefetchedSegments) := by
  unfold prefetchLastSegment
  simp only
  split
  · simp
  · obtain ⟨h1, h2⟩ := prefetchLoop_counts (splitByLanguage text) st.lastPrefetchedSegments
      (min (splitByLanguage text).length MAX_PREFETCH_DURING_STREAM) st
    refine ⟨?_, ?_⟩
    · simp only
      omega
    · simp only
      omega

theorem events_counts (events : List TtsEvent) (st : TtsState)
    (h : st.lastPrefetchedSegments ≤ MAX_PREFETCH_DURING_STREAM) :
    (events.foldl TtsEvent.apply st).lastPrefetchedSegments ≤ MAX_PREFETCH_DURING_STREAM ∧
      (events.foldl TtsEvent.apply st).fetches.length + st.lastPrefetchedSegments ≤
        st.fetches.length + (events.foldl TtsEvent.apply st).lastPrefetchedSegments := by
  induction events generalizing st with
  | nil => simp [h]
  | cons e rest ih =>
    rw [List.foldl_cons]
    cases e with
    | prefetch text =>
      rw [show TtsEvent.apply st (TtsEvent.prefetch text) = prefetchTTS st text from rfl]
      obtain ⟨c1, c2, c3⟩ := prefetchTTS_counts st text
      have hle : (prefetchTTS st text).lastPrefetchedSegments ≤ MAX_PREFETCH_DURING_STREAM := by
        omega
      obtain ⟨i1, i2⟩ := ih (prefetchTTS st text) hle
      refine ⟨i1, ?_⟩
      omega
    | settled key blobUrl =>
      rw [show TtsEvent.apply st (TtsEvent.settled key blobUrl) = fetchSettled st key blobUrl
        from rfl]
      have e1 : (fetchSettled st key blobUrl).lastPrefetchedSegments =
          st.lastPrefetchedSegments := by
        unfold fetchSettled; split <;> rfl
      have e2 : (fetchSettled st key blobUrl).fetches = st.fetches := by
        unfold fetchSettled; split <;> rfl
      obtain ⟨i1, i2⟩ := ih (fetchSettled st key blobUrl) (by rw [e1]; exact h)
      refine ⟨i1, ?_⟩
      rw [e1, e2] at i2
      exact i2

/-- C15: when the key of a segment is in the cache, as the reservation or as a
ready URL, `prefetchTTS`, `prefetchLastSegment` and `fetchSegmentIfNeeded` leave
the entry of that key as it is and send no request with that key; and a second
call of `prefetchTTS` with the same text, before anything else happens, sends no
request. -/
theorem tts_cache_deduplication (st : TtsState) (seg : SpeechSegment)
    (hkey : cacheHas st.ttsCache (cacheKey seg) = true) :
    (∀ text, KeepsEntry (cacheKey seg) st (prefetchTTS st text)) ∧
      (∀ text, KeepsEntry (cacheKey seg) st (prefetchLastSegment st text)) ∧
      (∀ segments index,
        KeepsEntry (cacheKey seg) st (fetchSegmentIfNeeded segments st index)) ∧
      ∀ st0 text, (prefetchTTS (prefetchTTS st0 text) text).fetches =
        (prefetchTTS st0 text).fetches := by
  refine ⟨fun text => prefetchTTS_keepsEntry st text hkey,
    fun text => prefetchLastSegment_keepsEntry st text hkey,
    fun segments index => fetchSegmentIfNeeded_keepsEntry segments st index hkey, ?_⟩
  intro st0 text
  by_cases hseg : (splitByLanguage text).length = 0
  · have e : prefetchTTS st0 text = st0 := by
      unfold prefetchTTS
      simp only [hseg, if_true]
    rw [e, e]
  · have hlast : min ((matchAllTags 0 text).length - 1) MAX_PREFETCH_DURING_STREAM ≤
        (prefetchTTS st0 text).lastPrefetchedSegments := by
      unfold prefetchTTS
      simp only [hseg, if_false]
      exact Nat.le_max_right _ _
    have hrange : ∀ st1 : TtsState,
        min ((matchAllTags 0 text).length - 1) MAX_PREFETCH_DURING_STREAM ≤
          st1.lastPrefetchedSegments →
        (prefetchTTS st1 text).fetches = st1.fetches := by
      intro st1 h1
      unfold prefetchTTS
      simp only [hseg, if_false]
      unfold prefetchLoop
      have hz : min (min ((matchAllTags 0 text).length - 1) MAX_PREFETCH_DURING_STREAM)
          (splitByLanguage text).length - st1.lastPrefetchedSegments = 0 := by omega
      rw [hz]
      rfl
    exact hrange _ hlast

set_option maxRecDepth 100000 in
/-- Witness of C15: with the key "en:Hello world" reserved, `prefetchTTS` on
"[Engsub] Hello world [Vietsub] xin chao" sends no request and keeps the
reservation. -/
theorem tts_cache_deduplication_witness :
    (prefetchTTS ⟨[("en:Hello world".toList, .fetching)], 0, [], []⟩
        "[Engsub] Hello world [Vietsub] xin chao".toList).fetches = [] ∧
      cacheGet (prefetchTTS ⟨[("en:Hello world".toList, .fetching)], 0, [], []⟩
        "[Engsub] Hello world [Vietsub] xin chao".toList).ttsCache "en:Hello world".toList =
        some .fetching := by
  have h := (tts_cache_deduplication ⟨[("en:Hello world".toList, .fetching)], 0, [], []⟩
    ⟨"Hello world".toList, "en".toList⟩ (by decide)).1
    "[Engsub] Hello world [Vietsub] xin chao".toList
  exact ⟨by decide, h.1.trans (by decide)⟩

set_option maxRecDepth 100000 in
/-- C16 (the code departs from the claim): on the accumulated text
"[Vietsub] a [Engsub] Hello wor" the text holds two tags, so one segment counts as
complete; `splitByLanguage` drops the one-letter Vietnamese segment, so the segment
number 0 is the English one, the last of the text, still growing, and `prefetchTTS`
sends the request for it. -/
theorem prefetchTTS_fetches_growing_segment :
    matchAllTags 0 "[Vietsub] a [Engsub] Hello wor".toList =
        ["[Vietsub]".toList, "[Engsub]".toList] ∧
      splitByLanguage "[Vietsub] a [Engsub] Hello wor".toList =
        [⟨"Hello wor".toList, "en".toList⟩] ∧
      (prefetchTTS (clearTTSCache ⟨[], 0, [], []⟩)
        "[Vietsub] a [Engsub] Hello wor".toList).fetches =
        [⟨"Hello wor".toList, "en".toList⟩] := by
  decide

/-- C17: from the state left by `clearTTSCache`, after any sequence of calls to
`prefetchTTS` (on any texts, with requests settling in between, in any way), the
counter `lastPrefetchedSegments` is at most 2 and at most 2 requests have been
sent; and this still holds after one call to `prefetchLastSegment` at the end. -/
theorem prefetch_cap (st0 : TtsState) (events : List TtsEvent) :
    ((events.foldl TtsEvent.apply (clearTTSCache st0)).lastPrefetchedSegments ≤ 2 ∧
      (events.foldl TtsEvent.apply (clearTTSCache st0)).fetches.length ≤
        st0.fetches.length + 2) ∧
    ∀ text,
      (prefetchLastSegment (events.foldl TtsEvent.apply (clearTTSCache st0))
          text).lastPrefetchedSegments ≤ 2 ∧
        (prefetchLastSegment (events.foldl TtsEvent.apply (clearTTSCache st0))
          text).fetches.length ≤ st0.fetches.length + 2 := by
  have h0 : (clearTTSCache st0).lastPrefetchedSegments = 0 := rfl
  have hf : (clearTTSCache st0).fetches = st0.fetches := rfl
  obtain ⟨h1, h2⟩ := events_counts events (clearTTSCache st0) (by rw [h0]; exact Nat.zero_le _)
  rw [h0, hf] at h2
  have hmax : MAX_PREFETCH_DURING_STREAM = 2 := rfl
  refine ⟨⟨by omega, by omega⟩, fun text => ?_⟩
  obtain ⟨c1, c2⟩ := prefetchLastSegment_counts
    (events.foldl TtsEvent.apply (clearTTSCache st0)) text
  refine ⟨by omega, by omega⟩

/-! ## Replacements and the end of the input -/

theorem splitByLanguage_eq (text : Str) :
    splitByLanguage text =
      speechSegmentsOf (stripSpeechMarkup (jsTrim (replaceAll actionsToEndMatch 0 text))) := by
  unfold splitByLanguage speechSegmentsOf stripSpeechMarkup speechText
  rfl

theorem replaceAll_succ_cons (m : Str → Option (Str × Nat)) (k : Nat) (c : Char) (cs : Str) :
    replaceAll m (k + 1) (c :: cs) = replaceAll m k cs := rfl

theorem replaceAll_skip_all (m : Str → Option (Str × Nat)) {k : Nat} {x : Str}
    (h : x.length ≤ k) : replaceAll m k x = [] := by
  induction x generalizing k with
  | nil => exact replaceAll_nil m k
  | cons c cs ih =>
    cases k with
    | zero => simp at h
    | succ k' =>
      rw [replaceAll_succ_cons]
      exact ih (by simpa using h)

theorem replaceAll_skip (m : Str → Option (Str × Nat)) (x y : Str) :
    replaceAll m x.length (x ++ y) = replaceAll m 0 y := by
  induction x with
  | nil => rfl
  | cons c cs ih => exact ih

theorem allSpace_tail {c : Char} {w : Str} (h : AllSpace (c :: w)) : AllSpace w :=
  fun d hd => h d (List.mem_cons_of_mem _ hd)

theorem allSpace_nil : AllSpace [] := fun c hc => by simp at hc

theorem allSpace_drop {w : Str} (h : AllSpace w) (k : Nat) : AllSpace (w.drop k) :=
  fun c hc => h c (List.mem_of_mem_drop hc)

theorem replaceAll_allSpace {m : Str → Option (Str × Nat)} (hm : SpaceStable m) (k : Nat)
    {w : Str} (hw : AllSpace w) : replaceAll m k w = w.drop k := by
  induction w generalizing k with
  | nil => rw [replaceAll_nil]; simp
  | cons c cs ih =>
    cases k with
    | zero =>
      rw [replaceAll_zero_cons, hm.1 _ hw]
      simp only [List.drop_zero, List.cons.injEq, true_and]
      have := ih 0 (allSpace_tail hw)
      simpa using this
    | succ k' =>
      rw [replaceAll_succ_cons, List.drop_succ_cons]
      exact ih k' (allSpace_tail hw)

/-- White space added at the end of the input stays at the end of the result,
whole or in part. -/
theorem replaceAll_append_space {m : Str → Option (Str × Nat)} (hm : SpaceStable m)
    (x : Str) {w : Str} (hw : AllSpace w) (k : Nat) :
    ∃ w', AllSpace w' ∧ replaceAll m k (x ++ w) = replaceAll m k x ++ w' := by
  induction x generalizing k with
  | nil =>
    refine ⟨w.drop k, allSpace_drop hw k, ?_⟩
    rw [List.nil_append, replaceAll_nil, List.nil_append]
    exact replaceAll_allSpace hm k hw
  | cons c cs ih =>
    cases k with
    | succ k' =>
      rw [List.cons_append, replaceAll_succ_cons, replaceAll_succ_cons]
      exact ih k'
    | zero =>
      rw [List.cons_append, replaceAll_zero_cons, replaceAll_zero_cons]
      rcases hm.2 (c :: cs) w hw (by simp) with ⟨h1, h2⟩ | ⟨rep, len, len', h1, h2, hl⟩
      · rw [List.cons_append] at h2
        rw [h1, h2]
        obtain ⟨w', hw', e⟩ := ih 0
        exact ⟨w', hw', by simp only [e, List.cons_append]⟩
      · rw [List.cons_append] at h2
        rw [h1, h2]
        simp only
        obtain ⟨w', hw', e⟩ := ih (len' - 1)
        refine ⟨w', hw', ?_⟩
        rw [e, List.append_assoc]
        congr 2
        rcases hl with hl | ⟨hl1, hl2⟩
        · rw [hl]
        · simp only [List.length_cons] at hl1 hl2
          rw [replaceAll_skip_all m (by omega : cs.length ≤ len' - 1),
            replaceAll_skip_all m (by omega : cs.length ≤ len - 1)]

/-- A pattern that is local before `y` replaces in `x ++ y` as in `x` and in `y`. -/
theorem replaceAll_append_local {m : Str → Option (Str × Nat)} {y : Str}
    (hm : LocalBefore m y) (x : Str) (k : Nat) (hk : k ≤ x.length) :
    replaceAll m k (x ++ y) = replaceAll m k x ++ replaceAll m 0 y := by
  induction x generalizing k with
  | nil =>
    have : k = 0 := by simpa using hk
    subst this
    rfl
  | cons c cs ih =>
    cases k with
    | succ k' =>
      rw [List.cons_append, replaceAll_succ_cons, replaceAll_succ_cons]
      exact ih k' (by simpa using hk)
    | zero =>
      obtain ⟨h1, h2⟩ := hm (c :: cs) (by simp)
      rw [List.cons_append] at h1
      rw [List.cons_append, replaceAll_zero_cons, replaceAll_zero_cons, h1]
      cases hmc : m (c :: cs) with
      | none =>
        simp only [List.cons_append, List.cons.injEq, true_and]
        exact ih 0 (Nat.zero_le _)
      | some r =>
        obtain ⟨rep, len⟩ := r
        simp only
        have := h2 rep len hmc
        simp only [List.length_cons] at this
        rw [ih (len - 1) (by omega), List.append_assoc]

/-- A prefix in which the pattern has no match is kept as it is. -/
theorem replaceAll_append_none {m : Str → Option (Str × Nat)} {x y : Str}
    (h : ∀ p s, x = p ++ s → s ≠ [] → m (s ++ y) = none) :
    replaceAll m 0 (x ++ y) = x ++ replaceAll m 0 y := by
  induction x with
  | nil => rfl
  | cons c cs ih =>
    have h0 := h [] (c :: cs) rfl (by simp)
    rw [List.cons_append] at h0
    rw [List.cons_append, replaceAll_zero_cons, h0]
    simp only [List.cons_append, List.cons.injEq, true_and]
    exact ih (fun p s hps hs => h (c :: p) s (by rw [hps]; rfl) hs)

theorem toUpper_space {c : Char} (h : isJsSpace c = true) : c.toUpper = c := by
  apply char_eq_of_toNat_eq
  rw [toNat_toUpper]
  split
  · rename_i hr
    exfalso
    have hl : isAsciiLetter c = true := by
      unfold isAsciiLetter
      simp only [Bool.or_eq_true, Bool.and_eq_true, decide_eq_true_eq]
      omega
    rw [not_space_of_letter hl] at h
    exact absurd h (by simp)
  · rfl

theorem matchLitCI_space_head {lit : Str} (hlit : ∀ x ∈ lit, isJsSpace x.toUpper = false)
    (hne : lit ≠ []) {c : Char} (hc : isJsSpace c = true) (r : Str) :
    matchLitCI lit (c :: r) = none := by
  cases lit with
  | nil => exact absurd rfl hne
  | cons x xs =>
    apply matchLitCI_head_ne
    intro h
    have := hlit x (List.mem_cons_self _ _)
    rw [← h, toUpper_space hc, hc] at this
    exact absurd this (by simp)

theorem matchLitCI_append_space {lit : Str} (hlit : ∀ x ∈ lit, isJsSpace x.toUpper = false)
    {w : Str} (hw : AllSpace w) (s : Str) :
    matchLitCI lit (s ++ w) = (matchLitCI lit s).map (fun r => r ++ w) := by
  induction lit generalizing s with
  | nil => simp [matchLitCI]
  | cons x xs ih =>
    cases s with
    | nil =>
      rw [List.nil_append]
      cases w with
      | nil => rfl
      | cons c w' =>
        rw [matchLitCI_space_head hlit (by simp) (hw c (List.mem_cons_self _ _))]
        rfl
    | cons c cs =>
      simp only [List.cons_append, matchLitCI]
      split
      · exact ih (fun y hy => hlit y (List.mem_cons_of_mem _ hy)) cs
      · rfl

theorem takeWhile_append_stop {p : Char → Bool} (x : Str) {y : Str}
    (hy : ∀ c, y.head? = some c → p c = false) : (x ++ y).takeWhile p = x.takeWhile p := by
  induction x with
  | nil =>
    cases y with
    | nil => rfl
    | cons c r => simp [List.takeWhile_cons, hy c rfl]
  | cons d ds ih =>
    simp only [List.cons_append, List.takeWhile_cons]
    split
    · rw [ih]
    · rfl

theorem takeWhile_eq_self_of_all {p : Char → Bool} {x : Str} (h : ∀ c ∈ x, p c = true) :
    x.takeWhile p = x := by
  induction x with
  | nil => rfl
  | cons d ds ih =>
    rw [List.takeWhile_cons, h d (List.mem_cons_self _ _)]
    simp only [if_true, List.cons.injEq, true_and]
    exact ih (fun c hc => h c (List.mem_cons_of_mem _ hc))

theorem not_bracket_of_space {c : Char} (h : isJsSpace c = true) : c ≠ '[' ∧ c ≠ ']' := by
  constructor <;>
  · intro hc
    rw [hc] at h
    exact absurd h (by decide)

theorem tagBodyMatch_spaceStable {lit : Str} (hlit : ∀ x ∈ lit, isJsSpace x.toUpper = false)
    (hne : lit ≠ []) : SpaceStable (tagBodyMatch lit) := by
  refine ⟨?_, ?_⟩
  · intro w hw
    unfold tagBodyMatch
    have := matchLitCI_append_space hlit hw []
    rw [List.nil_append] at this
    rw [this]
    cases lit with
    | nil => exact absurd rfl hne
    | cons x xs => rfl
  · intro s w hw _
    unfold tagBodyMatch
    rw [matchLitCI_append_space hlit hw s]
    cases hm : matchLitCI lit s with
    | none => exact Or.inl ⟨rfl, rfl⟩
    | some rest =>
      right
      simp only [Option.map_some']
      refine ⟨[], _, _, rfl, rfl, ?_⟩
      by_cases hex : ∃ c ∈ rest, (fun c => c != '[') c = false
      · left
        rw [takeWhile_append_of_exists hex]
      · right
        have hall : ∀ c ∈ rest ++ w, (fun c => c != '[') c = true := by
          intro c hc
          rcases List.mem_append.1 hc with h | h
          · by_contra hcon
            exact hex ⟨c, h, by simpa using hcon⟩
          · simpa using (not_bracket_of_space (hw c h)).1
        have hall' : ∀ c ∈ rest, (fun c => c != '[') c = true :=
          fun c hc => hall c (List.mem_append_left _ hc)
        rw [takeWhile_eq_self_of_all hall, takeWhile_eq_self_of_all hall',
          matchLitCI_length hm]
        simp only [List.length_append]
        omega

theorem openOrEmpty_head {y : Str} (hy : OpenOrEmpty y) :
    ∀ c, y.head? = some c → (fun c => c != '[') c = false := by
  intro c hc
  rcases hy with rfl | ⟨r, rfl⟩
  · simp at hc
  · simp only [List.head?_cons, Option.some.injEq] at hc
    rw [← hc]
    rfl

theorem matchLitCI_short {lit s : Str} (h : s.length < lit.length) : matchLitCI lit s = none := by
  cases hm : matchLitCI lit s with
  | none => rfl
  | some r =>
    have := matchLitCI_length hm
    omega

/-- A literal that starts with `[` and holds no other `[` does not match across
the start of a text that is empty or starts with `[`. -/
theorem matchLitCI_open {t : Str} (ht : ∀ x ∈ t, x.toUpper ≠ '['.toUpper) {y : Str}
    (hy : OpenOrEmpty y) (s : Str) (hs : s ≠ []) :
    matchLitCI ('[' :: t) (s ++ y) = (matchLitCI ('[' :: t) s).map (fun r => r ++ y) := by
  by_cases hlen : ('[' :: t).length ≤ s.length
  · exact matchLitCI_pfx y hlen
  · rw [matchLitCI_short (by omega : s.length < ('[' :: t).length)]
    rcases hy with rfl | ⟨r, rfl⟩
    · rw [List.append_nil]
      exact matchLitCI_short (by omega)
    · cases s with
      | nil => exact absurd rfl hs
      | cons c cs =>
        simp only [List.cons_append, matchLitCI, Option.map_none']
        split
        · exact matchLitCI_none_of_bracket ht cs r (by
            simp only [List.length_cons] at hlen
            omega)
        · rfl

theorem tagBodyMatch_localBefore {t : Str} (ht : ∀ x ∈ t, x.toUpper ≠ '['.toUpper) {y : Str}
    (hy : OpenOrEmpty y) : LocalBefore (tagBodyMatch ('[' :: t)) y := by
  intro s hs
  unfold tagBodyMatch
  rw [matchLitCI_open ht hy s hs]
  cases hm : matchLitCI ('[' :: t) s with
  | none => exact ⟨rfl, fun rep len h => by simp at h⟩
  | some rest =>
    simp only [Option.map_some']
    rw [takeWhile_append_stop rest (openOrEmpty_head hy)]
    refine ⟨rfl, ?_⟩
    intro rep len h
    simp only [Option.some.injEq, Prod.mk.injEq] at h
    rw [← h.2, matchLitCI_length hm]
    have := (List.takeWhile_prefix (fun c => c != '[') (l := rest)).length_le
    omega

theorem stripPrefix_stars_append_space {s w : Str} (hs : s ≠ []) (hw : AllSpace w)
    (h : stripPrefix "**".toList s = none) : stripPrefix "**".toList (s ++ w) = none := by
  have hstar : ∀ c ∈ w, c ≠ '*' := by
    intro c hc h0
    have := hw c hc
    rw [h0] at this
    exact absurd this (by decide)
  cases s with
  | nil => exact absurd rfl hs
  | cons c cs =>
    cases cs with
    | nil =>
      cases w with
      | nil => exact h
      | cons d w' =>
        have hd := hstar d (List.mem_cons_self _ _)
        show stripPrefix ['*', '*'] (c :: d :: w') = none
        simp [stripPrefix, hd]
    | cons d ds =>
      have h' : stripPrefix ['*', '*'] (c :: d :: ds) = none := h
      show stripPrefix ['*', '*'] (c :: d :: (ds ++ w)) = none
      simp only [stripPrefix] at h' ⊢
      split at h'
      · split at h'
        · simp at h'
        · rename_i h1 h2
          rw [if_pos h1, if_neg h2]
      · rename_i h1
        rw [if_neg h1]

theorem starGroupMatch_spaceStable (wrap : Str → Str) : SpaceStable (starGroupMatch wrap) := by
  have hstar : ∀ w, AllSpace w → ∀ c ∈ w, (fun c => c != '*') c = true := by
    intro w hw c hc
    have := hw c hc
    simp only [bne_iff_ne, ne_eq]
    intro h0
    rw [h0] at this
    exact absurd this (by decide)
  refine ⟨?_, ?_⟩
  · intro w hw
    cases w with
    | nil => rfl
    | cons c w' =>
      have hc : c ≠ '*' := by simpa using hstar _ hw c (List.mem_cons_self _ _)
      simp [starGroupMatch, stripPrefix, hc]
  · intro s w hw hs
    have heq : starGroupMatch wrap (s ++ w) = starGroupMatch wrap s := by
      unfold starGroupMatch
      cases hp : stripPrefix "**".toList s with
      | none => rw [stripPrefix_stars_append_space hs hw hp]
      | some r =>
        rw [stripPrefix_append hp w]
        simp only
        by_cases hex : ∃ c ∈ r, (fun c => c != '*') c = false
        · rw [takeWhile_append_of_exists hex, dropWhile_append_of_exists hex]
          split
          · rfl
          · cases hd : stripPrefix "**".toList (r.dropWhile (fun c => c != '*')) with
            | some x => rw [stripPrefix_append hd w]
            | none =>
              have hne : r.dropWhile (fun c => c != '*') ≠ [] := by
                obtain ⟨c, hc, hpc⟩ := hex
                intro h0
                have := List.dropWhile_eq_nil_iff.1 h0 c hc
                have hpc' : (c != '*') = false := hpc
                rw [hpc'] at this
                exact absurd this (by simp)
              rw [stripPrefix_stars_append_space hne hw hd]
        · have hall : ∀ c ∈ r ++ w, (fun c => c != '*') c = true := by
            intro c hc
            rcases List.mem_append.1 hc with h | h
            · by_contra hcon
              exact hex ⟨c, h, by simpa using hcon⟩
            · exact hstar w hw c h
          have hall' : ∀ c ∈ r, (fun c => c != '*') c = true :=
            fun c hc => hall c (List.mem_append_left _ hc)
          rw [dropWhile_eq_nil_of_all hall, dropWhile_eq_nil_of_all hall']
          have hnil : stripPrefix "**".toList [] = none := rfl
          rw [hnil]
          simp
    rw [heq]
    cases hm : starGroupMatch wrap s with
    | none => exact Or.inl ⟨rfl, rfl⟩
    | some res => exact Or.inr ⟨res.1, res.2, res.2, rfl, rfl, Or.inl rfl⟩

theorem bracketGroupMatch_spaceStable : SpaceStable bracketGroupMatch := by
  have hclose : ∀ w, AllSpace w → ∀ c ∈ w, (fun c => c != ']') c = true := by
    intro w hw c hc
    simpa using (not_bracket_of_space (hw c hc)).2
  refine ⟨?_, ?_⟩
  · intro w hw
    cases w with
    | nil => rfl
    | cons c w' =>
      have hc : c ≠ '[' := (not_bracket_of_space (hw c (List.mem_cons_self _ _))).1
      unfold bracketGroupMatch
      split
      · rename_i rest heq
        simp only [List.cons.injEq] at heq
        exact absurd heq.1 hc
      · rfl
  · intro s w hw hs
    have heq : bracketGroupMatch (s ++ w) = bracketGroupMatch s := by
      cases s with
      | nil => exact absurd rfl hs
      | cons c rest =>
        by_cases hc : c = '['
        · subst hc
          show (match (rest ++ w).dropWhile (fun c => c != ']') with
            | ']' :: _ => some ([], ((rest ++ w).takeWhile (fun c => c != ']')).length + 2)
            | _ => none) =
            (match rest.dropWhile (fun c => c != ']') with
            | ']' :: _ => some ([], (rest.takeWhile (fun c => c != ']')).length + 2)
            | _ => none)
          by_cases hex : ∃ c ∈ rest, (fun c => c != ']') c = false
          · rw [takeWhile_append_of_exists hex, dropWhile_append_of_exists hex]
            cases hd : rest.dropWhile (fun c => c != ']') with
            | nil =>
              obtain ⟨c, hc, hpc⟩ := hex
              have := List.dropWhile_eq_nil_iff.1 hd c hc
              have hpc' : (c != ']') = false := hpc
              rw [hpc'] at this
              exact absurd this (by simp)
            | cons d ds =>
              by_cases hdc : d = ']'
              · subst hdc
                rfl
              · have : ∀ X : Str, (match d :: X with
                    | ']' :: _ => some (([] : Str),
                        (rest.takeWhile (fun c => c != ']')).length + 2)
                    | _ => none) = none := by
                  intro X
                  split
                  · rename_i heq
                    simp only [List.cons.injEq] at heq
                    exact absurd heq.1 hdc
                  · rfl
                rw [List.cons_append, this, this]
          · have hall : ∀ c ∈ rest ++ w, (fun c => c != ']') c = true := by
              intro c hc
              rcases List.mem_append.1 hc with h | h
              · by_contra hcon
                exact hex ⟨c, h, by simpa using hcon⟩
              · exact hclose w hw c h
            have hall' : ∀ c ∈ rest, (fun c => c != ']') c = true :=
              fun c hc => hall c (List.mem_append_left _ hc)
            rw [dropWhile_eq_nil_of_all hall, dropWhile_eq_nil_of_all hall']
        · have : ∀ X : Str, bracketGroupMatch (c :: X) = none := by
            intro X
            unfold bracketGroupMatch
            split
            · rename_i heq
              simp only [List.cons.injEq] at heq
              exact absurd heq.1 hc
            · rfl
          rw [List.cons_append, this, this]
    rw [heq]
    cases hm : bracketGroupMatch s with
    | none => exact Or.inl ⟨rfl, rfl⟩
    | some res => exact Or.inr ⟨res.1, res.2, res.2, rfl, rfl, Or.inl rfl⟩

theorem not_markdown_of_space {c : Char} (h : isJsSpace c = true) : isMarkdownChar c = false := by
  unfold isMarkdownChar
  simp only [Bool.or_eq_false_iff, decide_eq_false_iff_not]
  have hne : ∀ d : Char, isJsSpace d = false → c ≠ d := by
    intro d hd hcd
    rw [hcd, hd] at h
    exact absurd h (by simp)
  refine ⟨⟨⟨⟨hne _ (by decide), hne _ (by decide)⟩, hne _ (by decide)⟩, ?_⟩, hne _ (by decide)⟩
  intro h96
  have : c = Char.ofNat 96 := char_eq_of_toNat_eq (by rw [h96]; decide)
  exact hne _ (by decide) this

theorem tableTag_spaceFree : ∀ x ∈ "[Table]".toList, isJsSpace x.toUpper = false := by decide

theorem tipTag_spaceFree : ∀ x ∈ "[Tip]".toList, isJsSpace x.toUpper = false := by decide

/-- White space at the end of the text stays at the end, whole or in part, through
the replacements of `splitByLanguage`. -/
theorem stripSpeechMarkup_append_space (x : Str) {w : Str} (hw : AllSpace w) :
    ∃ w', AllSpace w' ∧ stripSpeechMarkup (x ++ w) = stripSpeechMarkup x ++ w' := by
  unfold stripSpeechMarkup
  obtain ⟨w1, hw1, e1⟩ := replaceAll_append_space
    (tagBodyMatch_spaceStable tableTag_spaceFree (by decide)) x hw 0
  obtain ⟨w2, hw2, e2⟩ := replaceAll_append_space
    (tagBodyMatch_spaceStable tipTag_spaceFree (by decide))
    (replaceAll (tagBodyMatch "[Table]".toList) 0 x) hw1 0
  obtain ⟨w3, hw3, e3⟩ := replaceAll_append_space (starGroupMatch_spaceStable id)
    (replaceAll (tagBodyMatch "[Tip]".toList) 0
      (replaceAll (tagBodyMatch "[Table]".toList) 0 x)) hw2 0
  refine ⟨w3, hw3, ?_⟩
  rw [e1, e2, e3, List.filter_append]
  congr 1
  rw [List.filter_eq_self]
  intro c hc
  rw [not_markdown_of_space (hw3 c hc)]
  rfl

/-! ## The scanner and white space at the end of the input -/

theorem speechTags_spaceFree :
    ∀ name ∈ speechTags, ∀ x ∈ name, isJsSpace x.toUpper = false := by decide

theorem matchTag_cons_bracket (names : List Str) (r : Str) :
    matchTag names ('[' :: r) =
      names.findSome? (fun name =>
        match matchLitCI name r with
        | some (']' :: rest) => some (r.take name.length, rest)
        | _ => none) := rfl

theorem matchTag_append_space {names : List Str}
    (hnames : ∀ name ∈ names, ∀ x ∈ name, isJsSpace x.toUpper = false) {w : Str}
    (hw : AllSpace w) (s : Str) (hs : s ≠ []) :
    matchTag names (s ++ w) = (matchTag names s).map (fun p : Str × Str => (p.1, p.2 ++ w)) := by
  cases s with
  | nil => exact absurd rfl hs
  | cons c r =>
    by_cases hc : c = '['
    · subst hc
      rw [List.cons_append, matchTag_cons_bracket, matchTag_cons_bracket]
      clear hs
      induction names with
      | nil => rfl
      | cons name rest ih =>
        have hstep : (match matchLitCI name (r ++ w) with
            | some (']' :: rest) => some ((r ++ w).take name.length, rest)
            | _ => (none : Option (Str × Str))) =
            (match matchLitCI name r with
            | some (']' :: rest) => some (r.take name.length, rest)
            | _ => (none : Option (Str × Str))).map (fun p : Str × Str => (p.1, p.2 ++ w)) := by
          rw [matchLitCI_append_space (hnames name (List.mem_cons_self _ _)) hw r]
          cases hm : matchLitCI name r with
          | none => rfl
          | some x =>
            cases x with
            | nil =>
              simp only [Option.map_some', List.nil_append]
              cases w with
              | nil => rfl
              | cons d w' =>
                have hd : d ≠ ']' := (not_bracket_of_space (hw d (List.mem_cons_self _ _))).2
                split
                · rename_i heq
                  simp only [Option.some.injEq, List.cons.injEq] at heq
                  exact absurd heq.1 hd
                · rfl
            | cons d ds =>
              simp only [Option.map_some', List.cons_append]
              by_cases hd : d = ']'
              · subst hd
                have hlen := matchLitCI_length hm
                simp only [Option.map_some', Option.some.injEq, Prod.mk.injEq, and_true]
                rw [List.take_append_of_le_length (by omega)]
              · split
                · rename_i heq
                  simp only [Option.some.injEq, List.cons.injEq] at heq
                  exact absurd heq.1 hd
                · split
                  · rename_i heq
                    simp only [Option.some.injEq, List.cons.injEq] at heq
                    exact absurd heq.1 hd
                  · rfl
        rw [List.findSome?_cons, List.findSome?_cons, hstep]
        cases hh : (match matchLitCI name r with
            | some (']' :: rest) => some (r.take name.length, rest)
            | _ => (none : Option (Str × Str))) with
        | some p => rfl
        | none =>
          simp only [Option.map_none']
          exact ih (fun n hn => hnames n (List.mem_cons_of_mem _ hn))
    · rw [List.cons_append, matchTag_not_bracket names hc, matchTag_not_bracket names hc]
      rfl

theorem tagOrEnd_append_space {names : List Str}
    (hnames : ∀ name ∈ names, ∀ x ∈ name, isJsSpace x.toUpper = false) {w : Str}
    (hw : AllSpace w) (s : Str) (hs : s ≠ []) :
    tagOrEnd names (s ++ w) = tagOrEnd names s := by
  unfold tagOrEnd
  rw [matchTag_append_space hnames hw s hs]
  cases s with
  | nil => exact absurd rfl hs
  | cons c r => cases matchTag names (c :: r) <;> rfl

theorem tagOrEnd_allSpace (names : List Str) {c : Char} {w : Str} (hw : AllSpace (c :: w)) :
    tagOrEnd names (c :: w) = false :=
  tagOrEnd_not_bracket names (not_bracket_of_space (hw c (List.mem_cons_self _ _))).1 w

theorem lazyBody_allSpace (names : List Str) {w : Str} (hw : AllSpace w) :
    lazyBody (tagOrEnd names) w = some w := by
  induction w with
  | nil => simp [lazyBody, tagOrEnd_nil]
  | cons c w' ih =>
    have hb := not_bracket_of_space (hw c (List.mem_cons_self _ _))
    rw [lazyBody_cons, tagOrEnd_allSpace names hw]
    simp only [Bool.false_eq_true, if_false, hb.1, hb.2, or_self]
    rw [ih (allSpace_tail hw)]
    rfl

/-- The lazy group on an input with white space added at the end: the same
group, or, when the group ran to the end of the input, the group with the white
space. -/
theorem lazyBody_append_space {names : List Str}
    (hnames : ∀ name ∈ names, ∀ x ∈ name, isJsSpace x.toUpper = false) {w : Str}
    (hw : AllSpace w) (s : Str) :
    (lazyBody (tagOrEnd names) s = none ∧ lazyBody (tagOrEnd names) (s ++ w) = none) ∨
      ∃ body, lazyBody (tagOrEnd names) s = some body ∧
        (lazyBody (tagOrEnd names) (s ++ w) = some body ∨
          (body = s ∧ lazyBody (tagOrEnd names) (s ++ w) = some (s ++ w))) := by
  induction s with
  | nil =>
    right
    refine ⟨[], by simp [lazyBody, tagOrEnd_nil], Or.inr ⟨rfl, ?_⟩⟩
    rw [List.nil_append]
    exact lazyBody_allSpace names hw
  | cons c cs ih =>
    rw [List.cons_append, lazyBody_cons, lazyBody_cons, ← List.cons_append,
      tagOrEnd_append_space hnames hw (c :: cs) (by simp)]
    by_cases hlook : tagOrEnd names (c :: cs) = true
    · rw [if_pos hlook, if_pos hlook]
      exact Or.inr ⟨[], rfl, Or.inl rfl⟩
    · rw [if_neg hlook, if_neg hlook]
      by_cases hb : c = '[' ∨ c = ']'
      · rw [if_pos hb, if_pos hb]
        exact Or.inl ⟨rfl, rfl⟩
      · rw [if_neg hb, if_neg hb]
        rcases ih with ⟨h1, h2⟩ | ⟨body, h1, h2⟩
        · rw [h1, h2]
          exact Or.inl ⟨rfl, rfl⟩
        · rw [h1]
          right
          refine ⟨c :: body, rfl, ?_⟩
          rcases h2 with h2 | ⟨hbody, h2⟩
          · rw [h2]
            exact Or.inl rfl
          · rw [h2, hbody]
            exact Or.inr ⟨rfl, rfl⟩

theorem spacesThenBody_cons (look : Str → Bool) (c : Char) (cs : Str) :
    spacesThenBody look (c :: cs) =
      if isJsSpace c then
        match spacesThenBody look cs with
        | some (k, b) => some (k + 1, b)
        | none => (lazyBody look (c :: cs)).map (fun b => (0, b))
      else (lazyBody look (c :: cs)).map (fun b => (0, b)) := rfl

theorem spacesThenBody_allSpace (names : List Str) {w : Str} (hw : AllSpace w) :
    spacesThenBody (tagOrEnd names) w = some (w.length, []) := by
  induction w with
  | nil => simp [spacesThenBody, lazyBody, tagOrEnd_nil]
  | cons c w' ih =>
    rw [spacesThenBody_cons, if_pos (hw c (List.mem_cons_self _ _)), ih (allSpace_tail hw)]
    rfl

/-- The part after the tag on an input with white space added at the end: the
same result, or, when the match ran to the end of the input, a match that runs to
the new end and whose group has the same trimmed text. -/
theorem spacesThenBody_append_space {names : List Str}
    (hnames : ∀ name ∈ names, ∀ x ∈ name, isJsSpace x.toUpper = false) {w : Str}
    (hw : AllSpace w) (r : Str) :
    (spacesThenBody (tagOrEnd names) r = none ∧
        spacesThenBody (tagOrEnd names) (r ++ w) = none) ∨
      ∃ k body, spacesThenBody (tagOrEnd names) r = some (k, body) ∧
        (spacesThenBody (tagOrEnd names) (r ++ w) = some (k, body) ∨
          (k + body.length = r.length ∧
            ∃ k' body', spacesThenBody (tagOrEnd names) (r ++ w) = some (k', body') ∧
              jsTrim body' = jsTrim body ∧ k' + body'.length = r.length + w.length)) := by
  have hlazy : ∀ s : Str, s ≠ [] →
      ((lazyBody (tagOrEnd names) s).map (fun b => ((0 : Nat), b)) = none ∧
          (lazyBody (tagOrEnd names) (s ++ w)).map (fun b => ((0 : Nat), b)) = none) ∨
        ∃ k body, (lazyBody (tagOrEnd names) s).map (fun b => ((0 : Nat), b)) = some (k, body) ∧
          ((lazyBody (tagOrEnd names) (s ++ w)).map (fun b => ((0 : Nat), b)) = some (k, body) ∨
            (k + body.length = s.length ∧
              ∃ k' body', (lazyBody (tagOrEnd names) (s ++ w)).map (fun b => ((0 : Nat), b)) =
                  some (k', body') ∧
                jsTrim body' = jsTrim body ∧ k' + body'.length = s.length + w.length)) := by
    intro s _
    rcases lazyBody_append_space hnames hw s with ⟨h1, h2⟩ | ⟨body, h1, h2⟩
    · rw [h1, h2]
      exact Or.inl ⟨rfl, rfl⟩
    · rw [h1]
      right
      refine ⟨0, body, rfl, ?_⟩
      rcases h2 with h2 | ⟨hb, h2⟩
      · rw [h2]
        exact Or.inl rfl
      · rw [h2]
        right
        refine ⟨by rw [hb]; simp, 0, s ++ w, rfl, ?_, by simp⟩
        rw [hb]
        exact jsTrim_append_space hw s
  induction r with
  | nil =>
    right
    refine ⟨0, [], by simp [spacesThenBody, lazyBody, tagOrEnd_nil], Or.inr ⟨rfl, ?_⟩⟩
    rw [List.nil_append, spacesThenBody_allSpace names hw]
    exact ⟨w.length, [], rfl, rfl, by simp⟩
  | cons c cs ih =>
    rw [List.cons_append, spacesThenBody_cons, spacesThenBody_cons]
    by_cases hc : isJsSpace c = true
    · rw [if_pos hc, if_pos hc]
      rcases ih with ⟨h1, h2⟩ | ⟨k, body, h1, h2⟩
      · rw [h1, h2]
        simp only
        rw [← List.cons_append]
        exact hlazy (c :: cs) (by simp)
      · rw [h1]
        right
        refine ⟨k + 1, body, rfl, ?_⟩
        rcases h2 with h2 | ⟨hlen, k', body', h2, htrim, hlen'⟩
        · rw [h2]
          exact Or.inl rfl
        · rw [h2]
          right
          refine ⟨by simp only [List.length_cons]; omega, k' + 1, body', rfl, htrim, ?_⟩
          simp only [List.length_cons]
          omega
    · rw [if_neg hc, if_neg hc, ← List.cons_append]
      exact hlazy (c :: cs) (by simp)

theorem segmentAt_append_space {names : List Str}
    (hnames : ∀ name ∈ names, ∀ x ∈ name, isJsSpace x.toUpper = false) {w : Str}
    (hw : AllSpace w) (s : Str) (hs : s ≠ []) :
    (segmentAt names s = none ∧ segmentAt names (s ++ w) = none) ∨
      ∃ name body len body' len', segmentAt names s = some (name, body, len) ∧
        segmentAt names (s ++ w) = some (name, body', len') ∧ jsTrim body' = jsTrim body ∧
        (len' = len ∨ (s.length ≤ len ∧ s.length ≤ len')) := by
  unfold segmentAt
  rw [matchTag_append_space hnames hw s hs]
  cases hm : matchTag names s with
  | none => exact Or.inl ⟨rfl, rfl⟩
  | some p =>
    obtain ⟨name, rest⟩ := p
    simp only [Option.map_some']
    have hslen : s.length = name.length + 2 + rest.length := by
      obtain ⟨r, hr⟩ := matchTag_some_bracket hm
      subst hr
      rw [matchTag_cons_bracket] at hm
      obtain ⟨nm, _, hnm⟩ := List.exists_of_findSome?_eq_some hm
      split at hnm
      · rename_i rest' heq
        simp only [Option.some.injEq, Prod.mk.injEq] at hnm
        have hl := matchLitCI_length heq
        simp only [List.length_cons] at hl ⊢
        rw [← hnm.1, ← hnm.2, List.length_take]
        omega
      · exact absurd hnm (by simp)
    rcases spacesThenBody_append_space hnames hw rest with ⟨h1, h2⟩ | ⟨k, body, h1, h2⟩
    · rw [h1, h2]
      exact Or.inl ⟨rfl, rfl⟩
    · rw [h1]
      right
      rcases h2 with h2 | ⟨hlen, k', body', h2, htrim, hlen'⟩
      · rw [h2]
        exact ⟨name, body, _, body, _, rfl, rfl, rfl, Or.inl rfl⟩
      · rw [h2]
        refine ⟨name, body, _, body', _, rfl, rfl, htrim, Or.inr ⟨?_, ?_⟩⟩
        · simp only
          omega
        · simp only
          omega

theorem scanSegments_succ_cons (names : List Str) (k : Nat) (c : Char) (cs : Str) :
    scanSegments names (k + 1) (c :: cs) = scanSegments names k cs := rfl

theorem scanSegments_skip_all (names : List Str) {k : Nat} {x : Str} (h : x.length ≤ k) :
    scanSegments names k x = [] := by
  induction x generalizing k with
  | nil => exact scanSegments_nil names k
  | cons c cs ih =>
    cases k with
    | zero => simp at h
    | succ k' =>
      rw [scanSegments_succ_cons]
      exact ih (by simpa using h)

theorem scanSegments_allSpace (names : List Str) (k : Nat) {w : Str} (hw : AllSpace w) :
    scanSegments names k w = [] := by
  induction w generalizing k with
  | nil => exact scanSegments_nil names k
  | cons c w' ih =>
    cases k with
    | zero =>
      rw [scanSegments_cons_none names (segmentAt_not_bracket names
        (not_bracket_of_space (hw c (List.mem_cons_self _ _))).1 _)]
      exact ih 0 (allSpace_tail hw)
    | succ k' =>
      rw [scanSegments_succ_cons]
      exact ih k' (allSpace_tail hw)

/-- White space added at the end of the input does not change the segments. -/
theorem scanSegments_append_space {names : List Str}
    (hnames : ∀ name ∈ names, ∀ x ∈ name, isJsSpace x.toUpper = false) (x : Str) {w : Str}
    (hw : AllSpace w) (k : Nat) :
    scanSegments names k (x ++ w) = scanSegments names k x := by
  induction x generalizing k with
  | nil =>
    rw [List.nil_append, scanSegments_nil]
    exact scanSegments_allSpace names k hw
  | cons c cs ih =>
    cases k with
    | succ k' =>
      rw [List.cons_append, scanSegments_succ_cons, scanSegments_succ_cons]
      exact ih k'
    | zero =>
      rw [List.cons_append, scanSegments_zero_cons, scanSegments_zero_cons]
      rcases segmentAt_append_space hnames hw (c :: cs) (by simp) with
        ⟨h1, h2⟩ | ⟨name, body, len, body', len', h1, h2, htrim, hl⟩
      · rw [List.cons_append] at h2
        rw [h1, h2]
        exact ih 0
      · rw [List.cons_append] at h2
        rw [h1, h2]
        simp only
        rw [htrim, ih (len' - 1)]
        congr 1
        rcases hl with hl | ⟨hl1, hl2⟩
        · rw [hl]
        · simp only [List.length_cons] at hl1 hl2
          rw [scanSegments_skip_all names (by omega : cs.length ≤ len' - 1),
            scanSegments_skip_all names (by omega : cs.length ≤ len - 1)]

/-- White space at the end of the text left by the replacements does not change
the segments to speak. -/
theorem speechSegmentsOf_append_space (t : Str) {w : Str} (hw : AllSpace w) :
    speechSegmentsOf (t ++ w) = speechSegmentsOf t := by
  unfold speechSegmentsOf
  obtain ⟨w', hw', e⟩ := replaceAll_append_space bracketGroupMatch_spaceStable t hw 0
  rw [scanSegments_append_space speechTags_spaceFree t hw 0, jsTrim_append_space hw, e,
    jsTrim_append_space hw']

/-- The segments to speak do not depend on the white space that `trim` removes at
the end of the text. -/
theorem speechSegmentsOf_trim (y : Str) :
    speechSegmentsOf (stripSpeechMarkup (jsTrim y)) =
      speechSegmentsOf (stripSpeechMarkup (y.dropWhile isJsSpace)) := by
  obtain ⟨bt, w, hbody, hw, _⟩ := trimEnd_decompose (y.dropWhile isJsSpace)
  have hbt : jsTrim y = trimEnd (y.dropWhile isJsSpace) := rfl
  have hsplit := trimEnd_append_spaces (y.dropWhile isJsSpace)
  have hw2 : AllSpace ((y.dropWhile isJsSpace).reverse.takeWhile isJsSpace).reverse := by
    intro c hc
    exact List.mem_takeWhile_imp (List.mem_reverse.1 hc)
  obtain ⟨w', hw', e⟩ := stripSpeechMarkup_append_space (trimEnd (y.dropWhile isJsSpace)) hw2
  rw [← hsplit] at e
  rw [e, speechSegmentsOf_append_space _ hw', hbt]

/-! ## The bodies of `[Tip]` and `[Table]` are not spoken -/

theorem replaceAll_drop (m : Str → Option (Str × Nat)) (k : Nat) (x : Str) :
    replaceAll m k x = replaceAll m 0 (x.drop k) := by
  induction x generalizing k with
  | nil => rw [replaceAll_nil]; simp [replaceAll_nil]
  | cons c cs ih =>
    cases k with
    | zero => rfl
    | succ k' =>
      rw [replaceAll_succ_cons, List.drop_succ_cons]
      exact ih k'

theorem drop_length_takeWhile (p : Char → Bool) (x : Str) :
    x.drop (x.takeWhile p).length = x.dropWhile p := by
  induction x with
  | nil => rfl
  | cons c cs ih =>
    by_cases hc : p c = true
    · simp only [List.takeWhile_cons, List.dropWhile_cons, hc, if_true, List.length_cons,
        List.drop_succ_cons]
      exact ih
    · simp [List.takeWhile_cons, List.dropWhile_cons, hc]

theorem openOrEmpty_dropWhile (x : Str) : OpenOrEmpty (x.dropWhile (fun c => c != '[')) := by
  cases h : x.dropWhile (fun c => c != '[') with
  | nil => exact Or.inl rfl
  | cons d ds =>
    have := List.head?_dropWhile_not (fun c => c != '[') x
    rw [h] at this
    simp only [List.head?_cons, Option.all_some, Bool.not_eq_true', bne_eq_false_iff_eq] at this
    exact Or.inr ⟨ds, by rw [this]⟩

/-- A match of a tag with its body: nothing is put in its place, and the input
goes on, after the match, with the end of the input or with `[`. -/
theorem tagBodyMatch_some {lit s rep : Str} {len : Nat}
    (h : tagBodyMatch lit s = some (rep, len)) :
    rep = [] ∧ lit.length ≤ len ∧ OpenOrEmpty (s.drop len) := by
  unfold tagBodyMatch at h
  cases hm : matchLitCI lit s with
  | none => rw [hm] at h; exact absurd h (by simp)
  | some rest =>
    rw [hm] at h
    simp only [Option.some.injEq, Prod.mk.injEq] at h
    obtain ⟨u, hu, hsame⟩ := matchLitCI_some hm
    have hul : u.length = lit.length := by
      have := congrArg List.length hsame
      simpa using this
    refine ⟨h.1.symm, by omega, ?_⟩
    rw [← h.2, hu, ← hul, List.drop_append, drop_length_takeWhile]
    exact openOrEmpty_dropWhile rest

theorem tagBodyMatch_not_bracket (lit : Str) (hlit : ∃ t, lit = '[' :: t) {c : Char}
    (hc : c ≠ '[') (r : Str) : tagBodyMatch lit (c :: r) = none := by
  obtain ⟨t, rfl⟩ := hlit
  unfold tagBodyMatch
  rw [matchLitCI_head_ne (fun h => hc (upper_bracket_of h))]

/-- The result of the removal of the bodies of a tag, on a text that is empty or
starts with `[`, is empty or starts with `[`. -/
theorem replaceAll_tagBody_open (lit : Str) (hne : lit ≠ []) (n : Nat) :
    ∀ y : Str, y.length ≤ n → OpenOrEmpty y →
      OpenOrEmpty (replaceAll (tagBodyMatch lit) 0 y) := by
  induction n with
  | zero =>
    intro y hy _
    have : y = [] := List.length_eq_zero.1 (by omega)
    rw [this]
    exact Or.inl rfl
  | succ n ih =>
    intro y hy hopen
    rcases hopen with rfl | ⟨r, rfl⟩
    · exact Or.inl rfl
    · rw [replaceAll_zero_cons]
      cases hm : tagBodyMatch lit ('[' :: r) with
      | none => exact Or.inr ⟨_, rfl⟩
      | some res =>
        obtain ⟨rep, len⟩ := res
        obtain ⟨hrep, hlen, hdrop⟩ := tagBodyMatch_some hm
        have hpos : 0 < len := by
          have : 0 < lit.length := List.length_pos.2 hne
          omega
        simp only
        rw [hrep, List.nil_append, replaceAll_drop]
        have hd : r.drop (len - 1) = ('[' :: r).drop len := by
          cases len with
          | zero => omega
          | succ l => rfl
        rw [hd]
        apply ih _ _ hdrop
        rw [List.length_drop]
        simp only [List.length_cons] at hy ⊢
        omega

/-- A tag, its body without `[`, then the end of the input or `[`: the whole is
removed. -/
theorem replaceAll_tagBody_at (lit : Str) (hne : lit ≠ []) {body y : Str}
    (hbody : ∀ c ∈ body, c ≠ '[') (hy : OpenOrEmpty y) :
    replaceAll (tagBodyMatch lit) 0 (lit ++ body ++ y) =
      replaceAll (tagBodyMatch lit) 0 y := by
  have hrun : (body ++ y).takeWhile (fun c => c != '[') = body := by
    rw [takeWhile_append_stop body (openOrEmpty_head hy)]
    exact takeWhile_eq_self_of_all (fun c hc => by simpa using hbody c hc)
  have hm : tagBodyMatch lit (lit ++ body ++ y) = some ([], lit.length + body.length) := by
    unfold tagBodyMatch
    rw [List.append_assoc, matchLitCI_append (rfl : SameIgnoringCase lit lit)]
    simp only [hrun]
  cases hl : lit with
  | nil => exact absurd hl hne
  | cons c t =>
    rw [hl] at hm
    rw [List.cons_append, List.cons_append, replaceAll_zero_cons]
    rw [List.cons_append, List.cons_append] at hm
    rw [hm]
    simp only [List.nil_append, List.length_cons]
    rw [show t.length + 1 + body.length - 1 = (t ++ body).length by
      simp only [List.length_append]; omega]
    exact replaceAll_skip _ (t ++ body) y

theorem replaceAll_table_through_tip {body : Str} (hbody : ∀ c ∈ body, c ≠ '[') (y : Str) :
    replaceAll (tagBodyMatch "[Table]".toList) 0 ("[Tip]".toList ++ body ++ y) =
      "[Tip]".toList ++ body ++ replaceAll (tagBodyMatch "[Table]".toList) 0 y := by
  have h0 : ∀ X : Str, tagBodyMatch "[Table]".toList ('[' :: 'T' :: 'i' :: X) = none := by
    intro X
    simp [tagBodyMatch, matchLitCI]
  have hplain : ∀ c ∈ "Tip]".toList ++ body, ∀ r,
      tagBodyMatch "[Table]".toList (c :: r) = none := by
    intro c hc r
    apply tagBodyMatch_not_bracket _ ⟨_, rfl⟩
    rcases List.mem_append.1 hc with h | h
    · intro h0
      rw [h0] at h
      exact absurd h (by decide)
    · exact hbody c h
  show replaceAll (tagBodyMatch "[Table]".toList) 0 ('[' :: 'T' :: 'i' :: ("p]".toList ++ body ++ y))
    = _
  rw [replaceAll_zero_cons, h0]
  have := replaceAll_plain hplain y
  simp only [List.append_assoc] at this ⊢
  exact congrArg (List.cons '[') this

theorem actions_none_of_no_tag {a : Str} (ha : ¬ ContainsActionsTag a) {y : Str}
    (hy : OpenOrEmpty y) :
    ∀ p s, a = p ++ s → s ≠ [] → actionsToEndMatch (s ++ y) = none := by
  intro p s hps hs
  unfold actionsToEndMatch
  have hlit : ∀ x ∈ "Actions]".toList, x.toUpper ≠ '['.toUpper := by decide
  have hopen := matchLitCI_open hlit hy s hs
  have hnone : matchLitCI "[Actions]".toList s = none := by
    cases hm : matchLitCI "[Actions]".toList s with
    | none => rfl
    | some r =>
      exfalso
      obtain ⟨u, hu, hsame⟩ := matchLitCI_some hm
      exact ha ⟨p, u, r, by rw [hps, hu, List.append_assoc], hsame⟩
  rw [show "[Actions]".toList = '[' :: "Actions]".toList from rfl, hopen,
    show '[' :: "Actions]".toList = "[Actions]".toList from rfl, hnone]
  rfl

theorem actionsToEndMatch_some {s rep : Str} {len : Nat}
    (h : actionsToEndMatch s = some (rep, len)) : rep = [] ∧ len = s.length := by
  unfold actionsToEndMatch at h
  split at h
  · split at h
    · simp only [Option.some.injEq, Prod.mk.injEq] at h
      exact ⟨h.1.symm, h.2.symm⟩
    · exact absurd h (by simp)
  · exact absurd h (by simp)

theorem replaceAll_actions_open {b : Str} (hb : OpenOrEmpty b) :
    OpenOrEmpty (replaceAll actionsToEndMatch 0 b) := by
  rcases hb with rfl | ⟨r, rfl⟩
  · exact Or.inl rfl
  · rw [replaceAll_zero_cons]
    cases hm : actionsToEndMatch ('[' :: r) with
    | none => exact Or.inr ⟨_, rfl⟩
    | some res =>
      obtain ⟨rep, len⟩ := res
      obtain ⟨hrep, hlen⟩ := actionsToEndMatch_some hm
      simp only
      rw [hrep, hlen, replaceAll_skip_all _ (by simp)]
      exact Or.inl rfl

theorem replaceAll_actions_through_tag {tl : Str} (htl : ∀ c ∈ tl, c ≠ '[')
    (hT : ∃ r, tl = 'T' :: r) (b : Str) :
    replaceAll actionsToEndMatch 0 ('[' :: (tl ++ b)) =
      '[' :: (tl ++ replaceAll actionsToEndMatch 0 b) := by
  obtain ⟨r, rfl⟩ := hT
  have h0 : actionsToEndMatch ('[' :: ('T' :: r ++ b)) = none := by
    simp [actionsToEndMatch, matchLitCI]
  have hplain : ∀ c ∈ 'T' :: r, ∀ x, actionsToEndMatch (c :: x) = none := by
    intro c hc x
    unfold actionsToEndMatch
    rw [matchActions_not_bracket (htl c hc)]
  rw [replaceAll_zero_cons, h0]
  exact congrArg (List.cons '[') (replaceAll_plain hplain b)

theorem dropWhile_append_open (a : Str) {y : Str} (hy : OpenOrEmpty y) :
    (a ++ y).dropWhile isJsSpace = a.dropWhile isJsSpace ++ y := by
  rcases hy with rfl | ⟨r, rfl⟩
  · simp
  · by_cases hall : ∀ c ∈ a, isJsSpace c = true
    · rw [dropWhile_append_of_all hall, dropWhile_eq_nil_of_all hall]
      exact dropWhile_eq_self_of_head not_space_bracket
    · have hex : ∃ c ∈ a, isJsSpace c = false := by
        by_contra hcon
        apply hall
        intro c hc
        by_contra hcs
        exact hcon ⟨c, hc, by simpa using hcs⟩
      exact dropWhile_append_of_exists hex _

theorem table_localBefore {y : Str} (hy : OpenOrEmpty y) :
    LocalBefore (tagBodyMatch "[Table]".toList) y :=
  tagBodyMatch_localBefore (t := "Table]".toList) (by decide) hy

theorem tip_localBefore {y : Str} (hy : OpenOrEmpty y) :
    LocalBefore (tagBodyMatch "[Tip]".toList) y :=
  tagBodyMatch_localBefore (t := "Tip]".toList) (by decide) hy

/-- The removal of the bodies of `[Table]` and of `[Tip]` on a text that holds
one of these tags with its body, in front of the end of the input or of `[`. -/
theorem remove_bodies_at_tag (a0 : Str) {tag body y : Str}
    (htag : tag = "[Tip]".toList ∨ tag = "[Table]".toList) (hbody : ∀ c ∈ body, c ≠ '[')
    (hy : OpenOrEmpty y) :
    replaceAll (tagBodyMatch "[Tip]".toList) 0
        (replaceAll (tagBodyMatch "[Table]".toList) 0 (a0 ++ (tag ++ body ++ y))) =
      replaceAll (tagBodyMatch "[Tip]".toList) 0
        (replaceAll (tagBodyMatch "[Table]".toList) 0 (a0 ++ y)) := by
  have hTy := replaceAll_tagBody_open "[Table]".toList (by decide) y.length y (Nat.le_refl _) hy
  have hright : replaceAll (tagBodyMatch "[Table]".toList) 0 (a0 ++ y) =
      replaceAll (tagBodyMatch "[Table]".toList) 0 a0 ++
        replaceAll (tagBodyMatch "[Table]".toList) 0 y :=
    replaceAll_append_local (table_localBefore hy) a0 0 (Nat.zero_le _)
  rcases htag with rfl | rfl
  · have hopen : OpenOrEmpty ("[Tip]".toList ++ body ++ y) := Or.inr ⟨_, rfl⟩
    rw [replaceAll_append_local (table_localBefore hopen) a0 0 (Nat.zero_le _),
      replaceAll_table_through_tip hbody y, hright]
    have hopen2 : OpenOrEmpty ("[Tip]".toList ++ body ++
        replaceAll (tagBodyMatch "[Table]".toList) 0 y) := Or.inr ⟨_, rfl⟩
    rw [replaceAll_append_local (tip_localBefore hopen2) _ 0 (Nat.zero_le _),
      replaceAll_tagBody_at "[Tip]".toList (by decide) hbody hTy,
      replaceAll_append_local (tip_localBefore hTy) _ 0 (Nat.zero_le _)]
  · have hopen : OpenOrEmpty ("[Table]".toList ++ body ++ y) := Or.inr ⟨_, rfl⟩
    rw [replaceAll_append_local (table_localBefore hopen) a0 0 (Nat.zero_le _),
      replaceAll_tagBody_at "[Table]".toList (by decide) hbody hy, hright]

/-- C11: for every text `a ++ tag ++ body ++ b` where `tag` is `[Tip]` or
`[Table]`, `a` holds no `[Actions]` tag (in any letter case), `body` holds no `[`
and `b` is empty or starts with `[`, `splitByLanguage` returns what it returns
for `a ++ b`. -/
theorem tip_table_never_spoken (a tag body b : Str)
    (htag : tag = "[Tip]".toList ∨ tag = "[Table]".toList)
    (ha : ¬ ContainsActionsTag a) (hbody : '[' ∉ body)
    (hb : b = [] ∨ b.head? = some '[') :
    splitByLanguage (a ++ tag ++ body ++ b) = splitByLanguage (a ++ b) := by
  have hbody' : ∀ c ∈ body, c ≠ '[' := fun c hc h => hbody (h ▸ hc)
  have hbopen : OpenOrEmpty b := by
    rcases hb with h | h
    · exact Or.inl h
    · cases b with
      | nil => simp at h
      | cons c r =>
        simp only [List.head?_cons, Option.some.injEq] at h
        exact Or.inr ⟨r, by rw [h]⟩
  have hb1 := replaceAll_actions_open hbopen
  -- the tag without its opening bracket, followed by the body
  obtain ⟨tl, htl, hT, htageq⟩ : ∃ tl : Str, (∀ c ∈ tl, c ≠ '[') ∧ (∃ r, tl = 'T' :: r) ∧
      tag ++ body = '[' :: tl := by
    rcases htag with rfl | rfl
    · refine ⟨"Tip]".toList ++ body, ?_, ⟨_, rfl⟩, rfl⟩
      intro c hc
      rcases List.mem_append.1 hc with h | h
      · intro h0
        rw [h0] at h
        exact absurd h (by decide)
      · exact hbody' c h
    · refine ⟨"Table]".toList ++ body, ?_, ⟨_, rfl⟩, rfl⟩
      intro c hc
      rcases List.mem_append.1 hc with h | h
      · intro h0
        rw [h0] at h
        exact absurd h (by decide)
      · exact hbody' c h
  have hopen : OpenOrEmpty (tag ++ body ++ b) := by
    rw [htageq]
    exact Or.inr ⟨_, rfl⟩
  -- the removal of the actions
  have hA1 : replaceAll actionsToEndMatch 0 (a ++ tag ++ body ++ b) =
      a ++ (tag ++ body ++ replaceAll actionsToEndMatch 0 b) := by
    rw [show a ++ tag ++ body ++ b = a ++ (tag ++ body ++ b) by simp only [List.append_assoc],
      replaceAll_append_none (actions_none_of_no_tag ha hopen), htageq, List.cons_append,
      replaceAll_actions_through_tag htl hT b]
    rfl
  have hA2 : replaceAll actionsToEndMatch 0 (a ++ b) =
      a ++ replaceAll actionsToEndMatch 0 b :=
    replaceAll_append_none (actions_none_of_no_tag ha hbopen)
  have hopen1 : OpenOrEmpty (tag ++ body ++ replaceAll actionsToEndMatch 0 b) := by
    rw [htageq]
    exact Or.inr ⟨_, rfl⟩
  rw [splitByLanguage_eq, splitByLanguage_eq, hA1, hA2, speechSegmentsOf_trim,
    speechSegmentsOf_trim (a ++ replaceAll actionsToEndMatch 0 b),
    dropWhile_append_open a hopen1, dropWhile_append_open a hb1]
  unfold stripSpeechMarkup
  rw [remove_bodies_at_tag _ htag hbody' hb1]

set_option maxRecDepth 100000 in
/-- Witness of C11: the tip between a Vietnamese and an English segment. -/
theorem tip_table_never_spoken_witness :
    splitByLanguage ("[Vietsub] xin chao ".toList ++ "[Tip]".toList ++ " meo nho ".toList ++
        "[Engsub] Hello world".toList) =
      splitByLanguage ("[Vietsub] xin chao ".toList ++ "[Engsub] Hello world".toList) := by
  have hw : WellTagged displayTags [("Vietsub".toList, " xin chao ".toList)] := by
    intro s hs
    rw [List.mem_singleton.1 hs]
    exact ⟨⟨"Vietsub".toList, by decide, rfl⟩, by unfold NoBracket; decide⟩
  have ha : ¬ ContainsActionsTag "[Vietsub] xin chao ".toList :=
    not_containsActionsTag_of_noActionsAt (noActionsAt_taggedText hw)
  exact tip_table_never_spoken _ _ _ _ (Or.inl rfl) ha (by decide) (Or.inr (by decide))

/-! ## Folding appends -/

theorem foldl_append_flatMap {α : Type} (f : Str → α → Str) (g : α → Str)
    (hf : ∀ acc x, f acc x = acc ++ g x) (xs : List α) (init : Str) :
    xs.foldl f init = init ++ xs.flatMap g := by
  induction xs generalizing init with
  | nil => simp
  | cons x xs ih => simp [List.foldl_cons, ih, hf, List.flatMap_cons, List.append_assoc]

/-! ## isEnglishText -/

set_option maxRecDepth 100000 in
theorem vietnameseClass_codes : vietnameseClass.map Char.toNat = viLowerCodes := by decide

set_option maxRecDepth 100000 in
theorem vietnameseLetters_codes :
    vietnameseLetters.map Char.toNat = viLowerCodes ++ viUpperCodes := by decide

set_option maxRecDepth 100000 in
theorem viLowerCodes_canon : viLowerCodes.map canonVi = viUpperCodes := by decide

set_option maxRecDepth 100000 in
theorem viCodes_range : ∀ m ∈ viLowerCodes ++ viUpperCodes,
    (0xC0 ≤ m ∧ m ≤ 0x1B0) ∨ (0x1EA0 ≤ m ∧ m ≤ 0x1EF9) := by decide

theorem canonVi_outside (n : Nat)
    (h : ¬ ((0xC0 ≤ n ∧ n ≤ 0x1B0) ∨ (0x1EA0 ≤ n ∧ n ≤ 0x1EF9))) : canonVi n = n := by
  unfold canonVi
  split_ifs <;> omega

set_option maxRecDepth 100000 in
theorem canonVi_latin : ∀ k, k < 241 →
    viUpperCodes.contains (canonVi (0xC0 + k)) =
      (viLowerCodes ++ viUpperCodes).contains (0xC0 + k) := by
  decide

set_option maxRecDepth 100000 in
theorem canonVi_additional : ∀ k, k < 90 →
    viUpperCodes.contains (canonVi (0x1EA0 + k)) =
      (viLowerCodes ++ viUpperCodes).contains (0x1EA0 + k) := by
  decide

theorem canonVi_contains (n : Nat) :
    viUpperCodes.contains (canonVi n) = (viLowerCodes ++ viUpperCodes).contains n := by
  by_cases h : (0xC0 ≤ n ∧ n ≤ 0x1B0) ∨ (0x1EA0 ≤ n ∧ n ≤ 0x1EF9)
  · rcases h with h | h
    · have := canonVi_latin (n - 0xC0) (by omega)
      rwa [show 0xC0 + (n - 0xC0) = n by omega] at this
    · have := canonVi_additional (n - 0x1EA0) (by omega)
      rwa [show 0x1EA0 + (n - 0x1EA0) = n by omega] at this
  · rw [canonVi_outside n h]
    have h1 : (viLowerCodes ++ viUpperCodes).contains n = false := by
      rw [Bool.eq_false_iff]
      intro hc
      exact h (viCodes_range n (by simpa using hc))
    have h2 : viUpperCodes.contains n = false := by
      rw [Bool.eq_false_iff]
      intro hc
      exact h (viCodes_range n (List.mem_append_right _ (by simpa using hc)))
    rw [h1, h2]

/-- The class of the source, read under the `i` flag, is the set of Vietnamese
letters of both cases. -/
theorem matchesVietnameseClass_iff (c : Char) :
    matchesVietnameseClass c = true ↔ c ∈ vietnameseLetters := by
  have hP : matchesVietnameseClass c = viUpperCodes.contains (canonVi c.toNat) := by
    unfold matchesVietnameseClass
    rw [← viLowerCodes_canon, ← vietnameseClass_codes, List.map_map]
    induction vietnameseClass with
    | nil => rfl
    | cons x xs ih =>
      simp only [List.any_cons, List.map_cons, List.contains_cons, Function.comp, ih]
  have hQ : (viLowerCodes ++ viUpperCodes).contains c.toNat = true ↔ c ∈ vietnameseLetters := by
    rw [← vietnameseLetters_codes]
    simp only [List.contains_iff_exists_mem_beq, List.mem_map]
    constructor
    · rintro ⟨_, ⟨x, hx, rfl⟩, h⟩
      have : c = x := Char.ext (UInt32.ext (by simpa [Char.toNat] using h))
      rwa [this]
    · intro h
      exact ⟨_, ⟨c, h, rfl⟩, by simp⟩
  rw [hP, canonVi_contains, hQ]

/-- C9: `isEnglishText t` is true exactly when `t` holds an ASCII Latin letter and
no Vietnamese letter with a diacritic, of either case (đ and Đ included); it is
true of "hello" and false of "xin chào" and of "Đây là test". -/
theorem isEnglishText_iff_latin_and_no_vietnamese :
    (∀ t : Str, isEnglishText t = true ↔
        (∃ c ∈ t, isAsciiLetter c = true) ∧ ∀ c ∈ t, c ∉ vietnameseLetters) ∧
      isEnglishText "hello".toList = true ∧
      isEnglishText "xin chào".toList = false ∧
      isEnglishText "Đây là test".toList = false := by
  refine ⟨fun t => ?_, by decide, by decide, by decide⟩
  unfold isEnglishText
  simp only [Bool.and_eq_true, Bool.not_eq_true', List.any_eq_true, List.any_eq_false]
  constructor
  · rintro ⟨h1, h2⟩
    exact ⟨h1, fun c hc hv => h2 c hc ((matchesVietnameseClass_iff c).2 hv)⟩
  · rintro ⟨h1, h2⟩
    exact ⟨h1, fun c hc hv => h2 c hc ((matchesVietnameseClass_iff c).1 hv)⟩

/-! ## formatTable -/

theorem appendHeaderCell_eq (html cell : Str) :
    appendHeaderCell html cell = html ++ headerCellHtml cell := by
  simp [appendHeaderCell, headerCellHtml, List.append_assoc]

theorem appendBodyCell_eq (html cell : Str) :
    appendBodyCell html cell = html ++ bodyCellHtml cell := by
  unfold appendBodyCell bodyCellHtml
  split <;> simp [List.append_assoc]

theorem appendBodyRow_eq (html row : Str) :
    appendBodyRow html row = html ++ bodyRowHtml row := by
  unfold appendBodyRow bodyRowHtml
  rw [foldl_append_flatMap appendBodyCell bodyCellHtml appendBodyCell_eq]
  simp [List.append_assoc]

/-- Closed form of `formatTable` outside the placeholder case. -/
theorem formatTable_rows (content : Str) (isStreaming : Bool)
    (h : ¬ (isStreaming = true ∧ includes "||".toList content = false))
    (header : Str) (body : List Str) (hrows : splitRows content = header :: body) :
    formatTable content isStreaming =
      tableOpen ++ ("<thead>".toList ++ headerRowHtml header ++ "</thead>".toList
        ++ (if body = [] then [] else "<tbody>".toList ++ body.flatMap bodyRowHtml
              ++ "</tbody>".toList)) ++ tableClose := by
  unfold formatTable
  have hc : (isStreaming && !includes "||".toList content) = false := by
    cases isStreaming <;> cases hi : includes "||".toList content <;> simp_all
  simp only [hc, hrows, Bool.false_eq_true, if_false]
  rw [foldl_append_flatMap appendHeaderCell headerCellHtml appendHeaderCell_eq,
    foldl_append_flatMap appendBodyRow bodyRowHtml appendBodyRow_eq]
  cases body with
  | nil => simp [tableOpen, tableClose, headerRowHtml, List.append_assoc]
  | cons b bs => simp [tableOpen, tableClose, headerRowHtml, List.append_assoc]

theorem formatTable_no_rows (content : Str) (isStreaming : Bool)
    (h : ¬ (isStreaming = true ∧ includes "||".toList content = false))
    (hrows : splitRows content = []) : formatTable content isStreaming = [] := by
  unfold formatTable
  have hc : (isStreaming && !includes "||".toList content) = false := by
    cases isStreaming <;> cases hi : includes "||".toList content <;> simp_all
  simp only [hc, hrows, Bool.false_eq_true, if_false]

theorem formatTable_loading (content : Str)
    (h : includes "||".toList content = false) : formatTable content true = tableLoading := by
  unfold formatTable
  simp only [h]
  rfl

set_option maxRecDepth 100000 in
theorem tableLoading_ne_table (inner : Str) : tableOpen ++ inner ++ tableClose ≠ tableLoading := by
  intro h
  have h1 : tableOpen = "<div class=\"v".toList ++ tableOpen.drop 13 := by decide
  have h2 : tableLoading = "<div class=\"t".toList ++ tableLoading.drop 13 := by decide
  rw [h1, h2, List.append_assoc, List.append_assoc] at h
  exact absurd (List.append_inj h (by decide)).1 (by decide)

set_option maxRecDepth 100000 in
/-- C7: `formatTable` returns the loading placeholder (a `table-loading` block
without a `<table` element) exactly when `isStreaming` is true and the content has
no `||`; in every other case with a non-blank row it returns a table, and with
`||` in the content the streaming flag makes no difference. -/
theorem formatTable_loading_iff (content : Str) (isStreaming : Bool) :
    (formatTable content isStreaming = tableLoading ↔
        (isStreaming = true ∧ includes "||".toList content = false)) ∧
      (includes "table-loading".toList tableLoading = true ∧
        includes "<table".toList tableLoading = false) ∧
      (¬ (isStreaming = true ∧ includes "||".toList content = false) →
        splitRows content ≠ [] →
          ∃ inner, formatTable content isStreaming = tableOpen ++ inner ++ tableClose) ∧
      (includes "||".toList content = true →
        formatTable content true = formatTable content false) := by
  have hrend : ¬ (isStreaming = true ∧ includes "||".toList content = false) →
      splitRows content ≠ [] →
        ∃ inner, formatTable content isStreaming = tableOpen ++ inner ++ tableClose := by
    intro h hne
    cases hrows : splitRows content with
    | nil => exact absurd hrows hne
    | cons header body => exact ⟨_, formatTable_rows content isStreaming h header body hrows⟩
  refine ⟨⟨fun heq => ?_, fun h => ?_⟩, ⟨by decide, by decide⟩, hrend, fun h => ?_⟩
  · by_contra hn
    cases hrows : splitRows content with
    | nil =>
      rw [formatTable_no_rows content isStreaming hn hrows] at heq
      exact absurd heq (by decide)
    | cons header body =>
      rw [formatTable_rows content isStreaming hn header body hrows] at heq
      exact tableLoading_ne_table _ heq
  · rw [h.1]
    exact formatTable_loading content h.2
  · unfold formatTable
    simp only [h]
    rfl

/-- C8: outside the placeholder case, content without a non-blank row gives the
empty string, and content with the non-blank rows `header :: body` gives a table
with one header row (one `<th>` per cell of `header`) followed by one body row
per row of `body`, in source order. -/
theorem formatTable_header_and_body_rows (content : Str) (isStreaming : Bool)
    (h : ¬ (isStreaming = true ∧ includes "||".toList content = false)) :
    (splitRows content = [] → formatTable content isStreaming = []) ∧
      ∀ header body, splitRows content = header :: body →
        formatTable content isStreaming =
            tableOpen ++ ("<thead>".toList ++ headerRowHtml header ++ "</thead>".toList
              ++ (if body = [] then [] else "<tbody>".toList ++ body.flatMap bodyRowHtml
                    ++ "</tbody>".toList)) ++ tableClose ∧
          ((splitCells header).map headerCellHtml).length = (splitCells header).length ∧
          (body.map bodyRowHtml).length + 1 = (splitRows content).length :=
  ⟨formatTable_no_rows content isStreaming h, fun header body hrows =>
    ⟨formatTable_rows content isStreaming h header body hrows, by simp, by simp [hrows]⟩⟩

set_option maxRecDepth 100000 in
/-- Witness of C8: "H1|H2||a|b||c|d" gives one header row and two body rows. -/
theorem formatTable_header_and_body_rows_witness :
    splitRows "H1|H2||a|b||c|d".toList = ["H1|H2".toList, "a|b".toList, "c|d".toList] ∧
      formatTable "H1|H2||a|b||c|d".toList false =
        tableOpen ++ ("<thead>".toList ++ headerRowHtml "H1|H2".toList ++ "</thead>".toList
          ++ ("<tbody>".toList ++ (bodyRowHtml "a|b".toList ++ bodyRowHtml "c|d".toList)
                ++ "</tbody>".toList)) ++ tableClose ∧
      formatTable "||".toList false = [] := by
  have hrows : splitRows "H1|H2||a|b||c|d".toList =
      ["H1|H2".toList, "a|b".toList, "c|d".toList] := by decide
  refine ⟨hrows, ?_, ?_⟩
  · have h := ((formatTable_header_and_body_rows "H1|H2||a|b||c|d".toList false
      (by decide)).2 _ _ hrows).1
    simpa using h
  · exact (formatTable_header_and_body_rows "||".toList false (by decide)).1 (by decide)

/-! ## The stream loop -/

set_option maxRecDepth 100000 in
/-- C5, evaluated on the code: an `error` frame followed by a `chunk` frame.  The
exception of the `error` frame is caught inside the loop and only logged; the
chunk that follows is appended, and the turn ends with the completed message
"hi", in `sendMessage` and in `retryMessage` alike. -/
theorem error_frame_is_caught_in_loop :
    sendMessage parseFrames none
        ["data: \x7b\"type\":\"error\",\"error\":\"boom\"\x7d\ndata: \x7b\"type\":\"chunk\",\"content\":\"hi\"\x7d\n".toList]
        .finished
      = (⟨"hi".toList, none, none, none,
          "<span class=\"vietnamese-text\">hi</span><span class=\"streaming-cursor\"></span>".toList,
          ["boom".toList], [.prefetchTTS "hi".toList]⟩, .completed "hi".toList none) ∧
    (retryMessage parseFrames none
        ["data: \x7b\"type\":\"error\",\"error\":\"boom\"\x7d\ndata: \x7b\"type\":\"chunk\",\"content\":\"hi\"\x7d\n".toList]
        .finished).2 = .completed "hi".toList none ∧
    (retryMessage parseFrames none
        ["data: \x7b\"type\":\"error\",\"error\":\"boom\"\x7d\ndata: \x7b\"type\":\"chunk\",\"content\":\"hi\"\x7d\n".toList]
        .finished).2 ≠ .errorShown "Lỗi: boom".toList := by
  decide

set_option maxRecDepth 100000 in
/-- C6, evaluated on the code: a chunk that carries "[Table] H1|H2".
`sendMessage` renders it with `isStreaming = false` and shows a partial table
(a header row alone); `retryMessage` renders it in streaming mode and shows the
loading placeholder. -/
theorem sendMessage_renders_partial_table :
    (sendMessage parseFrames none
        ["data: \x7b\"type\":\"chunk\",\"content\":\"[Table] H1|H2\"\x7d\n".toList] .finished).1.innerHTML
      = "<div class=\"vocab-table-wrapper\"><table class=\"vocab-table\"><thead><tr><th>H1</th><th>H2</th></tr></thead></table></div>".toList
          ++ streamingCursor ∧
    (retryMessage parseFrames none
        ["data: \x7b\"type\":\"chunk\",\"content\":\"[Table] H1|H2\"\x7d\n".toList] .finished).1.innerHTML
      = tableLoading ++ streamingCursor := by
  decide

/-! ## The cache key and clearTTSCache -/

theorem cacheGet_cacheSet_self (cache : List (Str × CacheValue)) (key : Str) (v : CacheValue) :
    cacheGet (cacheSet cache key v) key = some v := by
  induction cache with
  | nil => simp [cacheSet, cacheGet]
  | cons e rest ih =>
    obtain ⟨k, w⟩ := e
    by_cases hk : k = key
    · simp [cacheSet, cacheGet, hk]
    · simp [cacheSet, cacheGet, hk, ih]

theorem cacheKey_eq_iff {s1 s2 : SpeechSegment} (h : s1.lang.length = s2.lang.length) :
    cacheKey s1 = cacheKey s2 ↔ s1 = s2 := by
  constructor
  · intro hk
    unfold cacheKey at hk
    rw [List.append_assoc, List.append_assoc] at hk
    obtain ⟨hl, hr⟩ := List.append_inj hk h
    have ht : s1.text = s2.text := by simpa using hr
    cases s1; cases s2
    simp only [SpeechSegment.mk.injEq]
    exact ⟨ht, hl⟩
  · intro hs
    rw [hs]

/-- C25: the cache key `<lang>:<text>` is injective on segments whose language is
"vi" or "en": two such segments have the same key if and only if they have the
same language and the same text.  So the keys of one text in Vietnamese and in
English differ, and a cache that received both holds two entries, each with its
own value. -/
theorem cacheKey_injective (s1 s2 : SpeechSegment)
    (h1 : s1.lang = "vi".toList ∨ s1.lang = "en".toList)
    (h2 : s2.lang = "vi".toList ∨ s2.lang = "en".toList) :
    (cacheKey s1 = cacheKey s2 ↔ (s1.lang = s2.lang ∧ s1.text = s2.text)) ∧
    (∀ text : Str, cacheKey ⟨text, "vi".toList⟩ ≠ cacheKey ⟨text, "en".toList⟩) ∧
    (∀ (cache : List (Str × CacheValue)) (text : Str) (v w : CacheValue),
      cacheGet (cacheSet (cacheSet cache (cacheKey ⟨text, "vi".toList⟩) v)
        (cacheKey ⟨text, "en".toList⟩) w) (cacheKey ⟨text, "vi".toList⟩) = some v ∧
      cacheGet (cacheSet (cacheSet cache (cacheKey ⟨text, "vi".toList⟩) v)
        (cacheKey ⟨text, "en".toList⟩) w) (cacheKey ⟨text, "en".toList⟩) = some w) := by
  have hlen : s1.lang.length = s2.lang.length := by
    rcases h1 with h1 | h1 <;> rcases h2 with h2 | h2 <;> rw [h1, h2] <;> rfl
  have hne : ∀ text : Str, cacheKey ⟨text, "vi".toList⟩ ≠ cacheKey ⟨text, "en".toList⟩ := by
    intro text hk
    have h := (@cacheKey_eq_iff ⟨text, "vi".toList⟩ ⟨text, "en".toList⟩ rfl).1 hk
    have hl : "vi".toList = "en".toList := congrArg SpeechSegment.lang h
    exact absurd hl (by decide)
  refine ⟨?_, hne, ?_⟩
  · rw [cacheKey_eq_iff hlen]
    constructor
    · intro h
      rw [h]
      exact ⟨rfl, rfl⟩
    · intro h
      cases s1; cases s2
      simp only [SpeechSegment.mk.injEq]
      exact ⟨h.2, h.1⟩
  · intro cache text v w
    constructor
    · rw [cacheGet_cacheSet_ne _ _ (fun h => hne text h.symm), cacheGet_cacheSet_self]
    · rw [cacheGet_cacheSet_self]

/-- Witness of C25: the text "Hello" in Vietnamese and in English. -/
theorem cacheKey_injective_witness :
    (cacheKey ⟨"Hello".toList, "vi".toList⟩ = cacheKey ⟨"Hello".toList, "en".toList⟩ ↔
      ("vi".toList = "en".toList ∧ "Hello".toList = "Hello".toList)) :=
  (cacheKey_injective ⟨"Hello".toList, "vi".toList⟩ ⟨"Hello".toList, "en".toList⟩
    (Or.inl rfl) (Or.inr rfl)).1

theorem readyUrls_eq (cache : List (Str × CacheValue)) :
    cache.filterMap (fun e =>
      match e.2 with
      | .url u => if u ≠ [] then some u else none
      | .fetching => none) = readyUrls cache := by
  induction cache with
  | nil => rfl
  | cons e rest ih =>
    obtain ⟨k, v⟩ := e
    cases v with
    | fetching => simpa [readyUrls] using ih
    | url u =>
      by_cases hu : u = []
      · simpa [readyUrls, hu] using ih
      · simpa [readyUrls, hu] using ih

theorem readyUrls_count (cache : List (Str × CacheValue)) (u : Str) (hu : u ≠ []) :
    (readyUrls cache).count u = (cache.filter (fun e => e.2 = CacheValue.url u)).length := by
  induction cache with
  | nil => rfl
  | cons e rest ih =>
    obtain ⟨k, v⟩ := e
    cases v with
    | fetching =>
      rw [List.filter_cons_of_neg (by simp)]
      exact ih
    | url w =>
      by_cases hwu : w = u
      · subst hwu
        rw [List.filter_cons_of_pos (by simp), List.length_cons, ← ih]
        simp only [readyUrls, if_neg hu, List.count_cons_self]
      · rw [List.filter_cons_of_neg (by simpa using hwu), ← ih]
        simp only [readyUrls]
        split
        · rfl
        · rw [List.count_cons_of_ne (fun h => hwu h.symm)]

theorem readyUrls_fetching (cache : List (Str × CacheValue))
    (h : ∀ e ∈ cache, e.2 = CacheValue.fetching) : readyUrls cache = [] := by
  induction cache with
  | nil => rfl
  | cons e rest ih =>
    obtain ⟨k, v⟩ := e
    have hv : v = CacheValue.fetching := h (k, v) (List.mem_cons_self _ _)
    subst hv
    simp only [readyUrls]
    exact ih (fun e he => h e (List.mem_cons_of_mem _ he))

/-- C26: from every state `clearTTSCache` leaves the cache empty and the counter
`lastPrefetchedSegments` at 0; the URLs it gives to `revokeObjectURL` are the
object URLs held by the cache, in the order of the map, each as many times as
entries hold it (once per entry), and nothing for an entry that is only the
reservation `fetching`; the requests sent so far are untouched. -/
theorem clearTTSCache_releases_ready_urls (st : TtsState) :
    (clearTTSCache st).ttsCache = [] ∧
    (clearTTSCache st).lastPrefetchedSegments = 0 ∧
    (clearTTSCache st).fetches = st.fetches ∧
    (clearTTSCache st).revoked = st.revoked ++ readyUrls st.ttsCache ∧
    (∀ u : Str, u ≠ [] →
      (readyUrls st.ttsCache).count u =
        (st.ttsCache.filter (fun e => e.2 = CacheValue.url u)).length) ∧
    ((∀ e ∈ st.ttsCache, e.2 = CacheValue.fetching) →
      (clearTTSCache st).revoked = st.revoked) := by
  have hr : (clearTTSCache st).revoked = st.revoked ++ readyUrls st.ttsCache := by
    rw [← readyUrls_eq]
    rfl
  refine ⟨rfl, rfl, rfl, hr, fun u hu => readyUrls_count _ u hu, ?_⟩
  intro h
  rw [hr, readyUrls_fetching _ h, List.append_nil]

/-! ## One read of the stream loop -/

theorem processLine_fullResponse (parse : Str → Except Str StreamData) (isRetry : Bool)
    (st : StreamState) (line : Str) :
    (processLine parse isRetry st line).fullResponse =
      st.fullResponse ++ chunkContent parse line := by
  unfold processLine chunkContent
  cases stripPrefix "data: ".toList line with
  | none => exact (List.append_nil _).symm
  | some jsonStr =>
    dsimp only
    cases parse jsonStr with
    | error message =>
      dsimp only [catchInLoop]
      split <;> exact (List.append_nil _).symm
    | ok d =>
      cases d with
      | init a b => exact (List.append_nil _).symm
      | chunk content => rfl
      | done a b c => exact (List.append_nil _).symm
      | error message =>
        dsimp only [catchInLoop]
        split <;> exact (List.append_nil _).symm
      | other => exact (List.append_nil _).symm

theorem foldl_processLine_fullResponse (parse : Str → Except Str StreamData) (isRetry : Bool)
    (lines : List Str) (st : StreamState) :
    (lines.foldl (processLine parse isRetry) st).fullResponse =
      st.fullResponse ++ concatChunks parse lines := by
  induction lines generalizing st with
  | nil => simp [concatChunks]
  | cons l ls ih =>
    rw [List.foldl_cons, ih, processLine_fullResponse, concatChunks, List.append_assoc]

theorem concatChunks_append (parse : Str → Except Str StreamData) (a b : List Str) :
    concatChunks parse (a ++ b) = concatChunks parse a ++ concatChunks parse b := by
  induction a with
  | nil => rfl
  | cons l ls ih => simp [concatChunks, ih]

/-- C27: one read of the stream loop of `sendMessage` (`isRetry = false`) and of
`retryMessage` (`isRetry = true`) appends to the accumulated response the
contents of the well-formed `data: ` events of type `chunk` among its lines, in
line order, and nothing else: a line that does not start with `data: `, a line
whose JSON is malformed and an event of type `init` or `done` add nothing, and
the lines after them are still processed. -/
theorem processRead_appends_chunks (parse : Str → Except Str StreamData) (isRetry : Bool)
    (st : StreamState) (text : Str) :
    (processRead parse isRetry st text).fullResponse =
      st.fullResponse ++ concatChunks parse (splitChar '\n' text) ∧
    (∀ before after : List Str, ∀ line : Str,
      concatChunks parse (before ++ line :: after) =
        concatChunks parse before ++ chunkContent parse line ++ concatChunks parse after) ∧
    (∀ line : Str, stripPrefix "data: ".toList line = none → chunkContent parse line = []) ∧
    (∀ line jsonStr : Str, stripPrefix "data: ".toList line = some jsonStr →
      ((∀ message, parse jsonStr = .error message → chunkContent parse line = []) ∧
       (∀ a b, parse jsonStr = .ok (.init a b) → chunkContent parse line = []) ∧
       (∀ a b c, parse jsonStr = .ok (.done a b c) → chunkContent parse line = []) ∧
       (∀ content, parse jsonStr = .ok (.chunk content) →
          chunkContent parse line = content))) := by
  refine ⟨foldl_processLine_fullResponse parse isRetry _ st, ?_, ?_, ?_⟩
  · intro before after line
    rw [concatChunks_append, concatChunks, List.append_assoc]
  · intro line h
    unfold chunkContent
    rw [h]
  · intro line jsonStr h
    refine ⟨?_, ?_, ?_, ?_⟩
    · intro message hp
      unfold chunkContent
      rw [h]
      show (match parse jsonStr with
        | .ok (.chunk content) => content
        | _ => []) = []
      rw [hp]
    · intro a b hp
      unfold chunkContent
      rw [h]
      show (match parse jsonStr with
        | .ok (.chunk content) => content
        | _ => []) = []
      rw [hp]
    · intro a b c hp
      unfold chunkContent
      rw [h]
      show (match parse jsonStr with
        | .ok (.chunk content) => content
        | _ => []) = []
      rw [hp]
    · intro content hp
      unfold chunkContent
      rw [h]
      show (match parse jsonStr with
        | .ok (.chunk content) => content
        | _ => []) = content
      rw [hp]

/-! ## The split of the stream into reads -/

theorem splitChar_append_sep (d : Char) (a b : Str) :
    splitChar d (a ++ d :: b) = splitChar d a ++ splitChar d b := by
  induction a with
  | nil => simp [splitChar]
  | cons c cs ih =>
    rw [List.cons_append, splitChar_cons, splitChar_cons, ih]
    split
    · rfl
    · cases h : splitChar d cs with
      | nil => exact absurd h (splitChar_ne_nil d cs)
      | cons p ps => simp [consHead]

theorem processLine_empty (parse : Str → Except Str StreamData) (isRetry : Bool)
    (st : StreamState) : processLine parse isRetry st [] = st := rfl

theorem processRead_cut_after_newline (parse : Str → Except Str StreamData) (isRetry : Bool)
    (st : StreamState) (a b : Str) :
    processRead parse isRetry (processRead parse isRetry st (a ++ ['\n'])) b =
      processRead parse isRetry st (a ++ '\n' :: b) := by
  unfold processRead
  rw [splitChar_append_sep, splitChar_append_sep, List.foldl_append, List.foldl_append]
  rfl

set_option maxRecDepth 100000 in
/-- C28: the stream loop keeps nothing of a read for the next one, so a frame that
the transport cuts in two is lost.  The frame `data: ...chunk "hi"...` followed
by a line feed gives the accumulated text "hi" when it arrives in one read and
the empty text when it arrives in two reads cut inside the frame, although both
sequences of reads carry the same characters.  A cut right after a line feed is
harmless: the state after the two reads is the state after the single read. -/
theorem split_frame_loses_chunk :
    (sendMessage parseFrames none
      ["data: \x7b\"type\":\"chunk\",\"content\":\"hi\"\x7d\n".toList]
      StreamEnd.finished).1.fullResponse = "hi".toList ∧
    (sendMessage parseFrames none
      ["data: \x7b\"type\":\"chunk\",\"con".toList, "tent\":\"hi\"\x7d\n".toList]
      StreamEnd.finished).1.fullResponse = [] ∧
    "data: \x7b\"type\":\"chunk\",\"con".toList ++ "tent\":\"hi\"\x7d\n".toList =
      "data: \x7b\"type\":\"chunk\",\"content\":\"hi\"\x7d\n".toList ∧
    (∀ (parse : Str → Except Str StreamData) (isRetry : Bool) (st : StreamState) (a b : Str),
      processRead parse isRetry (processRead parse isRetry st (a ++ ['\n'])) b =
        processRead parse isRetry st (a ++ '\n' :: b)) := by
  refine ⟨?_, ?_, by decide, processRead_cut_after_newline⟩
  · simp only [sendMessage, runStream, List.foldl_cons, List.foldl_nil, processRead]
    rw [foldl_processLine_fullResponse]
    decide
  · simp only [sendMessage, runStream, List.foldl_cons, List.foldl_nil, processRead]
    rw [foldl_processLine_fullResponse, foldl_processLine_fullResponse]
    decide

/-! ## Text without tags -/

theorem matchTag_some_isTagName {names : List Str} {s nm rest : Str}
    (h : matchTag names s = some (nm, rest)) :
    s = '[' :: (nm ++ ']' :: rest) ∧ IsTagName names nm := by
  obtain ⟨r, rfl⟩ := matchTag_some_bracket h
  unfold matchTag at h
  simp only at h
  obtain ⟨name, hname, hf⟩ := List.exists_of_findSome?_eq_some h
  cases hm : matchLitCI name r with
  | none => rw [hm] at hf; simp at hf
  | some q =>
    rw [hm] at hf
    cases q with
    | nil => simp at hf
    | cons c q' =>
      by_cases hc : c = ']'
      · subst hc
        simp only [Option.some.injEq, Prod.mk.injEq] at hf
        obtain ⟨u, hu, hsame⟩ := matchLitCI_some hm
        have hl : u.length = name.length := by
          have := congrArg List.length hsame
          simpa using this
        have hnm : nm = u := by
          rw [← hf.1, hu, ← hl, List.take_left]
        rw [hnm, ← hf.2]
        exact ⟨by rw [hu], name, hname, hsame⟩
      · exfalso
        revert hf
        split
        · rename_i heq
          simp only [Option.some.injEq, List.cons.injEq] at heq
          exact absurd heq.1 hc
        · simp

theorem scanSegments_no_tag (names : List Str) {x : Str}
    (h : ∀ s, s <:+ x → matchTag names s = none) (k : Nat) : scanSegments names k x = [] := by
  induction x generalizing k with
  | nil => exact scanSegments_nil names k
  | cons c cs ih =>
    have hcs : ∀ s, s <:+ cs → matchTag names s = none :=
      fun s hs => h s (hs.trans (List.suffix_cons c cs))
    cases k with
    | zero =>
      have hseg : segmentAt names (c :: cs) = none := by
        unfold segmentAt
        rw [h (c :: cs) (List.suffix_refl _)]
      rw [scanSegments_cons_none names hseg]
      exact ih hcs 0
    | succ k =>
      rw [scanSegments_succ_cons]
      exact ih hcs k

theorem matchTag_none_of_not_containsTag {names : List Str} {content : Str}
    (h : ¬ ContainsTag names content) :
    ∀ s, s <:+ jsTrim content → matchTag names s = none := by
  intro s hs
  cases hm : matchTag names s with
  | none => rfl
  | some res =>
    exfalso
    obtain ⟨nm, rest⟩ := res
    obtain ⟨hs', hnm⟩ := matchTag_some_isTagName hm
    obtain ⟨q, hq⟩ := hs
    obtain ⟨w1, w2, hx, -, -⟩ := jsTrim_decompose content
    refine h ⟨w1 ++ q, nm, rest ++ w2, ?_, hnm⟩
    rw [hx, ← hq, hs']
    simp [List.append_assoc]

theorem not_containsTag_of_no_bracket (names : List Str) {content : Str}
    (h : '[' ∉ content) : ¬ ContainsTag names content := by
  rintro ⟨p, nm, s, hx, -⟩
  apply h
  rw [hx]
  simp

theorem not_containsActionsTag_of_no_bracket {content : Str} (h : '[' ∉ content) :
    ¬ ContainsActionsTag content := by
  rintro ⟨p, t, s, hx, ht⟩
  obtain ⟨t', rfl, -⟩ := actionsTag_head ht
  apply h
  rw [hx]
  simp

/-- C21: a content that holds none of the display tags (`[Vietsub]`, `[Engsub]`,
`[Table]`, `[Tip]`, `[List]`, in any letter case) and no `[Actions]` tag is
rendered as one Vietnamese block: the result is
`<span class="vietnamese-text">`, then `formatMarkdown` of the trimmed content,
then `</span>`. -/
theorem formatMessageContent_untagged (content : Str) (isStreaming : Bool)
    (hd : ¬ ContainsTag displayTags content) (ha : ¬ ContainsActionsTag content) :
    formatMessageContent content isStreaming =
      "<span class=\"vietnamese-text\">".toList ++ formatMarkdown (jsTrim content)
        ++ "</span>".toList := by
  unfold formatMessageContent
  simp only [removeActionsTag_no_tag ha,
    scanSegments_no_tag displayTags (matchTag_none_of_not_containsTag hd) 0, if_true]
  rfl

set_option maxRecDepth 100000 in
/-- Witness of C21: a text without any bracket. -/
theorem formatMessageContent_untagged_witness :
    ¬ ContainsTag displayTags " Xin **chào**".toList ∧
    ¬ ContainsActionsTag " Xin **chào**".toList ∧
    formatMessageContent " Xin **chào**".toList false =
      "<span class=\"vietnamese-text\">Xin <strong>chào</strong></span>".toList :=
  ⟨not_containsTag_of_no_bracket _ (by decide), not_containsActionsTag_of_no_bracket (by decide),
    (formatMessageContent_untagged " Xin **chào**".toList false
      (not_containsTag_of_no_bracket _ (by decide))
      (not_containsActionsTag_of_no_bracket (by decide))).trans (by decide)⟩

/-! ## Speakable table cells -/

theorem stripPrefix_append_self (lit r : Str) : stripPrefix lit (lit ++ r) = some r := by
  induction lit with
  | nil => rfl
  | cons x xs ih => simp [stripPrefix, ih]

/-- C22: in a table rendered by `formatTable` (outside the loading placeholder)
the header row holds one `<th>cell</th>` per header cell, never speakable, and
every row after the first holds one `<td>` per cell; the element of a data cell
opens as `<td class="english-cell" data-speak="...">` if and only if
`isEnglishText(cell)` holds, its `data-speak` value is then the URI encoding of
the cell text with every `...` removed and trimmed, and a cell that is not
English text gives the plain `<td>cell</td>`. -/
theorem formatTable_speakable_cells (content : Str) (isStreaming : Bool)
    (h : ¬ (isStreaming = true ∧ includes "||".toList content = false))
    (header : Str) (body : List Str) (hrows : splitRows content = header :: body) :
    formatTable content isStreaming =
      tableOpen ++ ("<thead>".toList
        ++ ("<tr>".toList ++ (splitCells header).flatMap headerCellHtml ++ "</tr>".toList)
        ++ "</thead>".toList
        ++ (if body = [] then []
            else "<tbody>".toList
              ++ body.flatMap (fun row =>
                  "<tr>".toList ++ (splitCells row).flatMap bodyCellHtml ++ "</tr>".toList)
              ++ "</tbody>".toList)) ++ tableClose ∧
    (∀ cell, headerCellHtml cell = "<th>".toList ++ cell ++ "</th>".toList ∧
      opensSpeakableCell (headerCellHtml cell) = false) ∧
    (∀ cell, opensSpeakableCell (bodyCellHtml cell) = isEnglishText cell) ∧
    (∀ cell, isEnglishText cell = true →
      bodyCellHtml cell = "<td class=\"english-cell\" data-speak=\"".toList
        ++ encodeURIComponent (jsTrim (removeEllipsis cell)) ++ "\">".toList ++ cell
        ++ "</td>".toList) ∧
    (∀ cell, isEnglishText cell = false →
      bodyCellHtml cell = "<td>".toList ++ cell ++ "</td>".toList) := by
  have hT : ∀ cell, isEnglishText cell = true →
      bodyCellHtml cell = "<td class=\"english-cell\" data-speak=\"".toList
        ++ encodeURIComponent (jsTrim (removeEllipsis cell)) ++ "\">".toList ++ cell
        ++ "</td>".toList := by
    intro cell hc
    unfold bodyCellHtml
    rw [if_pos hc]
  have hF : ∀ cell, isEnglishText cell = false →
      bodyCellHtml cell = "<td>".toList ++ cell ++ "</td>".toList := by
    intro cell hc
    unfold bodyCellHtml
    rw [if_neg (by rw [hc]; decide)]
  refine ⟨?_, ?_, ?_, hT, hF⟩
  · rw [formatTable_rows content isStreaming h header body hrows]
    rfl
  · intro cell
    exact ⟨rfl, rfl⟩
  · intro cell
    cases hc : isEnglishText cell with
    | true =>
      rw [hT cell hc]
      unfold opensSpeakableCell
      rw [List.append_assoc, List.append_assoc, List.append_assoc, stripPrefix_append_self]
      rfl
    | false =>
      rw [hF cell hc]
      rfl

set_option maxRecDepth 100000 in
/-- Witness of C22: a table with one English and one Vietnamese data cell. -/
theorem formatTable_speakable_cells_witness :
    splitRows "Word|Nghĩa||apple...|quả táo".toList =
      ["Word|Nghĩa".toList, "apple...|quả táo".toList] ∧
    formatTable "Word|Nghĩa||apple...|quả táo".toList false =
      "<div class=\"vocab-table-wrapper\"><table class=\"vocab-table\"><thead><tr><th>Word</th><th>Nghĩa</th></tr></thead><tbody><tr><td class=\"english-cell\" data-speak=\"apple\">apple...</td><td>quả táo</td></tr></tbody></table></div>".toList := by
  have hrows : splitRows "Word|Nghĩa||apple...|quả táo".toList =
      ["Word|Nghĩa".toList, "apple...|quả táo".toList] := by decide
  exact ⟨hrows, (formatTable_speakable_cells "Word|Nghĩa||apple...|quả táo".toList false
    (by decide) _ _ hrows).1.trans (by decide)⟩

/-! ## formatList -/

theorem appendListItem_eq (html item : Str) :
    appendListItem html item = html ++ listEntryHtml item := by
  unfold appendListItem listEntryHtml listSpeakText
  simp only
  split <;> simp [List.append_assoc]

theorem appendListRow_eq (html row : Str) :
    appendListRow html row = html ++ listGroupHtml row := by
  unfold appendListRow listGroupHtml listItemsOf
  cases hi : ((splitChar '|' row).map jsTrim).filter (fun i => i ≠ []) with
  | nil => simp
  | cons header items =>
    simp only
    rw [foldl_append_flatMap appendListItem listEntryHtml appendListItem_eq]
    cases items with
    | nil => simp [List.append_assoc]
    | cons i is => simp [List.append_assoc]

theorem formatList_eq (content : Str) (h : splitRows content ≠ []) :
    formatList content = "<div class=\"generated-list-container\">".toList
      ++ (splitRows content).flatMap listGroupHtml ++ "</div>".toList := by
  unfold formatList
  cases hr : splitRows content with
  | nil => exact absurd hr h
  | cons row rows =>
    simp only
    rw [foldl_append_flatMap appendListRow listGroupHtml appendListRow_eq]

theorem formatList_no_rows (content : Str) (h : splitRows content = []) :
    formatList content = [] := by
  unfold formatList
  rw [h]

/-- C23: `formatList(content)` is the empty string when the content has no
non-blank row; else it is the container holding, in source order, the list group
of every non-blank `||`-separated row.  A row without a non-empty `|`-separated
item gives no group; in any other row the first non-empty item is the group
header and each remaining non-empty item gives exactly one `<li>` entry, in
order.  An entry opens with a `data-speak` attribute if and only if
`isEnglishText` holds of its text with `**` and `...` removed. -/
theorem formatList_groups (content : Str) :
    (splitRows content = [] → formatList content = []) ∧
    (splitRows content ≠ [] →
      formatList content = "<div class=\"generated-list-container\">".toList
        ++ (splitRows content).flatMap listGroupHtml ++ "</div>".toList) ∧
    (∀ row, listItemsOf row = [] → listGroupHtml row = []) ∧
    (∀ row header items, listItemsOf row = header :: items →
      listGroupHtml row =
        "<div class=\"list-group\">".toList ++ "<div class=\"list-header\">".toList ++ header
          ++ "</div>".toList
          ++ (if items = [] then []
              else "<ul class=\"generated-list\">".toList ++ items.flatMap listEntryHtml
                ++ "</ul>".toList)
          ++ "</div>".toList ∧
      (items.map listEntryHtml).length = items.length) ∧
    (∀ item, opensSpeakableEntry (listEntryHtml item) =
      isEnglishText (removeEllipsis (removeDoubleStars item))) ∧
    (∀ item, isEnglishText (removeEllipsis (removeDoubleStars item)) = true →
      listEntryHtml item = "<li>".toList
        ++ ("<span class=\"list-content english-sentence\" data-speak=\"".toList
            ++ encodeURIComponent (removeEllipsis (removeDoubleStars item)) ++ "\">".toList
            ++ replaceAll strongLazyMatch 0 item ++ "</span>".toList)
        ++ "</li>".toList) ∧
    (∀ item, isEnglishText (removeEllipsis (removeDoubleStars item)) = false →
      listEntryHtml item = "<li>".toList
        ++ ("<span class=\"list-content\">".toList ++ replaceAll strongLazyMatch 0 item
            ++ "</span>".toList)
        ++ "</li>".toList) := by
  have hT : ∀ item, isEnglishText (removeEllipsis (removeDoubleStars item)) = true →
      listEntryHtml item = "<li>".toList
        ++ ("<span class=\"list-content english-sentence\" data-speak=\"".toList
            ++ encodeURIComponent (removeEllipsis (removeDoubleStars item)) ++ "\">".toList
            ++ replaceAll strongLazyMatch 0 item ++ "</span>".toList)
        ++ "</li>".toList := by
    intro item hc
    unfold listEntryHtml listSpeakText
    rw [if_pos hc]
  have hF : ∀ item, isEnglishText (removeEllipsis (removeDoubleStars item)) = false →
      listEntryHtml item = "<li>".toList
        ++ ("<span class=\"list-content\">".toList ++ replaceAll strongLazyMatch 0 item
            ++ "</span>".toList)
        ++ "</li>".toList := by
    intro item hc
    unfold listEntryHtml listSpeakText
    rw [if_neg (by rw [hc]; decide)]
  refine ⟨formatList_no_rows content, formatList_eq content, ?_, ?_, ?_, hT, hF⟩
  · intro row hr
    unfold listGroupHtml
    rw [hr]
  · intro row header items hr
    refine ⟨?_, by simp⟩
    unfold listGroupHtml
    rw [hr]
  · intro item
    cases hc : isEnglishText (removeEllipsis (removeDoubleStars item)) with
    | true =>
      rw [hT item hc]
      unfold opensSpeakableEntry
      have : "<li>".toList
        ++ ("<span class=\"list-content english-sentence\" data-speak=\"".toList
            ++ encodeURIComponent (removeEllipsis (removeDoubleStars item)) ++ "\">".toList
            ++ replaceAll strongLazyMatch 0 item ++ "</span>".toList)
        ++ "</li>".toList =
        "<li><span class=\"list-content english-sentence\" data-speak=\"".toList ++
          (encodeURIComponent (removeEllipsis (removeDoubleStars item)) ++ "\">".toList
            ++ replaceAll strongLazyMatch 0 item ++ "</span>".toList ++ "</li>".toList) := by
        simp [List.append_assoc]
      rw [this, stripPrefix_append_self]
      rfl
    | false =>
      rw [hF item hc]
      rfl

/-! ## Counting list containers -/

theorem countOcc_cons (pat : Str) (c : Char) (cs : Str) :
    countOcc pat (c :: cs) =
      (if (stripPrefix pat (c :: cs)).isSome then 1 else 0) + countOcc pat cs := rfl

theorem Sealed.nil : Sealed [] := by
  intro c h
  simp at h

theorem Sealed.tail_sealed {c : Char} {cs : Str} (h : Sealed (c :: cs)) : Sealed cs := by
  intro d hd
  cases cs with
  | nil => simp at hd
  | cons e es =>
    apply h d
    rw [List.getLast?_cons_cons]
    exact hd

theorem Sealed.append {a b : Str} (ha : Sealed a) (hb : Sealed b) : Sealed (a ++ b) := by
  intro c hc
  cases b with
  | nil =>
    rw [List.append_nil] at hc
    exact ha c hc
  | cons e es =>
    apply hb c
    rw [List.getLast?_append_cons] at hc
    exact hc

theorem Sealed.append_right (a : Str) {b : Str} (hb : Sealed b) (hne : b ≠ []) :
    Sealed (a ++ b) := by
  intro c hc
  cases b with
  | nil => exact absurd rfl hne
  | cons e es =>
    apply hb c
    rw [List.getLast?_append_cons] at hc
    exact hc

/-- A match of `pat` that starts inside a sealed text ends inside it. -/
theorem stripPrefix_isSome_sealed {pat : Str} (hpat : ∀ c ∈ pat.dropLast, c ≠ '>' ∧ c ≠ ' ')
    {r : Str} (hr : r ≠ []) (hs : Sealed r) (b : Str) :
    (stripPrefix pat (r ++ b)).isSome = (stripPrefix pat r).isSome := by
  induction pat generalizing r with
  | nil => cases r <;> rfl
  | cons x xs ih =>
    cases r with
    | nil => exact absurd rfl hr
    | cons c cs =>
      simp only [List.cons_append, stripPrefix]
      split
      · rename_i hcx
        cases xs with
        | nil => cases cs <;> rfl
        | cons y ys =>
          cases cs with
          | nil =>
            exfalso
            have hx := hpat x (by simp [List.dropLast])
            rcases hs c (by simp) with h | h
            · exact hx.1 (hcx ▸ h)
            · exact hx.2 (hcx ▸ h)
          | cons e es =>
            apply ih
            · intro d hd
              apply hpat d
              rw [List.dropLast_cons₂]
              exact List.mem_cons_of_mem _ hd
            · simp
            · exact hs.tail_sealed
      · rfl

theorem countOcc_append_sealed {pat : Str} (hpat : ∀ c ∈ pat.dropLast, c ≠ '>' ∧ c ≠ ' ')
    {a : Str} (ha : Sealed a) (b : Str) :
    countOcc pat (a ++ b) = countOcc pat a + countOcc pat b := by
  induction a with
  | nil => simp [countOcc]
  | cons c cs ih =>
    rw [List.cons_append, countOcc_cons, countOcc_cons, ih ha.tail_sealed, ← List.cons_append,
      stripPrefix_isSome_sealed hpat (by simp) ha, Nat.add_assoc]

theorem ulOpen_pat : ∀ c ∈ ulOpen.dropLast, c ≠ '>' ∧ c ≠ ' ' := by decide

theorem ulClose_pat : ∀ c ∈ ulClose.dropLast, c ≠ '>' ∧ c ≠ ' ' := by decide

theorem countOcc_mono (pat : Str) (p z : Str) : countOcc pat p ≤ countOcc pat (p ++ z) := by
  induction p with
  | nil => simp [countOcc]
  | cons c cs ih =>
    rw [List.cons_append, countOcc_cons, countOcc_cons]
    have h : (if (stripPrefix pat (c :: cs)).isSome then 1 else 0) ≤
        (if (stripPrefix pat (c :: (cs ++ z))).isSome then 1 else 0) := by
      by_cases hp : (stripPrefix pat (c :: cs)).isSome = true
      · have := stripPrefix_isSome_append hp z
        rw [List.cons_append] at this
        rw [if_pos hp, if_pos this]
      · rw [if_neg hp]
        exact Nat.zero_le _
    omega

theorem countOcc_le_of_pfx (pat : Str) {p s : Str} (h : p <+: s) :
    countOcc pat p ≤ countOcc pat s := by
  obtain ⟨z, rfl⟩ := h
  exact countOcc_mono pat p z

/-! ## Inert markup -/

theorem okAfterAngle_cases {r : Str} (h : okAfterAngle r = true) :
    (∃ c rest, r = c :: rest ∧ c ≠ '/' ∧ tagLetter c = true) ∨
      ∃ d rest, r = '/' :: d :: rest ∧ tagLetter d = true := by
  cases r with
  | nil => exact absurd h (by decide)
  | cons c rest =>
    by_cases hc : c = '/'
    · subst hc
      cases rest with
      | nil => exact absurd h (by decide)
      | cons d rest' => exact Or.inr ⟨d, rest', rfl, by simpa [okAfterAngle] using h⟩
    · exact Or.inl ⟨c, rest, rfl, hc, by simpa [okAfterAngle, hc] using h⟩

theorem okAfterAngle_letter {c : Char} (hc : c ≠ '/') (h : tagLetter c = true) (rest : Str) :
    okAfterAngle (c :: rest) = true := by
  simp [okAfterAngle, hc, h]

theorem okAfterAngle_slash {d : Char} (h : tagLetter d = true) (rest : Str) :
    okAfterAngle ('/' :: d :: rest) = true := by
  simp [okAfterAngle, h]

theorem okAfterAngle_append {r : Str} (h : okAfterAngle r = true) (b : Str) :
    okAfterAngle (r ++ b) = true := by
  rcases okAfterAngle_cases h with ⟨c, rest, rfl, hc, hl⟩ | ⟨d, rest, rfl, hl⟩
  · exact okAfterAngle_letter hc hl _
  · exact okAfterAngle_slash hl _

theorem inert_cons (c : Char) (cs : Str) :
    inert (c :: cs) = ((c != '<' || okAfterAngle cs) && inert cs) := rfl

theorem inert_cons_of_ne {c : Char} (hc : c ≠ '<') (cs : Str) : inert (c :: cs) = inert cs := by
  simp [inert_cons, hc]

theorem inert_append {a b : Str} (ha : inert a = true) (hb : inert b = true) :
    inert (a ++ b) = true := by
  induction a with
  | nil => exact hb
  | cons c cs ih =>
    rw [inert_cons, Bool.and_eq_true] at ha
    rw [List.cons_append, inert_cons, Bool.and_eq_true]
    refine ⟨?_, ih ha.2⟩
    by_cases hc : c = '<'
    · subst hc
      have h1 : okAfterAngle cs = true := by simpa using ha.1
      simp [okAfterAngle_append h1 b]
    · simp [hc]

theorem inert_of_no_angle {s : Str} (h : '<' ∉ s) : inert s = true := by
  induction s with
  | nil => rfl
  | cons c cs ih =>
    have hc : c ≠ '<' := fun e => h (e ▸ List.mem_cons_self _ _)
    rw [inert_cons_of_ne hc]
    exact ih (fun hm => h (List.mem_cons_of_mem _ hm))

theorem inert_tail {c : Char} {cs : Str} (h : inert (c :: cs) = true) : inert cs = true := by
  rw [inert_cons, Bool.and_eq_true] at h
  exact h.2

theorem inert_of_suffix {a b : Str} (h : inert (a ++ b) = true) : inert b = true := by
  induction a with
  | nil => exact h
  | cons c cs ih => exact ih (inert_tail h)

theorem inert_suffix {s t : Str} (hs : inert s = true) (ht : t <:+ s) : inert t = true := by
  obtain ⟨a, rfl⟩ := ht
  exact inert_of_suffix hs

theorem tagLetter_ne_slash {c : Char} (h : tagLetter c = true) : c ≠ '/' := by
  rintro rfl
  exact absurd h (by decide)

theorem tagLetter_ne_u {c : Char} (h : tagLetter c = true) : c ≠ 'u' := by
  rintro rfl
  exact absurd h (by decide)

/-- A text cut before a character that cannot follow `<` or `</` keeps its
markup whole. -/
theorem inert_of_append_cons {a b : Str} {x : Char} (hx : tagLetter x = false) (hx2 : x ≠ '/')
    (h : inert (a ++ x :: b) = true) : inert a = true := by
  induction a with
  | nil => rfl
  | cons c cs ih =>
    rw [List.cons_append, inert_cons, Bool.and_eq_true] at h
    rw [inert_cons, Bool.and_eq_true]
    refine ⟨?_, ih h.2⟩
    by_cases hc : c = '<'
    · subst hc
      have h1 : okAfterAngle (cs ++ x :: b) = true := by simpa using h.1
      suffices okAfterAngle cs = true by simp [this]
      rcases okAfterAngle_cases h1 with ⟨e, rest, he, hne, hl⟩ | ⟨d, rest, he, hl⟩
      · cases cs with
        | nil =>
          simp only [List.nil_append, List.cons.injEq] at he
          rw [← he.1, hx] at hl
          exact absurd hl (by decide)
        | cons e' es =>
          simp only [List.cons_append, List.cons.injEq] at he
          rw [he.1]
          exact okAfterAngle_letter hne hl _
      · cases cs with
        | nil =>
          simp only [List.nil_append, List.cons.injEq] at he
          exact absurd he.1 hx2
        | cons e' es =>
          simp only [List.cons_append, List.cons.injEq] at he
          cases es with
          | nil =>
            simp only [List.nil_append, List.cons.injEq] at he
            rw [← he.2.1, hx] at hl
            exact absurd hl (by decide)
          | cons e2 es2 =>
            simp only [List.cons_append, List.cons.injEq] at he
            rw [he.1, he.2.1]
            exact okAfterAngle_slash hl _
    · simp [hc]

theorem stripPrefix_ulOpen_of_ok {cs : Str} (h : okAfterAngle cs = true) :
    stripPrefix ulOpen ('<' :: cs) = none := by
  rcases okAfterAngle_cases h with ⟨c, rest, rfl, -, hl⟩ | ⟨d, rest, rfl, -⟩
  · have hc : c ≠ 'u' := tagLetter_ne_u hl
    simp [ulOpen, stripPrefix, hc]
  · simp [ulOpen, stripPrefix]

theorem stripPrefix_ulClose_of_ok {cs : Str} (h : okAfterAngle cs = true) :
    stripPrefix ulClose ('<' :: cs) = none := by
  rcases okAfterAngle_cases h with ⟨c, rest, rfl, hc, -⟩ | ⟨d, rest, rfl, hl⟩
  · simp [ulClose, stripPrefix, hc]
  · have hd : d ≠ 'u' := tagLetter_ne_u hl
    simp [ulClose, stripPrefix, hd]

theorem stripPrefix_head_ne {x c : Char} (h : c ≠ x) (xs cs : Str) :
    stripPrefix (x :: xs) (c :: cs) = none := by
  simp [stripPrefix, h]

theorem countOcc_inert {s : Str} (h : inert s = true) :
    countOcc ulOpen s = 0 ∧ countOcc ulClose s = 0 := by
  induction s with
  | nil => exact ⟨rfl, rfl⟩
  | cons c cs ih =>
    have hcs := ih (inert_tail h)
    rw [countOcc_cons, countOcc_cons, hcs.1, hcs.2]
    by_cases hc : c = '<'
    · subst hc
      have h1 : okAfterAngle cs = true := by
        rw [inert_cons, Bool.and_eq_true] at h
        simpa using h.1
      rw [stripPrefix_ulOpen_of_ok h1, stripPrefix_ulClose_of_ok h1]
      exact ⟨rfl, rfl⟩
    · rw [show ulOpen = '<' :: "ul".toList from rfl, show ulClose = '<' :: "/ul>".toList from rfl,
        stripPrefix_head_ne hc, stripPrefix_head_ne hc]
      exact ⟨rfl, rfl⟩

/-! ## Balanced pieces -/

theorem Good.nil_good : Good 0 [] := by
  refine ⟨Sealed.nil, ?_, rfl⟩
  intro p hp
  rw [List.prefix_nil] at hp
  rw [hp]
  exact Nat.le_refl _

/-- Appending a piece that is balanced on its own. -/
theorem Good.append_good {k : Nat} {a b : Str} (ha : Good k a) (hb : Good 0 b) : Good k (a ++ b) := by
  obtain ⟨hsa, hpa, hca⟩ := ha
  obtain ⟨hsb, hpb, hcb⟩ := hb
  refine ⟨hsa.append hsb, ?_, ?_⟩
  · intro p hp
    rcases prefix_append_cases hp with h1 | ⟨q, rfl, hq⟩
    · exact hpa p h1
    · rw [countOcc_append_sealed ulOpen_pat hsa, countOcc_append_sealed ulClose_pat hsa]
      have := hpb q hq
      omega
  · rw [countOcc_append_sealed ulOpen_pat hsa, countOcc_append_sealed ulClose_pat hsa]
    omega

/-- Appending a piece that opens or closes containers at its end only. -/
theorem Good.append_simple {k j : Nat} {a b : Str} (ha : Good k a) (hsb : Sealed b)
    (hle : countOcc ulClose b ≤ k) (hj : countOcc ulOpen b + k = countOcc ulClose b + j) :
    Good j (a ++ b) := by
  obtain ⟨hsa, hpa, hca⟩ := ha
  refine ⟨hsa.append hsb, ?_, ?_⟩
  · intro p hp
    rcases prefix_append_cases hp with h1 | ⟨q, rfl, hq⟩
    · exact hpa p h1
    · rw [countOcc_append_sealed ulOpen_pat hsa, countOcc_append_sealed ulClose_pat hsa]
      have := countOcc_le_of_pfx ulClose hq
      omega
  · rw [countOcc_append_sealed ulOpen_pat hsa, countOcc_append_sealed ulClose_pat hsa]
    omega

theorem Good.of_inert {s : Str} (h : inert s = true) (hs : Sealed s) : Good 0 s := by
  refine ⟨hs, ?_, ?_⟩
  · intro p hp
    have := countOcc_le_of_pfx ulClose hp
    rw [(countOcc_inert h).2] at this
    omega
  · rw [(countOcc_inert h).1, (countOcc_inert h).2]

theorem Good.append_inert {k : Nat} {a b : Str} (ha : Good k a) (h : inert b = true)
    (hs : Sealed b) : Good k (a ++ b) :=
  ha.append_good (Good.of_inert h hs)

theorem sealed_of_getLast {s : Str} {c : Char} (h : s.getLast? = some c)
    (hc : c = '>' ∨ c = ' ') : Sealed s := by
  intro d hd
  rw [h] at hd
  simp only [Option.some.injEq] at hd
  rw [← hd]
  exact hc

theorem sealed_append_lit (a : Str) {b : Str} (hb : b ≠ [])
    (hl : b.getLast? = some '>' ∨ b.getLast? = some ' ') : Sealed (a ++ b) := by
  apply Sealed.append_right a _ hb
  rcases hl with h | h
  · exact sealed_of_getLast h (Or.inl rfl)
  · exact sealed_of_getLast h (Or.inr rfl)

/-! ## Markup kept by the replacements -/

theorem stripPrefix_eq_append {lit s r : Str} (h : stripPrefix lit s = some r) : s = lit ++ r := by
  induction lit generalizing s with
  | nil =>
    cases s <;> simp only [stripPrefix, Option.some.injEq] at h <;> rw [← h] <;> rfl
  | cons x xs ih =>
    cases s with
    | nil => simp [stripPrefix] at h
    | cons c cs =>
      simp only [stripPrefix] at h
      split at h
      · rename_i hc
        rw [hc, ih h, List.cons_append]
      · simp at h

theorem replaceAll_zero_cons_none {m : Str → Option (Str × Nat)} {c : Char} {cs : Str}
    (h : m (c :: cs) = none) : replaceAll m 0 (c :: cs) = c :: replaceAll m 0 cs := by
  rw [replaceAll_zero_cons, h]

theorem replaceAll_zero_cons_some {m : Str → Option (Str × Nat)} {c : Char} {cs rep : Str}
    {len : Nat} (h : m (c :: cs) = some (rep, len)) :
    replaceAll m 0 (c :: cs) = rep ++ replaceAll m (len - 1) cs := by
  rw [replaceAll_zero_cons, h]

/-- A character of the result of a replacement comes from the input, unless a
replacement text brings it. -/
theorem mem_replaceAll {m : Str → Option (Str × Nat)} {x : Char}
    (hrep : ∀ t rep len, m t = some (rep, len) → x ∈ rep → x ∈ t) (k : Nat) (s : Str)
    (h : x ∈ replaceAll m k s) : x ∈ s := by
  induction s generalizing k with
  | nil =>
    rw [replaceAll_nil] at h
    exact h
  | cons c cs ih =>
    cases k with
    | succ k =>
      rw [replaceAll_succ_cons] at h
      exact List.mem_cons_of_mem _ (ih k h)
    | zero =>
      cases hm : m (c :: cs) with
      | none =>
        rw [replaceAll_zero_cons_none hm, List.mem_cons] at h
        rcases h with h | h
        · rw [h]
          exact List.mem_cons_self _ _
        · exact List.mem_cons_of_mem _ (ih 0 h)
      | some res =>
        obtain ⟨rep, len⟩ := res
        rw [replaceAll_zero_cons_some hm, List.mem_append] at h
        rcases h with h | h
        · exact hrep _ _ _ hm h
        · exact List.mem_cons_of_mem _ (ih _ h)

/-- A replacement whose matches start neither at a tag letter nor at `/`, and
whose replacement texts are inert, keeps an inert text inert. -/
theorem inert_replaceAll {m : Str → Option (Str × Nat)}
    (hcopy : ∀ c r, (tagLetter c = true ∨ c = '/') → m (c :: r) = none)
    (hrep : ∀ t rep len, inert t = true → m t = some (rep, len) → inert rep = true)
    (k : Nat) (s : Str) (hs : inert s = true) : inert (replaceAll m k s) = true := by
  induction s generalizing k with
  | nil =>
    rw [replaceAll_nil]
    rfl
  | cons c cs ih =>
    cases k with
    | succ k =>
      rw [replaceAll_succ_cons]
      exact ih k (inert_tail hs)
    | zero =>
      cases hm : m (c :: cs) with
      | some res =>
        obtain ⟨rep, len⟩ := res
        rw [replaceAll_zero_cons_some hm]
        exact inert_append (hrep _ _ _ hs hm) (ih _ (inert_tail hs))
      | none =>
        rw [replaceAll_zero_cons_none hm, inert_cons, Bool.and_eq_true]
        refine ⟨?_, ih 0 (inert_tail hs)⟩
        by_cases hc : c = '<'
        · subst hc
          have h1 : okAfterAngle cs = true := by
            rw [inert_cons, Bool.and_eq_true] at hs
            simpa using hs.1
          suffices okAfterAngle (replaceAll m 0 cs) = true by simp [this]
          rcases okAfterAngle_cases h1 with ⟨e, rest, rfl, hne, hl⟩ | ⟨d, rest, rfl, hl⟩
          · rw [replaceAll_zero_cons_none (hcopy e rest (Or.inl hl))]
            exact okAfterAngle_letter hne hl _
          · rw [replaceAll_zero_cons_none (hcopy '/' _ (Or.inr rfl)),
              replaceAll_zero_cons_none (hcopy d rest (Or.inl hl))]
            exact okAfterAngle_slash hl _
        · simp [hc]

theorem stripPrefix_stars_none {c : Char} (hc : c ≠ '*') (r : Str) :
    stripPrefix "**".toList (c :: r) = none :=
  stripPrefix_head_ne hc _ _

theorem tagLetter_or_slash_ne_star {c : Char} (h : tagLetter c = true ∨ c = '/') : c ≠ '*' := by
  rintro rfl
  rcases h with h | h
  · exact absurd h (by decide)
  · exact absurd h (by decide)

theorem takeWhile_append_dropWhile_cons {p : Char → Bool} {r : Str} {c : Char} {rest : Str}
    (h : r.dropWhile p = c :: rest) : r = r.takeWhile p ++ c :: rest := by
  rw [← h, List.takeWhile_append_dropWhile]

theorem starGroupMatch_some {wrap : Str → Str} {t rep : Str} {len : Nat}
    (h : starGroupMatch wrap t = some (rep, len)) :
    ∃ body rest, t = '*' :: '*' :: (body ++ '*' :: rest) ∧ rep = wrap body := by
  unfold starGroupMatch at h
  cases hs : stripPrefix "**".toList t with
  | none => rw [hs] at h; simp at h
  | some r =>
    rw [hs] at h
    simp only at h
    split at h
    · simp at h
    · cases hd : stripPrefix "**".toList (r.dropWhile (fun c => c != '*')) with
      | none => rw [hd] at h; simp at h
      | some r2 =>
        rw [hd] at h
        simp only [Option.some.injEq, Prod.mk.injEq] at h
        have h1 := stripPrefix_eq_append hs
        have h2 := stripPrefix_eq_append hd
        refine ⟨r.takeWhile (fun c => c != '*'), '*' :: r2, ?_, h.1.symm⟩
        have hr : r = r.takeWhile (fun c => c != '*') ++ '*' :: '*' :: r2 :=
          takeWhile_append_dropWhile_cons h2
        rw [h1]
        exact congrArg (fun z => '*' :: '*' :: z) hr

theorem starGroupMatch_copy (wrap : Str → Str) (c : Char) (r : Str)
    (h : tagLetter c = true ∨ c = '/') : starGroupMatch wrap (c :: r) = none := by
  unfold starGroupMatch
  rw [stripPrefix_stars_none (tagLetter_or_slash_ne_star h)]

theorem inert_strongWrap {body : Str} (h : inert body = true) : inert (strongWrap body) = true := by
  unfold strongWrap
  exact inert_append (inert_append (by decide) h) (by decide)

theorem inert_starGroups (k : Nat) (s : Str) (hs : inert s = true) :
    inert (replaceAll (starGroupMatch strongWrap) k s) = true := by
  apply inert_replaceAll (starGroupMatch_copy strongWrap) _ k s hs
  intro t rep len ht hm
  obtain ⟨body, rest, rfl, rfl⟩ := starGroupMatch_some hm
  apply inert_strongWrap
  exact inert_of_append_cons (x := '*') (by decide) (by decide) (inert_tail (inert_tail ht))

theorem newline_not_mem_starGroups (k : Nat) (s : Str) (hs : '\n' ∉ s) :
    '\n' ∉ replaceAll (starGroupMatch strongWrap) k s := by
  intro h
  apply hs
  apply mem_replaceAll _ k s h
  intro t rep len hm hx
  obtain ⟨body, rest, rfl, rfl⟩ := starGroupMatch_some hm
  unfold strongWrap at hx
  rw [List.mem_append, List.mem_append] at hx
  rcases hx with (hx | hx) | hx
  · exact absurd hx (by decide)
  · simp [hx]
  · exact absurd hx (by decide)

/-! ## formatMarkdown of one line -/

theorem replaceStarLines_props (x : Char) (hx : x ∉ hrDivider) :
    ∀ (n : Nat) (s : Str) (b : Bool), s.length ≤ n →
      (x ∈ replaceStarLines b s → x ∈ s) ∧
      ('<' ∉ s → inert (replaceStarLines b s) = true) := by
  intro n
  induction n with
  | zero =>
    intro s b hn
    have : s = [] := List.length_eq_zero.1 (Nat.le_zero.1 hn)
    subst this
    exact ⟨fun h => by simp [replaceStarLines] at h, fun _ => rfl⟩
  | succ n ih =>
    intro s b hn
    match s, hn with
    | [], _ => exact ⟨fun h => by simp [replaceStarLines] at h, fun _ => rfl⟩
    | [c], _ =>
      refine ⟨fun h => by simpa [replaceStarLines] using h, fun h => ?_⟩
      rw [show replaceStarLines b [c] = [c] from rfl]
      exact inert_of_no_angle h
    | [c, d], _ =>
      refine ⟨fun h => by simpa [replaceStarLines] using h, fun h => ?_⟩
      rw [show replaceStarLines b [c, d] = [c, d] from rfl]
      exact inert_of_no_angle h
    | c :: d :: e :: rest, hn =>
      rw [replaceStarLines]
      split
      · have hr := ih rest false (by simp at hn; omega)
        constructor
        · intro h
          rw [List.mem_append] at h
          rcases h with h | h
          · exact absurd h hx
          · simp [hr.1 h]
        · intro h
          apply inert_append (by decide)
          exact hr.2 (fun hm => h (by simp [hm]))
      · have hr := ih (d :: e :: rest) (isLineTerminator c) (by simp at hn ⊢; omega)
        constructor
        · intro h
          rw [List.mem_cons] at h
          rcases h with h | h
          · simp [h]
          · exact List.mem_cons_of_mem _ (hr.1 h)
        · intro h
          have hc : c ≠ '<' := fun e' => h (e' ▸ List.mem_cons_self _ _)
          rw [inert_cons_of_ne hc]
          exact hr.2 (fun hm => h (List.mem_cons_of_mem _ hm))

theorem dotPlusToEnd_some {s g : Str} (h : dotPlusToEnd s = some g) : g = s := by
  unfold dotPlusToEnd at h
  split at h
  · simpa using h.symm
  · simp at h

theorem spacesThenRest_suffix {s g : Str} (h : spacesThenRest s = some g) : g <:+ s := by
  induction s generalizing g with
  | nil => simp [spacesThenRest] at h
  | cons c cs ih =>
    unfold spacesThenRest at h
    split at h
    · cases hr : spacesThenRest cs with
      | some g' =>
        rw [hr] at h
        simp only [Option.some.injEq] at h
        rw [← h]
        exact (ih hr).trans (List.suffix_cons c cs)
      | none =>
        rw [hr] at h
        rw [dotPlusToEnd_some h]
    · rw [dotPlusToEnd_some h]

theorem listLineMatch_some {line num body : Str} (h : listLineMatch line = some (num, body)) :
    (∀ c ∈ num, isDigit c = true) ∧ body <:+ line := by
  unfold listLineMatch at h
  simp only at h
  split at h
  · simp at h
  · split at h
    · rename_i c cs hd
      split at h
      · cases hr : spacesThenRest cs with
        | none => rw [hr] at h; simp at h
        | some g =>
          rw [hr] at h
          simp only [Option.map_some', Option.some.injEq, Prod.mk.injEq] at h
          refine ⟨?_, ?_⟩
          · intro x hx
            rw [← h.1] at hx
            exact List.mem_takeWhile_imp hx
          · rw [← h.2]
            have h1 : g <:+ line.dropWhile isDigit := by
              rw [hd]
              exact (spacesThenRest_suffix hr).trans
                ((List.suffix_cons c cs).trans (List.suffix_cons '.' _))
            exact h1.trans (List.dropWhile_suffix _)
      · simp at h
    · simp at h

theorem isDigit_ne_angle {c : Char} (h : isDigit c = true) : c ≠ '<' := by
  rintro rfl
  exact absurd h (by decide)

theorem isDigit_ne_newline {c : Char} (h : isDigit c = true) : c ≠ '\n' := by
  rintro rfl
  exact absurd h (by decide)

theorem mem_of_suffix {x : Char} {a s : Str} (h : a <:+ s) (hx : x ∈ a) : x ∈ s := by
  obtain ⟨p, rfl⟩ := h
  exact List.mem_append_right _ hx

/-- The element that the loop of `formatMarkdown` yields for a text of one line. -/
theorem markdownLine_single (line : Str) (hin : inert line = true) (hnl : '\n' ∉ line) :
    ∃ x, (markdownLine (false, []) line).2 = [x] ∧ inert x = true ∧ '\n' ∉ x := by
  unfold markdownLine
  cases hm : listLineMatch line with
  | some res =>
    obtain ⟨num, body⟩ := res
    obtain ⟨hnum, hbody⟩ := listLineMatch_some hm
    refine ⟨_, rfl, ?_, ?_⟩
    · have h1 : inert num = true :=
        inert_of_no_angle (fun hx => isDigit_ne_angle (hnum _ hx) rfl)
      have h2 : inert body = true := inert_suffix hin hbody
      exact inert_append (inert_append (inert_append (inert_append (by decide) h1) (by decide)) h2)
        (by decide)
    · intro hx
      simp only [List.mem_append] at hx
      rcases hx with (((hx | hx) | hx) | hx) | hx
      · exact absurd hx (by decide)
      · exact isDigit_ne_newline (hnum _ hx) rfl
      · exact absurd hx (by decide)
      · exact hnl (mem_of_suffix hbody hx)
      · exact absurd hx (by decide)
  | none =>
    simp only [Bool.false_eq_true, if_false, List.nil_append]
    split
    · exact ⟨_, rfl, by decide, by decide⟩
    · exact ⟨_, rfl, hin, hnl⟩

theorem replaceAll_id_of_none {m : Str → Option (Str × Nat)} {x : Str}
    (hm : ∀ c ∈ x, ∀ r, m (c :: r) = none) : replaceAll m 0 x = x := by
  have := replaceAll_plain hm []
  rw [List.append_nil, replaceAll_nil, List.append_nil] at this
  exact this

theorem newlineNotTagMatch_none {c : Char} (hc : c ≠ '\n') (r : Str) :
    newlineNotTagMatch (c :: r) = none := by
  unfold newlineNotTagMatch
  split
  · rename_i heq
    simp only [List.cons.injEq] at heq
    exact absurd heq.1 hc
  · rfl

theorem litMatch_head_ne {x c : Char} (h : c ≠ x) (xs rep r : Str) :
    litMatch (x :: xs) rep (c :: r) = none := by
  unfold litMatch
  rw [stripPrefix_head_ne h]
  rfl

theorem litMatch_newline_none {c : Char} (h : c ≠ '\n') (r : Str) :
    litMatch "\n<".toList "<".toList (c :: r) = none :=
  litMatch_head_ne h _ _ r

/-- On a text without a line feed and without `<`, `formatMarkdown` yields inert
markup: no list container is opened or closed. -/
theorem formatMarkdown_inert {lv : Str} (h : PlainText lv) : inert (formatMarkdown lv) = true := by
  have hnl1 : '\n' ∉ replaceStarLines true lv := fun hx =>
    h.1 ((replaceStarLines_props '\n' (by decide) lv.length lv true (Nat.le_refl _)).1 hx)
  have hin1 : inert (replaceStarLines true lv) = true :=
    (replaceStarLines_props '\n' (by decide) lv.length lv true (Nat.le_refl _)).2 h.2
  have hnl2 := newline_not_mem_starGroups 0 _ hnl1
  have hin2 := inert_starGroups 0 _ hin1
  obtain ⟨x, hx, hinx, hnlx⟩ := markdownLine_single _ hin2 hnl2
  unfold formatMarkdown
  simp only
  rw [splitChar_of_not_mem hnl2, List.foldl_cons, List.foldl_nil, hx]
  have h3 : List.intercalate ['\n'] [x] = x := by simp [List.intercalate]
  have hne : ∀ c ∈ x, c ≠ '\n' := fun c hc e => hnlx (by rw [← e]; exact hc)
  rw [h3, replaceAll_id_of_none (fun c hc r => newlineNotTagMatch_none (hne c hc) r),
    replaceAll_id_of_none (fun c hc r => litMatch_newline_none (hne c hc) r)]
  exact hinx

theorem vietSpan_inert {lv : Str} (h : PlainText lv) : inert (vietSpan lv) = true := by
  unfold vietSpan
  exact inert_append (inert_append (by decide) (formatMarkdown_inert h)) (by decide)

theorem vietSpan_sealed (lv : Str) : Sealed (vietSpan lv) := by
  unfold vietSpan
  exact sealed_append_lit _ (by decide) (Or.inl (by decide))

/-! ## Characters of the pieces of a text -/

theorem ofNat_ne_angle (k : Nat) (hk : k ≠ 60) : Char.ofNat k ≠ '<' := by
  intro h
  unfold Char.ofNat at h
  split at h
  · rename_i hv
    have h2 := congrArg Char.toNat h
    simp only [Char.ofNatAux, Char.toNat] at h2
    exact hk h2
  · exact absurd h (by decide)

theorem hexDigit_ne_angle (n : Nat) : hexDigit n ≠ '<' := by
  unfold hexDigit
  split
  · exact ofNat_ne_angle _ (by omega)
  · exact ofNat_ne_angle _ (by omega)

theorem angle_not_mem_encodeURIComponent (s : Str) : '<' ∉ encodeURIComponent s := by
  unfold encodeURIComponent
  intro h
  rw [List.mem_flatMap] at h
  obtain ⟨c, -, hc⟩ := h
  split at hc
  · rename_i hu
    rw [List.mem_singleton] at hc
    rw [← hc] at hu
    exact absurd hu (by decide)
  · rw [List.mem_flatMap] at hc
    obtain ⟨b, -, hb⟩ := hc
    simp only [List.mem_cons, List.mem_singleton, List.not_mem_nil, or_false] at hb
    rcases hb with hb | hb | hb
    · exact absurd hb (by decide)
    · exact hexDigit_ne_angle _ hb.symm
    · exact hexDigit_ne_angle _ hb.symm

theorem mem_jsTrim {x : Char} {s : Str} (h : x ∈ jsTrim s) : x ∈ s := by
  obtain ⟨w1, w2, hs, -, -⟩ := jsTrim_decompose s
  rw [hs]
  simp [h]

theorem mem_consHead {c : Char} {ps : List Str} {p : Str} (h : p ∈ consHead c ps) :
    p ∈ ps ∨ p = [c] ∨ ∃ q ∈ ps, p = c :: q := by
  cases ps with
  | nil =>
    simp only [consHead, List.mem_singleton] at h
    exact Or.inr (Or.inl h)
  | cons q qs =>
    simp only [consHead, List.mem_cons] at h
    rcases h with h | h
    · exact Or.inr (Or.inr ⟨q, List.mem_cons_self _ _, h⟩)
    · exact Or.inl (List.mem_cons_of_mem _ h)

theorem mem_splitChar {d x : Char} {s p : Str} (hp : p ∈ splitChar d s) (hx : x ∈ p) :
    x ∈ s := by
  induction s generalizing p with
  | nil =>
    simp only [splitChar, List.mem_singleton] at hp
    rw [hp] at hx
    exact hx
  | cons c cs ih =>
    rw [splitChar_cons] at hp
    split at hp
    · rw [List.mem_cons] at hp
      rcases hp with hp | hp
      · rw [hp] at hx
        exact absurd hx (List.not_mem_nil _)
      · exact List.mem_cons_of_mem _ (ih hp hx)
    · rcases mem_consHead hp with h | h | ⟨q, hq, h⟩
      · exact List.mem_cons_of_mem _ (ih h hx)
      · rw [h, List.mem_singleton] at hx
        rw [hx]
        exact List.mem_cons_self _ _
      · rw [h, List.mem_cons] at hx
        rcases hx with hx | hx
        · rw [hx]
          exact List.mem_cons_self _ _
        · exact List.mem_cons_of_mem _ (ih hq hx)

theorem mem_splitPipes {x : Char} : ∀ (n : Nat) (s p : Str), s.length ≤ n →
    p ∈ splitPipes s → x ∈ p → x ∈ s := by
  intro n
  induction n with
  | zero =>
    intro s p hn hp hx
    have : s = [] := List.length_eq_zero.1 (Nat.le_zero.1 hn)
    subst this
    simp only [splitPipes, List.mem_singleton] at hp
    rw [hp] at hx
    exact hx
  | succ n ih =>
    intro s p hn hp hx
    match s, hn, hp with
    | [], _, hp =>
      simp only [splitPipes, List.mem_singleton] at hp
      rw [hp] at hx
      exact hx
    | [c], _, hp =>
      simp only [splitPipes, List.mem_singleton] at hp
      rw [hp] at hx
      exact hx
    | c :: d :: cs, hn, hp =>
      rw [splitPipes] at hp
      split at hp
      · rw [List.mem_cons] at hp
        rcases hp with hp | hp
        · rw [hp] at hx
          exact absurd hx (List.not_mem_nil _)
        · exact List.mem_cons_of_mem _ (List.mem_cons_of_mem _
            (ih cs p (by simp at hn; omega) hp hx))
      · rcases mem_consHead hp with h | h | ⟨q, hq, h⟩
        · exact List.mem_cons_of_mem _ (ih (d :: cs) p (by simp at hn ⊢; omega) h hx)
        · rw [h, List.mem_singleton] at hx
          rw [hx]
          exact List.mem_cons_self _ _
        · rw [h, List.mem_cons] at hx
          rcases hx with hx | hx
          · rw [hx]
            exact List.mem_cons_self _ _
          · exact List.mem_cons_of_mem _ (ih (d :: cs) q (by simp at hn ⊢; omega) hq hx)

theorem mem_splitStars {x : Char} : ∀ (n : Nat) (s p : Str), s.length ≤ n →
    p ∈ splitStars s → x ∈ p → x ∈ s := by
  intro n
  induction n with
  | zero =>
    intro s p hn hp hx
    have : s = [] := List.length_eq_zero.1 (Nat.le_zero.1 hn)
    subst this
    simp only [splitStars, List.mem_singleton] at hp
    rw [hp] at hx
    exact hx
  | succ n ih =>
    intro s p hn hp hx
    match s, hn, hp with
    | [], _, hp =>
      simp only [splitStars, List.mem_singleton] at hp
      rw [hp] at hx
      exact hx
    | [c], _, hp =>
      simp only [splitStars, List.mem_singleton] at hp
      rw [hp] at hx
      exact hx
    | [c, d], _, hp =>
      simp only [splitStars, List.mem_singleton] at hp
      rw [hp] at hx
      exact hx
    | c :: d :: e :: rest, hn, hp =>
      rw [splitStars] at hp
      split at hp
      · rw [List.mem_cons] at hp
        rcases hp with hp | hp
        · rw [hp] at hx
          exact absurd hx (List.not_mem_nil _)
        · have := ih rest p (by simp at hn; omega) hp hx
          simp [this]
      · rcases mem_consHead hp with h | h | ⟨q, hq, h⟩
        · exact List.mem_cons_of_mem _ (ih (d :: e :: rest) p (by simp at hn ⊢; omega) h hx)
        · rw [h, List.mem_singleton] at hx
          rw [hx]
          exact List.mem_cons_self _ _
        · rw [h, List.mem_cons] at hx
          rcases hx with hx | hx
          · rw [hx]
            exact List.mem_cons_self _ _
          · exact List.mem_cons_of_mem _ (ih (d :: e :: rest) q (by simp at hn ⊢; omega) hq hx)

theorem PlainText.of_sub {s a : Str} (hs : PlainText s) (h : ∀ x ∈ a, x ∈ s) : PlainText a :=
  ⟨fun hx => hs.1 (h _ hx), fun hx => hs.2 (h _ hx)⟩

theorem PlainText.nil_plain : PlainText [] := ⟨List.not_mem_nil _, List.not_mem_nil _⟩

theorem PlainText.append_plain {a b : Str} (ha : PlainText a) (hb : PlainText b) :
    PlainText (a ++ b) := by
  constructor
  · intro h
    rcases List.mem_append.1 h with h | h
    · exact ha.1 h
    · exact hb.1 h
  · intro h
    rcases List.mem_append.1 h with h | h
    · exact ha.2 h
    · exact hb.2 h

theorem PlainText.jsTrim {s : Str} (hs : PlainText s) : PlainText (jsTrim s) :=
  hs.of_sub (fun _ hx => mem_jsTrim hx)

theorem PlainText.inert {s : Str} (hs : PlainText s) : inert s = true :=
  inert_of_no_angle hs.2

theorem inert_flatMap {α : Type} (g : α → Str) (xs : List α)
    (h : ∀ x ∈ xs, inert (g x) = true) : inert (xs.flatMap g) = true := by
  induction xs with
  | nil => rfl
  | cons x xs ih =>
    rw [List.flatMap_cons]
    exact inert_append (h x (List.mem_cons_self _ _))
      (ih (fun y hy => h y (List.mem_cons_of_mem _ hy)))

theorem inert_encodeURIComponent (s : Str) : inert (encodeURIComponent s) = true :=
  inert_of_no_angle (angle_not_mem_encodeURIComponent s)

/-! ## The pieces that the rendering loop appends -/

theorem sealed_of_last {s : Str}
    (h : s.getLast? = none ∨ s.getLast? = some '>' ∨ s.getLast? = some ' ') : Sealed s := by
  intro c hc
  rcases h with h | h | h
  · rw [h] at hc
    exact absurd hc (by simp)
  · rw [h] at hc
    simp only [Option.some.injEq] at hc
    exact Or.inl hc.symm
  · rw [h] at hc
    simp only [Option.some.injEq] at hc
    exact Or.inr hc.symm

theorem Good.append_vietSpan {k : Nat} {r lv : Str} (h : Good k r) (hlv : PlainText lv) :
    Good k (r ++ vietSpan lv) :=
  h.append_inert (vietSpan_inert hlv) (vietSpan_sealed lv)

theorem Good.append_lit {k : Nat} {r : Str} (h : Good k r) (lit : Str)
    (hi : inert lit = true)
    (hs : lit.getLast? = none ∨ lit.getLast? = some '>' ∨ lit.getLast? = some ' ') :
    Good k (r ++ lit) :=
  h.append_inert hi (sealed_of_last hs)

theorem Good.append_close {k : Nat} {r : Str} (h : Good (k + 1) r) :
    Good k (r ++ "</ul>".toList) :=
  h.append_simple (sealed_of_last (Or.inr (Or.inl (by decide))))
    (by rw [show countOcc ulClose "</ul>".toList = 1 by decide]; omega)
    (by rw [show countOcc ulClose "</ul>".toList = 1 by decide,
          show countOcc ulOpen "</ul>".toList = 0 by decide]; omega)

theorem Good.append_close_br {k : Nat} {r : Str} (h : Good (k + 1) r) :
    Good k (r ++ "</ul><br>".toList) :=
  h.append_simple (sealed_of_last (Or.inr (Or.inl (by decide))))
    (by rw [show countOcc ulClose "</ul><br>".toList = 1 by decide]; omega)
    (by rw [show countOcc ulClose "</ul><br>".toList = 1 by decide,
          show countOcc ulOpen "</ul><br>".toList = 0 by decide]; omega)

theorem Good.append_open {k : Nat} {r : Str} (h : Good k r) (lit : Str)
    (ho : countOcc ulOpen lit = 1) (hc : countOcc ulClose lit = 0)
    (hs : lit.getLast? = none ∨ lit.getLast? = some '>' ∨ lit.getLast? = some ' ') :
    Good (k + 1) (r ++ lit) :=
  h.append_simple (sealed_of_last hs) (by rw [hc]; omega) (by rw [ho, hc]; omega)

theorem good_flatMap {α : Type} (g : α → Str) (xs : List α) (h : ∀ x ∈ xs, Good 0 (g x)) :
    Good 0 (xs.flatMap g) := by
  induction xs with
  | nil => exact Good.nil_good
  | cons x xs ih =>
    rw [List.flatMap_cons]
    exact (h x (List.mem_cons_self _ _)).append_good (ih (fun y hy => h y (List.mem_cons_of_mem _ hy)))

set_option maxRecDepth 100000 in
theorem tipBox_good {text : Str} (h : PlainText text) : Good 0 (tipBox text) := by
  unfold tipBox
  apply Good.of_inert
  · exact inert_append (inert_append (by decide) h.inert) (by decide)
  · exact sealed_append_lit _ (by decide) (Or.inl (by decide))

/-! ### Tables -/

theorem mem_splitRows {x : Char} {content row : Str} (h : row ∈ splitRows content)
    (hx : x ∈ row) : x ∈ content := by
  unfold splitRows at h
  rw [List.mem_filter, List.mem_map] at h
  obtain ⟨⟨p, hp, rfl⟩, -⟩ := h
  exact mem_splitPipes content.length content p (Nat.le_refl _) hp (mem_jsTrim hx)

theorem mem_splitCells {x : Char} {row cell : Str} (h : cell ∈ splitCells row)
    (hx : x ∈ cell) : x ∈ row := by
  unfold splitCells at h
  rw [List.mem_map] at h
  obtain ⟨p, hp, rfl⟩ := h
  exact mem_splitChar hp (mem_jsTrim hx)

theorem inert_headerCellHtml {cell : Str} (h : '<' ∉ cell) :
    inert (headerCellHtml cell) = true := by
  unfold headerCellHtml
  exact inert_append (inert_append (by decide) (inert_of_no_angle h)) (by decide)

theorem inert_bodyCellHtml {cell : Str} (h : '<' ∉ cell) : inert (bodyCellHtml cell) = true := by
  unfold bodyCellHtml
  split
  · exact inert_append (inert_append (inert_append (inert_append (by decide)
      (inert_encodeURIComponent _)) (by decide)) (inert_of_no_angle h)) (by decide)
  · exact inert_append (inert_append (by decide) (inert_of_no_angle h)) (by decide)

theorem inert_headerRowHtml {row : Str} (h : '<' ∉ row) : inert (headerRowHtml row) = true := by
  unfold headerRowHtml
  refine inert_append (inert_append (by decide) (inert_flatMap _ _ ?_)) (by decide)
  intro cell hc
  exact inert_headerCellHtml (fun hx => h (mem_splitCells hc hx))

theorem inert_bodyRowHtml {row : Str} (h : '<' ∉ row) : inert (bodyRowHtml row) = true := by
  unfold bodyRowHtml
  refine inert_append (inert_append (by decide) (inert_flatMap _ _ ?_)) (by decide)
  intro cell hc
  exact inert_bodyCellHtml (fun hx => h (mem_splitCells hc hx))

set_option maxRecDepth 100000 in
theorem tableLoading_inert : inert tableLoading = true := by decide

set_option maxRecDepth 100000 in
theorem tableLoading_last : tableLoading.getLast? = some '>' := by decide

theorem formatTable_good {text : Str} (h : PlainText text) (b : Bool) :
    Good 0 (formatTable text b) := by
  by_cases hph : b = true ∧ includes "||".toList text = false
  · rw [hph.1, formatTable_loading text hph.2]
    exact Good.of_inert tableLoading_inert (sealed_of_last (Or.inr (Or.inl tableLoading_last)))
  · cases hr : splitRows text with
    | nil =>
      rw [formatTable_no_rows text b hph hr]
      exact Good.nil_good
    | cons header body =>
      rw [formatTable_rows text b hph header body hr]
      have hrow : ∀ row ∈ splitRows text, '<' ∉ row :=
        fun row hrow hx => h.2 (mem_splitRows hrow hx)
      rw [hr] at hrow
      apply Good.of_inert
      · refine inert_append (inert_append (by decide) ?_) (by decide)
        refine inert_append (inert_append (inert_append (by decide)
          (inert_headerRowHtml (hrow header (List.mem_cons_self _ _)))) (by decide)) ?_
        split
        · rfl
        · refine inert_append (inert_append (by decide) (inert_flatMap _ _ ?_)) (by decide)
          intro row hb
          exact inert_bodyRowHtml (hrow row (List.mem_cons_of_mem _ hb))
      · exact sealed_append_lit _ (by decide) (Or.inl (by decide))

/-! ### Lists -/

theorem mem_listItemsOf {x : Char} {row item : Str} (h : item ∈ listItemsOf row)
    (hx : x ∈ item) : x ∈ row := by
  unfold listItemsOf at h
  rw [List.mem_filter, List.mem_map] at h
  obtain ⟨⟨p, hp, rfl⟩, -⟩ := h
  exact mem_splitChar hp (mem_jsTrim hx)

theorem stripPrefix_stars_copy (c : Char) (r : Str) (h : tagLetter c = true ∨ c = '/') :
    stripPrefix "**".toList (c :: r) = none :=
  stripPrefix_stars_none (tagLetter_or_slash_ne_star h) r

theorem lazyDotsThenStars_sub {x : Char} {cs b : Str} (h : lazyDotsThenStars cs = some b)
    (hx : x ∈ b) : x ∈ cs := by
  induction cs generalizing b with
  | nil => simp [lazyDotsThenStars] at h
  | cons c cs ih =>
    unfold lazyDotsThenStars at h
    split at h
    · simp only [Option.some.injEq] at h
      rw [← h] at hx
      exact absurd hx (List.not_mem_nil _)
    · split at h
      · simp at h
      · cases hr : lazyDotsThenStars cs with
        | none => rw [hr] at h; simp at h
        | some b' =>
          rw [hr] at h
          simp only [Option.map_some', Option.some.injEq] at h
          rw [← h, List.mem_cons] at hx
          rcases hx with hx | hx
          · rw [hx]
            exact List.mem_cons_self _ _
          · exact List.mem_cons_of_mem _ (ih hr hx)

theorem strongLazyMatch_some {t rep : Str} {len : Nat}
    (h : strongLazyMatch t = some (rep, len)) :
    ∃ body, rep = strongWrap body ∧ ∀ x ∈ body, x ∈ t := by
  unfold strongLazyMatch at h
  split at h
  · rename_i c cs hs
    split at h
    · simp at h
    · cases hr : lazyDotsThenStars cs with
      | none => rw [hr] at h; simp at h
      | some b =>
        rw [hr] at h
        simp only [Option.map_some', Option.some.injEq, Prod.mk.injEq] at h
        refine ⟨c :: b, h.1.symm, ?_⟩
        intro x hx
        rw [stripPrefix_eq_append hs]
        apply List.mem_append_right
        rw [List.mem_cons] at hx ⊢
        rcases hx with hx | hx
        · exact Or.inl hx
        · exact Or.inr (lazyDotsThenStars_sub hr hx)
  · simp at h

/-- On a text without `<` the replacement of the `**` pairs yields inert markup. -/
theorem inert_strongLazy {text : Str} (h : '<' ∉ text) (k : Nat) :
    inert (replaceAll strongLazyMatch k text) = true := by
  suffices hg : ∀ (s : Str) (k : Nat), '<' ∉ s → inert (replaceAll strongLazyMatch k s) = true
    from hg text k h
  intro s
  induction s with
  | nil =>
    intro k _
    rw [replaceAll_nil]
    rfl
  | cons c cs ih =>
    intro k hs
    have hcs : '<' ∉ cs := fun hm => hs (List.mem_cons_of_mem _ hm)
    cases k with
    | succ k =>
      rw [replaceAll_succ_cons]
      exact ih k hcs
    | zero =>
      cases hm : strongLazyMatch (c :: cs) with
      | none =>
        rw [replaceAll_zero_cons_none hm,
          inert_cons_of_ne (fun e => hs (e ▸ List.mem_cons_self _ _))]
        exact ih 0 hcs
      | some res =>
        obtain ⟨rep, len⟩ := res
        rw [replaceAll_zero_cons_some hm]
        obtain ⟨body, rfl, hb⟩ := strongLazyMatch_some hm
        exact inert_append (inert_strongWrap (inert_of_no_angle (fun hx => hs (hb _ hx))))
          (ih _ hcs)

theorem listEntryHtml_inert {item : Str} (h : '<' ∉ item) : inert (listEntryHtml item) = true := by
  unfold listEntryHtml
  refine inert_append (inert_append (by decide) ?_) (by decide)
  split
  · exact inert_append (inert_append (inert_append (inert_append (by decide)
      (inert_encodeURIComponent _)) (by decide)) (inert_strongLazy h 0)) (by decide)
  · exact inert_append (inert_append (by decide) (inert_strongLazy h 0)) (by decide)

theorem listEntryHtml_sealed (item : Str) : Sealed (listEntryHtml item) := by
  unfold listEntryHtml
  exact sealed_append_lit _ (by decide) (Or.inl (by decide))

theorem listGroupHtml_good {row : Str} (h : '<' ∉ row) : Good 0 (listGroupHtml row) := by
  unfold listGroupHtml
  cases hi : listItemsOf row with
  | nil => exact Good.nil_good
  | cons header items =>
    have hitems : ∀ item ∈ listItemsOf row, '<' ∉ item :=
      fun item hitem hx => h (mem_listItemsOf hitem hx)
    rw [hi] at hitems
    simp only
    have h0 : Good 0 ("<div class=\"list-group\">".toList ++ "<div class=\"list-header\">".toList
        ++ header ++ "</div>".toList) := by
      apply Good.of_inert
      · exact inert_append (inert_append (inert_append (by decide) (by decide))
          (inert_of_no_angle (hitems header (List.mem_cons_self _ _)))) (by decide)
      · exact sealed_append_lit _ (by decide) (Or.inl (by decide))
    refine Good.append_lit ?_ _ (by decide) (Or.inr (Or.inl (by decide)))
    split
    · rw [List.append_nil]
      exact h0
    · rw [← List.append_assoc, ← List.append_assoc]
      apply Good.append_close
      apply Good.append_good
      · exact h0.append_open _ (by decide) (by decide) (Or.inr (Or.inl (by decide)))
      · apply good_flatMap
        intro item hitem
        exact Good.of_inert (listEntryHtml_inert (hitems item (List.mem_cons_of_mem _ hitem)))
          (listEntryHtml_sealed item)

theorem formatList_good {text : Str} (h : PlainText text) : Good 0 (formatList text) := by
  by_cases hr : splitRows text = []
  · rw [formatList_no_rows text hr]
    exact Good.nil_good
  · rw [formatList_eq text hr]
    refine Good.append_lit ?_ _ (by decide) (Or.inr (Or.inl (by decide)))
    apply Good.append_good
    · exact Good.of_inert (by decide) (sealed_of_last (Or.inr (Or.inl (by decide))))
    · apply good_flatMap
      intro row hrow
      exact listGroupHtml_good (fun hx => h.2 (mem_splitRows hrow hx))

/-! ### English segments and dialogue lines -/

theorem mem_removeDoubleStars {x : Char} {s : Str} (h : x ∈ removeDoubleStars s) : x ∈ s := by
  unfold removeDoubleStars at h
  apply mem_replaceAll _ 0 s h
  intro t rep len hm hx
  unfold litMatch at hm
  cases hs : stripPrefix "**".toList t with
  | none => rw [hs] at hm; simp at hm
  | some r =>
    rw [hs] at hm
    simp only [Option.map_some', Option.some.injEq, Prod.mk.injEq] at hm
    rw [← hm.1] at hx
    exact absurd hx (List.not_mem_nil _)

theorem dialogueMatch_some {t rep : Str} {len : Nat} (h : dialogueMatch t = some (rep, len)) :
    ∃ body, rep = "<br><strong>".toList ++ body ++ ":</strong>".toList ∧ ∀ x ∈ body, x ∈ t := by
  unfold dialogueMatch at h
  cases hs : stripPrefix "**".toList t with
  | none => rw [hs] at h; simp at h
  | some r =>
    rw [hs] at h
    simp only at h
    split at h
    · split at h
      · simp only [Option.some.injEq, Prod.mk.injEq] at h
        refine ⟨_, h.1.symm, ?_⟩
        intro x hx
        rw [stripPrefix_eq_append hs]
        apply List.mem_append_right
        exact (List.takeWhile_prefix _).subset ((List.dropLast_subset _) hx)
      · simp at h
    · simp at h

theorem inert_dialogue {text : Str} (h : '<' ∉ text) (k : Nat) :
    inert (replaceAll dialogueMatch k text) = true := by
  suffices hg : ∀ (s : Str) (k : Nat), '<' ∉ s → inert (replaceAll dialogueMatch k s) = true
    from hg text k h
  intro s
  induction s with
  | nil =>
    intro k _
    rw [replaceAll_nil]
    rfl
  | cons c cs ih =>
    intro k hs
    have hcs : '<' ∉ cs := fun hm => hs (List.mem_cons_of_mem _ hm)
    cases k with
    | succ k =>
      rw [replaceAll_succ_cons]
      exact ih k hcs
    | zero =>
      cases hm : dialogueMatch (c :: cs) with
      | none =>
        rw [replaceAll_zero_cons_none hm,
          inert_cons_of_ne (fun e => hs (e ▸ List.mem_cons_self _ _))]
        exact ih 0 hcs
      | some res =>
        obtain ⟨rep, len⟩ := res
        rw [replaceAll_zero_cons_some hm]
        obtain ⟨body, rfl, hb⟩ := dialogueMatch_some hm
        exact inert_append (inert_append (inert_append (by decide)
          (inert_of_no_angle (fun hx => hs (hb _ hx)))) (by decide)) (ih _ hcs)

theorem inert_cleanDialogue {text : Str} (h : '<' ∉ text) :
    inert ((stripPrefix "<br>".toList (replaceAll dialogueMatch 0 text)).getD
      (replaceAll dialogueMatch 0 text)) = true := by
  cases hs : stripPrefix "<br>".toList (replaceAll dialogueMatch 0 text) with
  | none => exact inert_dialogue h 0
  | some r =>
    have := inert_dialogue h 0
    rw [stripPrefix_eq_append hs] at this
    exact inert_of_suffix this

/-! ## The invariant of the rendering loop -/

theorem Good.append_wrapped {k : Nat} {r : Str} (h : Good k r) (a x z : Str)
    (ha : inert a = true) (hx : inert x = true) (hz : inert z = true) (hne : z ≠ [])
    (hl : z.getLast? = some '>' ∨ z.getLast? = some ' ') : Good k (r ++ a ++ x ++ z) := by
  rw [List.append_assoc, List.append_assoc]
  refine h.append_inert (inert_append ha (inert_append hx hz)) ?_
  rw [← List.append_assoc]
  exact Sealed.append_right _ (sealed_of_last (Or.inr hl)) hne

theorem Good.append_wrapped2 {k : Nat} {r : Str} (h : Good k r) (a x b y z : Str)
    (ha : inert a = true) (hx : inert x = true) (hb : inert b = true) (hy : inert y = true)
    (hz : inert z = true) (hne : z ≠ [])
    (hl : z.getLast? = some '>' ∨ z.getLast? = some ' ') :
    Good k (r ++ a ++ x ++ b ++ y ++ z) := by
  have := h.append_wrapped (a ++ x ++ b) y z (inert_append (inert_append ha hx) hb) hy hz hne hl
  simpa only [List.append_assoc] using this

theorem ListInv.init : ListInv ⟨[], [], false⟩ := ⟨Good.nil_good, PlainText.nil_plain⟩

theorem flushVietnamese_inv {st : RenderState} (h : ListInv st) :
    ListInv (flushVietnamese st) := by
  unfold flushVietnamese
  split
  · exact ⟨h.1.append_vietSpan h.2, PlainText.nil_plain⟩
  · exact h

theorem flushVietnamese_good {st : RenderState} (h : ListInv st) :
    Good (if st.inList then 1 else 0) (flushVietnamese st).result := by
  have := (flushVietnamese_inv h).1
  rw [flushVietnamese_inList] at this
  exact this

theorem ListInv.flush_append {st : RenderState} (h : ListInv st) {piece : Str}
    (hp : Good 0 piece) :
    ListInv { flushVietnamese st with result := (flushVietnamese st).result ++ piece } :=
  ⟨by
    show Good (if (flushVietnamese st).inList then 1 else 0) _
    rw [flushVietnamese_inList]
    exact (flushVietnamese_good h).append_good hp,
   by
    show PlainText (flushVietnamese st).lastVietnamese
    rw [flushVietnamese_lastVietnamese]
    exact PlainText.nil_plain⟩

theorem PlainText.removeDoubleStars {s : Str} (hs : PlainText s) :
    PlainText (removeDoubleStars s) :=
  hs.of_sub (fun _ hx => mem_removeDoubleStars hx)

theorem renderEngsub_inv {st : RenderState} (h : ListInv st) {text : Str} (ht : PlainText text)
    (next : Option Segment) : ListInv (renderEngsub st text next) := by
  have hf := flushVietnamese_good h
  have hlv : PlainText (flushVietnamese st).lastVietnamese := by
    rw [flushVietnamese_lastVietnamese]
    exact PlainText.nil_plain
  have hil := flushVietnamese_inList st
  unfold renderEngsub
  simp only
  split
  · refine ⟨?_, hlv⟩
    show Good (if (flushVietnamese st).inList then 1 else 0) _
    rw [hil]
    exact hf.append_wrapped _ _ _ (by decide) (inert_strongLazy ht.2 0) (by decide) (by decide)
      (Or.inr (by decide))
  · split
    · refine ⟨?_, hlv⟩
      show Good (if (flushVietnamese st).inList then 1 else 0) _
      rw [hil]
      exact hf.append_wrapped2 _ _ _ _ _ (by decide) (inert_encodeURIComponent _) (by decide)
        ht.removeDoubleStars.inert (by decide) (by decide) (Or.inr (by decide))
    · refine ⟨?_, hlv⟩
      show Good (if (flushVietnamese st).inList then 1 else 0) _
      rw [hil]
      exact hf.append_wrapped2 _ _ _ _ _ (by decide) (inert_encodeURIComponent _) (by decide)
        (inert_strongLazy ht.2 0) (by decide) (by decide) (Or.inl (by decide))

theorem PlainText.headD {l : List Str} (h : ∀ p ∈ l, PlainText p) : PlainText (l.headD []) := by
  cases l with
  | nil => exact PlainText.nil_plain
  | cons p ps => exact h p (List.mem_cons_self _ _)

theorem PlainText.splitStars {text : Str} (ht : PlainText text) :
    ∀ p ∈ splitStars text, PlainText p :=
  fun p hp => ht.of_sub (fun _ hx => mem_splitStars text.length text p (Nat.le_refl _) hp hx)

theorem PlainText.space : PlainText " ".toList := ⟨by decide, by decide⟩

theorem numberPrefixMatch_some {text num rest : Str}
    (h : numberPrefixMatch text = some (num, rest)) :
    (∀ c ∈ num, isDigit c = true) ∧ ∀ x ∈ rest, x ∈ text := by
  unfold numberPrefixMatch at h
  simp only at h
  split at h
  · simp at h
  · split at h
    · rename_i r hd
      simp only [Option.some.injEq, Prod.mk.injEq] at h
      refine ⟨?_, ?_⟩
      · intro c hc
        rw [← h.1] at hc
        exact List.mem_takeWhile_imp hc
      · intro x hx
        rw [← h.2] at hx
        have h1 : x ∈ r := (List.dropWhile_suffix _).subset hx
        have h2 : x ∈ text.dropWhile isDigit := by
          rw [hd]
          exact List.mem_cons_of_mem _ h1
        exact (List.dropWhile_suffix _).subset h2
    · simp at h

theorem PlainText.ite_nil {a : Str} (c : Prop) [Decidable c] (h : PlainText a) :
    PlainText (if c then a else []) := by
  split
  · exact h
  · exact PlainText.nil_plain

theorem inert_digits {num : Str} (h : ∀ c ∈ num, isDigit c = true) : inert num = true :=
  inert_of_no_angle (fun hx => isDigit_ne_angle (h _ hx) rfl)

theorem renderVietsub_inv {st : RenderState} (h : ListInv st) {text : Str} (ht : PlainText text) :
    ListInv (renderVietsub st text) := by
  obtain ⟨r, lv, il⟩ := st
  obtain ⟨hG, hlv⟩ := h
  simp only at hG hlv
  have hp0 : PlainText (jsTrim ((splitStars text).headD [])) :=
    (PlainText.headD ht.splitStars).jsTrim
  have hp1 : PlainText (jsTrim (((splitStars text).drop 1).headD [])) :=
    (PlainText.headD (fun p hp => ht.splitStars p (List.mem_of_mem_drop hp))).jsTrim
  have hdiv : inert "<br><hr class=\"divider\">".toList = true := by decide
  have hdivl : "<br><hr class=\"divider\">".toList.getLast? = none ∨
      "<br><hr class=\"divider\">".toList.getLast? = some '>' ∨
      "<br><hr class=\"divider\">".toList.getLast? = some ' ' := Or.inr (Or.inl (by decide))
  have hli : inert "</li>".toList = true := by decide
  have hlil : "</li>".toList.getLast? = none ∨ "</li>".toList.getLast? = some '>' ∨
      "</li>".toList.getLast? = some ' ' := Or.inr (Or.inl (by decide))
  have hbr : inert "<br><br>".toList = true := by decide
  have hbrl : "<br><br>".toList.getLast? = none ∨ "<br><br>".toList.getLast? = some '>' ∨
      "<br><br>".toList.getLast? = some ' ' := Or.inr (Or.inl (by decide))
  unfold renderVietsub
  simp only
  by_cases h3 : includes "***".toList text = true
  · simp only [h3, if_true]
    cases il
    · simp only [Bool.false_eq_true, if_false] at hG ⊢
      by_cases hl : lv = []
      · subst hl
        simp only [ne_eq, not_true_eq_false, if_false]
        by_cases h0 : jsTrim ((splitStars text).headD []) = []
        · simp only [h0, not_true_eq_false, if_false]
          exact ⟨hG.append_lit _ hdiv hdivl, PlainText.ite_nil _ hp1⟩
        · simp only [h0, not_false_eq_true, if_true]
          exact ⟨(hG.append_vietSpan hp0).append_lit _ hdiv hdivl, PlainText.ite_nil _ hp1⟩
      · simp only [ne_eq, hl, not_false_eq_true, if_true]
        exact ⟨(hG.append_vietSpan ((hlv.append_plain PlainText.space).append_plain hp0)).append_lit _ hdiv hdivl,
          PlainText.ite_nil _ hp1⟩
    · simp only [if_true] at hG ⊢
      simp only [ne_eq, not_true_eq_false, if_false]
      have hclose : Good 0 ((closeItem ⟨r, lv, true⟩).result ++ "</ul>".toList) := by
        apply Good.append_close
        unfold closeItem
        split
        · exact (hG.append_vietSpan hlv).append_lit _ hli hlil
        · exact hG
      by_cases h0 : jsTrim ((splitStars text).headD []) = []
      · simp only [h0, not_true_eq_false, if_false]
        exact ⟨hclose.append_lit _ hdiv hdivl, PlainText.ite_nil _ hp1⟩
      · simp only [h0, not_false_eq_true, if_true]
        exact ⟨(hclose.append_vietSpan hp0).append_lit _ hdiv hdivl, PlainText.ite_nil _ hp1⟩
  · simp only [h3, Bool.false_eq_true, if_false]
    by_cases hd : hasDialogue text = true
    · simp only [hd, if_true]
      have hspan : ∀ {k : Nat} {x : Str}, Good k x →
          Good k (x ++ "<span class=\"vietnamese-text\">".toList ++
            (stripPrefix "<br>".toList (replaceAll dialogueMatch 0 text)).getD
              (replaceAll dialogueMatch 0 text) ++ "</span><br>".toList) :=
        fun hx => hx.append_wrapped _ _ _ (by decide) (inert_cleanDialogue ht.2) (by decide)
          (by decide) (Or.inl (by decide))
      cases il
      · simp only [Bool.false_eq_true, if_false] at hG ⊢
        by_cases hl : lv = []
        · subst hl
          simp only [ne_eq, not_true_eq_false, if_false]
          exact ⟨hspan hG, PlainText.nil_plain⟩
        · simp only [ne_eq, hl, not_false_eq_true, if_true]
          exact ⟨hspan ((hG.append_vietSpan hlv).append_lit _ hbr hbrl), PlainText.nil_plain⟩
      · simp only [if_true] at hG ⊢
        have hclose : Good 0 ((closeItem ⟨r, lv, true⟩).result ++ "</ul>".toList) := by
          apply Good.append_close
          unfold closeItem
          split
          · exact (hG.append_vietSpan hlv).append_lit _ hli hlil
          · exact hG
        have hcl : (closeItem ⟨r, lv, true⟩).lastVietnamese = lv := by
          unfold closeItem
          split <;> rfl
        simp only [hcl]
        by_cases hl : lv = []
        · subst hl
          simp only [ne_eq, not_true_eq_false, if_false]
          exact ⟨hspan hclose, PlainText.nil_plain⟩
        · simp only [ne_eq, hl, not_false_eq_true, if_true]
          exact ⟨hspan ((hclose.append_vietSpan hlv).append_lit _ hbr hbrl), PlainText.nil_plain⟩
    · simp only [hd, Bool.false_eq_true, if_false]
      cases hn : numberPrefixMatch text with
      | some res =>
        obtain ⟨num, rest⟩ := res
        obtain ⟨hnum, hrest⟩ := numberPrefixMatch_some hn
        have hitem : ∀ {k : Nat} {x : Str}, Good k x →
            Good k (x ++ "<li><span class=\"list-num\">".toList ++ num ++ ".</span> ".toList) :=
          fun hx => hx.append_wrapped _ _ _ (by decide) (inert_digits hnum) (by decide)
            (by decide) (Or.inr (by decide))
        simp only
        cases il
        · simp only [Bool.false_eq_true, if_false] at hG
          simp only [Bool.not_false, if_true]
          refine ⟨hitem ?_, ht.of_sub hrest⟩
          have hfl := @flushVietnamese_good ⟨r, lv, false⟩ ⟨hG, hlv⟩
          exact hfl.append_open _ (by decide) (by decide) (Or.inr (Or.inl (by decide)))
        · simp only [if_true] at hG
          simp only [Bool.not_true, Bool.false_eq_true, if_false]
          by_cases hl : lv = []
          · subst hl
            simp only [ne_eq, not_true_eq_false, if_false]
            exact ⟨hitem hG, ht.of_sub hrest⟩
          · simp only [ne_eq, hl, not_false_eq_true, if_true]
            exact ⟨hitem ((hG.append_vietSpan hlv).append_lit _ hli hlil), ht.of_sub hrest⟩
      | none =>
        simp only
        by_cases hs : (stripPrefix "**".toList text).isSome = true
        · simp only [hs, if_true]
          cases il
          · simp only [Bool.false_eq_true, if_false] at hG ⊢
            by_cases hl : lv = []
            · subst hl
              simp only [ne_eq, not_true_eq_false, if_false]
              exact ⟨hG, ht⟩
            · simp only [ne_eq, hl, not_false_eq_true, if_true]
              exact ⟨(hG.append_vietSpan hlv).append_lit _ hbr hbrl, ht⟩
          · simp only [if_true] at hG ⊢
            refine ⟨?_, ht⟩
            apply Good.append_close_br
            unfold closeItem
            split
            · exact (hG.append_vietSpan hlv).append_lit _ hli hlil
            · exact hG
        · simp only [hs, Bool.false_eq_true, if_false]
          refine ⟨hG, (hlv.append_plain ?_).append_plain ht⟩
          split
          · exact PlainText.space
          · exact PlainText.nil_plain

theorem renderSegment_inv (b : Bool) {st : RenderState} (h : ListInv st) {seg : Segment}
    (ht : PlainText seg.text) (next : Option Segment) :
    ListInv (renderSegment b st seg next) := by
  unfold renderSegment
  split
  · exact h
  · split
    · exact h.flush_append (tipBox_good ht)
    · split
      · exact h.flush_append (formatTable_good ht b)
      · split
        · exact h.flush_append (formatList_good ht)
        · split
          · exact renderEngsub_inv h ht next
          · exact renderVietsub_inv h ht

theorem loopState_inv (b : Bool) (segs : List Segment)
    (hsegs : ∀ seg ∈ segs, PlainText seg.text) (i : Nat) : ListInv (loopState b segs i) := by
  induction i with
  | zero => exact ListInv.init
  | succ i ih =>
    rw [loopState]
    cases hi : segs[i]? with
    | none => exact ih
    | some seg =>
      simp only
      exact renderSegment_inv b ih (hsegs seg (List.getElem?_mem hi)) _

theorem renderEnd_good {st : RenderState} (h : ListInv st) : Good 0 (renderEnd st) := by
  obtain ⟨r, lv, il⟩ := st
  obtain ⟨hG, hlv⟩ := h
  simp only at hG hlv
  unfold renderEnd
  simp only
  cases il
  · simp only [Bool.false_eq_true, if_false] at hG ⊢
    split
    · rw [List.append_nil]
      exact hG.append_vietSpan hlv
    · exact hG
  · simp only [if_true] at hG ⊢
    apply Good.append_close
    split
    · exact (hG.append_vietSpan hlv).append_lit _ (by decide) (Or.inr (Or.inl (by decide)))
    · exact hG

/-- C29: list containers stay balanced in `formatMessageContent`.  The texts of
the segments hold no line feed and no `<` (when the content yields no segment,
the whole cleaned text is the one implicit Vietnamese segment and the same is
asked of it).  Then the output has as many `</ul>` as `<ul`, no prefix of the
output has more `</ul>` than `<ul`, and after every iteration of the loop the
result is balanced in the same way up to one opening exactly when `inList` is
true: the lists of `formatList` are closed inside their own segment, so the
opening that is still unclosed is the `<ul class="vocab-list">`. -/
theorem list_containers_balanced (content : Str) (isStreaming : Bool)
    (hseg : ∀ seg ∈ displaySegments content, PlainText seg.text)
    (hplain : displaySegments content = [] → PlainText (removeActionsTag content)) :
    countOcc ulOpen (formatMessageContent content isStreaming) =
      countOcc ulClose (formatMessageContent content isStreaming) ∧
    (∀ p, p <+: formatMessageContent content isStreaming →
      countOcc ulClose p ≤ countOcc ulOpen p) ∧
    (∀ i,
      countOcc ulOpen (loopState isStreaming (displaySegments content) i).result =
        countOcc ulClose (loopState isStreaming (displaySegments content) i).result +
          (if (loopState isStreaming (displaySegments content) i).inList then 1 else 0) ∧
      ((loopState isStreaming (displaySegments content) i).inList = true ↔
        countOcc ulOpen (loopState isStreaming (displaySegments content) i).result =
          countOcc ulClose (loopState isStreaming (displaySegments content) i).result + 1) ∧
      ∀ p, p <+: (loopState isStreaming (displaySegments content) i).result →
        countOcc ulClose p ≤ countOcc ulOpen p) := by
  have hout : Good 0 (formatMessageContent content isStreaming) := by
    by_cases hd : displaySegments content = []
    · have : formatMessageContent content isStreaming = vietSpan (removeActionsTag content) := by
        unfold formatMessageContent
        simp only
        rw [show scanSegments displayTags 0 (removeActionsTag content) = displaySegments content
          from rfl, if_pos hd]
      rw [this]
      exact Good.of_inert (vietSpan_inert (hplain hd)) (vietSpan_sealed _)
    · rw [formatMessageContent_eq_renderEnd content isStreaming hd]
      exact renderEnd_good (loopState_inv isStreaming _ hseg _)
  refine ⟨?_, hout.2.1, ?_⟩
  · have := hout.2.2
    omega
  · intro i
    have hi := loopState_inv isStreaming _ hseg i
    refine ⟨hi.1.2.2, ?_, hi.1.2.1⟩
    have h2 := hi.1.2.2
    cases hl : (loopState isStreaming (displaySegments content) i).inList with
    | true =>
      rw [hl] at h2
      simp only [if_true] at h2
      simp [h2]
    | false =>
      rw [hl] at h2
      simp only [Bool.false_eq_true, if_false] at h2
      simp [h2]

set_option maxRecDepth 100000 in
/-- Witness of C29: two numbered items around a `[List]` segment. -/
theorem list_containers_balanced_witness :
    (∀ seg ∈ displaySegments "[Vietsub] 1. a [List] H|x|y [Vietsub] 2. b".toList,
      PlainText seg.text) ∧
    countOcc ulOpen (formatMessageContent "[Vietsub] 1. a [List] H|x|y [Vietsub] 2. b".toList false) =
      countOcc ulClose
        (formatMessageContent "[Vietsub] 1. a [List] H|x|y [Vietsub] 2. b".toList false) := by
  have hd : displaySegments "[Vietsub] 1. a [List] H|x|y [Vietsub] 2. b".toList =
      [⟨"vietsub".toList, "1. a".toList⟩, ⟨"list".toList, "H|x|y".toList⟩,
        ⟨"vietsub".toList, "2. b".toList⟩] := by decide
  have hseg : ∀ seg ∈ displaySegments "[Vietsub] 1. a [List] H|x|y [Vietsub] 2. b".toList,
      PlainText seg.text := by
    rw [hd]
    intro seg hs
    simp only [List.mem_cons, List.mem_singleton, List.not_mem_nil, or_false] at hs
    rcases hs with rfl | rfl | rfl <;> exact ⟨by decide, by decide⟩
  exact ⟨hseg, (list_containers_balanced _ false hseg
    (fun h => absurd h (by rw [hd]; simp))).1⟩

/-! ## List items -/

set_option maxRecDepth 100000 in
/-- C30, evaluated on the code: a numbered Vietnamese item followed by an English
segment and by the next numbered item.  The English segment flushes the pending
text of the first item without `</li>`, and the second item, which finds no
pending text, opens its `<li>` without closing the first: the output has two
`<li>` and one `</li>`.  The same happens when the first item has no text of
its own. -/
theorem list_item_left_open :
    formatMessageContent "[Vietsub] 1. a [Engsub] Hi [Vietsub] 2. b".toList false =
      "<ul class=\"vocab-list\"><li><span class=\"list-num\">1.</span> <span class=\"vietnamese-text\">a</span><span class=\"english-word\" data-speak=\"Hi\">Hi</span> <li><span class=\"list-num\">2.</span> <span class=\"vietnamese-text\">b</span></li></ul>".toList ∧
    countOcc "<li>".toList
      (formatMessageContent "[Vietsub] 1. a [Engsub] Hi [Vietsub] 2. b".toList false) = 2 ∧
    countOcc "</li>".toList
      (formatMessageContent "[Vietsub] 1. a [Engsub] Hi [Vietsub] 2. b".toList false) = 1 ∧
    formatMessageContent "[Vietsub] 1. [Vietsub] 2. b".toList false =
      "<ul class=\"vocab-list\"><li><span class=\"list-num\">1.</span> <li><span class=\"list-num\">2.</span> <span class=\"vietnamese-text\">b</span></li></ul>".toList := by
  have h1 : formatMessageContent "[Vietsub] 1. a [Engsub] Hi [Vietsub] 2. b".toList false =
      "<ul class=\"vocab-list\"><li><span class=\"list-num\">1.</span> <span class=\"vietnamese-text\">a</span><span class=\"english-word\" data-speak=\"Hi\">Hi</span> <li><span class=\"list-num\">2.</span> <span class=\"vietnamese-text\">b</span></li></ul>".toList := by
    decide
  refine ⟨h1, ?_, ?_, by decide⟩
  · rw [h1]
    decide
  · rw [h1]
    decide

/-! ## Texts that differ in the letter case of bracketed words -/

theorem CaseSeg.refl_false (x : Str) : CaseSeg false false x x := by
  induction x with
  | nil => exact CaseSeg.nil false
  | cons c cs ih => exact CaseSeg.same c ih

theorem TagVariant.refl (x : Str) : TagVariant x x := CaseSeg.refl_false x

theorem CaseSeg.append_seg {b m e : Bool} {a a' c c' : Str} (h1 : CaseSeg b m a a')
    (h2 : CaseSeg m e c c') : CaseSeg b e (a ++ c) (a' ++ c') := by
  induction h1 with
  | nil b => exact h2
  | same ch _ ih => exact CaseSeg.same ch (ih h2)
  | enter _ ih => exact CaseSeg.enter (ih h2)
  | letter ch d h1 h2' h3 _ ih => exact CaseSeg.letter ch d h1 h2' h3 (ih h2)
  | leave _ ih => exact CaseSeg.leave (ih h2)

theorem TagVariant.append_variant {a a' c c' : Str} (h1 : TagVariant a a') (h2 : TagVariant c c') :
    TagVariant (a ++ c) (a' ++ c') := CaseSeg.append_seg h1 h2

theorem CaseSeg.length_eq {b e : Bool} {x y : Str} (h : CaseSeg b e x y) :
    x.length = y.length := by
  induction h with
  | nil b => rfl
  | same ch _ ih => simp [ih]
  | enter _ ih => simp [ih]
  | letter ch d h1 h2' h3 _ ih => simp [ih]
  | leave _ ih => simp [ih]

theorem CaseSeg.nil_left {b e : Bool} {y : Str} (h : CaseSeg b e [] y) : b = e ∧ y = [] := by
  cases h
  exact ⟨rfl, rfl⟩

theorem CaseSeg.rel {b e : Bool} {x y : Str} (h : CaseSeg b e x y) :
    List.Forall₂ CaseRel x y := by
  induction h with
  | nil b => exact List.Forall₂.nil
  | same ch _ ih => exact List.Forall₂.cons (Or.inl rfl) ih
  | enter _ ih => exact List.Forall₂.cons (Or.inl rfl) ih
  | letter ch d h1 h2' h3 _ ih => exact List.Forall₂.cons (Or.inr ⟨h1, h2', h3⟩) ih
  | leave _ ih => exact List.Forall₂.cons (Or.inl rfl) ih

theorem CaseRel.toUpper_eq {c d : Char} (h : CaseRel c d) : c.toUpper = d.toUpper := by
  rcases h with h | h
  · rw [h]
  · exact h.2.2

theorem CaseRel.blind {p : Char → Bool} (hp : CaseBlind p) {c d : Char} (h : CaseRel c d) :
    p c = p d := by
  rcases h with h | h
  · rw [h]
  · exact hp c d h.1 h.2.1

theorem forall₂_map_eq {f : Char → Char} {x y : Str}
    (h : List.Forall₂ CaseRel x y) (hf : ∀ c d, CaseRel c d → f c = f d) :
    x.map f = y.map f := by
  induction h with
  | nil => rfl
  | cons hcd _ ih => simp [hf _ _ hcd, ih]

theorem CaseSeg.map_toUpper {b e : Bool} {x y : Str} (h : CaseSeg b e x y) :
    x.map Char.toUpper = y.map Char.toUpper :=
  forall₂_map_eq h.rel (fun _ _ hcd => hcd.toUpper_eq)

theorem CaseSeg.map_toLower {b e : Bool} {x y : Str} (h : CaseSeg b e x y) :
    x.map Char.toLower = y.map Char.toLower :=
  forall₂_map_eq h.rel (fun _ _ hcd => toLower_eq_of_toUpper_eq hcd.toUpper_eq)

theorem forall₂_takeWhile_length {p : Char → Bool} (hp : CaseBlind p) {x y : Str}
    (h : List.Forall₂ CaseRel x y) :
    (x.takeWhile p).length = (y.takeWhile p).length := by
  induction h with
  | nil => rfl
  | cons hcd _ ih =>
    rename_i c d x' y'
    rw [List.takeWhile_cons, List.takeWhile_cons, ← hcd.blind hp]
    split
    · simp [ih]
    · rfl

theorem forall₂_all {p : Char → Bool} (hp : CaseBlind p) {x y : Str}
    (h : List.Forall₂ CaseRel x y) : x.all p = y.all p := by
  induction h with
  | nil => rfl
  | cons hcd _ ih => simp only [List.all_cons, hcd.blind hp, ih]

theorem forall₂_head {x y : Str} (h : List.Forall₂ CaseRel x y) {c : Char}
    (hc : isAsciiLetter c = false) (hx : x.head? = some c) : y.head? = some c := by
  cases h with
  | nil => simp at hx
  | cons hcd _ =>
    simp only [List.head?_cons, Option.some.injEq] at hx ⊢
    rcases hcd with h | h
    · rw [← h, hx]
    · rw [hx, hc] at h
      exact absurd h.1 (by decide)

/-- Cutting two such texts at the same place. -/
theorem CaseSeg.cut {b e : Bool} (a : Str) {r y : Str} (h : CaseSeg b e (a ++ r) y) :
    ∃ m, CaseSeg b m a (y.take a.length) ∧ CaseSeg m e r (y.drop a.length) := by
  induction a generalizing b y with
  | nil => exact ⟨b, CaseSeg.nil b, h⟩
  | cons c a' ih =>
    rw [List.cons_append] at h
    cases h with
    | same _ h' =>
      obtain ⟨m, h1, h2⟩ := ih h'
      exact ⟨m, CaseSeg.same c h1, h2⟩
    | enter h' =>
      obtain ⟨m, h1, h2⟩ := ih h'
      exact ⟨m, CaseSeg.enter h1, h2⟩
    | letter _ d hc hd hu h' =>
      obtain ⟨m, h1, h2⟩ := ih h'
      exact ⟨m, CaseSeg.letter c d hc hd hu h1, h2⟩
    | leave h' =>
      obtain ⟨m, h1, h2⟩ := ih h'
      exact ⟨m, CaseSeg.leave h1, h2⟩

/-- A character that is neither a letter nor `]` is read outside a word. -/
theorem CaseSeg.head_state {m e : Bool} {c : Char} {r y : Str} (h : CaseSeg m e (c :: r) y)
    (hc : isAsciiLetter c = false) (hb : c ≠ ']') : m = false := by
  cases h with
  | same _ _ => rfl
  | enter _ => rfl
  | letter _ d hl _ _ _ =>
    rw [hc] at hl
    exact absurd hl (by decide)
  | leave _ => exact absurd rfl hb

/-- After a character that is neither a letter nor `[` the reading is outside a
word. -/
theorem CaseSeg.last_state {b m : Bool} {a y : Str} (h : CaseSeg b m a y) {c : Char}
    (hl : a.getLast? = some c) (hc : isAsciiLetter c = false) (hb : c ≠ '[') : m = false := by
  induction h with
  | nil b => simp at hl
  | same ch h' ih =>
    rename_i e x' y'
    cases x' with
    | nil => exact h'.nil_left.1.symm
    | cons d ds =>
      rw [List.getLast?_cons_cons] at hl
      exact ih hl
  | enter h' ih =>
    rename_i e x' y'
    cases x' with
    | nil =>
      simp only [List.getLast?_singleton, Option.some.injEq] at hl
      exact absurd hl.symm hb
    | cons d ds =>
      rw [List.getLast?_cons_cons] at hl
      exact ih hl
  | letter ch d h1 h2 h3 h' ih =>
    rename_i e x' y'
    cases x' with
    | nil =>
      simp only [List.getLast?_singleton, Option.some.injEq] at hl
      rw [hl, hc] at h1
      exact absurd h1 (by decide)
    | cons d' ds =>
      rw [List.getLast?_cons_cons] at hl
      exact ih hl
  | leave h' ih =>
    rename_i e x' y'
    cases x' with
    | nil => exact h'.nil_left.1.symm
    | cons d ds =>
      rw [List.getLast?_cons_cons] at hl
      exact ih hl

theorem TagVariant.cut_before {a r y : Str} {c : Char} (h : TagVariant (a ++ c :: r) y)
    (hc : isAsciiLetter c = false) (hb : c ≠ ']') :
    TagVariant a (y.take a.length) ∧ TagVariant (c :: r) (y.drop a.length) := by
  obtain ⟨m, h1, h2⟩ := CaseSeg.cut a h
  have hm := h2.head_state hc hb
  subst hm
  exact ⟨h1, h2⟩

theorem TagVariant.cut_after {a r y : Str} {c : Char} (h : TagVariant (a ++ r) y)
    (hl : a.getLast? = some c) (hc : isAsciiLetter c = false) (hb : c ≠ '[') :
    TagVariant a (y.take a.length) ∧ TagVariant r (y.drop a.length) := by
  obtain ⟨m, h1, h2⟩ := CaseSeg.cut a h
  have hm := h1.last_state hl hc hb
  subst hm
  exact ⟨h1, h2⟩

theorem TagVariant.cut_end {a y : Str} (h : TagVariant a y) (n : Nat) (hn : a.length ≤ n) :
    TagVariant (a.take n) (y.take n) ∧ TagVariant (a.drop n) (y.drop n) := by
  have hl := CaseSeg.length_eq h
  rw [List.take_of_length_le hn, List.take_of_length_le (by omega),
    List.drop_of_length_le hn, List.drop_of_length_le (by omega)]
  exact ⟨h, CaseSeg.nil false⟩

theorem TagVariant.nil_variant : TagVariant [] [] := CaseSeg.nil false

/-- The replacement of one bracketed word of letters by the same word in another
letter case. -/
theorem TagVariant.replace (p s : Str) {nm nm' : Str}
    (hnm : ∀ c ∈ nm, isAsciiLetter c = true) (hnm' : ∀ c ∈ nm', isAsciiLetter c = true)
    (hs : nm.map Char.toUpper = nm'.map Char.toUpper) :
    TagVariant (p ++ '[' :: (nm ++ ']' :: s)) (p ++ '[' :: (nm' ++ ']' :: s)) := by
  apply TagVariant.append_variant (TagVariant.refl p)
  apply CaseSeg.enter
  have hw : ∀ (n n' : Str), (∀ c ∈ n, isAsciiLetter c = true) →
      (∀ c ∈ n', isAsciiLetter c = true) → n.map Char.toUpper = n'.map Char.toUpper →
      CaseSeg true false (n ++ ']' :: s) (n' ++ ']' :: s) := by
    intro n
    induction n with
    | nil =>
      intro n' _ _ h
      cases n' with
      | nil => exact CaseSeg.leave (CaseSeg.refl_false s)
      | cons d ds => simp at h
    | cons c cs ih =>
      intro n' h1 h2 h
      cases n' with
      | nil => simp at h
      | cons d ds =>
        simp only [List.map_cons, List.cons.injEq] at h
        exact CaseSeg.letter c d (h1 c (List.mem_cons_self _ _)) (h2 d (List.mem_cons_self _ _))
          h.1 (ih ds (fun x hx => h1 x (List.mem_cons_of_mem _ hx))
            (fun x hx => h2 x (List.mem_cons_of_mem _ hx)) h.2)
  exact hw nm nm' hnm hnm' hs

/-! ## Tests that do not tell letters apart -/

theorem letter_toNat {c : Char} (h : isAsciiLetter c = true) :
    (65 ≤ c.toNat ∧ c.toNat ≤ 90) ∨ (97 ≤ c.toNat ∧ c.toNat ≤ 122) := by
  unfold isAsciiLetter at h
  simp only [Bool.or_eq_true, Bool.and_eq_true, decide_eq_true_eq] at h
  omega

theorem not_lineTerminator_of_letter {c : Char} (h : isAsciiLetter c = true) :
    isLineTerminator c = false := by
  have hn := letter_toNat h
  unfold isLineTerminator
  simp only [Bool.or_eq_false_iff, beq_eq_false_iff_ne, ne_eq]
  omega

theorem not_markdown_of_letter {c : Char} (h : isAsciiLetter c = true) :
    isMarkdownChar c = false := by
  have hn := letter_toNat h
  unfold isMarkdownChar
  simp only [Bool.or_eq_false_iff, decide_eq_false_iff_not]
  refine ⟨⟨⟨⟨?_, ?_⟩, ?_⟩, ?_⟩, ?_⟩
  · rintro rfl
    exact absurd h (by decide)
  · rintro rfl
    exact absurd h (by decide)
  · rintro rfl
    exact absurd h (by decide)
  · omega
  · rintro rfl
    exact absurd h (by decide)

theorem CaseBlind.ne (x : Char) (hx : isAsciiLetter x = false) :
    CaseBlind (fun c => c != x) := by
  intro c d hc hd
  have h1 : c ≠ x := fun e => by rw [e, hx] at hc; exact absurd hc (by decide)
  have h2 : d ≠ x := fun e => by rw [e, hx] at hd; exact absurd hd (by decide)
  show (c != x) = (d != x)
  have e1 : (c != x) = true := by simp [h1]
  have e2 : (d != x) = true := by simp [h2]
  rw [e1, e2]

theorem CaseBlind.notLineTerminator : CaseBlind (fun c => !isLineTerminator c) := by
  intro c d hc hd
  simp [not_lineTerminator_of_letter hc, not_lineTerminator_of_letter hd]

theorem CaseBlind.space_blind : CaseBlind isJsSpace := by
  intro c d hc hd
  rw [not_space_of_letter hc, not_space_of_letter hd]

theorem CaseBlind.notMarkdown : CaseBlind (fun c => !isMarkdownChar c) := by
  intro c d hc hd
  simp [not_markdown_of_letter hc, not_markdown_of_letter hd]

theorem CaseRel.eq_of_not_letter {c d : Char} (h : CaseRel c d) (hc : isAsciiLetter c = false) :
    d = c := by
  rcases h with h | h
  · exact h.symm
  · rw [hc] at h
    exact absurd h.1 (by decide)

theorem CaseRel.eq_of_not_letter_right {c d : Char} (h : CaseRel c d)
    (hd : isAsciiLetter d = false) : c = d := by
  rcases h with h | h
  · exact h
  · rw [hd] at h
    exact absurd h.2.1 (by decide)

/-! ## Literals and tags under a change of letter case -/

theorem matchLitCI_isSome_congr (lit : Str) {x y : Str}
    (h : x.map Char.toUpper = y.map Char.toUpper) :
    (matchLitCI lit x).isSome = (matchLitCI lit y).isSome := by
  induction lit generalizing x y with
  | nil => rfl
  | cons l ls ih =>
    cases x with
    | nil =>
      cases y with
      | nil => rfl
      | cons d ds => simp at h
    | cons c cs =>
      cases y with
      | nil => simp at h
      | cons d ds =>
        simp only [List.map_cons, List.cons.injEq] at h
        simp only [matchLitCI, h.1]
        split
        · exact ih h.2
        · rfl

theorem matchLitCI_eq_drop {lit x r : Str} (h : matchLitCI lit x = some r) :
    r = x.drop lit.length := by
  obtain ⟨u, hu, hsame⟩ := matchLitCI_some h
  have hl : u.length = lit.length := by
    have := congrArg List.length hsame
    simpa using this
  rw [hu, ← hl, List.drop_left]

theorem matchLitCI_variant_some {lit x y r : Str} (hxy : TagVariant x y)
    (h : matchLitCI lit x = some r) : matchLitCI lit y = some (y.drop lit.length) := by
  have hs := matchLitCI_isSome_congr lit (CaseSeg.map_toUpper hxy)
  rw [h] at hs
  cases hy : matchLitCI lit y with
  | none => rw [hy] at hs; simp at hs
  | some r' => rw [matchLitCI_eq_drop hy]

theorem matchLitCI_variant_none {lit x y : Str} (hxy : TagVariant x y)
    (h : matchLitCI lit x = none) : matchLitCI lit y = none := by
  have hs := matchLitCI_isSome_congr lit (CaseSeg.map_toUpper hxy)
  rw [h] at hs
  cases hy : matchLitCI lit y with
  | none => rfl
  | some r' => rw [hy] at hs; simp at hs

theorem toLower_eq_close {c : Char} (h : c.toLower = ']'.toLower) : c = ']' := by
  apply char_eq_of_toNat_eq
  have hn := congrArg Char.toNat h
  rw [toNat_toLower, toNat_toLower] at hn
  have h93 : ']'.toNat = 93 := by decide
  rw [h93] at hn ⊢
  split_ifs at hn <;> omega

theorem sameIgnoringCase_getLast_close {u lit : Str} (h : SameIgnoringCase u lit)
    (hl : lit.getLast? = some ']') : u.getLast? = some ']' := by
  unfold SameIgnoringCase at h
  have h1 : (u.map Char.toLower).getLast? = (lit.map Char.toLower).getLast? := by rw [h]
  rw [List.getLast?_map, List.getLast?_map, hl] at h1
  cases hu : u.getLast? with
  | none => rw [hu] at h1; simp at h1
  | some c =>
    rw [hu] at h1
    simp only [Option.map_some', Option.some.injEq] at h1
    rw [toLower_eq_close h1]

/-- A literal that ends with `]`, matched at the start of two variants. -/
theorem matchLitCI_variant (lit : Str) {x y : Str} (hl : lit.getLast? = some ']')
    (hxy : TagVariant x y) :
    (matchLitCI lit x = none ∧ matchLitCI lit y = none) ∨
      ∃ r r', matchLitCI lit x = some r ∧ matchLitCI lit y = some r' ∧ TagVariant r r' := by
  cases h : matchLitCI lit x with
  | none => exact Or.inl ⟨rfl, matchLitCI_variant_none hxy h⟩
  | some r =>
    refine Or.inr ⟨r, y.drop lit.length, rfl, matchLitCI_variant_some hxy h, ?_⟩
    obtain ⟨u, hu, hsame⟩ := matchLitCI_some h
    have hlen : u.length = lit.length := by
      have := congrArg List.length hsame
      simpa using this
    rw [hu] at hxy
    have := (hxy.cut_after (sameIgnoringCase_getLast_close hsame hl) (by decide) (by decide)).2
    rw [hlen] at this
    exact this

theorem CaseSeg.close_right {m e : Bool} {q t : Str} (h : CaseSeg m e q (']' :: t)) :
    ∃ rest, q = ']' :: rest ∧ CaseSeg false e rest t := by
  cases h with
  | same _ h' => exact ⟨_, rfl, h'⟩
  | letter c _ _ hd _ _ => exact absurd hd (by decide)
  | leave h' => exact ⟨_, rfl, h'⟩

theorem CaseSeg.close_left {m e : Bool} {rest y : Str} (h : CaseSeg m e (']' :: rest) y) :
    ∃ t, y = ']' :: t ∧ CaseSeg false e rest t := by
  cases h with
  | same _ h' => exact ⟨_, rfl, h'⟩
  | letter _ d hc _ _ _ => exact absurd hc (by decide)
  | leave h' => exact ⟨_, rfl, h'⟩

theorem TagVariant.cons_inv {c : Char} {x y : Str} (h : TagVariant (c :: x) y) :
    ∃ y', y = c :: y' := by
  cases h with
  | same _ h' => exact ⟨_, rfl⟩
  | enter h' => exact ⟨_, rfl⟩

theorem matchTag_eq_findSome (names : List Str) (r : Str) :
    matchTag names ('[' :: r) = names.findSome? (tagAttempt r) := rfl

theorem tagAttempt_variant (name : Str) {r r' : Str} (hxy : TagVariant ('[' :: r) ('[' :: r')) :
    (tagAttempt r name = none ∧ tagAttempt r' name = none) ∨
      ∃ nm nm' rest rest', tagAttempt r name = some (nm, rest) ∧
        tagAttempt r' name = some (nm', rest') ∧ nm.map Char.toLower = nm'.map Char.toLower ∧
        nm.length = nm'.length ∧ TagVariant rest rest' := by
  have hup : r.map Char.toUpper = r'.map Char.toUpper := by
    have := CaseSeg.map_toUpper hxy
    simpa using this
  have hlow : r.map Char.toLower = r'.map Char.toLower := by
    have := CaseSeg.map_toLower hxy
    simpa using this
  have hlen : r.length = r'.length := by
    have := CaseSeg.length_eq hxy
    simpa using this
  unfold tagAttempt
  cases hm : matchLitCI name r with
  | none =>
    have hm' : matchLitCI name r' = none := by
      have hs := matchLitCI_isSome_congr name hup
      rw [hm] at hs
      cases hy : matchLitCI name r' with
      | none => rfl
      | some q => rw [hy] at hs; simp at hs
    rw [hm']
    exact Or.inl ⟨rfl, rfl⟩
  | some q =>
    have hm' : matchLitCI name r' = some (r'.drop name.length) := by
      have hs := matchLitCI_isSome_congr name hup
      rw [hm] at hs
      cases hy : matchLitCI name r' with
      | none => rw [hy] at hs; simp at hs
      | some q' => rw [matchLitCI_eq_drop hy]
    rw [hm']
    obtain ⟨u, hu, hsame⟩ := matchLitCI_some hm
    have hul : u.length = name.length := by
      have := congrArg List.length hsame
      simpa using this
    have hcut : ∃ m, CaseSeg false m ('[' :: u) (('[' :: r').take ('[' :: u).length) ∧
        CaseSeg m false q (('[' :: r').drop ('[' :: u).length) := by
      apply CaseSeg.cut
      rw [List.cons_append, ← hu]
      exact hxy
    obtain ⟨m, -, h2⟩ := hcut
    simp only [List.length_cons, List.drop_succ_cons, hul] at h2
    cases q with
    | nil =>
      obtain ⟨-, hq'⟩ := CaseSeg.nil_left h2
      rw [hq']
      exact Or.inl ⟨rfl, rfl⟩
    | cons e q' =>
      by_cases he : e = ']'
      · subst he
        obtain ⟨t, ht, hrest⟩ := CaseSeg.close_left h2
        rw [ht]
        refine Or.inr ⟨_, _, _, _, rfl, rfl, ?_, ?_, hrest⟩
        · rw [List.map_take, List.map_take, hlow]
        · simp [hlen]
      · have hne : ∀ t, r'.drop name.length ≠ ']' :: t := by
          intro t ht
          rw [ht] at h2
          obtain ⟨rest, hq, -⟩ := CaseSeg.close_right h2
          simp only [List.cons.injEq] at hq
          exact he hq.1
        left
        constructor
        · split
          · rename_i heq
            simp only [Option.some.injEq, List.cons.injEq] at heq
            exact absurd heq.1 he
          · rfl
        · split
          · rename_i heq
            simp only [Option.some.injEq] at heq
            exact absurd heq (hne _)
          · rfl

/-- The tag at the start of two variants: the same tag, up to the letter case of
its name, followed by variants. -/
theorem matchTag_variant (names : List Str) {x y : Str} (hxy : TagVariant x y) :
    (matchTag names x = none ∧ matchTag names y = none) ∨
      ∃ nm nm' rest rest', matchTag names x = some (nm, rest) ∧
        matchTag names y = some (nm', rest') ∧ nm.map Char.toLower = nm'.map Char.toLower ∧
        nm.length = nm'.length ∧ TagVariant rest rest' := by
  cases x with
  | nil =>
    obtain ⟨-, rfl⟩ := CaseSeg.nil_left hxy
    exact Or.inl ⟨rfl, rfl⟩
  | cons c r =>
    obtain ⟨r', rfl⟩ := hxy.cons_inv
    by_cases hc : c = '['
    · subst hc
      rw [matchTag_eq_findSome, matchTag_eq_findSome]
      induction names with
      | nil => exact Or.inl ⟨rfl, rfl⟩
      | cons name names ih =>
        rw [List.findSome?_cons, List.findSome?_cons]
        rcases tagAttempt_variant name hxy with ⟨h1, h2⟩ | ⟨nm, nm', rest, rest', h1, h2, h3⟩
        · rw [h1, h2]
          exact ih
        · rw [h1, h2]
          exact Or.inr ⟨nm, nm', rest, rest', rfl, rfl, h3⟩
    · left
      exact ⟨matchTag_not_bracket names hc r, matchTag_not_bracket names hc r'⟩

theorem tagOrEnd_variant (names : List Str) {x y : Str} (hxy : TagVariant x y) :
    tagOrEnd names x = tagOrEnd names y := by
  unfold tagOrEnd
  have hl := CaseSeg.length_eq hxy
  have he : x.isEmpty = y.isEmpty := by
    cases x <;> cases y <;> simp at hl ⊢
  rcases matchTag_variant names hxy with ⟨h1, h2⟩ | ⟨nm, nm', rest, rest', h1, h2, -⟩
  · rw [h1, h2, he]
  · rw [h1, h2]
    rfl

/-! ## Replacements under a change of letter case -/

theorem TagVariant.cons_same {c : Char} (hc : c ≠ '[') {x y : Str} (h : TagVariant (c :: x) y) :
    ∃ y', y = c :: y' ∧ TagVariant x y' := by
  cases h with
  | same _ h' => exact ⟨_, rfl, h'⟩
  | enter h' => exact absurd rfl hc

/-- A replacement whose matches start outside the bracketed words and end outside
them, applied to two variants, yields two variants. -/
theorem replaceAll_variant {m : Str → Option (Str × Nat)}
    (hinner : ∀ c r, (isAsciiLetter c = true ∨ c = ']') → m (c :: r) = none)
    (hm : ∀ x y, TagVariant x y →
      (m x = none ∧ m y = none) ∨
        ∃ rep rep' len, m x = some (rep, len) ∧ m y = some (rep', len) ∧ 1 ≤ len ∧
          TagVariant rep rep' ∧ TagVariant (x.drop len) (y.drop len)) :
    ∀ (n : Nat) (b : Bool) (x y : Str), x.length ≤ n → CaseSeg b false x y →
      CaseSeg b false (replaceAll m 0 x) (replaceAll m 0 y) := by
  intro n
  induction n with
  | zero =>
    intro b x y hn h
    have hx : x = [] := List.length_eq_zero.1 (Nat.le_zero.1 hn)
    subst hx
    obtain ⟨hb, rfl⟩ := h.nil_left
    subst hb
    exact CaseSeg.nil false
  | succ n ih =>
    have houter : ∀ (x y : Str), x.length ≤ n + 1 → TagVariant x y →
        (∀ c x' y', x = c :: x' → y = c :: y' →
          CaseSeg false false (c :: replaceAll m 0 x') (c :: replaceAll m 0 y')) →
        CaseSeg false false (replaceAll m 0 x) (replaceAll m 0 y) := by
      intro x y hn hxy hcopy
      cases x with
      | nil =>
        obtain ⟨-, rfl⟩ := hxy.nil_left
        exact CaseSeg.nil false
      | cons c x' =>
        obtain ⟨y', rfl⟩ := hxy.cons_inv
        rcases hm _ _ hxy with ⟨h1, h2⟩ | ⟨rep, rep', len, h1, h2, hlen, hrep, hdrop⟩
        · rw [replaceAll_zero_cons_none h1, replaceAll_zero_cons_none h2]
          exact hcopy c x' y' rfl rfl
        · rw [replaceAll_zero_cons_some h1, replaceAll_zero_cons_some h2,
            replaceAll_drop m (len - 1) x', replaceAll_drop m (len - 1) y']
          have e1 : (c :: x').drop len = x'.drop (len - 1) := by
            cases len with
            | zero => omega
            | succ k => rfl
          have e2 : (c :: y').drop len = y'.drop (len - 1) := by
            cases len with
            | zero => omega
            | succ k => rfl
          rw [e1, e2] at hdrop
          apply CaseSeg.append_seg hrep
          apply ih false _ _ _ hdrop
          simp only [List.length_drop, List.length_cons] at hn ⊢
          omega
    intro b x y hn h
    cases h with
    | nil => exact CaseSeg.nil false
    | same c h' =>
      apply houter _ _ hn (CaseSeg.same c h')
      intro c0 x0 y0 hx hy
      simp only [List.cons.injEq] at hx hy
      rw [← hx.1, ← hx.2, ← hy.2]
      exact CaseSeg.same c (ih false _ _ (by simp at hn; omega) h')
    | enter h' =>
      apply houter _ _ hn (CaseSeg.enter h')
      intro c0 x0 y0 hx hy
      simp only [List.cons.injEq] at hx hy
      rw [← hx.1, ← hx.2, ← hy.2]
      exact CaseSeg.enter (ih true _ _ (by simp at hn; omega) h')
    | letter c d hc hd hu h' =>
      rw [replaceAll_zero_cons_none (hinner c _ (Or.inl hc)),
        replaceAll_zero_cons_none (hinner d _ (Or.inl hd))]
      exact CaseSeg.letter c d hc hd hu (ih true _ _ (by simp at hn; omega) h')
    | leave h' =>
      rw [replaceAll_zero_cons_none (hinner ']' _ (Or.inr rfl)),
        replaceAll_zero_cons_none (hinner ']' _ (Or.inr rfl))]
      exact CaseSeg.leave (ih false _ _ (by simp at hn; omega) h')

theorem replaceAll_tagVariant {m : Str → Option (Str × Nat)}
    (hinner : ∀ c r, (isAsciiLetter c = true ∨ c = ']') → m (c :: r) = none)
    (hm : ∀ x y, TagVariant x y →
      (m x = none ∧ m y = none) ∨
        ∃ rep rep' len, m x = some (rep, len) ∧ m y = some (rep', len) ∧ 1 ≤ len ∧
          TagVariant rep rep' ∧ TagVariant (x.drop len) (y.drop len))
    {x y : Str} (h : TagVariant x y) : TagVariant (replaceAll m 0 x) (replaceAll m 0 y) :=
  replaceAll_variant hinner hm x.length false x y (Nat.le_refl _) h

theorem inner_ne_bracket {c : Char} (h : isAsciiLetter c = true ∨ c = ']') : c ≠ '[' := by
  rintro rfl
  rcases h with h | h
  · exact absurd h (by decide)
  · exact absurd h (by decide)

theorem inner_ne_star {c : Char} (h : isAsciiLetter c = true ∨ c = ']') : c ≠ '*' := by
  rintro rfl
  rcases h with h | h
  · exact absurd h (by decide)
  · exact absurd h (by decide)

theorem matchLitCI_bracket_none {c : Char} (hc : c ≠ '[') (lit r : Str) :
    matchLitCI ('[' :: lit) (c :: r) = none :=
  matchLitCI_head_ne (fun h => hc (upper_bracket_of h)) _ _

theorem take_takeWhile_length (p : Char → Bool) (l : Str) :
    l.take (l.takeWhile p).length = l.takeWhile p := by
  have h := List.takeWhile_append_dropWhile p l
  have h2 : (l.takeWhile p ++ l.dropWhile p).take (l.takeWhile p).length = l.takeWhile p := by
    rw [List.take_left]
  rw [h] at h2
  exact h2

theorem drop_takeWhile_length (p : Char → Bool) (l : Str) :
    l.drop (l.takeWhile p).length = l.dropWhile p := by
  have h := List.takeWhile_append_dropWhile p l
  have h2 : (l.takeWhile p ++ l.dropWhile p).drop (l.takeWhile p).length = l.dropWhile p := by
    rw [List.drop_left]
  rw [h] at h2
  exact h2

/-- Cutting two variants where a run of characters ends. -/
theorem TagVariant.takeWhile_cut {p : Char → Bool} (hp : CaseBlind p)
    (hstop : ∀ c, p c = false → isAsciiLetter c = false ∧ c ≠ ']') {r r' : Str}
    (h : TagVariant r r') :
    (r.takeWhile p).length = (r'.takeWhile p).length ∧
    TagVariant (r.takeWhile p) (r'.takeWhile p) ∧
    TagVariant (r.dropWhile p) (r'.dropWhile p) := by
  have hlen := forall₂_takeWhile_length hp h.rel
  have hx : r = r.takeWhile p ++ r.dropWhile p := (List.takeWhile_append_dropWhile p r).symm
  have ht : r'.take (r.takeWhile p).length = r'.takeWhile p := by
    rw [hlen]
    exact take_takeWhile_length p r'
  have hd : r'.drop (r.takeWhile p).length = r'.dropWhile p := by
    rw [hlen]
    exact drop_takeWhile_length p r'
  refine ⟨hlen, ?_⟩
  cases hdw : r.dropWhile p with
  | nil =>
    have hr : r.takeWhile p = r := by
      rw [hdw, List.append_nil] at hx
      exact hx.symm
    have hc := h.cut_end (r.takeWhile p).length (by rw [hr])
    rw [ht, hd, List.take_of_length_le (by rw [hr]), List.drop_of_length_le (by rw [hr])] at hc
    rw [hr]
    exact hc
  | cons c rest =>
    have hpc : p c = false := by
      have := List.head?_dropWhile_not p r
      rw [hdw] at this
      simpa using this
    rw [hdw] at hx
    have h' := h
    rw [hx] at h'
    have hc := h'.cut_before (hstop c hpc).1 (hstop c hpc).2
    rw [ht, hd] at hc
    exact hc

theorem allSpace_variant {w y : Str} {b e : Bool} (hw : ∀ c ∈ w, isJsSpace c = true)
    (h : CaseSeg b e w y) : y = w ∧ b = e := by
  induction w generalizing b y with
  | nil =>
    obtain ⟨hb, hy⟩ := h.nil_left
    exact ⟨hy, hb⟩
  | cons c w' ih =>
    have hc := hw c (List.mem_cons_self _ _)
    have hw' : ∀ d ∈ w', isJsSpace d = true := fun d hd => hw d (List.mem_cons_of_mem _ hd)
    cases h with
    | same _ h' =>
      obtain ⟨hy, he⟩ := ih hw' h'
      exact ⟨by rw [hy], he⟩
    | enter h' => exact absurd hc (by decide)
    | letter _ d hl _ _ _ =>
      rw [not_space_of_letter hl] at hc
      exact absurd hc (by decide)
    | leave h' => exact absurd hc (by decide)

theorem forall₂_head_rel {x y : Str} (h : List.Forall₂ CaseRel x y) {d : Char}
    (hy : y.head? = some d) : ∃ c, x.head? = some c ∧ CaseRel c d := by
  cases h with
  | nil => simp at hy
  | cons hcd _ =>
    simp only [List.head?_cons, Option.some.injEq] at hy
    rw [← hy]
    exact ⟨_, rfl, hcd⟩

theorem forall₂_getLast_rel {x y : Str} (h : List.Forall₂ CaseRel x y) {d : Char}
    (hy : y.getLast? = some d) : ∃ c, x.getLast? = some c ∧ CaseRel c d := by
  induction h with
  | nil => simp at hy
  | cons hcd h' ih =>
    rename_i c0 d0 x' y'
    cases h' with
    | nil =>
      simp only [List.getLast?_singleton, Option.some.injEq] at hy
      rw [← hy]
      exact ⟨_, rfl, hcd⟩
    | cons hcd' h'' =>
      rw [List.getLast?_cons_cons] at hy ⊢
      exact ih hy

/-- Trimming keeps two variants variants of each other. -/
theorem jsTrim_variant {x y : Str} (h : TagVariant x y) : TagVariant (jsTrim x) (jsTrim y) := by
  obtain ⟨w1, w2, hx, hw1, hw2⟩ := jsTrim_decompose x
  have h' := h
  rw [hx, List.append_assoc] at h'
  obtain ⟨m1, h1, h2⟩ := CaseSeg.cut w1 h'
  obtain ⟨hy1, hm1⟩ := allSpace_variant hw1 h1
  subst hm1
  obtain ⟨m2, h3, h4⟩ := CaseSeg.cut (jsTrim x) h2
  obtain ⟨hy4, hm2⟩ := allSpace_variant hw2 h4
  subst hm2
  have hy : y = w1 ++ ((y.drop w1.length).take (jsTrim x).length ++ w2) := by
    conv_lhs => rw [← List.take_append_drop w1.length y,
      ← List.take_append_drop (jsTrim x).length (y.drop w1.length)]
    rw [hy1, hy4]
  have ht : jsTrim y = (y.drop w1.length).take (jsTrim x).length := by
    conv_lhs => rw [hy]
    rw [jsTrim_space_append hw1, jsTrim_append_space hw2]
    apply jsTrim_eq_self
    · intro d hd
      obtain ⟨c, hc, hcd⟩ := forall₂_head_rel h3.rel hd
      rw [← hcd.blind CaseBlind.space_blind]
      exact jsTrim_head_not_space x c hc
    · intro d hd
      obtain ⟨c, hc, hcd⟩ := forall₂_getLast_rel h3.rel hd
      rw [← hcd.blind CaseBlind.space_blind]
      exact jsTrim_getLast_not_space x c hc
  rw [ht]
  exact h3

theorem filter_variant {p : Char → Bool} (hopen : p '[' = true) (hclose : p ']' = true)
    (hletter : ∀ c, isAsciiLetter c = true → p c = true) {b e : Bool} {x y : Str}
    (h : CaseSeg b e x y) : CaseSeg b e (x.filter p) (y.filter p) := by
  induction h with
  | nil b => exact CaseSeg.nil b
  | same c _ ih =>
    rw [List.filter_cons, List.filter_cons]
    split
    · exact CaseSeg.same c ih
    · exact ih
  | enter _ ih =>
    rw [List.filter_cons_of_pos hopen, List.filter_cons_of_pos hopen]
    exact CaseSeg.enter ih
  | letter c d hc hd hu _ ih =>
    rw [List.filter_cons_of_pos (hletter c hc), List.filter_cons_of_pos (hletter d hd)]
    exact CaseSeg.letter c d hc hd hu ih
  | leave _ ih =>
    rw [List.filter_cons_of_pos hclose, List.filter_cons_of_pos hclose]
    exact CaseSeg.leave ih

/-! ## The passes of splitByLanguage under a change of letter case -/

theorem actionsToEndMatch_variant {x y : Str} (h : TagVariant x y) :
    (actionsToEndMatch x = none ∧ actionsToEndMatch y = none) ∨
      ∃ rep rep' len, actionsToEndMatch x = some (rep, len) ∧
        actionsToEndMatch y = some (rep', len) ∧ 1 ≤ len ∧ TagVariant rep rep' ∧
        TagVariant (x.drop len) (y.drop len) := by
  unfold actionsToEndMatch
  rcases matchLitCI_variant "[Actions]".toList (by decide) h with
    ⟨h1, h2⟩ | ⟨r, r', h1, h2, hr⟩
  · rw [h1, h2]
    exact Or.inl ⟨rfl, rfl⟩
  · rw [h1, h2]
    simp only
    rw [← forall₂_all CaseBlind.notLineTerminator hr.rel, ← CaseSeg.length_eq h]
    split
    · refine Or.inr ⟨[], [], x.length, rfl, rfl, ?_, TagVariant.nil_variant, ?_⟩
      · have := matchLitCI_length h1
        simp at this
        omega
      · have hl := CaseSeg.length_eq h
        rw [List.drop_of_length_le (Nat.le_refl _), List.drop_of_length_le (by omega)]
        exact TagVariant.nil_variant
    · exact Or.inl ⟨rfl, rfl⟩

theorem actionsToEndMatch_inner (c : Char) (r : Str) (h : isAsciiLetter c = true ∨ c = ']') :
    actionsToEndMatch (c :: r) = none := by
  unfold actionsToEndMatch
  rw [show "[Actions]".toList = '[' :: "Actions]".toList from rfl,
    matchLitCI_bracket_none (inner_ne_bracket h)]

theorem stop_at_open (c : Char) (h : (c != '[') = false) : isAsciiLetter c = false ∧ c ≠ ']' := by
  have hc : c = '[' := by simpa using h
  subst hc
  exact ⟨by decide, by decide⟩

theorem stop_at_star (c : Char) (h : (c != '*') = false) : isAsciiLetter c = false ∧ c ≠ ']' := by
  have hc : c = '*' := by simpa using h
  subst hc
  exact ⟨by decide, by decide⟩

theorem drop_add_of_eq_drop {x r : Str} {n : Nat} (h : r = x.drop n) (k : Nat) :
    x.drop (n + k) = r.drop k := by
  rw [h, List.drop_drop]

theorem tagBodyMatch_variant {tag : Str} (htag : tag.getLast? = some ']') {x y : Str}
    (h : TagVariant x y) :
    (tagBodyMatch tag x = none ∧ tagBodyMatch tag y = none) ∨
      ∃ rep rep' len, tagBodyMatch tag x = some (rep, len) ∧
        tagBodyMatch tag y = some (rep', len) ∧ 1 ≤ len ∧ TagVariant rep rep' ∧
        TagVariant (x.drop len) (y.drop len) := by
  unfold tagBodyMatch
  rcases matchLitCI_variant tag htag h with ⟨h1, h2⟩ | ⟨r, r', h1, h2, hr⟩
  · rw [h1, h2]
    exact Or.inl ⟨rfl, rfl⟩
  · rw [h1, h2]
    obtain ⟨hlen, -, hdrop⟩ := hr.takeWhile_cut (CaseBlind.ne '[' (by decide)) stop_at_open
    refine Or.inr ⟨[], [], _, rfl, by rw [hlen], ?_, TagVariant.nil_variant, ?_⟩
    · cases tag with
      | nil => simp at htag
      | cons t ts => simp; omega
    · rw [drop_add_of_eq_drop (matchLitCI_eq_drop h1), drop_add_of_eq_drop (matchLitCI_eq_drop h2),
        drop_takeWhile_length, hlen, drop_takeWhile_length]
      exact hdrop

theorem tagBodyMatch_inner (lit : Str) (c : Char) (r : Str)
    (h : isAsciiLetter c = true ∨ c = ']') : tagBodyMatch ('[' :: lit) (c :: r) = none := by
  unfold tagBodyMatch
  rw [matchLitCI_bracket_none (inner_ne_bracket h)]

theorem stripPrefix_stars_variant {a b : Str} (h : TagVariant a b) :
    (stripPrefix "**".toList a = none ∧ stripPrefix "**".toList b = none) ∨
      ∃ r r', stripPrefix "**".toList a = some r ∧ stripPrefix "**".toList b = some r' ∧
        a = '*' :: '*' :: r ∧ b = '*' :: '*' :: r' ∧ TagVariant r r' := by
  cases a with
  | nil =>
    obtain ⟨-, rfl⟩ := h.nil_left
    exact Or.inl ⟨rfl, rfl⟩
  | cons c a' =>
    by_cases hc : c = '*'
    · subst hc
      obtain ⟨b', rfl, h'⟩ := h.cons_same (by decide)
      cases a' with
      | nil =>
        obtain ⟨-, rfl⟩ := CaseSeg.nil_left h'
        exact Or.inl ⟨rfl, rfl⟩
      | cons d a'' =>
        by_cases hd : d = '*'
        · subst hd
          obtain ⟨b'', rfl, h''⟩ := TagVariant.cons_same (by decide) h'
          exact Or.inr ⟨a'', b'', rfl, rfl, rfl, rfl, h''⟩
        · obtain ⟨b'', rfl⟩ := TagVariant.cons_inv h'
          left
          constructor
          · show stripPrefix ('*' :: ['*']) ('*' :: d :: a'') = none
            simp [stripPrefix, hd]
          · show stripPrefix ('*' :: ['*']) ('*' :: d :: b'') = none
            simp [stripPrefix, hd]
    · obtain ⟨b', rfl⟩ := h.cons_inv
      exact Or.inl ⟨stripPrefix_stars_none hc _, stripPrefix_stars_none hc _⟩

theorem starGroupMatch_id_variant {x y : Str} (h : TagVariant x y) :
    (starGroupMatch id x = none ∧ starGroupMatch id y = none) ∨
      ∃ rep rep' len, starGroupMatch id x = some (rep, len) ∧
        starGroupMatch id y = some (rep', len) ∧ 1 ≤ len ∧ TagVariant rep rep' ∧
        TagVariant (x.drop len) (y.drop len) := by
  unfold starGroupMatch
  rcases stripPrefix_stars_variant h with ⟨h1, h2⟩ | ⟨r, r', h1, h2, hx, hy, hr⟩
  · rw [h1, h2]
    exact Or.inl ⟨rfl, rfl⟩
  · rw [h1, h2]
    simp only
    obtain ⟨hlen, htake, hdrop⟩ :=
      hr.takeWhile_cut (CaseBlind.ne '*' (by decide)) stop_at_star
    by_cases hb : r.takeWhile (fun c => c != '*') = []
    · have hb' : r'.takeWhile (fun c => c != '*') = [] := by
        rw [hb] at hlen
        exact List.length_eq_zero.1 hlen.symm
      rw [if_pos hb, if_pos hb']
      exact Or.inl ⟨rfl, rfl⟩
    · have hb' : r'.takeWhile (fun c => c != '*') ≠ [] := by
        intro e
        rw [e] at hlen
        exact hb (List.length_eq_zero.1 hlen)
      rw [if_neg hb, if_neg hb']
      rcases stripPrefix_stars_variant hdrop with ⟨h3, h4⟩ | ⟨r2, r2', h3, h4, hx2, hy2, hr2⟩
      · rw [h3, h4]
        exact Or.inl ⟨rfl, rfl⟩
      · rw [h3, h4]
        refine Or.inr ⟨_, _, _, rfl, by rw [hlen]; rfl, by omega, htake, ?_⟩
        have e1 : x.drop ((r.takeWhile (fun c => c != '*')).length + 4) = r2 := by
          have : x = '*' :: '*' :: (r.takeWhile (fun c => c != '*') ++ '*' :: '*' :: r2) := by
            rw [hx, ← hx2, List.takeWhile_append_dropWhile]
          rw [this]
          simp
        have e2 : y.drop ((r.takeWhile (fun c => c != '*')).length + 4) = r2' := by
          have : y = '*' :: '*' :: (r'.takeWhile (fun c => c != '*') ++ '*' :: '*' :: r2') := by
            rw [hy, ← hy2, List.takeWhile_append_dropWhile]
          rw [this, hlen]
          simp
        rw [e1, e2]
        exact hr2

theorem starGroupMatch_inner (wrap : Str → Str) (c : Char) (r : Str)
    (h : isAsciiLetter c = true ∨ c = ']') : starGroupMatch wrap (c :: r) = none := by
  unfold starGroupMatch
  rw [stripPrefix_stars_none (inner_ne_star h)]

/-- The text that `splitByLanguage` scans, for two variants: two variants. -/
theorem speechText_variant {x y : Str} (h : TagVariant x y) :
    TagVariant (speechText x) (speechText y) := by
  unfold speechText
  simp only
  have h1 := jsTrim_variant
    (replaceAll_tagVariant actionsToEndMatch_inner (fun _ _ => actionsToEndMatch_variant) h)
  have h2 := replaceAll_tagVariant (m := tagBodyMatch "[Table]".toList)
    (tagBodyMatch_inner "Table]".toList)
    (fun _ _ => tagBodyMatch_variant (by decide)) h1
  have h3 := replaceAll_tagVariant (m := tagBodyMatch "[Tip]".toList)
    (tagBodyMatch_inner "Tip]".toList)
    (fun _ _ => tagBodyMatch_variant (by decide)) h2
  have h4 := replaceAll_tagVariant (m := starGroupMatch id) (starGroupMatch_inner id)
    (fun _ _ => starGroupMatch_id_variant) h3
  exact filter_variant (by decide) (by decide)
    (fun c hc => by simp [not_markdown_of_letter hc]) h4

/-! ## The segments of two variants -/

theorem lazyBody_variant (names : List Str) {x y : Str} (h : TagVariant x y) :
    lazyBody (tagOrEnd names) x = lazyBody (tagOrEnd names) y ∧
      ∀ b, lazyBody (tagOrEnd names) x = some b →
        TagVariant (x.drop b.length) (y.drop b.length) := by
  induction x generalizing y with
  | nil =>
    obtain ⟨-, rfl⟩ := h.nil_left
    refine ⟨rfl, ?_⟩
    intro b _
    simp only [List.drop_nil]
    exact TagVariant.nil_variant
  | cons c x' ih =>
    obtain ⟨y', rfl⟩ := h.cons_inv
    rw [lazyBody_cons, lazyBody_cons, ← tagOrEnd_variant names h]
    by_cases hlook : tagOrEnd names (c :: x') = true
    · simp only [if_pos hlook]
      refine ⟨trivial, ?_⟩
      intro b hb
      simp only [Option.some.injEq] at hb
      rw [← hb]
      exact h
    · simp only [if_neg hlook]
      by_cases hbr : c = '[' ∨ c = ']'
      · simp only [if_pos hbr]
        exact ⟨trivial, fun b hb => absurd hb (by simp)⟩
      · simp only [if_neg hbr]
        have hc : c ≠ '[' := fun e => hbr (Or.inl e)
        obtain ⟨y'', hy, h'⟩ := h.cons_same hc
        simp only [List.cons.injEq, true_and] at hy
        subst hy
        obtain ⟨ih1, ih2⟩ := ih h'
        rw [ih1]
        refine ⟨rfl, ?_⟩
        intro b hb
        cases hl : lazyBody (tagOrEnd names) y' with
        | none => rw [hl] at hb; simp at hb
        | some b' =>
          rw [hl] at hb
          simp only [Option.map_some', Option.some.injEq] at hb
          rw [← hb]
          simp only [List.length_cons, List.drop_succ_cons]
          exact ih2 b' (by rw [ih1, hl])

theorem spacesThenBody_variant (names : List Str) {x y : Str} (h : TagVariant x y) :
    spacesThenBody (tagOrEnd names) x = spacesThenBody (tagOrEnd names) y ∧
      ∀ k b, spacesThenBody (tagOrEnd names) x = some (k, b) →
        TagVariant (x.drop (k + b.length)) (y.drop (k + b.length)) := by
  have hlazy : ∀ {x y : Str}, TagVariant x y →
      (lazyBody (tagOrEnd names) x).map (fun b => ((0 : Nat), b)) =
        (lazyBody (tagOrEnd names) y).map (fun b => ((0 : Nat), b)) ∧
      ∀ k b, (lazyBody (tagOrEnd names) x).map (fun b => ((0 : Nat), b)) = some (k, b) →
        TagVariant (x.drop (k + b.length)) (y.drop (k + b.length)) := by
    intro x y hxy
    obtain ⟨h1, h2⟩ := lazyBody_variant names hxy
    refine ⟨by rw [h1], ?_⟩
    intro k b hb
    cases hl : lazyBody (tagOrEnd names) x with
    | none => rw [hl] at hb; simp at hb
    | some b' =>
      rw [hl] at hb
      simp only [Option.map_some', Option.some.injEq, Prod.mk.injEq] at hb
      rw [← hb.1, ← hb.2, Nat.zero_add]
      exact h2 b' hl
  induction x generalizing y with
  | nil =>
    obtain ⟨-, rfl⟩ := h.nil_left
    refine ⟨rfl, ?_⟩
    intro k b _
    simp only [List.drop_nil]
    exact TagVariant.nil_variant
  | cons c x' ih =>
    obtain ⟨y', rfl⟩ := h.cons_inv
    unfold spacesThenBody
    by_cases hsp : isJsSpace c = true
    · rw [if_pos hsp, if_pos hsp]
      have hc : c ≠ '[' := by
        rintro rfl
        exact absurd hsp (by decide)
      obtain ⟨y'', hy, h'⟩ := h.cons_same hc
      simp only [List.cons.injEq, true_and] at hy
      subst hy
      obtain ⟨ih1, ih2⟩ := ih h'
      rw [← ih1]
      cases hs : spacesThenBody (tagOrEnd names) x' with
      | some res =>
        obtain ⟨k, b⟩ := res
        refine ⟨rfl, ?_⟩
        intro k2 b2 hb
        simp only [Option.some.injEq, Prod.mk.injEq] at hb
        rw [← hb.1, ← hb.2]
        have := ih2 k b hs
        rw [show k + 1 + b.length = (k + b.length) + 1 by omega]
        exact this
      | none => exact hlazy h
    · rw [if_neg hsp, if_neg hsp]
      exact hlazy h

theorem segmentAt_variant (names : List Str) {x y : Str} (h : TagVariant x y) :
    (segmentAt names x = none ∧ segmentAt names y = none) ∨
      ∃ name name' body len, segmentAt names x = some (name, body, len) ∧
        segmentAt names y = some (name', body, len) ∧
        name.map Char.toLower = name'.map Char.toLower ∧ 1 ≤ len ∧
        TagVariant (x.drop len) (y.drop len) := by
  unfold segmentAt
  rcases matchTag_variant names h with ⟨h1, h2⟩ | ⟨nm, nm', rest, rest', h1, h2, hlow, hlen, hr⟩
  · rw [h1, h2]
    exact Or.inl ⟨rfl, rfl⟩
  · rw [h1, h2]
    simp only
    obtain ⟨hs1, hs2⟩ := spacesThenBody_variant names hr
    rw [← hs1]
    cases hs : spacesThenBody (tagOrEnd names) rest with
    | none => exact Or.inl ⟨rfl, rfl⟩
    | some res =>
      obtain ⟨k, b⟩ := res
      refine Or.inr ⟨nm, nm', b, nm.length + 2 + k + b.length, rfl, ?_, hlow, by omega, ?_⟩
      · simp only [Option.map_some', hlen]
      · have hx := (matchTag_some_isTagName h1).1
        have hy := (matchTag_some_isTagName h2).1
        have e1 : x.drop (nm.length + 2 + k + b.length) = rest.drop (k + b.length) := by
          rw [hx, show nm.length + 2 + k + b.length = (nm.length + (k + b.length + 1)) + 1
            by omega, List.drop_succ_cons, ← List.drop_drop, List.drop_left,
            List.drop_succ_cons]
        have e2 : y.drop (nm.length + 2 + k + b.length) = rest'.drop (k + b.length) := by
          rw [hy, hlen, show nm'.length + 2 + k + b.length = (nm'.length + (k + b.length + 1)) + 1
            by omega, List.drop_succ_cons, ← List.drop_drop, List.drop_left,
            List.drop_succ_cons]
        rw [e1, e2]
        exact hs2 k b hs

theorem scanSegments_drop (names : List Str) (k : Nat) (x : Str) :
    scanSegments names k x = scanSegments names 0 (x.drop k) := by
  induction x generalizing k with
  | nil => rw [scanSegments_nil, List.drop_nil, scanSegments_nil]
  | cons c cs ih =>
    cases k with
    | zero => rfl
    | succ k' => rw [scanSegments_succ_cons, List.drop_succ_cons, ih]

theorem scanSegments_cons_some (names : List Str) {c : Char} {cs name body : Str} {len : Nat}
    (h : segmentAt names (c :: cs) = some (name, body, len)) :
    scanSegments names 0 (c :: cs) =
      ⟨name.map Char.toLower, jsTrim body⟩ :: scanSegments names (len - 1) cs := by
  rw [scanSegments_zero_cons, h]

/-- The parser yields the same segments for two variants. -/
theorem scanSegments_variant (names : List Str) :
    ∀ (n : Nat) (b : Bool) (x y : Str), x.length ≤ n → CaseSeg b false x y →
      scanSegments names 0 x = scanSegments names 0 y := by
  intro n
  induction n with
  | zero =>
    intro b x y hn h
    have hx : x = [] := List.length_eq_zero.1 (Nat.le_zero.1 hn)
    subst hx
    obtain ⟨-, rfl⟩ := h.nil_left
    rfl
  | succ n ih =>
    have houter : ∀ (c : Char) (x' y' : Str) (b' : Bool), (c :: x').length ≤ n + 1 →
        TagVariant (c :: x') (c :: y') → CaseSeg b' false x' y' →
        scanSegments names 0 (c :: x') = scanSegments names 0 (c :: y') := by
      intro c x' y' b' hn hxy h'
      rcases segmentAt_variant names hxy with
        ⟨h1, h2⟩ | ⟨name, name', body, len, h1, h2, hlow, hlen, hdrop⟩
      · rw [scanSegments_cons_none names h1, scanSegments_cons_none names h2]
        exact ih b' _ _ (by simp at hn; omega) h'
      · rw [scanSegments_cons_some names h1, scanSegments_cons_some names h2, hlow,
          scanSegments_drop names (len - 1) x', scanSegments_drop names (len - 1) y']
        have e1 : (c :: x').drop len = x'.drop (len - 1) := by
          cases len with
          | zero => omega
          | succ k => rfl
        have e2 : (c :: y').drop len = y'.drop (len - 1) := by
          cases len with
          | zero => omega
          | succ k => rfl
        rw [e1, e2] at hdrop
        rw [ih false _ _ (by simp only [List.length_drop, List.length_cons] at hn ⊢; omega) hdrop]
    intro b x y hn h
    cases h with
    | nil => rfl
    | same c h' => exact houter c _ _ false hn (CaseSeg.same c h') h'
    | enter h' => exact houter '[' _ _ true hn (CaseSeg.enter h') h'
    | letter c d hc hd hu h' =>
      rw [scanSegments_cons_none names (segmentAt_not_bracket names
          (inner_ne_bracket (Or.inl hc)) _),
        scanSegments_cons_none names (segmentAt_not_bracket names
          (inner_ne_bracket (Or.inl hd)) _)]
      exact ih true _ _ (by simp at hn; omega) h'
    | leave h' =>
      rw [scanSegments_cons_none names (segmentAt_not_bracket names (by decide) _),
        scanSegments_cons_none names (segmentAt_not_bracket names (by decide) _)]
      exact ih false _ _ (by simp at hn; omega) h'

theorem scanSegments_tagVariant (names : List Str) {x y : Str} (h : TagVariant x y) :
    scanSegments names 0 x = scanSegments names 0 y :=
  scanSegments_variant names x.length false x y (Nat.le_refl _) h

/-! ## The removal of bracket groups -/

theorem CaseSeg.close_mem {e : Bool} {x y : Str} (h : CaseSeg true e x y) (he : e = false) :
    ']' ∈ x := by
  generalize hb : true = b at h
  induction h with
  | nil b' =>
    subst hb
    exact absurd he (by decide)
  | same c _ _ => exact absurd hb (by decide)
  | enter _ _ => exact absurd hb (by decide)
  | letter c d _ _ _ _ ih => exact List.mem_cons_of_mem _ (ih he hb)
  | leave _ _ => exact List.mem_cons_self _ _

/-- Where the first `]` of two variants stands, and what follows it. -/
theorem close_cut {b : Bool} {r r' : Str} (h : CaseSeg b false r r') :
    (r.takeWhile (fun c => c != ']')).length = (r'.takeWhile (fun c => c != ']')).length ∧
    ((r.dropWhile (fun c => c != ']') = [] ∧ r'.dropWhile (fun c => c != ']') = []) ∨
      ∃ t t', r.dropWhile (fun c => c != ']') = ']' :: t ∧
        r'.dropWhile (fun c => c != ']') = ']' :: t' ∧ TagVariant t t') := by
  have hlen := forall₂_takeWhile_length (CaseBlind.ne ']' (by decide)) h.rel
  refine ⟨hlen, ?_⟩
  have hl := CaseSeg.length_eq h
  have hx := (List.takeWhile_append_dropWhile (fun c => c != ']') r).symm
  have hy := (List.takeWhile_append_dropWhile (fun c => c != ']') r').symm
  cases hd : r.dropWhile (fun c => c != ']') with
  | nil =>
    left
    refine ⟨rfl, ?_⟩
    have h1 := congrArg List.length hx
    have h2 := congrArg List.length hy
    rw [List.length_append, hd] at h1
    rw [List.length_append] at h2
    simp only [List.length_nil] at h1
    exact List.length_eq_zero.1 (by omega)
  | cons c t =>
    right
    have hc : c = ']' := by
      have := List.head?_dropWhile_not (fun c => c != ']') r
      rw [hd] at this
      simpa using this
    subst hc
    rw [hd] at hx
    have h' := h
    rw [hx, show r.takeWhile (fun c => c != ']') ++ ']' :: t =
      (r.takeWhile (fun c => c != ']') ++ [']']) ++ t by simp] at h'
    obtain ⟨m, h1, h2⟩ := CaseSeg.cut _ h'
    have hm := h1.last_state (c := ']') (by simp) (by decide) (by decide)
    subst hm
    have hdrop : r'.drop (r.takeWhile (fun c => c != ']') ++ [']']).length =
        (r'.dropWhile (fun c => c != ']')).drop 1 := by
      rw [List.length_append, hlen, ← List.drop_drop, drop_takeWhile_length]
      rfl
    rw [hdrop] at h2
    cases hd' : r'.dropWhile (fun c => c != ']') with
    | nil =>
      exfalso
      have h3 := congrArg List.length hx
      have h4 := congrArg List.length hy
      rw [List.length_append] at h3 h4
      rw [hd'] at h4
      simp only [List.length_cons, List.length_nil] at h3 h4
      omega
    | cons d t' =>
      have hdc : d = ']' := by
        have := List.head?_dropWhile_not (fun c => c != ']') r'
        rw [hd'] at this
        simpa using this
      subst hdc
      rw [hd'] at h2
      exact ⟨t, t', rfl, rfl, h2⟩

theorem bracketGroupMatch_variant {b : Bool} {r r' : Str} (h : CaseSeg b false r r') :
    (bracketGroupMatch ('[' :: r) = none ∧ bracketGroupMatch ('[' :: r') = none) ∨
      ∃ len, bracketGroupMatch ('[' :: r) = some ([], len) ∧
        bracketGroupMatch ('[' :: r') = some ([], len) ∧ 1 ≤ len ∧
        TagVariant (('[' :: r).drop len) (('[' :: r').drop len) := by
  obtain ⟨hlen, hcase⟩ := close_cut h
  unfold bracketGroupMatch
  simp only
  rcases hcase with ⟨h1, h2⟩ | ⟨t, t', h1, h2, ht⟩
  · rw [h1, h2]
    exact Or.inl ⟨rfl, rfl⟩
  · rw [h1, h2]
    refine Or.inr ⟨_, rfl, by rw [hlen]; rfl, by omega, ?_⟩
    have e1 : ('[' :: r).drop ((r.takeWhile (fun c => c != ']')).length + 2) = t := by
      rw [List.drop_succ_cons, ← List.drop_drop, drop_takeWhile_length, h1]
      rfl
    have e2 : ('[' :: r').drop ((r.takeWhile (fun c => c != ']')).length + 2) = t' := by
      rw [hlen, List.drop_succ_cons, ← List.drop_drop, drop_takeWhile_length, h2]
      rfl
    rw [e1, e2]
    exact ht

theorem bracketGroupMatch_not_bracket {c : Char} (hc : c ≠ '[') (r : Str) :
    bracketGroupMatch (c :: r) = none := by
  unfold bracketGroupMatch
  split
  · rename_i heq
    simp only [List.cons.injEq] at heq
    exact absurd heq.1 hc
  · rfl

/-- The removal of the bracket groups gives the same text for two variants. -/
theorem replaceAll_bracketGroup_variant :
    ∀ (n : Nat) (x y : Str), x.length ≤ n → TagVariant x y →
      replaceAll bracketGroupMatch 0 x = replaceAll bracketGroupMatch 0 y := by
  intro n
  induction n with
  | zero =>
    intro x y hn h
    have hx : x = [] := List.length_eq_zero.1 (Nat.le_zero.1 hn)
    subst hx
    obtain ⟨-, rfl⟩ := h.nil_left
    rfl
  | succ n ih =>
    have hsome : ∀ (c : Char) (x' y' : Str) (len : Nat), (c :: x').length ≤ n + 1 →
        bracketGroupMatch (c :: x') = some ([], len) →
        bracketGroupMatch (c :: y') = some ([], len) → 1 ≤ len →
        TagVariant ((c :: x').drop len) ((c :: y').drop len) →
        replaceAll bracketGroupMatch 0 (c :: x') = replaceAll bracketGroupMatch 0 (c :: y') := by
      intro c x' y' len hn h1 h2 hlen hdrop
      rw [replaceAll_zero_cons_some h1, replaceAll_zero_cons_some h2,
        replaceAll_drop _ (len - 1) x', replaceAll_drop _ (len - 1) y']
      have e1 : (c :: x').drop len = x'.drop (len - 1) := by
        cases len with
        | zero => omega
        | succ k => rfl
      have e2 : (c :: y').drop len = y'.drop (len - 1) := by
        cases len with
        | zero => omega
        | succ k => rfl
      rw [e1, e2] at hdrop
      rw [ih _ _ (by simp only [List.length_drop, List.length_cons] at hn ⊢; omega) hdrop]
    intro x y hn h
    cases h with
    | nil => rfl
    | same c h' =>
      by_cases hc : c = '['
      · subst hc
        rcases bracketGroupMatch_variant h' with ⟨h1, h2⟩ | ⟨len, h1, h2, hlen, hdrop⟩
        · rw [replaceAll_zero_cons_none h1, replaceAll_zero_cons_none h2,
            ih _ _ (by simp at hn; omega) h']
        · exact hsome _ _ _ len hn h1 h2 hlen hdrop
      · rw [replaceAll_zero_cons_none (bracketGroupMatch_not_bracket hc _),
          replaceAll_zero_cons_none (bracketGroupMatch_not_bracket hc _),
          ih _ _ (by simp at hn; omega) h']
    | enter h' =>
      rcases bracketGroupMatch_variant h' with ⟨h1, h2⟩ | ⟨len, h1, h2, hlen, hdrop⟩
      · exfalso
        have hmem := h'.close_mem rfl
        unfold bracketGroupMatch at h1
        simp only at h1
        rename_i x' y'
        cases hd : x'.dropWhile (fun c => c != ']') with
        | nil =>
          have hall := List.dropWhile_eq_nil_iff.1 hd
          have := hall ']' hmem
          simp at this
        | cons d t =>
          have hdc : d = ']' := by
            have := List.head?_dropWhile_not (fun c => c != ']') x'
            rw [hd] at this
            simpa using this
          rw [hd, hdc] at h1
          simp at h1
      · exact hsome _ _ _ len hn h1 h2 hlen hdrop

/-! ## splitByLanguage -/

/-- The segments to speak are the same for two variants. -/
theorem splitByLanguage_variant {x y : Str} (h : TagVariant x y) :
    splitByLanguage x = splitByLanguage y := by
  have ht := speechText_variant h
  have hs := scanSegments_tagVariant speechTags ht
  have hb := replaceAll_bracketGroup_variant _ _ _ (Nat.le_refl _) ht
  have hj : (jsTrim (speechText x) ≠ []) ↔ (jsTrim (speechText y) ≠ []) := by
    have hl := CaseSeg.length_eq (jsTrim_variant ht)
    constructor
    · intro h1 h2
      rw [h2] at hl
      exact h1 (List.length_eq_zero.1 hl)
    · intro h1 h2
      rw [h2] at hl
      exact h1 (List.length_eq_zero.1 hl.symm)
  unfold splitByLanguage
  simp only [hs, hb]
  by_cases hc : scanSegments speechTags 0 (speechText y) = [] ∧ jsTrim (speechText x) ≠ []
  · have hc' : scanSegments speechTags 0 (speechText y) = [] ∧ jsTrim (speechText y) ≠ [] :=
      ⟨hc.1, hj.1 hc.2⟩
    rw [if_pos hc, if_pos hc']
  · have hc' : ¬ (scanSegments speechTags 0 (speechText y) = [] ∧
        jsTrim (speechText y) ≠ []) := fun h2 => hc ⟨h2.1, hj.2 h2.2⟩
    rw [if_neg hc, if_neg hc']

/-! ## removeActionsTag and formatMessageContent under a change of letter case -/

theorem dotPlusToEnd_variant {s s' : Str} (h : TagVariant s s') :
    (dotPlusToEnd s = none ∧ dotPlusToEnd s' = none) ∨
      (dotPlusToEnd s = some s ∧ dotPlusToEnd s' = some s') := by
  unfold dotPlusToEnd
  have hall := forall₂_all CaseBlind.notLineTerminator h.rel
  have hl := CaseSeg.length_eq h
  have hne : s ≠ [] ↔ s' ≠ [] := by
    cases s <;> cases s' <;> simp at hl ⊢
  by_cases hc : s ≠ [] ∧ s.all (fun c => !isLineTerminator c) = true
  · have hc' : s' ≠ [] ∧ s'.all (fun c => !isLineTerminator c) = true :=
      ⟨hne.1 hc.1, by rw [← hall]; exact hc.2⟩
    rw [if_pos hc, if_pos hc']
    exact Or.inr ⟨rfl, rfl⟩
  · have hc' : ¬ (s' ≠ [] ∧ s'.all (fun c => !isLineTerminator c) = true) :=
      fun h2 => hc ⟨hne.2 h2.1, by rw [hall]; exact h2.2⟩
    rw [if_neg hc, if_neg hc']
    exact Or.inl ⟨rfl, rfl⟩

theorem spacesThenRest_variant {r r' : Str} (h : TagVariant r r') :
    (spacesThenRest r = none ∧ spacesThenRest r' = none) ∨
      ∃ g g', spacesThenRest r = some g ∧ spacesThenRest r' = some g' ∧ TagVariant g g' := by
  have hdot : ∀ {s s' : Str}, TagVariant s s' →
      (dotPlusToEnd s = none ∧ dotPlusToEnd s' = none) ∨
        ∃ g g', dotPlusToEnd s = some g ∧ dotPlusToEnd s' = some g' ∧ TagVariant g g' := by
    intro s s' hs
    rcases dotPlusToEnd_variant hs with h1 | h1
    · exact Or.inl h1
    · exact Or.inr ⟨s, s', h1.1, h1.2, hs⟩
  induction r generalizing r' with
  | nil =>
    obtain ⟨-, rfl⟩ := h.nil_left
    exact Or.inl ⟨rfl, rfl⟩
  | cons c cs ih =>
    obtain ⟨r'', rfl⟩ := h.cons_inv
    unfold spacesThenRest
    by_cases hsp : isJsSpace c = true
    · rw [if_pos hsp, if_pos hsp]
      have hc : c ≠ '[' := by
        rintro rfl
        exact absurd hsp (by decide)
      obtain ⟨y'', hy, h'⟩ := h.cons_same hc
      simp only [List.cons.injEq, true_and] at hy
      subst hy
      rcases ih h' with ⟨h1, h2⟩ | ⟨g, g', h1, h2, hg⟩
      · rw [h1, h2]
        exact hdot h
      · rw [h1, h2]
        exact Or.inr ⟨g, g', rfl, rfl, hg⟩
    · rw [if_neg hsp, if_neg hsp]
      exact hdot h

theorem actionsAt_variant {x y : Str} (h : TagVariant x y) :
    (actionsAt x = none ∧ actionsAt y = none) ∨
      ∃ g g', actionsAt x = some g ∧ actionsAt y = some g' ∧ TagVariant g g' := by
  unfold actionsAt
  rcases matchLitCI_variant "[Actions]".toList (by decide) h with
    ⟨h1, h2⟩ | ⟨r, r', h1, h2, hr⟩
  · rw [h1, h2]
    exact Or.inl ⟨rfl, rfl⟩
  · rw [h1, h2]
    exact spacesThenRest_variant hr

theorem actionsSearch_cons_some {c : Char} {cs g : Str} (h : actionsAt (c :: cs) = some g) :
    actionsSearch (c :: cs) = some ([], g) := by
  simp [actionsSearch, h]

theorem actionsSearch_cons_of_none {c : Char} {cs : Str} (h : actionsAt (c :: cs) = none) :
    actionsSearch (c :: cs) = (actionsSearch cs).map (fun r => (c :: r.1, r.2)) := by
  simp [actionsSearch, h]

/-- The leftmost match of the actions expression in two variants: at the same
place, so that the texts before it are variants and the captured lists too. -/
theorem actionsSearch_variant {b e : Bool} {x y : Str} (h : CaseSeg b e x y) (he : e = false) :
    (actionsSearch x = none ∧ actionsSearch y = none) ∨
      ∃ p p' g g', actionsSearch x = some (p, g) ∧ actionsSearch y = some (p', g') ∧
        CaseSeg b false p p' ∧ TagVariant g g' := by
  induction h with
  | nil b' => exact Or.inl ⟨rfl, rfl⟩
  | same c h' ih =>
    subst he
    rcases actionsAt_variant (CaseSeg.same c h') with ⟨h1, h2⟩ | ⟨g, g', h1, h2, hg⟩
    · rw [actionsSearch_cons_of_none h1, actionsSearch_cons_of_none h2]
      rcases ih rfl with ⟨i1, i2⟩ | ⟨p, p', g, g', i1, i2, hp, hg⟩
      · rw [i1, i2]
        exact Or.inl ⟨rfl, rfl⟩
      · rw [i1, i2]
        exact Or.inr ⟨_, _, g, g', rfl, rfl, CaseSeg.same c hp, hg⟩
    · rw [actionsSearch_cons_some h1, actionsSearch_cons_some h2]
      exact Or.inr ⟨[], [], g, g', rfl, rfl, CaseSeg.nil false, hg⟩
  | enter h' ih =>
    subst he
    rcases actionsAt_variant (CaseSeg.enter h') with ⟨h1, h2⟩ | ⟨g, g', h1, h2, hg⟩
    · rw [actionsSearch_cons_of_none h1, actionsSearch_cons_of_none h2]
      rcases ih rfl with ⟨i1, i2⟩ | ⟨p, p', g, g', i1, i2, hp, hg⟩
      · rw [i1, i2]
        exact Or.inl ⟨rfl, rfl⟩
      · rw [i1, i2]
        exact Or.inr ⟨_, _, g, g', rfl, rfl, CaseSeg.enter hp, hg⟩
    · rw [actionsSearch_cons_some h1, actionsSearch_cons_some h2]
      exact Or.inr ⟨[], [], g, g', rfl, rfl, CaseSeg.nil false, hg⟩
  | letter c d hc hd hu h' ih =>
    rw [actionsSearch_cons_of_none (actionsAt_not_bracket (inner_ne_bracket (Or.inl hc)) _),
      actionsSearch_cons_of_none (actionsAt_not_bracket (inner_ne_bracket (Or.inl hd)) _)]
    rcases ih he with ⟨i1, i2⟩ | ⟨p, p', g, g', i1, i2, hp, hg⟩
    · rw [i1, i2]
      exact Or.inl ⟨rfl, rfl⟩
    · rw [i1, i2]
      exact Or.inr ⟨_, _, g, g', rfl, rfl, CaseSeg.letter c d hc hd hu hp, hg⟩
  | leave h' ih =>
    rw [actionsSearch_cons_of_none (actionsAt_not_bracket (by decide) _),
      actionsSearch_cons_of_none (actionsAt_not_bracket (by decide) _)]
    rcases ih he with ⟨i1, i2⟩ | ⟨p, p', g, g', i1, i2, hp, hg⟩
    · rw [i1, i2]
      exact Or.inl ⟨rfl, rfl⟩
    · rw [i1, i2]
      exact Or.inr ⟨_, _, g, g', rfl, rfl, CaseSeg.leave hp, hg⟩

theorem removeActionsTag_variant {x y : Str} (h : TagVariant x y) :
    TagVariant (removeActionsTag x) (removeActionsTag y) := by
  unfold removeActionsTag
  rcases actionsSearch_variant h rfl with ⟨h1, h2⟩ | ⟨p, p', g, g', h1, h2, hp, -⟩
  · rw [h1, h2]
    exact jsTrim_variant h
  · rw [h1, h2]
    exact jsTrim_variant hp

/-- The display parser yields the same segments for two variants. -/
theorem displaySegments_variant {x y : Str} (h : TagVariant x y) :
    displaySegments x = displaySegments y :=
  scanSegments_tagVariant displayTags (removeActionsTag_variant h)

theorem formatMessageContent_variant {x y : Str} (h : TagVariant x y)
    (hseg : displaySegments x ≠ []) (b : Bool) :
    formatMessageContent x b = formatMessageContent y b := by
  have hd := displaySegments_variant h
  rw [formatMessageContent_eq_renderEnd x b hseg,
    formatMessageContent_eq_renderEnd y b (by rw [← hd]; exact hseg), hd]

/-! ## extractActions under a change of letter case -/

theorem upper_close_of {c : Char} (h : c.toUpper = ']'.toUpper) : c = ']' := by
  apply char_eq_of_toNat_eq
  have hn := congrArg Char.toNat h
  rw [toNat_toUpper, toNat_toUpper] at hn
  have h93 : ']'.toNat = 93 := by decide
  rw [h93] at hn ⊢
  split_ifs at hn <;> omega

theorem letter_upper_ne_close {c : Char} (h : isAsciiLetter c = true) :
    ¬ c.toUpper = ']'.toUpper := by
  intro e
  rw [upper_close_of e] at h
  exact absurd h (by decide)

theorem letter_of_upper_eq {c d : Char} (hd : isAsciiLetter d = true)
    (h : c.toUpper = d.toUpper) : isAsciiLetter c = true := by
  have hn := congrArg Char.toNat h
  rw [toNat_toUpper, toNat_toUpper] at hn
  have hdn := letter_toNat hd
  unfold isAsciiLetter
  simp only [Bool.or_eq_true, Bool.and_eq_true, decide_eq_true_eq]
  split_ifs at hn <;> omega

/-- A literal made of letters and a final `]`, matched against a bracketed word of
letters: the word is the literal up to the letter case. -/
theorem matchLitCI_word {w nm s r : Str} (hw : ∀ c ∈ w, isAsciiLetter c = true)
    (hnm : ∀ c ∈ nm, isAsciiLetter c = true)
    (h : matchLitCI (w ++ [']']) (nm ++ ']' :: s) = some r) :
    nm.map Char.toUpper = w.map Char.toUpper ∧ r = s := by
  induction w generalizing nm with
  | nil =>
    cases nm with
    | nil =>
      simp only [List.nil_append, matchLitCI, if_true, Option.some.injEq] at h
      exact ⟨rfl, h.symm⟩
    | cons c nm' =>
      exfalso
      simp only [List.nil_append, List.cons_append, matchLitCI] at h
      rw [if_neg (letter_upper_ne_close (hnm c (List.mem_cons_self _ _)))] at h
      simp at h
  | cons a w' ih =>
    cases nm with
    | nil =>
      exfalso
      simp only [List.nil_append, List.cons_append, matchLitCI] at h
      have : ¬ ']'.toUpper = a.toUpper :=
        fun e => letter_upper_ne_close (hw a (List.mem_cons_self _ _)) e.symm
      rw [if_neg this] at h
      simp at h
    | cons c nm' =>
      simp only [List.cons_append, matchLitCI] at h
      split at h
      · rename_i hca
        obtain ⟨h1, h2⟩ := ih (fun x hx => hw x (List.mem_cons_of_mem _ hx))
          (fun x hx => hnm x (List.mem_cons_of_mem _ hx)) h
        exact ⟨by simp [hca, h1], h2⟩
      · simp at h

theorem matchLitCI_of_map_toUpper {lit u : Str} (h : u.map Char.toUpper = lit.map Char.toUpper)
    (r : Str) : matchLitCI lit (u ++ r) = some r := by
  induction lit generalizing u with
  | nil =>
    cases u with
    | nil => rfl
    | cons c cs => simp at h
  | cons x xs ih =>
    cases u with
    | nil => simp at h
    | cons c cs =>
      simp only [List.map_cons, List.cons.injEq] at h
      simp only [List.cons_append, matchLitCI, h.1, if_true]
      exact ih h.2

theorem actionsSearch_plain {x : Str} (hx : ∀ c ∈ x, c ≠ '[') (y : Str) :
    actionsSearch (x ++ y) = (actionsSearch y).map (fun r => (x ++ r.1, r.2)) := by
  induction x with
  | nil =>
    rw [List.nil_append]
    cases actionsSearch y with
    | none => rfl
    | some r => simp
  | cons c cs ih =>
    rw [List.cons_append, actionsSearch_cons_of_none
      (actionsAt_not_bracket (hx c (List.mem_cons_self _ _)) _),
      ih (fun d hd => hx d (List.mem_cons_of_mem _ hd))]
    cases actionsSearch y <;> simp

/-- The list captured after a bracketed word does not depend on the letter case
of the word. -/
theorem actionsSearch_word_group {nm nm' : Str} (hnm : ∀ c ∈ nm, isAsciiLetter c = true)
    (hnm' : ∀ c ∈ nm', isAsciiLetter c = true)
    (hup : nm.map Char.toUpper = nm'.map Char.toUpper) (s : Str) :
    (actionsSearch ('[' :: (nm ++ ']' :: s))).map Prod.snd =
      (actionsSearch ('[' :: (nm' ++ ']' :: s))).map Prod.snd := by
  have hAt : actionsAt ('[' :: (nm ++ ']' :: s)) = actionsAt ('[' :: (nm' ++ ']' :: s)) := by
    have key : ∀ {n n' : Str}, (∀ c ∈ n, isAsciiLetter c = true) →
        n.map Char.toUpper = n'.map Char.toUpper → ∀ r,
        matchLitCI "[Actions]".toList ('[' :: (n ++ ']' :: s)) = some r →
        matchLitCI "[Actions]".toList ('[' :: (n ++ ']' :: s)) = some s ∧
        matchLitCI "[Actions]".toList ('[' :: (n' ++ ']' :: s)) = some s := by
      intro n n' hn hnn r hr
      have hr' : matchLitCI ("Actions".toList ++ [']']) (n ++ ']' :: s) = some r := by
        have e : "[Actions]".toList = '[' :: ("Actions".toList ++ [']']) := by decide
        rw [e] at hr
        simpa [matchLitCI] using hr
      obtain ⟨h1, h2⟩ := matchLitCI_word (by decide) hn hr'
      have e1 : ('[' :: (n ++ [']'])).map Char.toUpper = "[Actions]".toList.map Char.toUpper := by
        simp only [List.map_cons, List.map_append, h1]
        decide
      have e2 : ('[' :: (n' ++ [']'])).map Char.toUpper = "[Actions]".toList.map Char.toUpper := by
        simp only [List.map_cons, List.map_append, ← hnn, h1]
        decide
      have m1 := matchLitCI_of_map_toUpper e1 s
      have m2 := matchLitCI_of_map_toUpper e2 s
      simp only [List.cons_append, List.append_assoc, List.singleton_append] at m1 m2
      exact ⟨m1, m2⟩
    unfold actionsAt
    cases hm : matchLitCI "[Actions]".toList ('[' :: (nm ++ ']' :: s)) with
    | some r =>
      obtain ⟨k1, k2⟩ := key hnm hup r hm
      rw [← hm, k1, k2]
    | none =>
      cases hm' : matchLitCI "[Actions]".toList ('[' :: (nm' ++ ']' :: s)) with
      | none => rfl
      | some r' =>
        obtain ⟨-, k2⟩ := key hnm' hup.symm r' hm'
        rw [k2] at hm
        exact absurd hm (by simp)
  have hin : ∀ {n : Str}, (∀ c ∈ n, isAsciiLetter c = true) → ∀ c ∈ n ++ [']'], c ≠ '[' := by
    intro n hn c hc
    rw [List.mem_append] at hc
    rcases hc with hc | hc
    · exact inner_ne_bracket (Or.inl (hn c hc))
    · rw [List.mem_singleton] at hc
      rw [hc]
      decide
  cases hA : actionsAt ('[' :: (nm ++ ']' :: s)) with
  | some g =>
    rw [actionsSearch_cons_some hA, actionsSearch_cons_some (hAt ▸ hA)]
  | none =>
    rw [actionsSearch_cons_of_none hA, actionsSearch_cons_of_none (hAt ▸ hA)]
    have e1 : nm ++ ']' :: s = (nm ++ [']']) ++ s := by simp
    have e2 : nm' ++ ']' :: s = (nm' ++ [']']) ++ s := by simp
    rw [e1, e2, actionsSearch_plain (hin hnm), actionsSearch_plain (hin hnm')]
    cases actionsSearch s <;> rfl

theorem extractActions_of_group {x y : Str}
    (h : (actionsSearch x).map Prod.snd = (actionsSearch y).map Prod.snd) :
    extractActions x = extractActions y := by
  unfold extractActions
  cases hx : actionsSearch x with
  | none =>
    cases hy : actionsSearch y with
    | none => rfl
    | some r => rw [hx, hy] at h; simp at h
  | some r =>
    cases hy : actionsSearch y with
    | none => rw [hx, hy] at h; simp at h
    | some r' =>
      rw [hx, hy] at h
      simp only [Option.map_some', Option.some.injEq] at h
      obtain ⟨p, g⟩ := r
      obtain ⟨p', g'⟩ := r'
      simp only at h
      subst h
      rfl

theorem extractActions_word {p nm nm' : Str} (hp : ¬ ContainsActionsTag p)
    (hnm : ∀ c ∈ nm, isAsciiLetter c = true) (hnm' : ∀ c ∈ nm', isAsciiLetter c = true)
    (hup : nm.map Char.toUpper = nm'.map Char.toUpper) (s : Str) :
    extractActions (p ++ '[' :: (nm ++ ']' :: s)) =
      extractActions (p ++ '[' :: (nm' ++ ']' :: s)) := by
  apply extractActions_of_group
  rw [actionsSearch_skip hp, actionsSearch_skip hp]
  have := actionsSearch_word_group hnm hnm' hup s
  cases h1 : actionsSearch ('[' :: (nm ++ ']' :: s)) with
  | none =>
    cases h2 : actionsSearch ('[' :: (nm' ++ ']' :: s)) with
    | none => rfl
    | some r => rw [h1, h2] at this; simp at this
  | some r =>
    cases h2 : actionsSearch ('[' :: (nm' ++ ']' :: s)) with
    | none => rw [h1, h2] at this; simp at this
    | some r' =>
      rw [h1, h2] at this
      simpa using this

/-! ## The letter case of the tags -/

theorem map_toUpper_of_sameIgnoringCase {a b : Str} (h : SameIgnoringCase a b) :
    a.map Char.toUpper = b.map Char.toUpper := by
  unfold SameIgnoringCase at h
  induction a generalizing b with
  | nil =>
    cases b with
    | nil => rfl
    | cons d ds => simp at h
  | cons c cs ih =>
    cases b with
    | nil => simp at h
    | cons d ds =>
      simp only [List.map_cons, List.cons.injEq] at h ⊢
      exact ⟨toUpper_eq_of_toLower_eq h.1, ih h.2⟩

theorem letters_of_map_toUpper {a b : Str} (hb : ∀ d ∈ b, isAsciiLetter d = true)
    (h : a.map Char.toUpper = b.map Char.toUpper) : ∀ c ∈ a, isAsciiLetter c = true := by
  induction a generalizing b with
  | nil => intro c hc; exact absurd hc (List.not_mem_nil _)
  | cons x xs ih =>
    cases b with
    | nil => simp at h
    | cons d ds =>
      simp only [List.map_cons, List.cons.injEq] at h
      intro c hc
      rw [List.mem_cons] at hc
      rcases hc with hc | hc
      · rw [hc]
        exact letter_of_upper_eq (hb d (List.mem_cons_self _ _)) h.1
      · exact ih (fun e he => hb e (List.mem_cons_of_mem _ he)) h.2 c hc

theorem isTagName_letters {nm : Str} (h : IsTagName allTags nm) :
    ∀ c ∈ nm, isAsciiLetter c = true := by
  obtain ⟨name, hname, hsame⟩ := h
  have hall : ∀ name ∈ allTags, ∀ d ∈ name, isAsciiLetter d = true := by decide
  exact letters_of_map_toUpper (hall name hname) (map_toUpper_of_sameIgnoringCase hsame)

/-- C24, amended: replacing an occurrence of a tag (`[Vietsub]`, `[Engsub]`,
`[Table]`, `[Tip]`, `[List]`, `[Actions]`) by the same tag in another ASCII
letter case leaves the result of `splitByLanguage` unchanged for every text, and
the segments found by the display parser too; it leaves the result of
`formatMessageContent` unchanged when the display parser finds at least one
segment, and the result of `extractActions` unchanged when no `[Actions]` tag
stands before the replaced tag. -/
theorem tag_case_invariance (p s nm nm' : Str) (hnm : IsTagName allTags nm)
    (hcase : SameIgnoringCase nm nm') :
    splitByLanguage (p ++ '[' :: (nm ++ ']' :: s)) =
      splitByLanguage (p ++ '[' :: (nm' ++ ']' :: s)) ∧
    displaySegments (p ++ '[' :: (nm ++ ']' :: s)) =
      displaySegments (p ++ '[' :: (nm' ++ ']' :: s)) ∧
    (displaySegments (p ++ '[' :: (nm ++ ']' :: s)) ≠ [] → ∀ isStreaming,
      formatMessageContent (p ++ '[' :: (nm ++ ']' :: s)) isStreaming =
        formatMessageContent (p ++ '[' :: (nm' ++ ']' :: s)) isStreaming) ∧
    (¬ ContainsActionsTag p →
      extractActions (p ++ '[' :: (nm ++ ']' :: s)) =
        extractActions (p ++ '[' :: (nm' ++ ']' :: s))) := by
  have hup := map_toUpper_of_sameIgnoringCase hcase
  have hl := isTagName_letters hnm
  have hl' : ∀ c ∈ nm', isAsciiLetter c = true := letters_of_map_toUpper hl hup.symm
  have hv : TagVariant (p ++ '[' :: (nm ++ ']' :: s)) (p ++ '[' :: (nm' ++ ']' :: s)) :=
    TagVariant.replace p s hl hl' hup
  exact ⟨splitByLanguage_variant hv, displaySegments_variant hv,
    fun hseg b => formatMessageContent_variant hv hseg b,
    fun hp => extractActions_word hp hl hl' hup s⟩

set_option maxRecDepth 100000 in
/-- Witness of C24: `[Vietsub]` written `[vietSUB]`. -/
theorem tag_case_invariance_witness :
    IsTagName allTags "Vietsub".toList ∧
    SameIgnoringCase "Vietsub".toList "vietSUB".toList ∧
    splitByLanguage ("1. ".toList ++ '[' :: ("Vietsub".toList ++ ']' :: " xin [Engsub] Hi".toList)) =
      splitByLanguage
        ("1. ".toList ++ '[' :: ("vietSUB".toList ++ ']' :: " xin [Engsub] Hi".toList)) :=
  ⟨⟨"Vietsub".toList, by decide, rfl⟩, by unfold SameIgnoringCase; decide,
    (tag_case_invariance "1. ".toList " xin [Engsub] Hi".toList "Vietsub".toList
      "vietSUB".toList ⟨"Vietsub".toList, by decide, rfl⟩
      (by unfold SameIgnoringCase; decide)).1⟩

set_option maxRecDepth 100000 in
/-- C24 as stated fails in two ways.  A tag that stands in the list of actions is
returned as written by `extractActions`; and when the display parser finds no
segment, `formatMessageContent` shows the text as written, tags included. -/
theorem tag_case_counterexample :
    extractActions "[Actions] [Tip] x".toList = ["[Tip] x".toList] ∧
    extractActions "[Actions] [TIP] x".toList = ["[TIP] x".toList] ∧
    formatMessageContent "[Vietsub] hi [Eng".toList false =
      "<span class=\"vietnamese-text\">[Vietsub] hi [Eng</span>".toList ∧
    formatMessageContent "[vietsub] hi [Eng".toList false =
      "<span class=\"vietnamese-text\">[vietsub] hi [Eng</span>".toList := by
  decide

end LearnEnglish
